import Mathlib

/-!
# godst: heap, graph, binary search tree, LRU cache and bidirectional map

A shallow embedding of the packages `heap`, `graph`, `binarytree`, `cache` and `bidimap` of
`salsgithub/godst` and proofs of their contracts.

* Go slices are `List`s, Go maps are total functions together with the list of
  their keys, Go's `int` is `Int` reduced to 64 bits by `wrapInt`.
* Every loop whose number of iterations is not bounded by the length of a list
  takes a `fuel : Nat`; running out of fuel yields `none`.
* The iteration order of a Go map is unspecified, so every `range` over a map
  whose order can be observed takes the order as an argument.
* The functions that compare nodes, keys or values are embedded twice: with
  identity for `==`, as it is for integers and strings, and, in the namespaces
  `comparable` and `ordered`, with the `==` and `<` of the type as parameters, so
  that `float64` with its NaN is covered. The two agree on values equal to
  themselves.
-/

set_option autoImplicit false
set_option linter.unusedSectionVars false

namespace Godst

/-! ## Identity types

The containers are generic over Go types that satisfy `comparable` or `Ordered`, which include
the floating-point types. The classes below carry the operators `==` and `<` of such a type, and
`float64` is the type on which a value, NaN, is not equal to itself. -/

/-- The operator `==` of a Go type that satisfies `comparable`. -/
class Comparable (T : Type) where
  eq : T → T → Bool

/-- The operator `==` holds between identical values only. A value need not be equal to
itself: a floating-point NaN is not. -/
class LawfulComparable (T : Type) [Comparable T] : Prop where
  eq_of : ∀ a b : T, Comparable.eq a b = true → a = b

/-- The operators `<` and `==` of a Go type that satisfies `Ordered`; `a > b` is `b < a`. -/
class Ordered (T : Type) where
  lt : T → T → Bool
  eq : T → T → Bool

/-- The operator `==` holds between identical values only, and on the values that are equal
to themselves `<` is the linear order of the type. -/
class LawfulOrdered (T : Type) [LinearOrder T] [Ordered T] : Prop where
  lt_iff : ∀ a b : T, Ordered.eq a a = true → Ordered.eq b b = true →
    (Ordered.lt a b = true ↔ a < b)
  eq_of : ∀ a b : T, Ordered.eq a b = true → a = b

/-- A value of type `float64`, as far as `==` and `<` tell: NaN or a number, here an
integer. -/
inductive float64 where
  | NaN
  | num (x : Int)
deriving DecidableEq

/-- The zero value of `float64`. -/
instance : Inhabited float64 := ⟨float64.num 0⟩

/-- `==` on `float64`: numbers are compared, and NaN is equal to nothing, not even to
itself. -/
instance : Comparable float64 where
  eq a b :=
    match a, b with
    | float64.num x, float64.num y => decide (x = y)
    | _, _ => false

/-- `<` and `==` on `float64`: every comparison with NaN is false. -/
instance : Ordered float64 where
  lt a b :=
    match a, b with
    | float64.num x, float64.num y => decide (x < y)
    | _, _ => false
  eq a b := Comparable.eq a b

/-- The place of a `float64` in the order in which `slices.Sort` arranges a slice: NaN comes
before the numbers. -/
def float64.rank : float64 → WithBot Int
  | float64.NaN => ⊥
  | float64.num x => (x : WithBot Int)

/-- The order of `slices.Sort` on `float64`; on the numbers it is `<`. -/
instance : LinearOrder float64 :=
  LinearOrder.lift' float64.rank (by
    intro a b h
    cases a <;> cases b <;> simp [float64.rank] at h ⊢
    exact h)

/-- `==` on `string`. -/
instance : Comparable String := ⟨fun a b => decide (a = b)⟩

/-- `==` on `int`. -/
instance : Comparable Int := ⟨fun a b => decide (a = b)⟩

/-- `==` on an identity type whose values are numbered. -/
instance : Comparable Nat := ⟨fun a b => decide (a = b)⟩

/-- `<` and `==` on `int`. -/
instance : Ordered Int := ⟨fun a b => decide (a < b), fun a b => decide (a = b)⟩

/-! ## Package `heap` -/

namespace heap

/-- The heap of `heap.go`: the backing slice and the comparator. -/
structure Heap (T : Type) where
  contents : List T
  comparator : T → T → Bool

/-- `New`: an empty heap ordered by `comparator`. -/
def New {T : Type} (comparator : T → T → Bool) : Heap T :=
  { contents := [], comparator := comparator }

/-- `NewMin`: the comparator is `a < b`. -/
def NewMin {T : Type} [LT T] [DecidableRel (fun a b : T => a < b)] : Heap T :=
  { contents := [], comparator := fun a b => decide (a < b) }

/-- `NewMax`: the comparator is `a > b`. -/
def NewMax {T : Type} [LT T] [DecidableRel (fun a b : T => a < b)] : Heap T :=
  { contents := [], comparator := fun a b => decide (b < a) }

/-- The parallel assignment `c[i], c[j] = c[j], c[i]`. -/
def swap {T : Type} (c : List T) (i j : Nat) : List T :=
  match c.get? i, c.get? j with
  | some x, some y => (c.set i y).set j x
  | _, _ => c

/-- The loop of `bubbleUp`; `fuel` bounds the number of iterations. -/
def bubbleUpLoop {T : Type} (comparator : T → T → Bool) : Nat → List T → Nat → List T
  | 0, c, _ => c
  | fuel + 1, c, index =>
    if 0 < index then
      match c.get? index, c.get? ((index - 1) / 2) with
      | some x, some p =>
        if comparator x p then
          bubbleUpLoop comparator fuel (swap c index ((index - 1) / 2)) ((index - 1) / 2)
        else c
      | _, _ => c
    else c

/-- `bubbleUp(index)`: the index at least halves in every iteration, so `index`
iterations are enough. -/
def bubbleUp {T : Type} (comparator : T → T → Bool) (c : List T) (index : Nat) : List T :=
  bubbleUpLoop comparator index c index

/-- The index `bubbleDown` swaps with: the left child if it is preferred to the
current element, then the right child if it is preferred to that choice. -/
def swapIndex {T : Type} (comparator : T → T → Bool) (c : List T) (index : Nat) : Nat :=
  let leftIndex := 2 * index + 1
  let rightIndex := 2 * index + 2
  let swap1 :=
    match c.get? leftIndex, c.get? index with
    | some l, some x => if comparator l x then leftIndex else index
    | _, _ => index
  match c.get? rightIndex, c.get? swap1 with
  | some r, some x => if comparator r x then rightIndex else swap1
  | _, _ => swap1

/-- The loop of `bubbleDown`; `fuel` bounds the number of iterations. -/
def bubbleDownLoop {T : Type} (comparator : T → T → Bool) : Nat → List T → Nat → List T
  | 0, c, _ => c
  | fuel + 1, c, index =>
    if swapIndex comparator c index = index then c
    else bubbleDownLoop comparator fuel (swap c index (swapIndex comparator c index))
      (swapIndex comparator c index)

/-- `bubbleDown(index)`: the index grows in every iteration and stays below the
length, so `len(contents)` iterations are enough. -/
def bubbleDown {T : Type} (comparator : T → T → Bool) (c : List T) (index : Nat) : List T :=
  bubbleDownLoop comparator c.length c index

/-- `Push`. -/
def Heap.Push {T : Type} (h : Heap T) (value : T) : Heap T :=
  { h with contents := bubbleUp h.comparator (h.contents ++ [value]) h.contents.length }

/-- `Pop`: the returned pair is `(value, found)`; the zero value is `default`. -/
def Heap.Pop {T : Type} [Inhabited T] (h : Heap T) : (T × Bool) × Heap T :=
  match h.contents with
  | [] => ((default, false), h)
  | root :: rest =>
    let last := rest.length
    let moved := ((root :: rest).set 0 ((root :: rest).getD last root)).take last
    ((root, true), { h with contents := bubbleDown h.comparator moved 0 })

/-- `Peek`. -/
def Heap.Peek {T : Type} [Inhabited T] (h : Heap T) : T × Bool :=
  match h.contents with
  | [] => (default, false)
  | root :: _ => (root, true)

/-- `Clear`. -/
def Heap.Clear {T : Type} (h : Heap T) : Heap T := { h with contents := [] }

/-- `IsEmpty`. -/
def Heap.IsEmpty {T : Type} (h : Heap T) : Bool := h.contents.length == 0

/-- `Len`. -/
def Heap.Len {T : Type} (h : Heap T) : Nat := h.contents.length

/-- The builtin `copy(dst, src)`: the first `min(len(dst), len(src))` elements of `dst` are
overwritten by those of `src`. -/
def copySlice {T : Type} (dst src : List T) : List T :=
  src.take (min dst.length src.length) ++ dst.drop (min dst.length src.length)

/-- `Values`: a new slice of `Len()` zero values, overwritten by `copy`. -/
def Heap.Values {T : Type} [Inhabited T] (h : Heap T) : List T :=
  copySlice (List.replicate h.Len default) h.contents

/-- Push all of `values`, in order. -/
def pushAll {T : Type} (h : Heap T) (values : List T) : Heap T :=
  values.foldl Heap.Push h

/-- The test loop `for !h.IsEmpty() { pop, _ := h.Pop(); values = append(values, pop) }`. -/
def popAll {T : Type} [Inhabited T] : Nat → Heap T → Option (List T)
  | 0, h => if h.IsEmpty then some [] else none
  | fuel + 1, h =>
    if h.IsEmpty then some []
    else (popAll fuel h.Pop.2).map (fun values => h.Pop.1.1 :: values)

/-- The comparator is a strict weak order. -/
structure StrictWeak {T : Type} (less : T → T → Bool) : Prop where
  asymm : ∀ a b, less a b = true → less b a = false
  trans : ∀ a b c, less a b = true → less b c = true → less a c = true
  negTrans : ∀ a b c, less a b = false → less b c = false → less a c = false

/-- The heap property: no element is preferred to its parent. -/
def IsHeap {T : Type} (less : T → T → Bool) (cs : List T) : Prop :=
  ∀ i x p, 0 < i → cs[i]? = some x → cs[(i - 1) / 2]? = some p → less x p = false

/-- The loop invariant of `bubbleUp`: the heap property holds except between `k` and its
parent, and the children of `k` respect the parent of `k`. -/
def UpInv {T : Type} (less : T → T → Bool) (cs : List T) (k : Nat) : Prop :=
  (∀ i x p, 0 < i → i ≠ k → cs[i]? = some x → cs[(i - 1) / 2]? = some p → less x p = false) ∧
  (∀ i x q, 0 < i → 0 < k → (i - 1) / 2 = k → cs[i]? = some x → cs[(k - 1) / 2]? = some q →
    less x q = false)

/-- The loop invariant of `bubbleDown`: the heap property holds except between `k` and its
children, and the children of `k` respect the parent of `k`. -/
def DownInv {T : Type} (less : T → T → Bool) (cs : List T) (k : Nat) : Prop :=
  (∀ i x p, 0 < i → (i - 1) / 2 ≠ k → cs[i]? = some x → cs[(i - 1) / 2]? = some p →
    less x p = false) ∧
  (∀ i x q, 0 < i → 0 < k → (i - 1) / 2 = k → cs[i]? = some x → cs[(k - 1) / 2]? = some q →
    less x q = false)

/-- The heaps reachable from `New(comparator)` by calls of `Push`, `Pop` and `Clear`. -/
inductive Constructed {T : Type} [Inhabited T] (comparator : T → T → Bool) : Heap T → Prop
  | new : Constructed comparator (New comparator)
  | push (h : Heap T) (value : T) :
    Constructed comparator h → Constructed comparator (h.Push value)
  | pop (h : Heap T) : Constructed comparator h → Constructed comparator h.Pop.2
  | clear (h : Heap T) : Constructed comparator h → Constructed comparator h.Clear

/-- A call of `Push(value)` or of `Pop()`. -/
inductive Call (T : Type) where
  | push (value : T)
  | pop

/-- Run the calls in order. The result is the heap, the number of `Push` calls and the number
of `Pop` calls that returned `found = true`. -/
def runCalls {T : Type} [Inhabited T] : Heap T → List (Call T) → Heap T × Nat × Nat
  | h, [] => (h, 0, 0)
  | h, Call.push value :: rest =>
    let r := runCalls (h.Push value) rest
    (r.1, r.2.1 + 1, r.2.2)
  | h, Call.pop :: rest =>
    let r := runCalls h.Pop.2 rest
    (r.1, r.2.1, r.2.2 + (if h.Pop.1.2 then 1 else 0))

end heap

/-! ## Package `graph` -/

namespace graph

open heap

/-- The value of `math.MaxInt` (`int` has 64 bits). -/
def MaxInt : Int := 9223372036854775807

/-- The least `int`. -/
def MinInt : Int := -9223372036854775808

/-- The result of an `int` operation: the mathematical result reduced to 64 bits in two's
complement. -/
def wrapInt (x : Int) : Int := (x + 9223372036854775808) % 18446744073709551616 - 9223372036854775808

/-- A value of type `int`. -/
def IsInt (x : Int) : Prop := MinInt ≤ x ∧ x ≤ MaxInt

/-- The struct `Edge`. -/
structure Edge (T : Type) where
  Link : T
  Weight : Int
deriving DecidableEq

/-- The struct `Graph`: the map `adjacency` as the list of its entries, in the order in which the
keys were first inserted. -/
structure Graph (T : Type) where
  adjacency : List (T × List (Edge T))

/-- A map with default value read at a key after an assignment `m[k] = v`. -/
def upd {T V : Type} [DecidableEq T] (m : T → V) (k : T) (v : V) : T → V :=
  fun x => if x = k then v else m x

section
variable {T : Type} [DecidableEq T]

/-- The map read `g.adjacency[value]`. -/
def lookup : List (T × List (Edge T)) → T → Option (List (Edge T))
  | [], _ => none
  | (k, es) :: rest, x => if k = x then some es else lookup rest x

/-- The keys of `g.adjacency`. -/
def Graph.keys (g : Graph T) : List T := g.adjacency.map Prod.fst

/-- `New`. -/
def New : Graph T := { adjacency := [] }

/-- `AddNode`. -/
def Graph.AddNode (g : Graph T) (value : T) : Graph T :=
  match lookup g.adjacency value with
  | some _ => g
  | none => { adjacency := g.adjacency ++ [(value, [])] }

/-- The assignment `g.adjacency[from] = append(g.adjacency[from], edge)`. -/
def appendEdge (src : T) (edge : Edge T) :
    List (T × List (Edge T)) → List (T × List (Edge T))
  | [] => [(src, [edge])]
  | (k, es) :: rest =>
    if k = src then (k, es ++ [edge]) :: rest else (k, es) :: appendEdge src edge rest

/-- `AddEdge(from, to, weight)`, with `src` for `from` and `dst` for `to`. -/
def Graph.AddEdge (g : Graph T) (src dst : T) (weight : Int) : Graph T :=
  let g2 := (g.AddNode src).AddNode dst
  { adjacency := appendEdge src { Link := dst, Weight := weight } g2.adjacency }

/-- `DeleteNode`. -/
def Graph.DeleteNode (g : Graph T) (value : T) : Graph T :=
  match lookup g.adjacency value with
  | none => g
  | some _ =>
    { adjacency := (g.adjacency.filter (fun kv => decide (kv.1 ≠ value))).map
        (fun kv => (kv.1, kv.2.filter (fun edge => decide (edge.Link ≠ value)))) }

/-- `Neighbours`. -/
def Graph.Neighbours (g : Graph T) (value : T) : List (Edge T) × Bool :=
  match lookup g.adjacency value with
  | some es => (es, true)
  | none => ([], false)

/-- `Len`. -/
def Graph.Len (g : Graph T) : Nat := g.adjacency.length

/-- `Nodes`: `ranged` is the order in which `range g.adjacency` yields the keys, and
`sortNodes` is the effect of the type switch, `slices.Sort` when `T` is `string`, `int` or
`float64` and nothing for every other type. -/
def Graph.Nodes (_ : Graph T) (ranged : List T) (sortNodes : List T → List T) : List T :=
  sortNodes (ranged.foldl (fun nodes node => nodes ++ [node]) [])

/-- The type `visitedState`. -/
inductive visitedState where
  | unvisited
  | visiting
  | visited
deriving DecidableEq

/-- The loop over `neighbours` in `checkCycle`; `rec` is the recursive call. The result is
the returned flag and the map `states`. -/
def checkCycleLoop (rec : T → (T → visitedState) → Option (Bool × (T → visitedState))) :
    List (Edge T) → (T → visitedState) → Option (Bool × (T → visitedState))
  | [], states => some (false, states)
  | neighbour :: rest, states =>
    match states neighbour.Link with
    | visitedState.visiting => some (true, states)
    | visitedState.unvisited =>
      match rec neighbour.Link states with
      | none => none
      | some (true, states1) => some (true, states1)
      | some (false, states1) => checkCycleLoop rec rest states1
    | visitedState.visited => checkCycleLoop rec rest states

/-- `checkCycle`; `fuel` bounds the depth of the recursion. -/
def checkCycle (g : Graph T) :
    Nat → T → (T → visitedState) → Option (Bool × (T → visitedState))
  | 0, _, _ => none
  | fuel + 1, node, states =>
    match checkCycleLoop (checkCycle g fuel) (g.Neighbours node).1
        (upd states node visitedState.visiting) with
    | none => none
    | some (true, states1) => some (true, states1)
    | some (false, states1) => some (false, upd states1 node visitedState.visited)

/-- The second loop of `HasCycle`, over the keys of `g.adjacency` in the order `roots`. -/
def hasCycleLoop (g : Graph T) (fuel : Nat) :
    List T → (T → visitedState) → Option Bool
  | [], _ => some false
  | node :: rest, states =>
    if states node = visitedState.unvisited then
      match checkCycle g fuel node states with
      | none => none
      | some (true, _) => some true
      | some (false, states1) => hasCycleLoop g fuel rest states1
    else hasCycleLoop g fuel rest states

/-- `HasCycle`: `roots` is the order in which `range g.adjacency` yields the keys. -/
def Graph.HasCycle (g : Graph T) (fuel : Nat) (roots : List T) : Option Bool :=
  hasCycleLoop g fuel roots
    (g.keys.foldl (fun states node => upd states node visitedState.unvisited)
      (fun _ => visitedState.unvisited))

/-- The loop over `neighbours` in the closure `dfs` of `TopologicalSort`; the state is the
map `visited` and the slice `result`. -/
def topoLoop (rec : T → (T → Bool) × List T → Option ((T → Bool) × List T)) :
    List (Edge T) → (T → Bool) × List T → Option ((T → Bool) × List T)
  | [], st => some st
  | neighbour :: rest, st =>
    if st.1 neighbour.Link = false then
      match rec neighbour.Link st with
      | none => none
      | some st1 => topoLoop rec rest st1
    else topoLoop rec rest st

/-- The closure `dfs` of `TopologicalSort`; `fuel` bounds the depth of the recursion. -/
def topoDfs (g : Graph T) :
    Nat → T → (T → Bool) × List T → Option ((T → Bool) × List T)
  | 0, _, _ => none
  | fuel + 1, node, st =>
    match topoLoop (topoDfs g fuel) (g.Neighbours node).1 (upd st.1 node true, st.2) with
    | none => none
    | some st1 => some (st1.1, node :: st1.2)

/-- The loop over `g.Nodes()` in `TopologicalSort`. -/
def topoRoots (g : Graph T) (fuel : Nat) :
    List T → (T → Bool) × List T → Option ((T → Bool) × List T)
  | [], st => some st
  | node :: rest, st =>
    if st.1 node = false then
      match topoDfs g fuel node st with
      | none => none
      | some st1 => topoRoots g fuel rest st1
    else topoRoots g fuel rest st

/-- The errors of package `graph`, one for each `fmt.Errorf` and `errors.New`. -/
inductive GraphError where
  | cycle
  | startNotFound
  | endNotFound
  | pathNotFound
deriving DecidableEq

/-- `TopologicalSort`: `roots` is the order in which `HasCycle` ranges over the map and
`nodes` is the slice `g.Nodes()`. The result is the pair of the slice (`none` for `nil`) and
the error. -/
def Graph.TopologicalSort (g : Graph T) (fuel : Nat) (roots nodes : List T) :
    Option (Option (List T) × Option GraphError) :=
  match g.HasCycle fuel roots with
  | none => none
  | some true => some (none, some GraphError.cycle)
  | some false =>
    match topoRoots g fuel nodes (fun _ => false, []) with
    | none => none
    | some st => some (some st.2, none)

end

section
variable {T : Type} [DecidableEq T]

/-- The graph has an edge from `u` to `v`. -/
def Graph.Adj (g : Graph T) (u v : T) : Prop := ∃ e ∈ (g.Neighbours u).1, e.Link = v

/-- The graph contains a directed cycle: some node has a non-empty directed walk back to
itself. -/
def Graph.HasDirectedCycle (g : Graph T) : Prop := ∃ x, Relation.TransGen g.Adj x x

/-- The graphs that exist: those made from `New()` by `AddNode`, `AddEdge` and `DeleteNode`. -/
inductive Built : Graph T → Prop
  | new : Built New
  | addNode (g : Graph T) (value : T) : Built g → Built (g.AddNode value)
  | addEdge (g : Graph T) (src dst : T) (weight : Int) : Built g →
      Built (g.AddEdge src dst weight)
  | deleteNode (g : Graph T) (value : T) : Built g → Built (g.DeleteNode value)

/-- The structural invariant of the map `adjacency`: no key occurs twice and the target of
every edge is a key. -/
def Graph.WF (g : Graph T) : Prop :=
  g.keys.Nodup ∧ ∀ kv ∈ g.adjacency, ∀ e ∈ kv.2, e.Link ∈ g.keys

/-- How `checkCycle` changes `states` when it returns `false`: entries only go from
`unvisited` to `visited`. -/
def StatesStep (s1 s2 : T → visitedState) : Prop :=
  ∀ v, s2 v = s1 v ∨ (s1 v = visitedState.unvisited ∧ s2 v = visitedState.visited)

/-- What holds of `states` between calls of `checkCycle`: the edges of a `visited` node lead to
`visited` nodes, no `visited` node lies on a cycle, and only keys are marked. -/
def StatesGood (g : Graph T) (s : T → visitedState) : Prop :=
  (∀ v, s v = visitedState.visited → ∀ w, g.Adj v w → s w = visitedState.visited) ∧
  (∀ v, s v = visitedState.visited → ¬ Relation.TransGen g.Adj v v) ∧
  (∀ v, s v ≠ visitedState.unvisited → v ∈ g.keys)

/-- The number of keys that are still `unvisited`. -/
def unvisitedCount (g : Graph T) (s : T → visitedState) : Nat :=
  g.keys.countP (fun k => decide (s k = visitedState.unvisited))

/-- The specification of a call `checkCycle(g, node, states)`. -/
def CheckCycleSpec (g : Graph T)
    (rec : T → (T → visitedState) → Option (Bool × (T → visitedState))) (bound : Nat) : Prop :=
  ∀ node s, s node = visitedState.unvisited → node ∈ g.keys → unvisitedCount g s ≤ bound →
    StatesGood g s → (∀ v, s v = visitedState.visiting → Relation.ReflTransGen g.Adj v node) →
    ∃ b s', rec node s = some (b, s') ∧
      (b = true → g.HasDirectedCycle) ∧
      (b = false → s' node = visitedState.visited ∧ StatesStep s s' ∧ StatesGood g s')

end

section
variable {T : Type} [DecidableEq T]

/-- What holds of `visited` and `result` between calls of the closure `dfs` of
`TopologicalSort`: `result` holds visited nodes, each once, and every edge that leaves a node of
`result` leads to a node further back in `result`; only keys are visited. -/
def TopoGood (g : Graph T) (st : (T → Bool) × List T) : Prop :=
  (∀ v ∈ st.2, st.1 v = true) ∧ st.2.Nodup ∧
  (∀ u ∈ st.2, ∀ v, g.Adj u v → ∃ l1 l2, st.2 = l1 ++ u :: l2 ∧ v ∈ l2) ∧
  (∀ v, st.1 v = true → v ∈ g.keys)

/-- The number of keys not yet visited by `TopologicalSort`. -/
def topoCount (g : Graph T) (st : (T → Bool) × List T) : Nat :=
  g.keys.countP (fun k => decide (st.1 k = false))

/-- How a call of `dfs` changes the state: `result` grows at the front, visited nodes stay
visited, and the nodes that are visited but not yet in `result` are the same. -/
def TopoStep (s1 s2 : (T → Bool) × List T) : Prop :=
  (∃ added, s2.2 = added ++ s1.2) ∧ (∀ v, s1.1 v = true → s2.1 v = true) ∧
  (∀ v, (s2.1 v = true ∧ v ∉ s2.2) ↔ (s1.1 v = true ∧ v ∉ s1.2))

/-- The specification of a call `dfs(node)` in `TopologicalSort`. -/
def TopoDfsSpec (g : Graph T)
    (rec : T → (T → Bool) × List T → Option ((T → Bool) × List T)) (bound : Nat) : Prop :=
  ∀ node st, st.1 node = false → node ∈ g.keys → topoCount g st ≤ bound → TopoGood g st →
    (∀ v, st.1 v = true → v ∉ st.2 → Relation.ReflTransGen g.Adj v node) →
    ∃ st', rec node st = some st' ∧ TopoGood g st' ∧ node ∈ st'.2 ∧
      (∃ added, st'.2 = added ++ st.2) ∧ (∀ v, st.1 v = true → st'.1 v = true) ∧
      (∀ v, (st'.1 v = true ∧ v ∉ st'.2) ↔ (st.1 v = true ∧ v ∉ st.2))

end

/-- The struct `priorityNode`. -/
structure priorityNode (T : Type) where
  node : T
  priority : Int

instance {T : Type} [Inhabited T] : Inhabited (priorityNode T) :=
  ⟨{ node := default, priority := 0 }⟩

/-- The comparator of the queues of `Dijkstra` and `AStar`: `a.priority < b.priority`. -/
def priorityLess {T : Type} (a b : priorityNode T) : Bool := decide (a.priority < b.priority)

/-- The local variables `distances`, `route` and `queue` of `Dijkstra`. -/
structure dijkstraState (T : Type) where
  distances : T → Int
  route : T → Option T
  queue : Heap (priorityNode T)

/-- The local variables `scoreG`, `scoreF`, `route` and `queue` of `AStar`. -/
structure astarState (T : Type) where
  scoreG : T → Int
  scoreF : T → Int
  route : T → Option T
  queue : Heap (priorityNode T)

section
variable {T : Type} [DecidableEq T] [Inhabited T]

/-- The first loop of `Dijkstra` and of `AStar`: every key is set to `math.MaxInt`; a key
absent from the map reads as 0. -/
def initDistances (g : Graph T) : T → Int :=
  g.keys.foldl (fun distances node => upd distances node MaxInt) (fun _ => 0)

/-- The loop over `neighbours` in `Dijkstra`. -/
def dijkstraRelax (node : T) : List (Edge T) → dijkstraState T → dijkstraState T
  | [], st => st
  | neighbour :: rest, st =>
    let link := neighbour.Link
    let weight := neighbour.Weight
    let travelDistance := wrapInt (st.distances node + weight)
    if travelDistance < st.distances link then
      dijkstraRelax node rest
        { distances := upd st.distances link travelDistance
          route := upd st.route link (some node)
          queue := st.queue.Push { node := link, priority := travelDistance } }
    else dijkstraRelax node rest st

/-- The loop `for !queue.IsEmpty()` of `Dijkstra`; `fuel` bounds the number of iterations. -/
def dijkstraLoop (g : Graph T) (endNode : T) : Nat → dijkstraState T → Option (dijkstraState T)
  | 0, _ => none
  | fuel + 1, st =>
    if st.queue.IsEmpty then some st
    else
      let pop := st.queue.Pop.1.1
      let st1 : dijkstraState T := { st with queue := st.queue.Pop.2 }
      let node := pop.node
      if pop.priority > st1.distances node then dijkstraLoop g endNode fuel st1
      else if node = endNode then some st1
      else dijkstraLoop g endNode fuel (dijkstraRelax node (g.Neighbours node).1 st1)

/-- The loop that walks `route` back from `end` and prepends each node to `path`; `fuel`
bounds the number of iterations. -/
def buildPath (route : T → Option T) : Nat → T → List T → Option (List T)
  | 0, _, _ => none
  | fuel + 1, n, path =>
    match route n with
    | none => some (n :: path)
    | some step => buildPath route fuel step (n :: path)

/-- `Dijkstra(start, end)`, with `endNode` for `end`. The result is the triple of the path
(`none` for `nil`), the distance and the error; `fuel` bounds the iterations of each loop. -/
def Graph.Dijkstra (g : Graph T) (fuel : Nat) (start endNode : T) :
    Option (Option (List T) × Int × Option GraphError) :=
  match lookup g.adjacency start with
  | none => some (none, 0, some GraphError.startNotFound)
  | some _ =>
    match lookup g.adjacency endNode with
    | none => some (none, 0, some GraphError.endNotFound)
    | some _ =>
      match dijkstraLoop g endNode fuel
          { distances := upd (initDistances g) start 0
            route := fun _ => none
            queue := (heap.New priorityLess).Push { node := start, priority := 0 } } with
      | none => none
      | some st =>
        if st.distances endNode = MaxInt then some (none, 0, some GraphError.pathNotFound)
        else
          match buildPath st.route fuel endNode [] with
          | none => none
          | some path => some (some path, st.distances endNode, none)

/-- The loop over `neighbours` in `AStar`. -/
def astarRelax (heuristic : T → T → Int) (endNode node : T) :
    List (Edge T) → astarState T → astarState T
  | [], st => st
  | neighbour :: rest, st =>
    let link := neighbour.Link
    let scoreTentative := wrapInt (st.scoreG node + neighbour.Weight)
    if scoreTentative < st.scoreG link then
      astarRelax heuristic endNode node rest
        { route := upd st.route link (some node)
          scoreG := upd st.scoreG link scoreTentative
          scoreF := upd st.scoreF link (wrapInt (scoreTentative + heuristic link endNode))
          queue := st.queue.Push
            { node := link, priority := wrapInt (scoreTentative + heuristic link endNode) } }
    else astarRelax heuristic endNode node rest st

/-- The loop `for !queue.IsEmpty()` of `AStar`; the flag tells whether `end` was popped;
`fuel` bounds the number of iterations. -/
def astarLoop (g : Graph T) (heuristic : T → T → Int) (endNode : T) :
    Nat → astarState T → Option (astarState T × Bool)
  | 0, _ => none
  | fuel + 1, st =>
    if st.queue.IsEmpty then some (st, false)
    else
      let pop := st.queue.Pop.1.1
      let st1 : astarState T := { st with queue := st.queue.Pop.2 }
      let node := pop.node
      if node = endNode then some (st1, true)
      else astarLoop g heuristic endNode fuel
        (astarRelax heuristic endNode node (g.Neighbours node).1 st1)

/-- `AStar(start, end, heuristic)`, with `endNode` for `end`. The result is the triple of the
path (`none` for `nil`), the weight and the error; `fuel` bounds the iterations of each loop. -/
def Graph.AStar (g : Graph T) (fuel : Nat) (start endNode : T) (heuristic : T → T → Int) :
    Option (Option (List T) × Int × Option GraphError) :=
  match lookup g.adjacency start with
  | none => some (none, 0, some GraphError.startNotFound)
  | some _ =>
    match lookup g.adjacency endNode with
    | none => some (none, 0, some GraphError.endNotFound)
    | some _ =>
      match astarLoop g heuristic endNode fuel
          { scoreG := upd (initDistances g) start 0
            scoreF := upd (fun _ => 0) start (heuristic start endNode)
            route := fun _ => none
            queue := (heap.New priorityLess).Push
              { node := start, priority := heuristic start endNode } } with
      | none => none
      | some (st, true) =>
        match buildPath st.route fuel endNode [] with
        | none => none
        | some path => some (some path, st.scoreG endNode, none)
      | some (_, false) => some (none, 0, some GraphError.pathNotFound)

end

section
variable {T : Type} [DecidableEq T] [Inhabited T]

/-- The slice `neighbours` read by the searches at `node`. -/
def Graph.nbrs (g : Graph T) (node : T) : List (Edge T) := (g.Neighbours node).1

/-- The local variables of `Dijkstra` and of `AStar` hold the same values. -/
def SameSearch (d : dijkstraState T) (a : astarState T) : Prop :=
  d.distances = a.scoreG ∧ d.route = a.route ∧ d.queue = a.queue

/-- The invariant of lazy deletion, for any weights: the queue is a heap, every entry carries a
distance its node once had, and for every entry either an entry with the current distance of its
node is queued or the node is not `end` and the edges `cov node` of the node cannot improve any
distance; a distance of `end` below `math.MaxInt` comes with an entry for `end`. -/
structure LazyInv (endNode : T) (d : dijkstraState T) (cov : T → List (Edge T)) : Prop where
  cmp : d.queue.comparator = priorityLess
  heap : IsHeap priorityLess d.queue.contents
  le_max : ∀ y, d.distances y ≤ MaxInt
  entry : ∀ pn ∈ d.queue.contents, d.distances pn.node ≤ pn.priority ∧ pn.priority < MaxInt
  fresh : ∀ pn ∈ d.queue.contents,
    (∃ pn' ∈ d.queue.contents, pn'.node = pn.node ∧ pn'.priority = d.distances pn.node) ∨
    (pn.node ≠ endNode ∧
      ∀ e ∈ cov pn.node, ¬ wrapInt (d.distances pn.node + e.Weight) < d.distances e.Link)
  goal : d.distances endNode ≠ MaxInt → ∃ pn ∈ d.queue.contents, pn.node = endNode

end

section
variable {T : Type} [DecidableEq T] [Inhabited T]

/-- `IsPath g u es v`: the edges `es`, taken one after the other from `u`, lead to `v` (a
directed walk; `es` may be empty and may repeat nodes). -/
def IsPath (g : Graph T) : T → List (Edge T) → T → Prop
  | u, [], v => u = v
  | u, e :: es, v => e ∈ g.nbrs u ∧ IsPath g e.Link es v

/-- The sum of the weights of the edges, as a mathematical integer. -/
def pathWeight (es : List (Edge T)) : Int := (es.map Edge.Weight).sum

/-- All edge weights are non-negative. -/
def Graph.NonNeg (g : Graph T) : Prop := ∀ kv ∈ g.adjacency, ∀ e ∈ kv.2, 0 ≤ e.Weight

/-- `t` is reachable from `s` by a directed walk. -/
def Graph.Reachable (g : Graph T) (s t : T) : Prop := ∃ es, IsPath g s es t

/-- `d` is the minimum, over all directed walks from `s` to `t`, of the sum of the edge
weights. -/
def Graph.IsMinWeight (g : Graph T) (s t : T) (d : Int) : Prop :=
  (∃ es, IsPath g s es t ∧ pathWeight es = d) ∧ ∀ es, IsPath g s es t → d ≤ pathWeight es

/-- Path sums stay below `math.MaxInt`: the weights of a directed path from `s` that repeats no
node, followed by one more edge, sum to less than `math.MaxInt`. -/
def Graph.NoOverflow (g : Graph T) (s : T) : Prop :=
  ∀ es x, IsPath g s es x → (s :: es.map Edge.Link).Nodup → ∀ e ∈ g.nbrs x,
    pathWeight es + e.Weight < MaxInt

/-- The sums `scoreG + heuristic` stay below `math.MaxInt`: for a directed path from `s` to
`x` that repeats no node, the sum of its weights and of the heuristic value of `x`. -/
def Graph.HeuristicBound (g : Graph T) (s endNode : T) (heuristic : T → T → Int) : Prop :=
  ∀ es x, IsPath g s es x → (s :: es.map Edge.Link).Nodup →
    pathWeight es + heuristic x endNode < MaxInt

/-- The heuristic is non-negative on the nodes of the graph, zero at `end` and consistent. -/
def Graph.Consistent (g : Graph T) (endNode : T) (heuristic : T → T → Int) : Prop :=
  (∀ x ∈ g.keys, 0 ≤ heuristic x endNode) ∧ heuristic endNode endNode = 0 ∧
  ∀ kv ∈ g.adjacency, ∀ e ∈ kv.2, heuristic kv.1 endNode ≤ e.Weight + heuristic e.Link endNode

/-- What holds of `scoreG`, `route` and the queue of a search on a graph with non-negative
weights and without overflow, whatever the heuristic. A node is reached when its score is below
`math.MaxInt`. -/
structure SearchCore (g : Graph T) (start : T) (st : astarState T) : Prop where
  start_zero : st.scoreG start = 0
  start_route : st.route start = none
  le_max : ∀ x ∈ g.keys, st.scoreG x ≤ MaxInt
  nonneg : ∀ x ∈ g.keys, 0 ≤ st.scoreG x
  first : ∀ x ∈ g.keys, st.scoreG x < MaxInt →
    ∃ es, IsPath g start es x ∧ (start :: es.map Edge.Link).Nodup ∧
      (∀ y ∈ es.map Edge.Link, st.scoreG y < MaxInt) ∧ st.scoreG x ≤ pathWeight es
  sound : ∀ x ∈ g.keys, st.scoreG x < MaxInt →
    ∃ es, IsPath g start es x ∧ pathWeight es = st.scoreG x
  entry : ∀ pn ∈ st.queue.contents, pn.node ∈ g.keys ∧ st.scoreG pn.node < MaxInt
  route_edge : ∀ x y, st.route x = some y →
    x ∈ g.keys ∧ st.scoreG x < MaxInt ∧ y ∈ g.keys ∧ st.scoreG y < MaxInt ∧
      ∃ e ∈ g.nbrs y, e.Link = x ∧ st.scoreG y + e.Weight ≤ st.scoreG x
  route_some : ∀ x ∈ g.keys, st.scoreG x < MaxInt → x ≠ start → ∃ y, st.route x = some y
  rank : ∃ (tau : T → Nat) (N : Nat), (∀ y, tau y < N) ∧
    ∀ x y, st.route x = some y →
      st.scoreG y < st.scoreG x ∨ (st.scoreG y = st.scoreG x ∧ tau y < tau x)

/-- Every reached node is queued, or is not `end` and its edges `cov x` cannot improve any
score. -/
def SearchClosed (g : Graph T) (endNode : T) (st : astarState T) (cov : T → List (Edge T)) :
    Prop :=
  ∀ x ∈ g.keys, st.scoreG x < MaxInt →
    (∃ pn ∈ st.queue.contents, pn.node = x) ∨
    (x ≠ endNode ∧ ∀ e ∈ cov x, st.scoreG e.Link ≤ st.scoreG x + e.Weight)

/-- The score of `x` is at most the weight of every directed walk from `start` to `x`. -/
def ScoreMin (g : Graph T) (start : T) (st : astarState T) (x : T) : Prop :=
  ∀ es, IsPath g start es x → st.scoreG x ≤ pathWeight es

/-- What holds in addition under a consistent heuristic: the queue is a heap whose priorities
are an earlier score of the node plus its heuristic value, and every reached node has an entry
with its current score, or is not `end`, has its least score and its edges `cov x` cannot
improve any score. -/
structure ConsInv (g : Graph T) (start endNode : T) (heuristic : T → T → Int)
    (st : astarState T) (cov : T → List (Edge T)) : Prop where
  cmp : st.queue.comparator = priorityLess
  heap : IsHeap priorityLess st.queue.contents
  prio : ∀ pn ∈ st.queue.contents,
    ∃ c, pn.priority = c + heuristic pn.node endNode ∧ st.scoreG pn.node ≤ c
  closed : ∀ x ∈ g.keys, st.scoreG x < MaxInt →
    (∃ pn ∈ st.queue.contents, pn.node = x ∧
      pn.priority = st.scoreG x + heuristic x endNode) ∨
    (x ≠ endNode ∧ ScoreMin g start st x ∧
      ∀ e ∈ cov x, st.scoreG e.Link ≤ st.scoreG x + e.Weight)

/-- What holds of the search under a consistent heuristic, also when a sum
`scoreG + heuristic` overflows: the queue is a heap, no entry for `end` has a priority below
the score of `end`, and every reached node has an entry whose priority is the sum of its current
score and its heuristic value whenever that sum is at most `math.MaxInt`, or is not `end` and its
edges `cov x` cannot improve any score. -/
structure WrapInv (g : Graph T) (endNode : T) (heuristic : T → T → Int)
    (st : astarState T) (cov : T → List (Edge T)) : Prop where
  cmp : st.queue.comparator = priorityLess
  heap : IsHeap priorityLess st.queue.contents
  goal : ∀ pn ∈ st.queue.contents, pn.node = endNode → st.scoreG endNode ≤ pn.priority
  closed : ∀ x ∈ g.keys, st.scoreG x < MaxInt →
    (∃ pn ∈ st.queue.contents, pn.node = x ∧
      (st.scoreG x + heuristic x endNode ≤ MaxInt →
        pn.priority = st.scoreG x + heuristic x endNode)) ∨
    (x ≠ endNode ∧ ∀ e ∈ cov x, st.scoreG e.Link ≤ st.scoreG x + e.Weight)

/-- The measure that bounds the iterations of the search loop: the length of the queue plus
the sum of the scores of the keys. -/
def searchMeasure (g : Graph T) (st : astarState T) : Nat :=
  st.queue.contents.length + (g.keys.map (fun y => (st.scoreG y).toNat)).sum

/-- Enough fuel for every loop of a search on `g`. -/
def searchFuel (g : Graph T) : Nat := g.keys.length * 9223372036854775808 + 2

end

/-- The struct `coord` of `graph_test.go`. -/
structure coord where
  x : Int
  y : Int
deriving DecidableEq, Inhabited

/-- The function `abs` of `graph_test.go`. -/
def abs (x : Int) : Int := if x < 0 then wrapInt (-x) else x

/-- The heuristic `manhattanDistance` of `graph_test.go`. -/
def manhattanDistance (a b : coord) : Int :=
  wrapInt (abs (wrapInt (a.x - b.x)) + abs (wrapInt (a.y - b.y)))

/-- The graph of `TestGraph_Dijkstra`, with the nodes A, B, C, D as 0, 1, 2, 3. -/
def dijkstraTestGraph : Graph Nat :=
  ((((New.AddEdge 0 1 1).AddEdge 0 2 4).AddEdge 1 2 1).AddEdge 1 3 5).AddEdge 2 3 2

/-- The graph of `TestGraph_AStar` "valid path using manhattan distance". -/
def astarTestGraph : Graph coord :=
  ((New.AddEdge { x := 0, y := 0 } { x := 1, y := 0 } 1).AddEdge
    { x := 1, y := 0 } { x := 1, y := 1 } 1).AddEdge { x := 0, y := 0 } { x := 1, y := 1 } 10

/-- A graph with the single edge 0→1 whose weight is `math.MaxInt`. -/
def maxWeightGraph : Graph Nat := New.AddEdge 0 1 MaxInt

/-- A graph with the edges 0→1 and 1→2, each of weight 2^62. -/
def overflowGraph : Graph Nat :=
  (New.AddEdge 0 1 4611686018427387904).AddEdge 1 2 4611686018427387904

/-- A graph with the edges 0→1 and 0→2 of weight 1 each. -/
def forkGraph : Graph Nat := (New.AddEdge 0 1 1).AddEdge 0 2 1

/-- A heuristic that is `math.MaxInt` from 2 to 1 and 0 elsewhere; it is consistent on
`forkGraph` for the end node 1, because no edge leaves 2. -/
def forkHeuristic (a b : Nat) : Int := if a = 2 ∧ b = 1 then MaxInt else 0

/-- A graph with the edges S→E of weight 10, S→M of weight 1 and M→E of weight 1: the way
through M is the shorter one. -/
def detourGraph : Graph String :=
  ((New.AddEdge "S" "E" 10).AddEdge "S" "M" 1).AddEdge "M" "E" 1

/-- A heuristic that is 100 from M to E and 0 elsewhere; the remaining weight from M to E is
1, so it is not admissible. -/
def detourHeuristic (a b : String) : Int := if a = "M" ∧ b = "E" then 100 else 0

/-- A graph with the edges 0→1 and 1→0 of weight 2^62 each and 1→2 of weight 1. -/
def wrapCycleGraph : Graph Nat :=
  ((New.AddEdge 0 1 4611686018427387904).AddEdge 1 0 4611686018427387904).AddEdge 1 2 1

/-- A graph with the edges 0→1 and 2→3 and the isolated node 4. -/
def componentsGraph : Graph Nat := ((New.AddEdge 0 1 0).AddEdge 2 3 0).AddNode 4

/-- `slices.Sort` of the standard library on a slice whose element type is ordered linearly by
`<`, as `int` and `string` are: the result is the ascending arrangement of the slice. -/
def slicesSort {T : Type} [LinearOrder T] (l : List T) : List T :=
  l.insertionSort (fun a b => a ≤ b)

section
variable {T : Type} [DecidableEq T]

/-- The loop over `neighbours` in `BFS`; the state is the slice `queue` and the map `visited`,
whose missing keys read as `false`. -/
def bfsRelax : List (Edge T) → List T × (T → Bool) → List T × (T → Bool)
  | [], st => st
  | neighbour :: rest, (queue, visited) =>
    if !visited neighbour.Link then
      bfsRelax rest (queue ++ [neighbour.Link], upd visited neighbour.Link true)
    else bfsRelax rest (queue, visited)

/-- The loop `for len(queue) > 0` of `BFS`. The calls of `onVisit` are recorded in `visits`;
`fuel` bounds the number of iterations. -/
def bfsLoop (g : Graph T) : Nat → List T × (T → Bool) → List T → Option (List T)
  | _, ([], _), visits => some visits
  | 0, (_ :: _, _), _ => none
  | fuel + 1, (next :: queue, visited), visits =>
    bfsLoop g fuel (bfsRelax (g.Neighbours next).1 (queue, visited)) (visits ++ [next])

/-- `BFS`: the result is the sequence of the arguments of the calls of `onVisit` and the
returned error. -/
def Graph.BFS (g : Graph T) (fuel : Nat) (start : T) : Option (List T × Option GraphError) :=
  match lookup g.adjacency start with
  | none => some ([], some GraphError.startNotFound)
  | some _ =>
    match bfsLoop g fuel ([start], upd (fun _ => false) start true) [] with
    | none => none
    | some visits => some (visits, none)

/-- The loop `for i := len(neighbours) - 1; i >= 0; i--` of `DFS`, over the reversed slice. -/
def dfsPush (visited : T → Bool) : List (Edge T) → List T → List T
  | [], queue => queue
  | neighbour :: rest, queue =>
    if !visited neighbour.Link then dfsPush visited rest (queue ++ [neighbour.Link])
    else dfsPush visited rest queue

/-- The loop `for len(queue) > 0` of `DFS`: the slice `queue` is used as a stack whose top is
its last element. The calls of `onVisit` are recorded in `visits`; `fuel` bounds the number of
iterations. -/
def dfsLoop (g : Graph T) : Nat → List T → (T → Bool) → List T → Option (List T)
  | 0, queue, _, visits =>
    match queue.getLast? with
    | none => some visits
    | some _ => none
  | fuel + 1, queue, visited, visits =>
    match queue.getLast? with
    | none => some visits
    | some node =>
      if !visited node then
        dfsLoop g fuel
          (dfsPush (upd visited node true) (g.Neighbours node).1.reverse queue.dropLast)
          (upd visited node true) (visits ++ [node])
      else dfsLoop g fuel queue.dropLast visited visits

/-- `DFS`: the result is the sequence of the arguments of the calls of `onVisit` and the
returned error. -/
def Graph.DFS (g : Graph T) (fuel : Nat) (start : T) : Option (List T × Option GraphError) :=
  match lookup g.adjacency start with
  | none => some ([], some GraphError.startNotFound)
  | some _ =>
    match dfsLoop g fuel [start] (fun _ => false) [] with
    | none => none
    | some visits => some (visits, none)

/-- The number of edges of the graph, which bounds the number of times a traversal adds a node
to its queue. -/
def Graph.edgeCount (g : Graph T) : Nat := (g.adjacency.map (fun kv => kv.2.length)).sum

/-- Enough iterations for `BFS` and `DFS`. -/
def traversalFuel (g : Graph T) : Nat := g.edgeCount + 2

/-- The targets of the edges of `node`, in stored order. -/
def Graph.links (g : Graph T) (node : T) : List T := (g.Neighbours node).1.map Edge.Link

/-- The loop over the targets of the edges of a node in the recursive depth-first search of
the specification. -/
def recursiveDfsLoop (rec : T → List T → Option (List T)) :
    List T → List T → Option (List T)
  | [], seen => some seen
  | target :: rest, seen =>
    match rec target seen with
    | none => none
    | some seen1 => recursiveDfsLoop rec rest seen1

/-- The recursive depth-first search of the specification: a node is visited on first arrival,
then the search recurses into the targets of its edges in stored order; a node already visited is
skipped. `seen` is the sequence of the nodes visited so far and `depth` bounds the depth of the
recursion (`none` when it is reached). -/
def recursiveDfs (g : Graph T) : Nat → T → List T → Option (List T)
  | 0, _, _ => none
  | depth + 1, node, seen =>
    if node ∈ seen then some seen
    else recursiveDfsLoop (recursiveDfs g depth) (g.links node) (seen ++ [node])

/-- The number of edges that leave the nodes not in `seen`: the measure by which the
traversals terminate. -/
def pendingEdges (g : Graph T) (seen : List T) : Nat :=
  (g.adjacency.map (fun kv => if kv.1 ∈ seen then 0 else kv.2.length)).sum

/-- `n` is the hop distance of `x` from `s`: the least number of edges of a directed walk from
`s` to `x`. -/
def Graph.HopDist [Inhabited T] (g : Graph T) (s x : T) (n : Nat) : Prop :=
  (∃ es, IsPath g s es x ∧ es.length = n) ∧ ∀ es, IsPath g s es x → n ≤ es.length

/-- `u` is the node from which `BFS` first discovers `x`, read off the sequence `visits`: the
first node of the sequence with an edge to `x`, where `x` is not the start node. -/
def FirstFrom (g : Graph T) (start : T) (visits : List T) (u x : T) : Prop :=
  x ≠ start ∧ u ∈ visits ∧ x ∈ g.links u ∧
  ∀ v ∈ visits, x ∈ g.links v → visits.indexOf u ≤ visits.indexOf v

/-- The invariant of the loop of `BFS`. The nodes discovered so far are `visits ++ queue`, in
the order of discovery; `level` is the number of edges of the walk along which a node was
discovered and `parent` the node from which it was discovered. -/
structure BfsInv [Inhabited T] (g : Graph T) (start : T) (visits queue : List T)
    (visited : T → Bool) (level : T → Nat) (parent : T → T) : Prop where
  marks : ∀ x, visited x = true ↔ x ∈ visits ++ queue
  nodup : (visits ++ queue).Nodup
  head : (visits ++ queue).head? = some start
  levelStart : level start = 0
  sorted : (visits ++ queue).Pairwise (fun a b => level a ≤ level b)
  span : ∀ x ∈ visits ++ queue, ∀ y ∈ queue, level x ≤ level y + 1
  path : ∀ x ∈ visits ++ queue, ∃ es, IsPath g start es x ∧ es.length = level x
  closed : ∀ u ∈ visits, ∀ w ∈ g.links u, w ∈ visits ++ queue ∧ level w ≤ level u + 1
  par : ∀ x ∈ visits ++ queue, x ≠ start →
    parent x ∈ visits ∧ x ∈ g.links (parent x) ∧
    ∀ v ∈ visits, x ∈ g.links v → visits.indexOf (parent x) ≤ visits.indexOf v
  ord : (visits ++ queue).Pairwise (fun x y => x ≠ start → y ≠ start →
    visits.indexOf (parent x) < visits.indexOf (parent y) ∨
    (parent x = parent y ∧ (g.links (parent x)).indexOf x < (g.links (parent x)).indexOf y))

/-- The invariant of the loop of `DFS`, with the stack given from its top. -/
structure DfsInv [Inhabited T] (g : Graph T) (start : T) (visits stack : List T)
    (visited : T → Bool) : Prop where
  marks : ∀ x, visited x = true ↔ x ∈ visits
  nodup : visits.Nodup
  reach : ∀ x, x ∈ visits ∨ x ∈ stack → g.Reachable start x
  closed : ∀ u ∈ visits, ∀ w ∈ g.links u, w ∈ visits ∨ w ∈ stack
  started : start ∈ visits ∨ start ∈ stack

end

/-- The item `fmt.Sprintf("%v (%d)", edge.Link, edge.Weight)` of `String` for a graph over
`string`. -/
def formatEdge (edge : Edge String) : String :=
  edge.Link ++ " (" ++ toString edge.Weight ++ ")"

/-- The loop over `neighbours` in `String`; `j` is the index of the first edge of the list
and `len` is `len(neighbours)`. -/
def writeEdges (len : Int) : Int → List (Edge String) → String → String
  | _, [], builder => builder
  | j, edge :: rest, builder =>
    writeEdges len (j + 1) rest
      (if j < len - 1 then builder ++ formatEdge edge ++ ", " else builder ++ formatEdge edge)

/-- The loop over `nodes` in `String`; `i` is the index of the first node of the list and
`len` is `len(nodes)`. -/
def writeNodes (g : Graph String) (len : Int) : Int → List String → String → String
  | _, [], builder => builder
  | i, node :: rest, builder =>
    let b1 := builder ++ node
    let neighbours := (g.Neighbours node).1
    let b2 :=
      if neighbours.length > 0 then writeEdges neighbours.length 0 neighbours (b1 ++ " -> ")
      else b1
    writeNodes g len (i + 1) rest (if i < len - 1 then b2 ++ "\n" else b2)

/-- `String` for a graph over `string`; `ranged` is the order in which `Nodes` ranges over
the map. -/
def Graph.String (g : Graph String) (ranged : List String) : String :=
  if g.Len = 0 then ""
  else writeNodes g (g.Nodes ranged slicesSort).length 0 (g.Nodes ranged slicesSort) ""

/-- The line of a node in the rendering of the specification: the node alone when it has no
edge, else the node, `" -> "` and the items `target (weight)` joined by `", "`. -/
def renderLine (g : Graph String) (node : String) : String :=
  match (g.Neighbours node).1 with
  | [] => node
  | edge :: rest =>
    node ++ " -> " ++ ", ".intercalate ((edge :: rest).map
      (fun e => e.Link ++ " (" ++ toString e.Weight ++ ")"))

/-- The rendering of the specification: the lines of the nodes joined by a newline. -/
def renderGraph (g : Graph String) (nodes : List String) : String :=
  "\n".intercalate (nodes.map (renderLine g))

/-! ### Nodes of any comparable type

The definitions above compare nodes by identity, which is the `==` of integers and strings. The
definitions of this section are those of the same functions for a node type with any `==`. -/

namespace comparable

/-- A map with default value read at a key after an assignment `m[k] = v`: the value is read
back at the keys equal to `k`. -/
def upd {T V : Type} [Comparable T] (m : T → V) (k : T) (v : V) : T → V :=
  fun x => if Comparable.eq x k then v else m x

/-- A call of `AddNode`, `AddEdge` or `DeleteNode`. -/
inductive Call (T : Type) where
  | addNode (value : T)
  | addEdge (src dst : T) (weight : Int)
  | deleteNode (value : T)

section
variable {T : Type} [Comparable T]

/-- The map read `g.adjacency[value]`. -/
def lookup : List (T × List (Edge T)) → T → Option (List (Edge T))
  | [], _ => none
  | (k, es) :: rest, x => if Comparable.eq k x then some es else lookup rest x

/-- The map assignment `g.adjacency[key] = edges`: a key that equals no stored key is added. -/
def assign : List (T × List (Edge T)) → T → List (Edge T) → List (T × List (Edge T))
  | [], key, edges => [(key, edges)]
  | (k, es) :: rest, key, edges =>
    if Comparable.eq k key then (k, edges) :: rest else (k, es) :: assign rest key edges

/-- `AddNode`. -/
def AddNode (g : Graph T) (value : T) : Graph T :=
  match lookup g.adjacency value with
  | some _ => g
  | none => { adjacency := assign g.adjacency value [] }

/-- `AddEdge(from, to, weight)`, with `src` for `from` and `dst` for `to`; the read of a
missing key in `append(g.adjacency[from], edge)` gives the nil slice. -/
def AddEdge (g : Graph T) (src dst : T) (weight : Int) : Graph T :=
  { adjacency := assign (AddNode (AddNode g src) dst).adjacency src
      ((lookup (AddNode (AddNode g src) dst).adjacency src).getD []
        ++ [{ Link := dst, Weight := weight }]) }

/-- `DeleteNode`. The loop ranges over the entries that the map holds after the `delete`, in
the order of the list; an entry that an assignment of the loop creates is not visited (Go may
visit it or skip it). -/
def DeleteNode (g : Graph T) (value : T) : Graph T :=
  match lookup g.adjacency value with
  | none => g
  | some _ =>
    { adjacency :=
        (g.adjacency.filter (fun kv => !Comparable.eq kv.1 value)).foldl
          (fun adjacency kv =>
            assign adjacency kv.1 (kv.2.filter (fun edge => !Comparable.eq edge.Link value)))
          (g.adjacency.filter (fun kv => !Comparable.eq kv.1 value)) }

/-- `Neighbours`. -/
def Neighbours (g : Graph T) (value : T) : List (Edge T) × Bool :=
  match lookup g.adjacency value with
  | some es => (es, true)
  | none => ([], false)

/-- `checkCycle`; `fuel` bounds the depth of the recursion. -/
def checkCycle (g : Graph T) :
    Nat → T → (T → visitedState) → Option (Bool × (T → visitedState))
  | 0, _, _ => none
  | fuel + 1, node, states =>
    match checkCycleLoop (checkCycle g fuel) (Neighbours g node).1
        (upd states node visitedState.visiting) with
    | none => none
    | some (true, states1) => some (true, states1)
    | some (false, states1) => some (false, upd states1 node visitedState.visited)

/-- The second loop of `HasCycle`, over the keys of `g.adjacency` in the order `roots`. -/
def hasCycleLoop (g : Graph T) (fuel : Nat) :
    List T → (T → visitedState) → Option Bool
  | [], _ => some false
  | node :: rest, states =>
    if states node = visitedState.unvisited then
      match checkCycle g fuel node states with
      | none => none
      | some (true, _) => some true
      | some (false, states1) => hasCycleLoop g fuel rest states1
    else hasCycleLoop g fuel rest states

/-- `HasCycle`: `roots` is the order in which `range g.adjacency` yields the keys. -/
def HasCycle (g : Graph T) (fuel : Nat) (roots : List T) : Option Bool :=
  hasCycleLoop g fuel roots
    (g.keys.foldl (fun states node => upd states node visitedState.unvisited)
      (fun _ => visitedState.unvisited))

/-- The closure `dfs` of `TopologicalSort`; `fuel` bounds the depth of the recursion. -/
def topoDfs (g : Graph T) :
    Nat → T → (T → Bool) × List T → Option ((T → Bool) × List T)
  | 0, _, _ => none
  | fuel + 1, node, st =>
    match topoLoop (topoDfs g fuel) (Neighbours g node).1 (upd st.1 node true, st.2) with
    | none => none
    | some st1 => some (st1.1, node :: st1.2)

/-- The loop over `g.Nodes()` in `TopologicalSort`. -/
def topoRoots (g : Graph T) (fuel : Nat) :
    List T → (T → Bool) × List T → Option ((T → Bool) × List T)
  | [], st => some st
  | node :: rest, st =>
    if st.1 node = false then
      match topoDfs g fuel node st with
      | none => none
      | some st1 => topoRoots g fuel rest st1
    else topoRoots g fuel rest st

/-- `TopologicalSort`: `roots` is the order in which `HasCycle` ranges over the map and
`nodes` is the slice `g.Nodes()`. The result is the pair of the slice (`none` for `nil`) and
the error. -/
def TopologicalSort (g : Graph T) (fuel : Nat) (roots nodes : List T) :
    Option (Option (List T) × Option GraphError) :=
  match HasCycle g fuel roots with
  | none => none
  | some true => some (none, some GraphError.cycle)
  | some false =>
    match topoRoots g fuel nodes (fun _ => false, []) with
    | none => none
    | some st => some (some st.2, none)

/-- The graph after the calls, made in order. -/
def run (g : Graph T) : List (Call T) → Graph T
  | [] => g
  | Call.addNode value :: rest => run (AddNode g value) rest
  | Call.addEdge src dst weight :: rest => run (AddEdge g src dst weight) rest
  | Call.deleteNode value :: rest => run (DeleteNode g value) rest

/-- The nodes that the call adds are equal to themselves: none is a floating-point NaN. A
call of `DeleteNode` adds no node. -/
def Reflexive : Call T → Prop
  | Call.addNode value => Comparable.eq value value = true
  | Call.addEdge src dst _ => Comparable.eq src src = true ∧ Comparable.eq dst dst = true
  | Call.deleteNode _ => True

instance (c : Call T) : Decidable (Reflexive c) := by
  cases c <;> unfold Reflexive <;> infer_instance

/-- Every key of the adjacency map is equal to itself. -/
def KeysReflexive (g : Graph T) : Prop := ∀ k ∈ g.keys, Comparable.eq k k = true

instance (g : Graph T) : Decidable (KeysReflexive g) := by
  unfold KeysReflexive; infer_instance

/-- The graph has an edge from `u` to `v`. -/
def Adj (g : Graph T) (u v : T) : Prop := ∃ e ∈ (Neighbours g u).1, e.Link = v

/-- The graph contains a directed cycle: some node has a non-empty directed walk back to
itself. -/
def HasDirectedCycle (g : Graph T) : Prop := ∃ x, Relation.TransGen (Adj g) x x

end

end comparable

end graph

/-! ## Package `binarytree` -/

namespace binarysearchtree

/-- A value of type `*node[T]`: `nil`, or a pointer to a node with its value and its two
subtrees. The trees share no node, so the pointers are the subtrees themselves. -/
inductive node (T : Type) where
  | nil : node T
  | mk (value : T) (left right : node T) : node T
deriving DecidableEq

/-- The struct `Tree`. The counter `size` is an `int`; it counts nodes held in memory, so it
stays far below 2^63 and is not reduced to 64 bits here. -/
structure Tree (T : Type) where
  root : node T
  size : Int
deriving DecidableEq

section
variable {T : Type} [LinearOrder T]

/-- The test `n == nil`. -/
def node.isNil : node T → Bool
  | node.nil => true
  | node.mk _ _ _ => false

/-- The function `insert`; the counter behind the pointer `size` is passed and returned. -/
def insert : node T → T → Int → node T × Int
  | node.nil, value, size => (node.mk value node.nil node.nil, size + 1)
  | node.mk v left right, value, size =>
    if value < v then
      (node.mk v (insert left value size).1 right, (insert left value size).2)
    else if value > v then
      (node.mk v left (insert right value size).1, (insert right value size).2)
    else (node.mk v left right, size)

/-- The function `minNode`, whose loop follows `left` while it is not nil. The argument is
never nil where `remove` calls it. -/
def minNode : node T → node T
  | node.nil => node.nil
  | node.mk v node.nil right => node.mk v node.nil right
  | node.mk _ (node.mk lv ll lr) _ => minNode (node.mk lv ll lr)

/-- The function `remove`; the counter behind the pointer `size` is passed and returned. -/
def remove : node T → T → Int → node T × Int
  | node.nil, _, size => (node.nil, size)
  | node.mk v left right, value, size =>
    if value < v then
      (node.mk v (remove left value size).1 right, (remove left value size).2)
    else if value > v then
      (node.mk v left (remove right value size).1, (remove right value size).2)
    else
      if left.isNil && right.isNil then (node.nil, size - 1)
      else if left.isNil then (right, size - 1)
      else if right.isNil then (left, size - 1)
      else
        match minNode right with
        | node.nil => (node.mk v left right, size - 1)
        | node.mk m _ _ =>
          (node.mk m left (remove right m (size - 1)).1, (remove right m (size - 1)).2 + 1)

/-- The function `contains`. -/
def contains : node T → T → Bool
  | node.nil, _ => false
  | node.mk v left right, value =>
    if value = v then true
    else if value < v then contains left value
    else contains right value

/-- The function `traverseInOrder`; the slice behind the pointer `values` is passed and
returned. -/
def traverseInOrder : node T → List T → List T
  | node.nil, values => values
  | node.mk v left right, values =>
    traverseInOrder right (traverseInOrder left values ++ [v])

/-- `Insert`. -/
def Tree.Insert (t : Tree T) (value : T) : Tree T :=
  { root := (insert t.root value t.size).1, size := (insert t.root value t.size).2 }

/-- `InsertAll`. -/
def Tree.InsertAll (t : Tree T) (values : List T) : Tree T := values.foldl Tree.Insert t

/-- `New`. -/
def New (values : List T) : Tree T :=
  values.foldl Tree.Insert { root := node.nil, size := 0 }

/-- `Remove`. -/
def Tree.Remove (t : Tree T) (value : T) : Tree T :=
  { root := (remove t.root value t.size).1, size := (remove t.root value t.size).2 }

/-- `Contains`. -/
def Tree.Contains (t : Tree T) (value : T) : Bool := contains t.root value

/-- `ValuesInOrder`. -/
def Tree.ValuesInOrder (t : Tree T) : List T := traverseInOrder t.root []

/-- `Len`. -/
def Tree.Len (t : Tree T) : Int := t.size

/-- A call of `Insert(value)` or of `Remove(value)`. -/
inductive Call (T : Type) where
  | insert (value : T)
  | remove (value : T)
deriving DecidableEq

/-- The tree after the calls, made in order. -/
def Tree.apply (t : Tree T) : List (Call T) → Tree T
  | [] => t
  | Call.insert value :: rest => Tree.apply (t.Insert value) rest
  | Call.remove value :: rest => Tree.apply (t.Remove value) rest

/-- The value `x` was inserted by one of the calls and not removed by a later one. -/
def Live (calls : List (Call T)) (x : T) : Prop :=
  ∃ before after, calls = before ++ Call.insert x :: after ∧ Call.remove x ∉ after

/-- The values of the tree, in order. -/
def node.values : node T → List T
  | node.nil => []
  | node.mk v left right => node.values left ++ v :: node.values right

/-- The order invariant of a binary search tree: at every node the values of the left subtree
are below the value of the node and those of the right subtree are above it. -/
def IsBST : node T → Prop
  | node.nil => True
  | node.mk v left right =>
    IsBST left ∧ IsBST right ∧ (∀ x ∈ left.values, x < v) ∧ (∀ x ∈ right.values, v < x)

end

/-! ### Values of any ordered type

The definitions above take the operators `<`, `>` and `==` of the value type to be those of a
linear order, as they are for integers and strings. The definitions of this section are those of
the same functions for a value type with any `<` and `==`. -/

namespace ordered

section
variable {T : Type} [Ordered T]

/-- The function `insert`; the counter behind the pointer `size` is passed and returned. The
test `value > n.value` is `n.value < value`. -/
def insert : node T → T → Int → node T × Int
  | node.nil, value, size => (node.mk value node.nil node.nil, size + 1)
  | node.mk v left right, value, size =>
    if Ordered.lt value v then
      (node.mk v (insert left value size).1 right, (insert left value size).2)
    else if Ordered.lt v value then
      (node.mk v left (insert right value size).1, (insert right value size).2)
    else (node.mk v left right, size)

/-- The function `remove`; the counter behind the pointer `size` is passed and returned. -/
def remove : node T → T → Int → node T × Int
  | node.nil, _, size => (node.nil, size)
  | node.mk v left right, value, size =>
    if Ordered.lt value v then
      (node.mk v (remove left value size).1 right, (remove left value size).2)
    else if Ordered.lt v value then
      (node.mk v left (remove right value size).1, (remove right value size).2)
    else
      if left.isNil && right.isNil then (node.nil, size - 1)
      else if left.isNil then (right, size - 1)
      else if right.isNil then (left, size - 1)
      else
        match minNode right with
        | node.nil => (node.mk v left right, size - 1)
        | node.mk m _ _ =>
          (node.mk m left (remove right m (size - 1)).1, (remove right m (size - 1)).2 + 1)

/-- The function `contains`. -/
def contains : node T → T → Bool
  | node.nil, _ => false
  | node.mk v left right, value =>
    if Ordered.eq value v then true
    else if Ordered.lt value v then contains left value
    else contains right value

/-- `Insert`. -/
def Insert (t : Tree T) (value : T) : Tree T :=
  { root := (insert t.root value t.size).1, size := (insert t.root value t.size).2 }

/-- `New`. -/
def New (values : List T) : Tree T :=
  values.foldl Insert { root := node.nil, size := 0 }

/-- `Remove`. -/
def Remove (t : Tree T) (value : T) : Tree T :=
  { root := (remove t.root value t.size).1, size := (remove t.root value t.size).2 }

/-- `Contains`. -/
def Contains (t : Tree T) (value : T) : Bool := contains t.root value

/-- The tree after the calls, made in order. -/
def apply (t : Tree T) : List (Call T) → Tree T
  | [] => t
  | Call.insert value :: rest => apply (Insert t value) rest
  | Call.remove value :: rest => apply (Remove t value) rest

/-- The value of the call is equal to itself: it is not a floating-point NaN. -/
def Reflexive : Call T → Prop
  | Call.insert value => Ordered.eq value value = true
  | Call.remove value => Ordered.eq value value = true

instance (c : Call T) : Decidable (Reflexive c) := by
  cases c <;> unfold Reflexive <;> infer_instance

/-- Every value of the tree is equal to itself. -/
def AllReflexive (n : node T) : Prop := ∀ x ∈ n.values, Ordered.eq x x = true

instance (n : node T) : Decidable (AllReflexive n) := by
  unfold AllReflexive; infer_instance

/-- The order invariant of a binary search tree, with the `<` of the value type: at every node
the values of the left subtree are below the value of the node and those of the right subtree
are above it. -/
def IsBST : node T → Prop
  | node.nil => True
  | node.mk v left right =>
    IsBST left ∧ IsBST right ∧ (∀ x ∈ left.values, Ordered.lt x v = true) ∧
      (∀ x ∈ right.values, Ordered.lt v x = true)

/-- The invariant `IsBST` can be computed. -/
def IsBST.dec : (n : node T) → Decidable (IsBST n)
  | node.nil => isTrue trivial
  | node.mk v left right =>
    have := IsBST.dec left
    have := IsBST.dec right
    inferInstanceAs (Decidable (IsBST left ∧ IsBST right ∧
      (∀ x ∈ left.values, Ordered.lt x v = true) ∧ (∀ x ∈ right.values, Ordered.lt v x = true)))

instance (n : node T) : Decidable (IsBST n) := IsBST.dec n

end

end ordered

end binarysearchtree

/-! ## Package `cache` -/

namespace cache

/-- The struct `entry`. -/
structure entry (K V : Type) where
  key : K
  value : V

/-- The struct `node`. A pointer to a node is an address, that is an index into the memory
`nodes` of the cache, and `none` is `nil`. The entry behind the pointer `e` belongs to one node
only, so it is stored in the node. -/
structure node (K V : Type) where
  e : Option (entry K V)
  previous : Option Nat
  next : Option Nat

/-- The struct `LRU` together with the memory `nodes` that holds its nodes: `nodes[a]` is the
node at the address `a`. The map `cache` is the list of its entries. -/
structure LRU (K V : Type) where
  nodes : List (node K V)
  cache : List (K × Nat)
  capacity : Int
  head : Nat
  tail : Nat

section
variable {K V : Type} [DecidableEq K]

/-- The map read `c.cache[key]`. -/
def mapGet : List (K × Nat) → K → Option Nat
  | [], _ => none
  | (k, a) :: rest, key => if k = key then some a else mapGet rest key

/-- The map assignment `c.cache[key] = node`. -/
def mapSet : List (K × Nat) → K → Nat → List (K × Nat)
  | [], key, a => [(key, a)]
  | (k, b) :: rest, key, a => if k = key then (k, a) :: rest else (k, b) :: mapSet rest key a

/-- The builtin `delete(c.cache, key)`. -/
def mapDelete (m : List (K × Nat)) (key : K) : List (K × Nat) :=
  m.filter (fun kv => decide (kv.1 ≠ key))

/-- The assignment `n.next = v` to the node at the address `a`; `none` is the panic of a nil
dereference. -/
def setNext (nodes : List (node K V)) (a : Nat) (v : Option Nat) : Option (List (node K V)) :=
  match nodes.get? a with
  | none => none
  | some n => some (nodes.set a { n with next := v })

/-- The assignment `n.previous = v` to the node at the address `a`. -/
def setPrevious (nodes : List (node K V)) (a : Nat) (v : Option Nat) :
    Option (List (node K V)) :=
  match nodes.get? a with
  | none => none
  | some n => some (nodes.set a { n with previous := v })

/-- `NewLRU`: the sentinel `head` is allocated at the address 0 and `tail` at 1. -/
def NewLRU (capacity : Int) : LRU K V :=
  { nodes := [{ e := none, previous := none, next := some 1 },
      { e := none, previous := some 0, next := none }],
    cache := [],
    capacity := if capacity ≤ 0 then 1 else capacity,
    head := 0,
    tail := 1 }

/-- `unlink(node)` for the node at the address `a`; `none` is a panic. -/
def LRU.unlink (c : LRU K V) (a : Nat) : Option (LRU K V) :=
  match c.nodes.get? a with
  | none => none
  | some n =>
    match n.previous with
    | none => none
    | some p =>
      match setNext c.nodes p n.next with
      | none => none
      | some nodes1 =>
        match nodes1.get? a with
        | none => none
        | some n1 =>
          match n1.next with
          | none => none
          | some nx =>
            match setPrevious nodes1 nx n1.previous with
            | none => none
            | some nodes2 => some { c with nodes := nodes2 }

/-- `addFront(node)` for the node at the address `a`; `none` is a panic. -/
def LRU.addFront (c : LRU K V) (a : Nat) : Option (LRU K V) :=
  match c.nodes.get? c.head with
  | none => none
  | some h =>
    match setNext c.nodes a h.next with
    | none => none
    | some nodes1 =>
      match setPrevious nodes1 a (some c.head) with
      | none => none
      | some nodes2 =>
        match nodes2.get? c.head with
        | none => none
        | some h2 =>
          match h2.next with
          | none => none
          | some first =>
            match setPrevious nodes2 first (some a) with
            | none => none
            | some nodes3 =>
              match setNext nodes3 c.head (some a) with
              | none => none
              | some nodes4 => some { c with nodes := nodes4 }

/-- `Get`: the result is `(value, found)` and the cache after the call; `none` is a panic. -/
def LRU.Get [Inhabited V] (c : LRU K V) (key : K) : Option ((V × Bool) × LRU K V) :=
  match mapGet c.cache key with
  | none => some ((default, false), c)
  | some a =>
    match c.unlink a with
    | none => none
    | some c1 =>
      match c1.addFront a with
      | none => none
      | some c2 =>
        match c2.nodes.get? a with
        | none => none
        | some n =>
          match n.e with
          | none => none
          | some e => some ((e.value, true), c2)

/-- The eviction in `Put`, done when `len(c.cache) >= c.capacity`. -/
def LRU.evict (c : LRU K V) : Option (LRU K V) :=
  match c.nodes.get? c.tail with
  | none => none
  | some t =>
    match t.previous with
    | none => none
    | some lru =>
      match c.unlink lru with
      | none => none
      | some c1 =>
        match c1.nodes.get? lru with
        | none => none
        | some n =>
          match n.e with
          | none => none
          | some e => some { c1 with cache := mapDelete c1.cache e.key }

/-- The assignment `node.e.value = value` to the node at the address `a`; `none` is a
panic. -/
def setValue (nodes : List (node K V)) (a : Nat) (value : V) : Option (List (node K V)) :=
  match nodes.get? a with
  | none => none
  | some n =>
    match n.e with
    | none => none
    | some e => some (nodes.set a { n with e := some { key := e.key, value := value } })

/-- The node `&node[K, V]{e: entry}` with the entry `&entry[K, V]{key: key, value: value}`. -/
def newNode (key : K) (value : V) : node K V :=
  { e := some { key := key, value := value }, previous := none, next := none }

/-- `Put`; `none` is a panic. The new node is allocated at the first free address. -/
def LRU.Put (c : LRU K V) (key : K) (value : V) : Option (LRU K V) :=
  match mapGet c.cache key with
  | some a =>
    match setValue c.nodes a value with
    | none => none
    | some nodes1 =>
      match LRU.unlink { c with nodes := nodes1 } a with
      | none => none
      | some c2 => c2.addFront a
  | none =>
    match (if (c.cache.length : Int) ≥ c.capacity then c.evict else some c) with
    | none => none
    | some c1 =>
      LRU.addFront
        { c1 with
          nodes := c1.nodes ++ [newNode key value],
          cache := mapSet c1.cache key c1.nodes.length }
        c1.nodes.length

/-- The loop of `Values` from the node at the address `a`; `fuel` bounds the number of
iterations. -/
def valuesLoop (c : LRU K V) : Nat → Nat → List V → Option (List V)
  | 0, a, values => if a = c.tail then some values else none
  | fuel + 1, a, values =>
    if a = c.tail then some values
    else
      match c.nodes.get? a with
      | none => none
      | some n =>
        match n.e, n.next with
        | some e, some nx => valuesLoop c fuel nx (values ++ [e.value])
        | _, _ => none

/-- `Values`; `none` is a panic or the end of the fuel. -/
def LRU.Values (c : LRU K V) (fuel : Nat) : Option (List V) :=
  match c.nodes.get? c.head with
  | none => none
  | some h =>
    match h.next with
    | none => none
    | some first => valuesLoop c fuel first []

/-- `Len`. -/
def LRU.Len (c : LRU K V) : Int := c.cache.length

/-- A call of `Put(key, value)` or of `Get(key)`. -/
inductive Call (K V : Type) where
  | put (key : K) (value : V)
  | get (key : K)

/-- Run the calls in order. The result is the cache and the keys touched, the latest first:
every `Put` touches its key and so does every `Get` that returns `found = true`. -/
def LRU.run [Inhabited V] : LRU K V → List (Call K V) → List K → Option (LRU K V × List K)
  | c, [], touched => some (c, touched)
  | c, Call.put key value :: rest, touched =>
    match c.Put key value with
    | none => none
    | some c1 => LRU.run c1 rest (key :: touched)
  | c, Call.get key :: rest, touched =>
    match c.Get key with
    | none => none
    | some (r, c1) => LRU.run c1 rest (if r.2 then key :: touched else touched)

/-- The value of the last call `Put(key, value)` among the calls, if any. -/
def lastPut : List (Call K V) → K → Option V
  | [], _ => none
  | Call.put k value :: rest, key =>
    match lastPut rest key with
    | some v => some v
    | none => if k = key then some value else none
  | Call.get _ :: rest, key => lastPut rest key

/-- The field `next` of the node at the address `a`, `none` when there is no such node. -/
def nextAt (nodes : List (node K V)) (a : Nat) : Option Nat :=
  match nodes.get? a with
  | none => none
  | some n => n.next

/-- The field `previous` of the node at the address `a`. -/
def prevAt (nodes : List (node K V)) (a : Nat) : Option Nat :=
  match nodes.get? a with
  | none => none
  | some n => n.previous

/-- The entry of the node at the address `a`. -/
def entAt (nodes : List (node K V)) (a : Nat) : Option (entry K V) :=
  match nodes.get? a with
  | none => none
  | some n => n.e

/-- The nodes `a`, `l`, `b` are linked in this order by `next` and back by `previous`. -/
def Chain (nxt prv : Nat → Option Nat) : Nat → List Nat → Nat → Prop
  | a, [], b => nxt a = some b ∧ prv b = some a
  | a, x :: xs, b => nxt a = some x ∧ prv x = some a ∧ Chain nxt prv x xs b

/-- The invariant of the doubly linked list: `l` holds the addresses of the nodes between the
sentinels, from `head.next` to `tail.previous`. -/
structure ListInv (c : LRU K V) (l : List Nat) : Prop where
  valid : ∀ a ∈ c.head :: l ++ [c.tail], a < c.nodes.length
  nodup : (c.head :: l ++ [c.tail]).Nodup
  chain : Chain (nextAt c.nodes) (prevAt c.nodes) c.head l c.tail
  ents : ∀ a ∈ l, ∃ e, entAt c.nodes a = some e

/-- The invariant of the cache: the map holds the key of each node of the list and its
address, once, and no more entries than the capacity; `m` is the list of the keys and values of
the nodes, from `head.next` to `tail.previous`. -/
structure LRUInv (c : LRU K V) (m : List (K × V)) : Prop where
  list : ∃ l, ListInv c l ∧ (c.cache.map Prod.snd).Perm l ∧
    l.map (entAt c.nodes) = m.map (fun kv => some { key := kv.1, value := kv.2 })
  keys : (c.cache.map Prod.fst).Nodup
  keyAt : ∀ k a, (k, a) ∈ c.cache → ∃ e, entAt c.nodes a = some e ∧ e.key = k
  capLow : 1 ≤ c.capacity
  capHigh : (c.cache.length : Int) ≤ c.capacity

/-- The cache of the specification, as the list of its keys and values from the most
recently used: a `Get` of a stored key moves its pair to the front. -/
def modelGet (m : List (K × V)) (key : K) : List (K × V) :=
  match m.find? (fun kv => decide (kv.1 = key)) with
  | none => m
  | some kv => kv :: m.filter (fun kv => decide (kv.1 ≠ key))

/-- The cache of the specification: a `Put` of a stored key moves it to the front with the new
value; a `Put` of a new key drops the last pair when the cache is full and adds the pair at the
front. -/
def modelPut (capacity : Int) (m : List (K × V)) (key : K) (value : V) : List (K × V) :=
  match m.find? (fun kv => decide (kv.1 = key)) with
  | some _ => (key, value) :: m.filter (fun kv => decide (kv.1 ≠ key))
  | none =>
    if (m.length : Int) ≥ capacity then (key, value) :: m.dropLast else (key, value) :: m

/-- The cache of the specification after the calls; the second component is the list of the
keys touched, the latest first. -/
def modelRun : List (K × V) → Int → List (Call K V) → List K → List (K × V) × List K
  | m, _, [], touched => (m, touched)
  | m, capacity, Call.put key value :: rest, touched =>
    modelRun (modelPut capacity m key value) capacity rest (key :: touched)
  | m, capacity, Call.get key :: rest, touched =>
    modelRun (modelGet m key) capacity rest
      (if (m.find? (fun kv => decide (kv.1 = key))).isSome then key :: touched else touched)

/-- What holds of the cache of the specification after the calls `done`, where `touched` lists
the keys touched, the latest first: no key occurs twice, every key was touched, the keys come in
the order of their latest touch, and each value is that of the last `Put` under its key. -/
structure ModelInv (m : List (K × V)) (touched : List K) (done : List (Call K V)) : Prop where
  nodup : (m.map Prod.fst).Nodup
  touchedAll : ∀ k ∈ m.map Prod.fst, k ∈ touched
  order : (m.map Prod.fst).Pairwise (fun a b => touched.indexOf a < touched.indexOf b)
  values : ∀ kv ∈ m, lastPut done kv.1 = some kv.2

end

/-! ### Keys of any comparable type

The definitions above compare keys by identity, which is the `==` of integers and strings. The
definitions of this section are those of the same functions for a key type with any `==`. -/

namespace comparable

section
variable {K V : Type} [Comparable K]

/-- The map read `c.cache[key]`. -/
def mapGet : List (K × Nat) → K → Option Nat
  | [], _ => none
  | (k, a) :: rest, key => if Comparable.eq k key then some a else mapGet rest key

/-- The map assignment `c.cache[key] = node`: a key that equals no stored key is added. -/
def mapSet : List (K × Nat) → K → Nat → List (K × Nat)
  | [], key, a => [(key, a)]
  | (k, b) :: rest, key, a =>
    if Comparable.eq k key then (k, a) :: rest else (k, b) :: mapSet rest key a

/-- The builtin `delete(c.cache, key)`. -/
def mapDelete (m : List (K × Nat)) (key : K) : List (K × Nat) :=
  m.filter (fun kv => !Comparable.eq kv.1 key)

/-- `Get`: the result is `(value, found)` and the cache after the call; `none` is a panic. -/
def Get [Inhabited V] (c : LRU K V) (key : K) : Option ((V × Bool) × LRU K V) :=
  match mapGet c.cache key with
  | none => some ((default, false), c)
  | some a =>
    match c.unlink a with
    | none => none
    | some c1 =>
      match c1.addFront a with
      | none => none
      | some c2 =>
        match c2.nodes.get? a with
        | none => none
        | some n =>
          match n.e with
          | none => none
          | some e => some ((e.value, true), c2)

/-- The eviction in `Put`, done when `len(c.cache) >= c.capacity`. -/
def evict (c : LRU K V) : Option (LRU K V) :=
  match c.nodes.get? c.tail with
  | none => none
  | some t =>
    match t.previous with
    | none => none
    | some lru =>
      match c.unlink lru with
      | none => none
      | some c1 =>
        match c1.nodes.get? lru with
        | none => none
        | some n =>
          match n.e with
          | none => none
          | some e => some { c1 with cache := mapDelete c1.cache e.key }

/-- `Put`; `none` is a panic. The new node is allocated at the first free address. -/
def Put (c : LRU K V) (key : K) (value : V) : Option (LRU K V) :=
  match mapGet c.cache key with
  | some a =>
    match setValue c.nodes a value with
    | none => none
    | some nodes1 =>
      match LRU.unlink { c with nodes := nodes1 } a with
      | none => none
      | some c2 => c2.addFront a
  | none =>
    match (if (c.cache.length : Int) ≥ c.capacity then evict c else some c) with
    | none => none
    | some c1 =>
      LRU.addFront
        { c1 with
          nodes := c1.nodes ++ [newNode key value],
          cache := mapSet c1.cache key c1.nodes.length }
        c1.nodes.length

/-- Run the calls in order. The result is the cache and the keys touched, the latest first:
every `Put` touches its key and so does every `Get` that returns `found = true`. -/
def run [Inhabited V] : LRU K V → List (Call K V) → List K → Option (LRU K V × List K)
  | c, [], touched => some (c, touched)
  | c, Call.put key value :: rest, touched =>
    match Put c key value with
    | none => none
    | some c1 => run c1 rest (key :: touched)
  | c, Call.get key :: rest, touched =>
    match Get c key with
    | none => none
    | some (r, c1) => run c1 rest (if r.2 then key :: touched else touched)

/-- The key that the call stores is equal to itself: it is not a floating-point NaN. A call
of `Get` stores no key. -/
def Reflexive : Call K V → Prop
  | Call.put key _ => Comparable.eq key key = true
  | Call.get _ => True

instance (c : Call K V) : Decidable (Reflexive c) := by
  cases c <;> unfold Reflexive <;> infer_instance

/-- Every key stored in the map of the cache is equal to itself. -/
def AllReflexive (c : LRU K V) : Prop :=
  ∀ kv ∈ c.cache, Comparable.eq kv.1 kv.1 = true

end

end comparable

end cache

/-! ## Package `bidimap` -/

namespace bidimap

/-- The struct `Map`: the maps `forward` and `reverse` as the lists of their entries, in the
order in which the keys were first inserted. -/
structure Map (K V : Type) where
  forward : List (K × V)
  reverse : List (V × K)

/-- The map read `m[key]`; `none` stands for `ok = false`. -/
def mapGet {A B : Type} [DecidableEq A] : List (A × B) → A → Option B
  | [], _ => none
  | (k, v) :: rest, key => if k = key then some v else mapGet rest key

/-- The map assignment `m[key] = value`. -/
def mapSet {A B : Type} [DecidableEq A] : List (A × B) → A → B → List (A × B)
  | [], key, value => [(key, value)]
  | (k, v) :: rest, key, value =>
    if k = key then (k, value) :: rest else (k, v) :: mapSet rest key value

/-- The builtin `delete(m, key)`. -/
def mapDelete {A B : Type} [DecidableEq A] (m : List (A × B)) (key : A) : List (A × B) :=
  m.filter (fun kv => decide (kv.1 ≠ key))

section
variable {K V : Type} [DecidableEq K] [DecidableEq V]

/-- `New`. -/
def New : Map K V := { forward := [], reverse := [] }

/-- `Put`: the second test reads `m.reverse` after the first `delete`. -/
def Map.Put (m : Map K V) (key : K) (value : V) : Map K V :=
  let reverse1 :=
    match mapGet m.forward key with
    | some existingValue => mapDelete m.reverse existingValue
    | none => m.reverse
  let forward1 :=
    match mapGet reverse1 value with
    | some existingKey => mapDelete m.forward existingKey
    | none => m.forward
  { forward := mapSet forward1 key value, reverse := mapSet reverse1 value key }

/-- `Delete`. -/
def Map.Delete (m : Map K V) (key : K) : Map K V :=
  match mapGet m.forward key with
  | some value => { forward := mapDelete m.forward key, reverse := mapDelete m.reverse value }
  | none => m

/-- `DeleteValue`. -/
def Map.DeleteValue (m : Map K V) (value : V) : Map K V :=
  match mapGet m.reverse value with
  | some key => { forward := mapDelete m.forward key, reverse := mapDelete m.reverse value }
  | none => m

/-- `Get`: the result is `(value, ok)`; a missing key reads as the zero value. -/
def Map.Get [Inhabited V] (m : Map K V) (key : K) : V × Bool :=
  match mapGet m.forward key with
  | some value => (value, true)
  | none => (default, false)

/-- `GetKey`: the result is `(key, ok)`. -/
def Map.GetKey [Inhabited K] (m : Map K V) (value : V) : K × Bool :=
  match mapGet m.reverse value with
  | some key => (key, true)
  | none => (default, false)

/-- `Clear`: the builtin `clear` removes every entry of a map. -/
def Map.Clear (_ : Map K V) : Map K V := { forward := [], reverse := [] }

/-- `Len`. -/
def Map.Len (m : Map K V) : Int := m.forward.length

/-- A call of `Put(key, value)`, `Delete(key)`, `DeleteValue(value)` or `Clear()`. -/
inductive Call (K V : Type) where
  | put (key : K) (value : V)
  | delete (key : K)
  | deleteValue (value : V)
  | clear

/-- The map after the calls, made in order. -/
def Map.apply (m : Map K V) : List (Call K V) → Map K V
  | [] => m
  | Call.put key value :: rest => Map.apply (m.Put key value) rest
  | Call.delete key :: rest => Map.apply (m.Delete key) rest
  | Call.deleteValue value :: rest => Map.apply (m.DeleteValue value) rest
  | Call.clear :: rest => Map.apply m.Clear rest

/-- The invariant of the map: no key occurs twice in either table, and `forward` maps `k` to
`v` exactly when `reverse` maps `v` to `k`. -/
structure BiInv (m : Map K V) : Prop where
  forwardKeys : (m.forward.map Prod.fst).Nodup
  reverseKeys : (m.reverse.map Prod.fst).Nodup
  paired : ∀ k v, mapGet m.forward k = some v ↔ mapGet m.reverse v = some k

end

/-! ### Keys and values of any comparable type

The definitions above compare keys and values by identity, which is the `==` of integers and
strings. The definitions of this section are those of the same functions for key and value types
with any `==`. -/

namespace comparable

/-- The map read `m[key]` for any comparable key type; `none` stands for `ok = false`. A key
that is not equal to itself is never found. -/
def mapGet {A B : Type} [Comparable A] : List (A × B) → A → Option B
  | [], _ => none
  | (k, v) :: rest, key => if Comparable.eq k key then some v else mapGet rest key

/-- The map assignment `m[key] = value` for any comparable key type: the entry of a key equal
to `key` is overwritten; when there is none, as always for a key not equal to itself, an entry is
added. -/
def mapSet {A B : Type} [Comparable A] : List (A × B) → A → B → List (A × B)
  | [], key, value => [(key, value)]
  | (k, v) :: rest, key, value =>
    if Comparable.eq k key then (k, value) :: rest else (k, v) :: mapSet rest key value

/-- The builtin `delete(m, key)` for any comparable key type: the entries whose key is equal to
`key` are removed, which is none for a key not equal to itself. -/
def mapDelete {A B : Type} [Comparable A] (m : List (A × B)) (key : A) : List (A × B) :=
  m.filter (fun kv => !Comparable.eq kv.1 key)

section
variable {K V : Type} [Comparable K] [Comparable V]

/-- `Put` for any comparable key and value types. -/
def Put (m : Map K V) (key : K) (value : V) : Map K V :=
  let reverse1 :=
    match mapGet m.forward key with
    | some existingValue => mapDelete m.reverse existingValue
    | none => m.reverse
  let forward1 :=
    match mapGet reverse1 value with
    | some existingKey => mapDelete m.forward existingKey
    | none => m.forward
  { forward := mapSet forward1 key value, reverse := mapSet reverse1 value key }

/-- `Delete` for any comparable key and value types. -/
def Delete (m : Map K V) (key : K) : Map K V :=
  match mapGet m.forward key with
  | some value => { forward := mapDelete m.forward key, reverse := mapDelete m.reverse value }
  | none => m

/-- `DeleteValue` for any comparable key and value types. -/
def DeleteValue (m : Map K V) (value : V) : Map K V :=
  match mapGet m.reverse value with
  | some key => { forward := mapDelete m.forward key, reverse := mapDelete m.reverse value }
  | none => m

/-- `Get` for any comparable key type. -/
def Get [Inhabited V] (m : Map K V) (key : K) : V × Bool :=
  match mapGet m.forward key with
  | some value => (value, true)
  | none => (default, false)

/-- `GetKey` for any comparable value type. -/
def GetKey [Inhabited K] (m : Map K V) (value : V) : K × Bool :=
  match mapGet m.reverse value with
  | some key => (key, true)
  | none => (default, false)

/-- The map after the calls, made in order, for any comparable key and value types. -/
def apply (m : Map K V) : List (Call K V) → Map K V
  | [] => m
  | Call.put key value :: rest => apply (Put m key value) rest
  | Call.delete key :: rest => apply (Delete m key) rest
  | Call.deleteValue value :: rest => apply (DeleteValue m value) rest
  | Call.clear :: rest => apply m.Clear rest

/-- The key and the value that the call stores are equal to themselves: neither is a
floating-point NaN. Calls of `Delete`, `DeleteValue` and `Clear` store nothing. -/
def Reflexive : Call K V → Prop
  | Call.put key value => Comparable.eq key key = true ∧ Comparable.eq value value = true
  | Call.delete _ => True
  | Call.deleteValue _ => True
  | Call.clear => True

instance (c : Call K V) : Decidable (Reflexive c) := by
  cases c <;> unfold Reflexive <;> infer_instance

/-- Every key and value stored in the map is equal to itself: none is a floating-point
NaN. -/
def AllReflexive (m : Map K V) : Prop :=
  (∀ kv ∈ m.forward, Comparable.eq kv.1 kv.1 = true ∧ Comparable.eq kv.2 kv.2 = true) ∧
  (∀ vk ∈ m.reverse, Comparable.eq vk.1 vk.1 = true ∧ Comparable.eq vk.2 vk.2 = true)

end

end comparable

end bidimap

end Godst

/-! # Theorems -/

namespace Godst

/-- `==` on `float64` holds between identical numbers only. -/
instance : LawfulComparable float64 where
  eq_of a b h := by
    cases a <;> cases b <;> simp [Comparable.eq] at h ⊢
    exact h

instance : LawfulComparable String := ⟨fun a b h => by simpa [Comparable.eq] using h⟩

instance : LawfulComparable Int := ⟨fun a b h => by simpa [Comparable.eq] using h⟩

instance : LawfulComparable Nat := ⟨fun a b h => by simpa [Comparable.eq] using h⟩

/-- On the numbers, `<` on `float64` is the order of the numbers. -/
instance : LawfulOrdered float64 where
  lt_iff a b ha hb := by
    cases a <;> cases b <;> simp [Ordered.eq, Comparable.eq] at ha hb
    show (decide _ = true) ↔ float64.rank _ < float64.rank _
    simp [float64.rank]
  eq_of a b h := LawfulComparable.eq_of a b h

instance : LawfulOrdered Int where
  lt_iff a b _ _ := by simp [Ordered.lt]
  eq_of a b h := by simpa [Ordered.eq] using h

/-- A comparison by `==` with a value that is equal to itself tells identity. -/
theorem comparable_eq_decide {T : Type} [DecidableEq T] [Comparable T] [LawfulComparable T]
    (a b : T) (h : Comparable.eq a a = true ∨ Comparable.eq b b = true) :
    Comparable.eq a b = decide (a = b) := by
  by_cases hab : a = b
  · subst hab
    rw [decide_eq_true rfl]
    rcases h with h | h <;> exact h
  · rw [decide_eq_false hab]
    cases hc : Comparable.eq a b with
    | false => rfl
    | true => exact absurd (LawfulComparable.eq_of a b hc) hab

/-- A value that is not equal to itself is equal to nothing. -/
theorem comparable_eq_false {T : Type} [Comparable T] [LawfulComparable T] (a b : T)
    (h : Comparable.eq a a = false ∨ Comparable.eq b b = false) :
    Comparable.eq a b = false := by
  cases hc : Comparable.eq a b with
  | false => rfl
  | true =>
    have hab := LawfulComparable.eq_of a b hc
    subst hab
    rcases h with h | h <;> rw [hc] at h <;> cases h

namespace heap

variable {T : Type}

theorem swap_eq (cs : List T) (i j : Nat) (hi : i < cs.length) (hj : j < cs.length) :
    swap cs i j = (cs.set i cs[j]).set j cs[i] := by
  simp [swap, List.get?_eq_getElem?, List.getElem?_eq_getElem hi, List.getElem?_eq_getElem hj]

theorem swap_of_not_lt (cs : List T) (i j : Nat) (h : ¬ (i < cs.length ∧ j < cs.length)) :
    swap cs i j = cs := by
  unfold swap
  by_cases hi : i < cs.length
  · have hj : ¬ j < cs.length := fun hj => h ⟨hi, hj⟩
    simp [List.get?_eq_getElem?, List.getElem?_eq_none (Nat.le_of_not_lt hj)]
  · simp [List.get?_eq_getElem?, List.getElem?_eq_none (Nat.le_of_not_lt hi)]

@[simp] theorem length_swap (cs : List T) (i j : Nat) : (swap cs i j).length = cs.length := by
  by_cases h : i < cs.length ∧ j < cs.length
  · rw [swap_eq cs i j h.1 h.2]; simp
  · rw [swap_of_not_lt cs i j h]

theorem getElem?_swap (cs : List T) (i j k : Nat) (hi : i < cs.length) (hj : j < cs.length) :
    (swap cs i j)[k]? = if k = j then cs[i]? else if k = i then cs[j]? else cs[k]? := by
  rw [swap_eq cs i j hi hj]
  by_cases hkj : k = j
  · subst hkj
    rw [List.getElem?_set_self (by simpa using hj)]; simp [List.getElem?_eq_getElem hi]
  · by_cases hki : k = i
    · subst hki
      rw [List.getElem?_set_ne (Ne.symm hkj), List.getElem?_set_self hi]
      simp [hkj, List.getElem?_eq_getElem hj]
    · simp [hkj, hki, List.getElem?_set_ne (Ne.symm hkj), List.getElem?_set_ne (Ne.symm hki)]

theorem set_perm_cons (cs : List T) (i : Nat) (hi : i < cs.length) (a : T) :
    List.Perm (cs[i] :: cs.set i a) (a :: cs) := by
  induction cs generalizing i with
  | nil => simp at hi
  | cons x xs ih =>
    cases i with
    | zero => simpa using List.Perm.swap _ _ _
    | succ n =>
      simp only [List.length_cons, Nat.add_lt_add_iff_right] at hi
      simp only [List.getElem_cons_succ, List.set_cons_succ]
      exact (List.Perm.swap _ _ _).trans (((ih n hi).cons x).trans (List.Perm.swap _ _ _))

theorem swap_perm (cs : List T) (i j : Nat) : List.Perm (swap cs i j) cs := by
  by_cases h : i < cs.length ∧ j < cs.length
  · obtain ⟨hi, hj⟩ := h
    rw [swap_eq cs i j hi hj]
    by_cases hij : i = j
    · subst hij
      rw [List.set_set]
      have : cs.set i cs[i] = cs := by
        apply List.ext_getElem? ; intro k
        by_cases hk : i = k
        · subst hk; rw [List.getElem?_set_self hi, List.getElem?_eq_getElem hi]
        · rw [List.getElem?_set_ne hk]
      rw [this]
    · have h1 := set_perm_cons cs i hi cs[j]
      have hj' : j < (cs.set i cs[j]).length := by simpa using hj
      have h2 := set_perm_cons (cs.set i cs[j]) j hj' cs[i]
      rw [List.getElem_set_ne hij] at h2
      -- h2 : cs[j] :: swapped ~ cs[i] :: cs.set i cs[j] ; h1 : cs[i] :: cs.set i cs[j] ~ cs[j] :: cs
      exact (List.Perm.cons_inv (h2.trans h1))
  · rw [swap_of_not_lt cs i j h]
theorem UpInv_swap (less : T → T → Bool) (sw : StrictWeak less) (cs : List T) (k : Nat)
    (hk : 0 < k) (hlen : k < cs.length) (x p : T) (hx : cs[k]? = some x)
    (hp : cs[(k - 1) / 2]? = some p) (hlt : less x p = true) (inv : UpInv less cs k) :
    UpInv less (swap cs k ((k - 1) / 2)) ((k - 1) / 2) := by
  have hpl : (k - 1) / 2 < cs.length := by omega
  have hpk : (k - 1) / 2 < k := by omega
  obtain ⟨inv1, inv2⟩ := inv
  constructor
  · intro i y q hi hne hy hq
    rw [getElem?_swap cs k _ i hlen hpl] at hy
    rw [getElem?_swap cs k _ ((i - 1) / 2) hlen hpl] at hq
    by_cases hik : i = k
    · subst hik
      have h1 : ¬ i = (i - 1) / 2 := by omega
      simp only [h1, if_false, if_true] at hy hq
      rw [hp] at hy; rw [hx] at hq
      cases hy; cases hq
      exact sw.asymm _ _ hlt
    · simp only [hne, hik, if_false] at hy
      by_cases hpar : (i - 1) / 2 = (k - 1) / 2
      · simp only [hpar, if_true] at hq
        rw [hx] at hq; cases hq
        have h1 := inv1 i y p hi hik hy (by rw [hpar]; exact hp)
        cases hyx : less y x with
        | false => rfl
        | true => rw [sw.trans _ _ _ hyx hlt] at h1; cases h1
      · simp only [hpar, if_false] at hq
        by_cases hpk2 : (i - 1) / 2 = k
        · simp only [hpk2, if_true] at hq
          exact inv2 i y q hi hk hpk2 hy hq
        · simp only [hpk2, if_false] at hq
          exact inv1 i y q hi hik hy hq
  · intro i y q hi hk0 hpar hy hq
    rw [getElem?_swap cs k _ i hlen hpl] at hy
    rw [getElem?_swap cs k _ _ hlen hpl] at hq
    have h1 : ¬ ((k - 1) / 2 - 1) / 2 = (k - 1) / 2 := by omega
    have h2 : ¬ ((k - 1) / 2 - 1) / 2 = k := by omega
    simp only [h1, h2, if_false] at hq
    have h3 : ¬ i = (k - 1) / 2 := by omega
    simp only [h3, if_false] at hy
    have hpq := inv1 ((k - 1) / 2) p q hk0 (by omega) hp hq
    by_cases hik : i = k
    · simp only [hik, if_true] at hy
      rw [hp] at hy; cases hy
      exact hpq
    · simp only [hik, if_false] at hy
      exact sw.negTrans _ _ _ (inv1 i y p hi hik hy (by rw [hpar]; exact hp)) hpq

theorem bubbleUpLoop_isHeap (less : T → T → Bool) (sw : StrictWeak less) :
    ∀ (fuel : Nat) (cs : List T) (k : Nat), k ≤ fuel → k < cs.length → UpInv less cs k →
      IsHeap less (bubbleUpLoop less fuel cs k) := by
  intro fuel
  induction fuel with
  | zero =>
    intro cs k hk _ inv i x p hi hx hp
    exact inv.1 i x p hi (by omega) hx hp
  | succ fuel ih =>
    intro cs k hk hlen inv
    unfold bubbleUpLoop
    by_cases hk0 : 0 < k
    · have hpl : (k - 1) / 2 < cs.length := by omega
      simp only [hk0, if_true, List.get?_eq_getElem?, List.getElem?_eq_getElem hlen,
        List.getElem?_eq_getElem hpl]
      by_cases hlt : less cs[k] cs[(k - 1) / 2] = true
      · simp only [hlt, if_true]
        apply ih
        · omega
        · simpa using hpl
        · exact UpInv_swap less sw cs k hk0 hlen _ _ (List.getElem?_eq_getElem hlen)
            (List.getElem?_eq_getElem hpl) hlt inv
      · have hf : less cs[k] cs[(k - 1) / 2] = false := by simpa using hlt
        simp only [hf, Bool.false_eq_true, if_false]
        intro i x p hi hx hp
        by_cases hik : i = k
        · subst hik
          rw [List.getElem?_eq_getElem hlen] at hx
          rw [List.getElem?_eq_getElem hpl] at hp
          cases hx; cases hp
          exact hf
        · exact inv.1 i x p hi hik hx hp
    · simp only [hk0, if_false]
      intro i x p hi hx hp
      exact inv.1 i x p hi (by omega) hx hp

theorem getElem?_some_lt {cs : List T} {i : Nat} {x : T} (h : cs[i]? = some x) : i < cs.length := by
  by_contra hn
  rw [List.getElem?_eq_none (Nat.le_of_not_lt hn)] at h
  cases h

theorem swapIndex_spec (less : T → T → Bool) (sw : StrictWeak less) (cs : List T) (k : Nat) :
    (swapIndex less cs k = k ∧
      ∀ i x y, 0 < i → (i - 1) / 2 = k → cs[i]? = some x → cs[k]? = some y → less x y = false) ∨
    (swapIndex less cs k ≠ k ∧ 0 < swapIndex less cs k ∧ (swapIndex less cs k - 1) / 2 = k ∧
      ∃ y x, cs[swapIndex less cs k]? = some y ∧ cs[k]? = some x ∧ less y x = true ∧
        ∀ i z, 0 < i → (i - 1) / 2 = k → i ≠ swapIndex less cs k → cs[i]? = some z →
          less z y = false) := by
  have child : ∀ i, 0 < i → (i - 1) / 2 = k → i = 2 * k + 1 ∨ i = 2 * k + 2 := by
    intro i h1 h2; omega
  cases hk : cs[k]? with
  | none =>
    left
    have hkl : cs.length ≤ k := by
      by_contra hn
      rw [List.getElem?_eq_getElem (Nat.lt_of_not_le hn)] at hk; cases hk
    have h1 : cs[2 * k + 1]? = none := List.getElem?_eq_none (by omega)
    have h2 : cs[2 * k + 2]? = none := List.getElem?_eq_none (by omega)
    have hs : swapIndex less cs k = k := by
      simp only [swapIndex, List.get?_eq_getElem?, h1, h2, hk]
    refine ⟨hs, ?_⟩
    intro i x y _ _ _ hy
    cases hy
  | some x =>
    cases hl : cs[2 * k + 1]? with
    | none =>
      have hll : cs.length ≤ 2 * k + 1 := by
        by_contra hn
        rw [List.getElem?_eq_getElem (Nat.lt_of_not_le hn)] at hl; cases hl
      have h2 : cs[2 * k + 2]? = none := List.getElem?_eq_none (by omega)
      left
      have hs : swapIndex less cs k = k := by
        simp only [swapIndex, List.get?_eq_getElem?, hl, h2, hk]
      refine ⟨hs, ?_⟩
      intro i z y hi hpar hz _
      have := getElem?_some_lt hz
      rcases child i hi hpar with h | h <;> omega
    | some l =>
      cases hr : cs[2 * k + 2]? with
      | none =>
        cases hlx : less l x with
        | false =>
          left
          have hs : swapIndex less cs k = k := by
            simp only [swapIndex, List.get?_eq_getElem?, hl, hr, hk, hlx, Bool.false_eq_true,
              if_false]
          refine ⟨hs, ?_⟩
          intro i z y hi hpar hz hy
          obtain rfl := Option.some.inj hy
          rcases child i hi hpar with h | h
          · subst h; obtain rfl := Option.some.inj (hl.symm.trans hz); exact hlx
          · subst h; rw [hr] at hz; cases hz
        | true =>
          right
          have hs : swapIndex less cs k = 2 * k + 1 := by
            simp only [swapIndex, List.get?_eq_getElem?, hl, hr, hk, hlx, if_true]
          rw [hs]
          refine ⟨by omega, by omega, by omega, l, x, hl, rfl, hlx, ?_⟩
          intro i z hi hpar hne hz
          rcases child i hi hpar with h | h
          · exact absurd h hne
          · subst h; rw [hr] at hz; cases hz
      | some r =>
        cases hlx : less l x with
        | false =>
          cases hrx : less r x with
          | false =>
            left
            have hs : swapIndex less cs k = k := by
              simp only [swapIndex, List.get?_eq_getElem?, hl, hr, hk, hlx, hrx,
                Bool.false_eq_true, if_false]
            refine ⟨hs, ?_⟩
            intro i z y hi hpar hz hy
            obtain rfl := Option.some.inj hy
            rcases child i hi hpar with h | h
            · subst h; obtain rfl := Option.some.inj (hl.symm.trans hz); exact hlx
            · subst h; obtain rfl := Option.some.inj (hr.symm.trans hz); exact hrx
          | true =>
            right
            have hs : swapIndex less cs k = 2 * k + 2 := by
              simp only [swapIndex, List.get?_eq_getElem?, hl, hr, hk, hlx, hrx,
                Bool.false_eq_true, if_false, if_true]
            rw [hs]
            refine ⟨by omega, by omega, by omega, r, x, hr, rfl, hrx, ?_⟩
            intro i z hi hpar hne hz
            rcases child i hi hpar with h | h
            · subst h; obtain rfl := Option.some.inj (hl.symm.trans hz)
              cases hzr : less l r with
              | false => rfl
              | true => rw [sw.trans _ _ _ hzr hrx] at hlx; cases hlx
            · exact absurd h hne
        | true =>
          cases hrl : less r l with
          | false =>
            right
            have hs : swapIndex less cs k = 2 * k + 1 := by
              simp only [swapIndex, List.get?_eq_getElem?, hl, hr, hk, hlx, hrl,
                Bool.false_eq_true, if_false, if_true]
            rw [hs]
            refine ⟨by omega, by omega, by omega, l, x, hl, rfl, hlx, ?_⟩
            intro i z hi hpar hne hz
            rcases child i hi hpar with h | h
            · exact absurd h hne
            · subst h; obtain rfl := Option.some.inj (hr.symm.trans hz); exact hrl
          | true =>
            right
            have hs : swapIndex less cs k = 2 * k + 2 := by
              simp only [swapIndex, List.get?_eq_getElem?, hl, hr, hk, hlx, hrl, if_true]
            rw [hs]
            refine ⟨by omega, by omega, by omega, r, x, hr, rfl, sw.trans _ _ _ hrl hlx, ?_⟩
            intro i z hi hpar hne hz
            rcases child i hi hpar with h | h
            · subst h; obtain rfl := Option.some.inj (hl.symm.trans hz); exact sw.asymm _ _ hrl
            · exact absurd h hne

theorem DownInv_swap (less : T → T → Bool) (sw : StrictWeak less) (cs : List T) (k s : Nat)
    (hs0 : 0 < s) (hpar : (s - 1) / 2 = k) (y x : T) (hy : cs[s]? = some y)
    (hx : cs[k]? = some x) (hlt : less y x = true)
    (hoth : ∀ i z, 0 < i → (i - 1) / 2 = k → i ≠ s → cs[i]? = some z → less z y = false)
    (inv : DownInv less cs k) : DownInv less (swap cs k s) s := by
  have hsl := getElem?_some_lt hy
  have hkl := getElem?_some_lt hx
  have hks : k < s := by omega
  obtain ⟨inv1, inv2⟩ := inv
  constructor
  · intro i z p hi hne hz hp
    rw [getElem?_swap cs k s i hkl hsl] at hz
    rw [getElem?_swap cs k s _ hkl hsl] at hp
    simp only [hne, if_false] at hp
    by_cases his : i = s
    · subst his
      simp only [if_true, hpar] at hz hp
      obtain rfl := Option.some.inj (hx.symm.trans hz)
      obtain rfl := Option.some.inj (hy.symm.trans hp)
      exact sw.asymm _ _ hlt
    · simp only [his, if_false] at hz
      by_cases hik : i = k
      · subst hik
        simp only [if_true] at hz
        obtain rfl := Option.some.inj (hy.symm.trans hz)
        have h1 : ¬ (i - 1) / 2 = i := by omega
        simp only [h1, if_false] at hp
        exact inv2 s _ p hs0 hi hpar hy hp
      · simp only [hik, if_false] at hz
        by_cases hpk : (i - 1) / 2 = k
        · simp only [hpk, if_true] at hp
          obtain rfl := Option.some.inj (hy.symm.trans hp)
          exact hoth i z hi hpk his hz
        · simp only [hpk, if_false] at hp
          exact inv1 i z p hi hpk hz hp
  · intro i z q hi _ hpi hz hq
    rw [getElem?_swap cs k s i hkl hsl] at hz
    rw [getElem?_swap cs k s _ hkl hsl] at hq
    have h1 : ¬ i = s := by omega
    have h2 : ¬ i = k := by omega
    simp only [h1, h2, if_false] at hz
    have h3 : ¬ (s - 1) / 2 = s := by omega
    have h4 : ¬ k = s := by omega
    simp only [h3, if_false, hpar, h4, if_true] at hq
    obtain rfl := Option.some.inj (hy.symm.trans hq)
    exact inv1 i z _ hi (by omega) hz (by rw [hpi]; exact hy)

theorem bubbleDownLoop_isHeap (less : T → T → Bool) (sw : StrictWeak less) :
    ∀ (fuel : Nat) (cs : List T) (k : Nat), cs.length ≤ k + fuel → DownInv less cs k →
      IsHeap less (bubbleDownLoop less fuel cs k) := by
  intro fuel
  induction fuel with
  | zero =>
    intro cs k hk inv i x p hi hx hp
    apply inv.1 i x p hi _ hx hp
    have := getElem?_some_lt hx
    simp only [bubbleDownLoop] at this
    omega
  | succ fuel ih =>
    intro cs k hk inv
    unfold bubbleDownLoop
    rcases swapIndex_spec less sw cs k with ⟨hs, hch⟩ | ⟨hs, hs0, hpar, y, x, hy, hx, hlt, hoth⟩
    · simp only [hs, if_true]
      intro i x p hi hx hp
      by_cases hpk : (i - 1) / 2 = k
      · exact hch i x p hi hpk hx (by rw [← hpk]; exact hp)
      · exact inv.1 i x p hi hpk hx hp
    · simp only [hs, if_false]
      apply ih
      · simp only [length_swap]; omega
      · exact DownInv_swap less sw cs k _ hs0 hpar y x hy hx hlt hoth inv

theorem bubbleUpLoop_perm (less : T → T → Bool) :
    ∀ (fuel : Nat) (cs : List T) (k : Nat), List.Perm (bubbleUpLoop less fuel cs k) cs := by
  intro fuel
  induction fuel with
  | zero => intro cs k; exact List.Perm.refl _
  | succ fuel ih =>
    intro cs k
    unfold bubbleUpLoop
    split
    · split
      · split
        · exact (ih _ _).trans (swap_perm _ _ _)
        · exact List.Perm.refl _
      · exact List.Perm.refl _
    · exact List.Perm.refl _

theorem bubbleDownLoop_perm (less : T → T → Bool) :
    ∀ (fuel : Nat) (cs : List T) (k : Nat), List.Perm (bubbleDownLoop less fuel cs k) cs := by
  intro fuel
  induction fuel with
  | zero => intro cs k; exact List.Perm.refl _
  | succ fuel ih =>
    intro cs k
    unfold bubbleDownLoop
    split
    · exact List.Perm.refl _
    · exact (ih _ _).trans (swap_perm _ _ _)

theorem isHeap_nil (less : T → T → Bool) : IsHeap less [] := by
  intro i x p _ hx _
  simp at hx

theorem isHeap_root_min (less : T → T → Bool) (sw : StrictWeak less) (cs : List T)
    (hh : IsHeap less cs) (r : T) (hr : cs[0]? = some r) :
    ∀ (j : Nat) (y : T), cs[j]? = some y → less y r = false := by
  intro j
  induction j using Nat.strong_induction_on with
  | _ j ih =>
    intro y hy
    by_cases hj : j = 0
    · subst hj
      obtain rfl := Option.some.inj (hr.symm.trans hy)
      cases h : less r r with
      | false => rfl
      | true => rw [sw.asymm _ _ h] at h; cases h
    · have hjl := getElem?_some_lt hy
      have hpl : (j - 1) / 2 < cs.length := by omega
      have h1 := hh j y _ (by omega) hy (List.getElem?_eq_getElem hpl)
      have h2 := ih ((j - 1) / 2) (by omega) _ (List.getElem?_eq_getElem hpl)
      exact sw.negTrans _ _ _ h1 h2

theorem isHeap_head_min (less : T → T → Bool) (sw : StrictWeak less) (r : T) (rest : List T)
    (hh : IsHeap less (r :: rest)) : ∀ y ∈ r :: rest, less y r = false := by
  intro y hy
  obtain ⟨j, hj, rfl⟩ := List.getElem_of_mem hy
  exact isHeap_root_min less sw _ hh r (by simp) j _ (List.getElem?_eq_getElem hj)

theorem Push_comparator (h : Heap T) (v : T) : (h.Push v).comparator = h.comparator := rfl

theorem Push_perm (h : Heap T) (v : T) : List.Perm (h.Push v).contents (v :: h.contents) := by
  unfold Heap.Push bubbleUp
  refine (bubbleUpLoop_perm _ _ _ _).trans ?_
  exact List.perm_append_comm

theorem Push_isHeap (h : Heap T) (v : T) (sw : StrictWeak h.comparator)
    (hh : IsHeap h.comparator h.contents) : IsHeap h.comparator (h.Push v).contents := by
  unfold Heap.Push bubbleUp
  apply bubbleUpLoop_isHeap _ sw _ _ _ (Nat.le_refl _) (by simp)
  constructor
  · intro i x p hi hne hx hp
    have hil := getElem?_some_lt hx
    simp only [List.length_append, List.length_singleton] at hil
    have hil' : i < h.contents.length := by omega
    rw [List.getElem?_append_left hil'] at hx
    rw [List.getElem?_append_left (by omega)] at hp
    exact hh i x p hi hx hp
  · intro i x q hi _ hpar hx _
    have hil := getElem?_some_lt hx
    simp only [List.length_append, List.length_singleton] at hil
    omega

theorem Pop_nil [Inhabited T] (h : Heap T) (hc : h.contents = []) :
    h.Pop = ((default, false), h) := by
  unfold Heap.Pop; rw [hc]

theorem moved_eq (root : T) (rest : List T) :
    ((root :: rest).set 0 ((root :: rest).getD rest.length root)).take rest.length
      = match rest.getLast? with
        | none => []
        | some l => l :: rest.dropLast := by
  rcases List.eq_nil_or_concat rest with h | ⟨init, l, h⟩
  · subst h; simp
  · subst h
    simp [List.getD_eq_getElem?_getD, List.getElem?_cons_succ, List.take_append_eq_append_take]

theorem moved_perm (root : T) (rest : List T) :
    List.Perm (((root :: rest).set 0 ((root :: rest).getD rest.length root)).take rest.length)
      rest := by
  rw [moved_eq]
  rcases List.eq_nil_or_concat rest with h | ⟨init, l, h⟩
  · subst h; simp
  · subst h
    have h1 : (init.concat l).getLast? = some l := by simp
    rw [h1]
    simpa using (@List.perm_append_comm _ [l] init)

theorem moved_getElem? (root : T) (rest : List T) (i : Nat) (x : T) (hi : 0 < i)
    (hx : (((root :: rest).set 0 ((root :: rest).getD rest.length root)).take rest.length)[i]?
      = some x) : (root :: rest)[i]? = some x := by
  rw [List.getElem?_take] at hx
  split at hx
  · rw [List.getElem?_set_ne (by omega)] at hx
    exact hx
  · cases hx

theorem Pop_cons [Inhabited T] (h : Heap T) (root : T) (rest : List T)
    (hc : h.contents = root :: rest) :
    h.Pop = ((root, true), Heap.mk (bubbleDown h.comparator
      (((root :: rest).set 0 ((root :: rest).getD rest.length root)).take rest.length) 0)
      h.comparator) := by
  unfold Heap.Pop; rw [hc]

theorem Pop_perm [Inhabited T] (h : Heap T) (root : T) (rest : List T)
    (hc : h.contents = root :: rest) : List.Perm h.Pop.2.contents rest := by
  rw [Pop_cons h root rest hc]
  exact (bubbleDownLoop_perm _ _ _ _).trans (moved_perm root rest)

theorem Pop_isHeap [Inhabited T] (h : Heap T) (sw : StrictWeak h.comparator)
    (hh : IsHeap h.comparator h.contents) : IsHeap h.comparator h.Pop.2.contents := by
  cases hc : h.contents with
  | nil => rw [Pop_nil h hc, hc]; exact isHeap_nil _
  | cons root rest =>
    rw [Pop_cons h root rest hc]
    apply bubbleDownLoop_isHeap _ sw _ _ _ (Nat.le_add_left _ _)
    constructor
    · intro i x p hi hne hx hp
      rw [hc] at hh
      exact hh i x p hi (moved_getElem? root rest i x hi hx)
        (moved_getElem? root rest _ p (by omega) hp)
    · intro i x q _ hk
      omega

theorem Pop_comparator [Inhabited T] (h : Heap T) : h.Pop.2.comparator = h.comparator := by
  unfold Heap.Pop
  split <;> rfl

theorem pushAll_comparator (h : Heap T) (vs : List T) :
    (pushAll h vs).comparator = h.comparator := by
  induction vs generalizing h with
  | nil => rfl
  | cons v vs ih => simp only [pushAll, List.foldl_cons] at ih ⊢; rw [ih]; rfl

theorem pushAll_isHeap (h : Heap T) (sw : StrictWeak h.comparator)
    (hh : IsHeap h.comparator h.contents) (vs : List T) :
    IsHeap h.comparator (pushAll h vs).contents := by
  induction vs generalizing h with
  | nil => exact hh
  | cons v vs ih =>
    simp only [pushAll, List.foldl_cons] at ih ⊢
    exact ih (h.Push v) sw (Push_isHeap h v sw hh)

theorem pushAll_perm (h : Heap T) (vs : List T) :
    List.Perm (pushAll h vs).contents (h.contents ++ vs) := by
  induction vs generalizing h with
  | nil => simp [pushAll]
  | cons v vs ih =>
    simp only [pushAll, List.foldl_cons] at ih ⊢
    refine (ih (h.Push v)).trans ?_
    refine ((Push_perm h v).append_right vs).trans ?_
    simp only [List.cons_append]
    exact List.perm_middle.symm

/-- Draining a heap: enough fuel gives a list in which no later element is preferred to an
earlier one, and which is a permutation of the contents. -/
theorem popAll_spec [Inhabited T] :
    ∀ (fuel : Nat) (h : Heap T), StrictWeak h.comparator → IsHeap h.comparator h.contents →
      h.contents.length ≤ fuel →
      ∃ out, popAll fuel h = some out ∧ List.Perm out h.contents ∧
        List.Pairwise (fun a b => h.comparator b a = false) out := by
  intro fuel
  induction fuel with
  | zero =>
    intro h _ _ hl
    have hc : h.contents = [] := List.eq_nil_of_length_eq_zero (by omega)
    refine ⟨[], ?_, ?_, List.Pairwise.nil⟩
    · simp [popAll, Heap.IsEmpty, hc]
    · rw [hc]
  | succ fuel ih =>
    intro h sw hh hl
    cases hc : h.contents with
    | nil =>
      refine ⟨[], ?_, List.Perm.refl _, List.Pairwise.nil⟩
      simp [popAll, Heap.IsEmpty, hc]
    | cons root rest =>
      have hperm := Pop_perm h root rest hc
      have hcmp := Pop_comparator h
      have hheap := Pop_isHeap h sw hh
      have hlen : h.Pop.2.contents.length ≤ fuel := by
        rw [hperm.length_eq]; rw [hc] at hl; simpa using hl
      obtain ⟨out, hout, hp, hs⟩ := ih h.Pop.2 (by rw [hcmp]; exact sw)
        (by rw [hcmp]; exact hheap) hlen
      have hroot : h.Pop.1.1 = root := by rw [Pop_cons h root rest hc]
      refine ⟨root :: out, ?_, ?_, ?_⟩
      · simp [popAll, Heap.IsEmpty, hc, hout, hroot]
      · exact (hp.trans hperm).cons root
      · rw [List.pairwise_cons]
        refine ⟨?_, by rw [hcmp] at hs; exact hs⟩
        intro y hy
        rw [hc] at hh
        exact isHeap_head_min _ sw root rest hh y
          (List.mem_cons_of_mem _ ((hp.trans hperm).subset hy))

theorem strictWeak_lt_int : StrictWeak (fun a b : Int => decide (a < b)) where
  asymm := by intro a b h; simp only [decide_eq_true_eq, decide_eq_false_iff_not] at *; omega
  trans := by intro a b c h1 h2; simp only [decide_eq_true_eq] at *; omega
  negTrans := by intro a b c h1 h2; simp only [decide_eq_false_iff_not] at *; omega

theorem strictWeak_gt_int : StrictWeak (fun a b : Int => decide (b < a)) where
  asymm := by intro a b h; simp only [decide_eq_true_eq, decide_eq_false_iff_not] at *; omega
  trans := by intro a b c h1 h2; simp only [decide_eq_true_eq] at *; omega
  negTrans := by intro a b c h1 h2; simp only [decide_eq_false_iff_not] at *; omega

/-- C10 (heap pop order): pushing any finite sequence of integers onto a heap made by
`NewMin` and popping until it is empty yields a non-decreasing sequence, and for a heap made by
`NewMax` a non-increasing one; in both cases the popped sequence is a rearrangement of the
pushed one. -/
theorem heap_pop_order (values : List Int) (fuel : Nat) (hfuel : values.length ≤ fuel) :
    (∃ out, popAll fuel (pushAll (NewMin : Heap Int) values) = some out ∧
      List.Pairwise (fun a b => a ≤ b) out ∧ List.Perm out values) ∧
    (∃ out, popAll fuel (pushAll (NewMax : Heap Int) values) = some out ∧
      List.Pairwise (fun a b => b ≤ a) out ∧ List.Perm out values) := by
  constructor
  · have hperm := pushAll_perm (NewMin : Heap Int) values
    have hheap := pushAll_isHeap (NewMin : Heap Int) strictWeak_lt_int (isHeap_nil _) values
    have hcmp := pushAll_comparator (NewMin : Heap Int) values
    have hlen : (pushAll (NewMin : Heap Int) values).contents.length ≤ fuel := by
      rw [hperm.length_eq]; simpa [NewMin] using hfuel
    obtain ⟨out, ho, hp, hs⟩ := popAll_spec fuel (pushAll (NewMin : Heap Int) values)
      (by rw [hcmp]; exact strictWeak_lt_int) (by rw [hcmp]; exact hheap) hlen
    refine ⟨out, ho, ?_, ?_⟩
    · rw [hcmp] at hs
      refine hs.imp ?_
      intro a b hab
      simp only [NewMin, decide_eq_false_iff_not] at hab
      omega
    · simpa [NewMin] using hp.trans hperm
  · have hperm := pushAll_perm (NewMax : Heap Int) values
    have hheap := pushAll_isHeap (NewMax : Heap Int) strictWeak_gt_int (isHeap_nil _) values
    have hcmp := pushAll_comparator (NewMax : Heap Int) values
    have hlen : (pushAll (NewMax : Heap Int) values).contents.length ≤ fuel := by
      rw [hperm.length_eq]; simpa [NewMax] using hfuel
    obtain ⟨out, ho, hp, hs⟩ := popAll_spec fuel (pushAll (NewMax : Heap Int) values)
      (by rw [hcmp]; exact strictWeak_gt_int) (by rw [hcmp]; exact hheap) hlen
    refine ⟨out, ho, ?_, ?_⟩
    · rw [hcmp] at hs
      refine hs.imp ?_
      intro a b hab
      simp only [NewMax, decide_eq_false_iff_not] at hab
      omega
    · simpa [NewMax] using hp.trans hperm

/-- C10, the test of `heap_test.go`: pushing 20, 50, 88, 32 onto a min-heap pops
20, 32, 50, 88. -/
theorem heap_pop_order_witness :
    popAll 4 (pushAll (NewMin : Heap Int) [20, 50, 88, 32]) = some [20, 32, 50, 88] ∧
    popAll 4 (pushAll (NewMax : Heap Int) [1, 2, 3, 4]) = some [4, 3, 2, 1] ∧
    ((∃ out, popAll 4 (pushAll (NewMin : Heap Int) [20, 50, 88, 32]) = some out ∧
      List.Pairwise (fun a b => a ≤ b) out ∧ List.Perm out [20, 50, 88, 32]) ∧
    (∃ out, popAll 4 (pushAll (NewMax : Heap Int) [20, 50, 88, 32]) = some out ∧
      List.Pairwise (fun a b => b ≤ a) out ∧ List.Perm out [20, 50, 88, 32])) :=
  ⟨by decide, by decide, heap_pop_order [20, 50, 88, 32] 4 (by decide)⟩

theorem newMin_eq_new [LT T] [DecidableRel (fun a b : T => a < b)] :
    (NewMin : Heap T) = New (fun a b => decide (a < b)) := rfl

theorem newMax_eq_new [LT T] [DecidableRel (fun a b : T => a < b)] :
    (NewMax : Heap T) = New (fun a b => decide (b < a)) := rfl

theorem constructed_isHeap [Inhabited T] (less : T → T → Bool) (sw : StrictWeak less)
    (h : Heap T) (hc : Constructed less h) :
    h.comparator = less ∧ IsHeap less h.contents := by
  induction hc with
  | new => exact ⟨rfl, isHeap_nil less⟩
  | push h value _ ih =>
    obtain ⟨h1, h2⟩ := ih
    refine ⟨by rw [Push_comparator, h1], ?_⟩
    have := Push_isHeap h value (by rw [h1]; exact sw) (by rw [h1]; exact h2)
    rw [h1] at this
    exact this
  | pop h _ ih =>
    obtain ⟨h1, h2⟩ := ih
    refine ⟨by rw [Pop_comparator, h1], ?_⟩
    have := Pop_isHeap h (by rw [h1]; exact sw) (by rw [h1]; exact h2)
    rw [h1] at this
    exact this
  | clear h _ ih => exact ⟨ih.1, isHeap_nil less⟩

theorem Push_len (h : Heap T) (v : T) : (h.Push v).Len = h.Len + 1 := by
  have := (Push_perm h v).length_eq
  simpa [Heap.Len] using this

theorem isEmpty_eq_false_iff (h : Heap T) :
    h.IsEmpty = false ↔ ∃ root rest, h.contents = root :: rest := by
  unfold Heap.IsEmpty
  cases hcs : h.contents with
  | nil => simp
  | cons a l => simp

theorem isEmpty_eq_true_iff_nil (h : Heap T) : h.IsEmpty = true ↔ h.contents = [] := by
  unfold Heap.IsEmpty
  cases hcs : h.contents with
  | nil => simp
  | cons a l => simp

theorem Pop_len [Inhabited T] (h : Heap T) (root : T) (rest : List T)
    (hc : h.contents = root :: rest) : h.Pop.2.Len + 1 = h.Len := by
  have := (Pop_perm h root rest hc).length_eq
  simp only [Heap.Len, hc, List.length_cons]
  omega

theorem runCalls_len [Inhabited T] (calls : List (Call T)) :
    ∀ h : Heap T, (runCalls h calls).1.Len + (runCalls h calls).2.2
      = h.Len + (runCalls h calls).2.1 := by
  induction calls with
  | nil => intro h; simp [runCalls]
  | cons c rest ih =>
    intro h
    cases c with
    | push value =>
      have := ih (h.Push value)
      rw [Push_len] at this
      simp only [runCalls]
      omega
    | pop =>
      have := ih h.Pop.2
      simp only [runCalls]
      cases hcs : h.contents with
      | nil =>
        rw [Pop_nil h hcs] at this ⊢
        simp only [Bool.false_eq_true, if_false] at this ⊢
        omega
      | cons root tl =>
        have hl := Pop_len h root tl hcs
        have hf : h.Pop.1.2 = true := by rw [Pop_cons h root tl hcs]
        rw [hf]
        simp only [if_true]
        omega

/-- C11 (heap property invariant): for every heap reachable from `New(comparator)` (so also
from `NewMin` and `NewMax`) by calls of `Push`, `Pop` and `Clear`, with a comparator that is a
strict weak order, the heap keeps that comparator, and for every index `i > 0` of the contents
`comparator(contents[i], contents[(i-1)/2])` is false. -/
theorem heap_property_invariant [Inhabited T] (comparator : T → T → Bool)
    (sw : StrictWeak comparator) (h : Heap T) (hc : Constructed comparator h)
    (i : Nat) (hpos : 0 < i) (hi : i < h.contents.length) :
    h.comparator = comparator ∧
    ∃ hp : (i - 1) / 2 < h.contents.length,
      h.comparator (h.contents.get ⟨i, hi⟩) (h.contents.get ⟨(i - 1) / 2, hp⟩) = false := by
  obtain ⟨h1, h2⟩ := constructed_isHeap comparator sw h hc
  have hp : (i - 1) / 2 < h.contents.length := by omega
  refine ⟨h1, hp, ?_⟩
  rw [h1]
  exact h2 i _ _ hpos (List.getElem?_eq_getElem hi) (List.getElem?_eq_getElem hp)

/-- C11 on a min-heap of integers: after pushing 20, 50, 88, 32 and popping once the contents
are `[32, 50, 88]`, and the element at index 2 is not less than its parent at index 0. -/
theorem heap_property_invariant_witness :
    ((((((NewMin : Heap Int).Push 20).Push 50).Push 88).Push 32).Pop.2).contents = [32, 50, 88] ∧
    (((((NewMin : Heap Int).Push 20).Push 50).Push 88).Push 32).Pop.2.comparator
      = (fun a b : Int => decide (a < b)) ∧
    ∃ hp : (2 - 1) / 2 <
        ((((((NewMin : Heap Int).Push 20).Push 50).Push 88).Push 32).Pop.2).contents.length,
      (((((NewMin : Heap Int).Push 20).Push 50).Push 88).Push 32).Pop.2.comparator
        (((((((NewMin : Heap Int).Push 20).Push 50).Push 88).Push 32).Pop.2).contents.get
          ⟨2, by decide⟩)
        (((((((NewMin : Heap Int).Push 20).Push 50).Push 88).Push 32).Pop.2).contents.get
          ⟨(2 - 1) / 2, hp⟩) = false :=
  ⟨by decide, heap_property_invariant (fun a b : Int => decide (a < b)) strictWeak_lt_int _
    (Constructed.pop _ (Constructed.push _ 32 (Constructed.push _ 88 (Constructed.push _ 50
      (Constructed.push _ 20 Constructed.new))))) 2 (by decide) (by decide)⟩

/-- C12 (heap length accounting): starting from an empty heap, after any sequence of calls
with `N` calls of `Push` and `K` calls of `Pop` that returned `found = true`, `K ≤ N` and
`Len()` is `N - K`; each `Push` raises `Len()` by exactly 1, and each `Pop` on a non-empty heap
returns `found = true` and lowers `Len()` by exactly 1. -/
theorem heap_len_accounting [Inhabited T] (h : Heap T) (hemp : h.IsEmpty = true)
    (calls : List (Call T)) :
    (runCalls h calls).2.2 ≤ (runCalls h calls).2.1 ∧
    (runCalls h calls).1.Len = (runCalls h calls).2.1 - (runCalls h calls).2.2 ∧
    (∀ (h1 : Heap T) (value : T), (h1.Push value).Len = h1.Len + 1) ∧
    (∀ h1 : Heap T, h1.IsEmpty = false → h1.Pop.1.2 = true ∧ h1.Pop.2.Len + 1 = h1.Len) := by
  have h0 : h.Len = 0 := by
    have := (isEmpty_eq_true_iff_nil h).1 hemp
    simp [Heap.Len, this]
  have := runCalls_len calls h
  refine ⟨by omega, by omega, Push_len, ?_⟩
  intro h1 hne
  obtain ⟨root, rest, hcs⟩ := (isEmpty_eq_false_iff h1).1 hne
  exact ⟨by rw [Pop_cons h1 root rest hcs], Pop_len h1 root rest hcs⟩

/-- C12 on the test heap: pushing 10, 7, 21, 99 onto a min-heap gives `Len() = 4`, and after
one `Pop` it is 3. -/
theorem heap_len_accounting_witness :
    (runCalls (NewMin : Heap Int)
      [Call.push 10, Call.push 7, Call.push 21, Call.push 99, Call.pop]).1.Len = 3 ∧
    (runCalls (NewMin : Heap Int)
      [Call.push 10, Call.push 7, Call.push 21, Call.push 99, Call.pop]).2 = (4, 1) ∧
    (runCalls (NewMin : Heap Int)
      [Call.push 10, Call.push 7, Call.push 21, Call.push 99, Call.pop]).1.Len
      = (runCalls (NewMin : Heap Int)
          [Call.push 10, Call.push 7, Call.push 21, Call.push 99, Call.pop]).2.1
        - (runCalls (NewMin : Heap Int)
          [Call.push 10, Call.push 7, Call.push 21, Call.push 99, Call.pop]).2.2 :=
  ⟨by decide, by decide, (heap_len_accounting (NewMin : Heap Int) (by decide)
    [Call.push 10, Call.push 7, Call.push 21, Call.push 99, Call.pop]).2.1⟩

/-- C13 (empty heap signals not-found): on an empty heap `Pop()` and `Peek()` return the zero
value with `found = false` and `Pop()` leaves the heap as it was, with `Len() = 0`; on a
non-empty heap both return `found = true`. -/
theorem heap_empty_not_found [Inhabited T] (h : Heap T) :
    (h.IsEmpty = true →
      h.Pop.1 = (default, false) ∧ h.Peek = (default, false) ∧ h.Pop.2 = h ∧
      h.Pop.2.Len = 0 ∧ h.Pop.2.IsEmpty = true) ∧
    (h.IsEmpty = false → h.Pop.1.2 = true ∧ h.Peek.2 = true) := by
  constructor
  · intro hemp
    have hnil := (isEmpty_eq_true_iff_nil h).1 hemp
    rw [Pop_nil h hnil]
    refine ⟨rfl, ?_, rfl, ?_, hemp⟩
    · simp [Heap.Peek, hnil]
    · simp [Heap.Len, hnil]
  · intro hne
    obtain ⟨root, rest, hcs⟩ := (isEmpty_eq_false_iff h).1 hne
    refine ⟨by rw [Pop_cons h root rest hcs], ?_⟩
    simp [Heap.Peek, hcs]

/-- C13 on the test heaps: `Pop()` and `Peek()` on an empty heap of integers return
`(0, false)`; after one `Push` both return `found = true`. -/
theorem heap_empty_not_found_witness :
    ((NewMin : Heap Int).Pop.1 = (0, false) ∧ (NewMin : Heap Int).Peek = (0, false) ∧
      (NewMin : Heap Int).Pop.2 = NewMin ∧ (NewMin : Heap Int).Pop.2.Len = 0 ∧
      (NewMin : Heap Int).Pop.2.IsEmpty = true) ∧
    (((NewMin : Heap Int).Push 5).Pop.1.2 = true ∧ ((NewMin : Heap Int).Push 5).Peek.2 = true) :=
  ⟨(heap_empty_not_found (NewMin : Heap Int)).1 (by decide),
    (heap_empty_not_found ((NewMin : Heap Int).Push 5)).2 (by decide)⟩

/-- C14 (Peek reads the root): on a non-empty heap `Peek()` returns the first element of the
contents with `found = true`, and that value is the value `Pop()` returns on the same heap.
`Peek` assigns to no field of the heap, so the heap after the call, and with it `Len()` and
`Values()`, is the heap before the call. -/
theorem peek_reads_root [Inhabited T] (h : Heap T) (hne : h.IsEmpty = false) :
    h.contents[0]? = some h.Peek.1 ∧ h.Peek.2 = true ∧ h.Peek = h.Pop.1 ∧
    h.Values[0]? = some h.Peek.1 := by
  obtain ⟨root, rest, hcs⟩ := (isEmpty_eq_false_iff h).1 hne
  rw [Pop_cons h root rest hcs]
  simp [Heap.Peek, hcs, Heap.Values, copySlice, Heap.Len]

/-- C14 on the test heap: after pushing 7, 1, 25 onto a min-heap `Peek()` returns 1 and
`Len()` is 3. -/
theorem peek_reads_root_witness :
    ((((NewMin : Heap Int).Push 7).Push 1).Push 25).Peek = (1, true) ∧
    ((((NewMin : Heap Int).Push 7).Push 1).Push 25).Len = 3 ∧
    (((((NewMin : Heap Int).Push 7).Push 1).Push 25).contents[0]?
        = some ((((NewMin : Heap Int).Push 7).Push 1).Push 25).Peek.1 ∧
      ((((NewMin : Heap Int).Push 7).Push 1).Push 25).Peek.2 = true ∧
      ((((NewMin : Heap Int).Push 7).Push 1).Push 25).Peek
        = ((((NewMin : Heap Int).Push 7).Push 1).Push 25).Pop.1 ∧
      ((((NewMin : Heap Int).Push 7).Push 1).Push 25).Values[0]?
        = some ((((NewMin : Heap Int).Push 7).Push 1).Push 25).Peek.1) :=
  ⟨by decide, by decide,
    peek_reads_root ((((NewMin : Heap Int).Push 7).Push 1).Push 25) (by decide)⟩

theorem copySlice_replicate [Inhabited T] (cs : List T) :
    copySlice (List.replicate cs.length (default : T)) cs = cs := by
  simp [copySlice]

/-- C15 (Values returns the contents in heap order): for every heap `Values()` has length
`Len()` and is equal, element by element, to the backing slice `contents`, in heap layout.
`Values` writes to a new slice only, so the heap is as before the call. -/
theorem values_eq_contents [Inhabited T] (h : Heap T) :
    h.Values.length = h.Len ∧ (∀ i : Nat, h.Values[i]? = h.contents[i]?) ∧
    h.Values = h.contents := by
  have : h.Values = h.contents := copySlice_replicate h.contents
  rw [this]
  exact ⟨rfl, fun _ => rfl, rfl⟩

/-- C15 on the test heap: pushing 7, 1, 25 onto a max-heap gives `Values() = [25, 1, 7]`,
which is not the sorted order. -/
theorem values_eq_contents_witness :
    ((((NewMax : Heap Int).Push 7).Push 1).Push 25).Values = [25, 1, 7] ∧
    ((((NewMax : Heap Int).Push 7).Push 1).Push 25).Values.length
      = ((((NewMax : Heap Int).Push 7).Push 1).Push 25).Len :=
  ⟨by decide, (values_eq_contents ((((NewMax : Heap Int).Push 7).Push 1).Push 25)).1⟩

theorem swapIndex_none (less : T → T → Bool) (cs : List T) (k : Nat)
    (hl : cs[2 * k + 1]? = none) : swapIndex less cs k = k := by
  have hr : cs[2 * k + 2]? = none := by
    rw [List.getElem?_eq_none_iff] at hl ⊢
    omega
  simp only [swapIndex, List.get?_eq_getElem?, hl, hr]

theorem swapIndex_left (less : T → T → Bool) (cs : List T) (k : Nat) (x l : T)
    (hx : cs[k]? = some x) (hl : cs[2 * k + 1]? = some l) (hr : cs[2 * k + 2]? = none) :
    swapIndex less cs k = if less l x then 2 * k + 1 else k := by
  simp only [swapIndex, List.get?_eq_getElem?, hl, hr, hx]

theorem swapIndex_both (less : T → T → Bool) (cs : List T) (k : Nat) (x l r : T)
    (hx : cs[k]? = some x) (hl : cs[2 * k + 1]? = some l) (hr : cs[2 * k + 2]? = some r) :
    swapIndex less cs k =
      if less l x then (if less r l then 2 * k + 2 else 2 * k + 1)
      else if less r x then 2 * k + 2 else k := by
  cases h1 : less l x <;> simp [swapIndex, List.get?_eq_getElem?, hl, hr, hx, h1]

theorem swapIndex_cases (less : T → T → Bool) (cs : List T) (k : Nat) :
    swapIndex less cs k = k ∨
    (swapIndex less cs k = 2 * k + 1 ∧ 2 * k + 1 < cs.length) ∨
    (swapIndex less cs k = 2 * k + 2 ∧ 2 * k + 2 < cs.length) := by
  cases hx : cs[k]? with
  | none =>
    left
    have hl : cs[2 * k + 1]? = none := by
      rw [List.getElem?_eq_none_iff] at hx ⊢
      omega
    exact swapIndex_none less cs k hl
  | some x =>
    cases hl : cs[2 * k + 1]? with
    | none => left; exact swapIndex_none less cs k hl
    | some l =>
      have hll := getElem?_some_lt hl
      cases hr : cs[2 * k + 2]? with
      | none =>
        rw [swapIndex_left less cs k x l hx hl hr]
        by_cases h1 : less l x = true
        · right; left; rw [if_pos h1]; exact ⟨rfl, hll⟩
        · left; rw [if_neg h1]
      | some r =>
        have hrl := getElem?_some_lt hr
        rw [swapIndex_both less cs k x l r hx hl hr]
        by_cases h1 : less l x = true
        · rw [if_pos h1]
          by_cases h2 : less r l = true
          · right; right; rw [if_pos h2]; exact ⟨rfl, hrl⟩
          · right; left; rw [if_neg h2]; exact ⟨rfl, hll⟩
        · rw [if_neg h1]
          by_cases h2 : less r x = true
          · right; right; rw [if_pos h2]; exact ⟨rfl, hrl⟩
          · left; rw [if_neg h2]

theorem bubbleDownLoop_succ (less : T → T → Bool) (fuel : Nat) (cs : List T) (k : Nat) :
    bubbleDownLoop less (fuel + 1) cs k =
      if swapIndex less cs k = k then cs
      else bubbleDownLoop less fuel (swap cs k (swapIndex less cs k)) (swapIndex less cs k) :=
  rfl

theorem bubbleDownLoop_stable (less : T → T → Bool) :
    ∀ (fuel1 fuel2 : Nat) (cs : List T) (k : Nat), cs.length ≤ k + fuel1 →
      cs.length ≤ k + fuel2 →
      bubbleDownLoop less fuel1 cs k = bubbleDownLoop less fuel2 cs k := by
  intro fuel1
  induction fuel1 with
  | zero =>
    intro fuel2 cs k h1 _
    have hk : swapIndex less cs k = k := by
      rcases swapIndex_cases less cs k with h | h | h
      · exact h
      · omega
      · omega
    cases fuel2 with
    | zero => rfl
    | succ fuel2 => simp only [bubbleDownLoop, hk, if_true]
  | succ fuel1 ih =>
    intro fuel2 cs k h1 h2
    by_cases hk : swapIndex less cs k = k
    · cases fuel2 with
      | zero => simp only [bubbleDownLoop, hk, if_true]
      | succ fuel2 => simp only [bubbleDownLoop, hk, if_true]
    · have hlt : k < swapIndex less cs k ∧ swapIndex less cs k < cs.length := by
        rcases swapIndex_cases less cs k with h | h | h
        · exact absurd h hk
        · omega
        · omega
      cases fuel2 with
      | zero => omega
      | succ fuel2 =>
        simp only [bubbleDownLoop, hk, if_false]
        apply ih
        · simp only [length_swap]; omega
        · simp only [length_swap]; omega

theorem bubbleDown_step (less : T → T → Bool) (cs : List T) (k : Nat) :
    bubbleDown less cs k =
      if swapIndex less cs k = k then cs
      else bubbleDown less (swap cs k (swapIndex less cs k)) (swapIndex less cs k) := by
  unfold bubbleDown
  by_cases hk : swapIndex less cs k = k
  · rw [if_pos hk]
    cases hl : cs.length with
    | zero => rfl
    | succ n => simp only [bubbleDownLoop, hk, if_true]
  · rw [if_neg hk]
    have hlt : k < swapIndex less cs k ∧ swapIndex less cs k < cs.length := by
      rcases swapIndex_cases less cs k with h | h | h
      · exact absurd h hk
      · omega
      · omega
    have e1 : bubbleDownLoop less cs.length cs k
        = bubbleDownLoop less (cs.length - 1 + 1) cs k := by
      congr 1; omega
    rw [e1, bubbleDownLoop_succ, if_neg hk]
    apply bubbleDownLoop_stable
    · simp only [length_swap]; omega
    · simp only [length_swap]; omega

theorem popAll_perm [Inhabited T] :
    ∀ (fuel : Nat) (h : Heap T), h.contents.length ≤ fuel →
      ∃ out, popAll fuel h = some out ∧ List.Perm out h.contents := by
  intro fuel
  induction fuel with
  | zero =>
    intro h hl
    have hc : h.contents = [] := List.eq_nil_of_length_eq_zero (by omega)
    refine ⟨[], ?_, ?_⟩
    · simp [popAll, Heap.IsEmpty, hc]
    · rw [hc]
  | succ fuel ih =>
    intro h hl
    cases hc : h.contents with
    | nil =>
      refine ⟨[], ?_, List.Perm.refl _⟩
      simp [popAll, Heap.IsEmpty, hc]
    | cons root rest =>
      have hperm := Pop_perm h root rest hc
      have hlen : h.Pop.2.contents.length ≤ fuel := by
        rw [hperm.length_eq]; rw [hc] at hl; simpa using hl
      obtain ⟨out, hout, hp⟩ := ih h.Pop.2 hlen
      have hroot : h.Pop.1.1 = root := by rw [Pop_cons h root rest hc]
      refine ⟨root :: out, ?_, ?_⟩
      · simp [popAll, Heap.IsEmpty, hc, hout, hroot]
      · exact (hp.trans hperm).cons root

/-- C33 (sift-down child choice): in `bubbleDown` at `index`, with current element `x`, when
there is no left child nothing is swapped; with only a left child `l` the swap is with `l` when
`comparator(l, x)` and there is none otherwise; with both children `l` and `r` the swap is with
`l` when `comparator(l, x)` holds and `comparator(r, l)` does not, with `r` when `comparator(l, x)`
and `comparator(r, l)` hold or when `comparator(l, x)` fails and `comparator(r, x)` holds, and
there is none when neither `comparator(l, x)` nor `comparator(r, x)` holds. The loop ends when
there is no swap and otherwise swaps and goes on from the child, and `len(contents)` iterations
or more all give this result. -/
theorem siftdown_child_choice (comparator : T → T → Bool) (cs : List T) (index : Nat) (x : T)
    (hx : cs[index]? = some x) :
    (cs[2 * index + 1]? = none → swapIndex comparator cs index = index) ∧
    (∀ l, cs[2 * index + 1]? = some l → cs[2 * index + 2]? = none →
      swapIndex comparator cs index = if comparator l x then 2 * index + 1 else index) ∧
    (∀ l r, cs[2 * index + 1]? = some l → cs[2 * index + 2]? = some r →
      swapIndex comparator cs index =
        if comparator l x then (if comparator r l then 2 * index + 2 else 2 * index + 1)
        else if comparator r x then 2 * index + 2 else index) ∧
    bubbleDown comparator cs index =
      (if swapIndex comparator cs index = index then cs
      else bubbleDown comparator (swap cs index (swapIndex comparator cs index))
        (swapIndex comparator cs index)) ∧
    (swapIndex comparator cs index ≠ index →
      (swap cs index (swapIndex comparator cs index))[index]? = cs[swapIndex comparator cs index]? ∧
      (swap cs index (swapIndex comparator cs index))[swapIndex comparator cs index]? = some x) ∧
    ∀ fuel, cs.length ≤ fuel →
      bubbleDownLoop comparator fuel cs index = bubbleDown comparator cs index := by
  refine ⟨swapIndex_none comparator cs index,
    fun l hl hr => swapIndex_left comparator cs index x l hx hl hr,
    fun l r hl hr => swapIndex_both comparator cs index x l r hx hl hr,
    bubbleDown_step comparator cs index, ?_, ?_⟩
  · intro hne
    have hlt : index < swapIndex comparator cs index ∧
        swapIndex comparator cs index < cs.length := by
      rcases swapIndex_cases comparator cs index with h | h | h
      · exact absurd h hne
      · omega
      · omega
    have hi := getElem?_some_lt hx
    rw [getElem?_swap cs index _ _ hi hlt.2, getElem?_swap cs index _ _ hi hlt.2]
    simp only [if_true, if_neg (Ne.symm hne), hx]
    exact ⟨trivial, trivial⟩
  · intro fuel hf
    unfold bubbleDown
    apply bubbleDownLoop_stable
    · omega
    · omega

/-- C33 on the test: a min-heap after pushing 10, 20, 5, 30 has the contents
`[5, 20, 10, 30]`; `Pop` returns 5 and sifts 30 down from the root of `[30, 20, 10]`, where the
right child 10 is chosen, and leaves 10 at the root. -/
theorem siftdown_child_choice_witness :
    (((((NewMin : Heap Int).Push 10).Push 20).Push 5).Push 30).contents = [5, 20, 10, 30] ∧
    (((((NewMin : Heap Int).Push 10).Push 20).Push 5).Push 30).Pop.1 = (5, true) ∧
    (((((NewMin : Heap Int).Push 10).Push 20).Push 5).Push 30).Pop.2.contents = [10, 20, 30] ∧
    swapIndex (fun a b : Int => decide (a < b)) [30, 20, 10] 0 = 2 ∧
    bubbleDown (fun a b : Int => decide (a < b)) [30, 20, 10] 0 = [10, 20, 30] ∧
    swapIndex (fun a b : Int => decide (a < b)) [30, 20, 10] 0 =
      (if (fun a b : Int => decide (a < b)) 20 30 then
        (if (fun a b : Int => decide (a < b)) 10 20 then 2 * 0 + 2 else 2 * 0 + 1)
      else if (fun a b : Int => decide (a < b)) 10 30 then 2 * 0 + 2 else 0) :=
  ⟨by decide, by decide, by decide, by decide, by decide,
    (siftdown_child_choice (fun a b : Int => decide (a < b)) [30, 20, 10] 0 30 rfl).2.2.1
      20 10 rfl rfl⟩

/-- C34 (Pop returns a most-preferred element): for every non-empty heap reachable from
`New(comparator)` by calls of `Push`, `Pop` and `Clear`, where the comparator is a strict weak
order, `Pop()` and `Peek()` return `found = true` and the same value, which is stored in the
heap, and `comparator(x, value)` is false for every element `x` stored in the heap at the time
of the call. -/
theorem pop_most_preferred [Inhabited T] (comparator : T → T → Bool)
    (sw : StrictWeak comparator) (h : Heap T) (hc : Constructed comparator h)
    (hne : h.IsEmpty = false) :
    h.Pop.1.2 = true ∧ h.Peek = h.Pop.1 ∧ h.Pop.1.1 ∈ h.contents ∧
    (∀ x ∈ h.contents, comparator x h.Pop.1.1 = false) ∧
    (∀ x ∈ h.contents, comparator x h.Peek.1 = false) := by
  obtain ⟨hcmp, hh⟩ := constructed_isHeap comparator sw h hc
  obtain ⟨root, rest, hcs⟩ := (isEmpty_eq_false_iff h).1 hne
  have hpop : h.Pop.1 = (root, true) := by rw [Pop_cons h root rest hcs]
  have hpeek : h.Peek = (root, true) := by unfold Heap.Peek; rw [hcs]
  rw [hcs] at hh
  have hmin := isHeap_head_min comparator sw root rest hh
  rw [hpop, hpeek, hcs]
  exact ⟨rfl, rfl, List.mem_cons_self _ _, hmin, hmin⟩

/-- C34 on a max-heap of integers: after pushing 1, 4, 2, 3 `Pop()` and `Peek()` return 4, and
no stored element is greater than 4. -/
theorem pop_most_preferred_witness :
    (((((NewMax : Heap Int).Push 1).Push 4).Push 2).Push 3).Pop.1 = (4, true) ∧
    (((((NewMax : Heap Int).Push 1).Push 4).Push 2).Push 3).Pop.1.2 = true ∧
    (((((NewMax : Heap Int).Push 1).Push 4).Push 2).Push 3).Peek
      = (((((NewMax : Heap Int).Push 1).Push 4).Push 2).Push 3).Pop.1 ∧
    (((((NewMax : Heap Int).Push 1).Push 4).Push 2).Push 3).Pop.1.1
      ∈ (((((NewMax : Heap Int).Push 1).Push 4).Push 2).Push 3).contents ∧
    (∀ x ∈ (((((NewMax : Heap Int).Push 1).Push 4).Push 2).Push 3).contents,
      (fun a b : Int => decide (b < a)) x
        (((((NewMax : Heap Int).Push 1).Push 4).Push 2).Push 3).Pop.1.1 = false) ∧
    (∀ x ∈ (((((NewMax : Heap Int).Push 1).Push 4).Push 2).Push 3).contents,
      (fun a b : Int => decide (b < a)) x
        (((((NewMax : Heap Int).Push 1).Push 4).Push 2).Push 3).Peek.1 = false) :=
  ⟨by decide, pop_most_preferred (fun a b : Int => decide (b < a)) strictWeak_gt_int _
    (Constructed.push _ 3 (Constructed.push _ 2 (Constructed.push _ 4
      (Constructed.push _ 1 Constructed.new)))) (by decide)⟩

/-- C35 (the heap neither loses nor invents elements): for every heap, whatever its comparator
and contents, the contents after `Push(v)` are a rearrangement of the former contents with one
more `v`; when `Pop()` returns `found = true` the former contents are a rearrangement of the
returned value and the contents after the call, and when it returns `found = false` the contents
are unchanged; and pushing `values` onto an empty heap and popping until it is empty returns,
within `len(values)` iterations, a rearrangement of `values`. -/
theorem heap_multiset [Inhabited T] (h : Heap T) (v : T) (comparator : T → T → Bool)
    (values : List T) (fuel : Nat) (hf : values.length ≤ fuel) :
    List.Perm (h.Push v).contents (v :: h.contents) ∧
    (h.Pop.1.2 = true → List.Perm (h.Pop.1.1 :: h.Pop.2.contents) h.contents) ∧
    (h.Pop.1.2 = false → h.Pop.2.contents = h.contents) ∧
    ∃ out, popAll fuel (pushAll (New comparator) values) = some out ∧ List.Perm out values := by
  refine ⟨Push_perm h v, ?_, ?_, ?_⟩
  · intro hfound
    cases hcs : h.contents with
    | nil => rw [Pop_nil h hcs] at hfound; cases hfound
    | cons root rest =>
      have hr : h.Pop.1.1 = root := by rw [Pop_cons h root rest hcs]
      rw [hr]
      exact (Pop_perm h root rest hcs).cons root
  · intro hfound
    cases hcs : h.contents with
    | nil => rw [Pop_nil h hcs]; exact hcs
    | cons root rest => rw [Pop_cons h root rest hcs] at hfound; cases hfound
  · have hp := pushAll_perm (New comparator) values
    have hp2 : List.Perm (pushAll (New comparator) values).contents values := by
      simpa [New] using hp
    obtain ⟨out, h1, h2⟩ := popAll_perm fuel (pushAll (New comparator) values)
      (by rw [hp2.length_eq]; exact hf)
    exact ⟨out, h1, h2.trans hp2⟩

/-- C35 on a min-heap of integers with a repeated value: pushing 3, 1, 3, 2 and popping until
the heap is empty returns `[1, 2, 3, 3]`. -/
theorem heap_multiset_witness :
    popAll 4 (pushAll (New (fun a b : Int => decide (a < b))) [3, 1, 3, 2])
      = some [1, 2, 3, 3] ∧
    List.Perm (((New (fun a b : Int => decide (a < b))).Push 3).Push 1).contents
      (1 :: ((New (fun a b : Int => decide (a < b))).Push 3).contents) ∧
    ((((New (fun a b : Int => decide (a < b))).Push 3).Pop.1.2 = true →
      List.Perm ((((New (fun a b : Int => decide (a < b))).Push 3).Pop.1.1) ::
        ((New (fun a b : Int => decide (a < b))).Push 3).Pop.2.contents)
        ((New (fun a b : Int => decide (a < b))).Push 3).contents)) ∧
    ((((New (fun a b : Int => decide (a < b))).Push 3).Pop.1.2 = false →
      ((New (fun a b : Int => decide (a < b))).Push 3).Pop.2.contents
        = ((New (fun a b : Int => decide (a < b))).Push 3).contents)) ∧
    ∃ out, popAll 4 (pushAll (New (fun a b : Int => decide (a < b))) [3, 1, 3, 2]) = some out ∧
      List.Perm out [3, 1, 3, 2] :=
  ⟨by decide, heap_multiset ((New (fun a b : Int => decide (a < b))).Push 3) 1
    (fun a b : Int => decide (a < b)) [3, 1, 3, 2] 4 (by decide)⟩

end heap

namespace graph

open heap

variable {T : Type} [DecidableEq T]

theorem lookup_eq_none_iff (l : List (T × List (Edge T))) (x : T) :
    lookup l x = none ↔ x ∉ l.map Prod.fst := by
  induction l with
  | nil => simp [lookup]
  | cons kv rest ih =>
    obtain ⟨k, es⟩ := kv
    by_cases h : k = x
    · simp [lookup, h]
    · simp only [lookup, h, if_false, ih, List.map_cons, List.mem_cons, not_or]
      constructor
      · intro h1; exact ⟨fun h2 => h h2.symm, h1⟩
      · intro h1; exact h1.2

theorem lookup_mem (l : List (T × List (Edge T))) (x : T) (es : List (Edge T))
    (h : lookup l x = some es) : (x, es) ∈ l := by
  induction l with
  | nil => simp [lookup] at h
  | cons kv rest ih =>
    obtain ⟨k, es'⟩ := kv
    by_cases hk : k = x
    · simp only [lookup, hk, if_true, Option.some.injEq] at h
      subst hk; subst h; exact List.mem_cons_self _ _
    · simp only [lookup, hk, if_false] at h
      exact List.mem_cons_of_mem _ (ih h)

theorem lookup_isSome_of_mem_keys (l : List (T × List (Edge T))) (x : T)
    (h : x ∈ l.map Prod.fst) : ∃ es, lookup l x = some es := by
  cases hl : lookup l x with
  | none => exact absurd h ((lookup_eq_none_iff l x).1 hl)
  | some es => exact ⟨es, rfl⟩

theorem mem_keys_of_lookup (g : Graph T) (x : T) (es : List (Edge T))
    (h : lookup g.adjacency x = some es) : x ∈ g.keys := by
  have := lookup_mem _ _ _ h
  exact List.mem_map.2 ⟨(x, es), this, rfl⟩

theorem mem_neighbours_iff (g : Graph T) (u : T) (e : Edge T) :
    e ∈ (g.Neighbours u).1 ↔ ∃ es, lookup g.adjacency u = some es ∧ e ∈ es := by
  unfold Graph.Neighbours
  cases h : lookup g.adjacency u with
  | none => simp
  | some es => simp

theorem mem_keys_of_mem_neighbours (g : Graph T) (u : T) (e : Edge T)
    (h : e ∈ (g.Neighbours u).1) : u ∈ g.keys := by
  obtain ⟨es, hes, _⟩ := (mem_neighbours_iff g u e).1 h
  exact mem_keys_of_lookup g u es hes

theorem Graph.WF.link_mem_keys {g : Graph T} (wf : g.WF) (u : T) (e : Edge T)
    (h : e ∈ (g.Neighbours u).1) : e.Link ∈ g.keys := by
  obtain ⟨es, hes, he⟩ := (mem_neighbours_iff g u e).1 h
  exact wf.2 (u, es) (lookup_mem _ _ _ hes) e he

theorem wf_new : (New : Graph T).WF := by
  constructor
  · simp [New, Graph.keys]
  · intro kv hkv; simp [New] at hkv

theorem keys_addNode (g : Graph T) (x : T) :
    (g.AddNode x).keys = if x ∈ g.keys then g.keys else g.keys ++ [x] := by
  unfold Graph.AddNode
  cases h : lookup g.adjacency x with
  | none =>
    have := (lookup_eq_none_iff _ _).1 h
    simp only [Graph.keys] at this ⊢
    simp [this]
  | some es =>
    have := mem_keys_of_lookup g x es h
    simp [this]

theorem wf_addNode (g : Graph T) (x : T) (wf : g.WF) : (g.AddNode x).WF := by
  unfold Graph.AddNode
  cases h : lookup g.adjacency x with
  | some es => exact wf
  | none =>
    have hx := (lookup_eq_none_iff _ _).1 h
    constructor
    · simp only [Graph.keys, List.map_append, List.map_cons, List.map_nil]
      exact List.Nodup.append wf.1 (List.nodup_singleton _) (by simpa using hx)
    · intro kv hkv e he
      simp only [List.mem_append, List.mem_singleton] at hkv
      rcases hkv with hkv | rfl
      · simp only [Graph.keys, List.map_append, List.mem_append]
        exact Or.inl (wf.2 kv hkv e he)
      · simp at he

theorem map_fst_appendEdge (src : T) (edge : Edge T) (l : List (T × List (Edge T)))
    (h : src ∈ l.map Prod.fst) : (appendEdge src edge l).map Prod.fst = l.map Prod.fst := by
  induction l with
  | nil => simp at h
  | cons kv rest ih =>
    obtain ⟨k, es⟩ := kv
    by_cases hk : k = src
    · simp [appendEdge, hk]
    · simp only [appendEdge, hk, if_false, List.map_cons, List.cons.injEq, true_and]
      apply ih
      simp only [List.map_cons, List.mem_cons] at h
      rcases h with h | h
      · exact absurd h.symm hk
      · exact h

theorem mem_appendEdge (src : T) (edge : Edge T) (l : List (T × List (Edge T)))
    (kv : T × List (Edge T)) (h : kv ∈ appendEdge src edge l) :
    kv = (src, [edge]) ∨ kv ∈ l ∨ ∃ es, (src, es) ∈ l ∧ kv = (src, es ++ [edge]) := by
  induction l with
  | nil => simp only [appendEdge, List.mem_singleton] at h; exact Or.inl h
  | cons kv' rest ih =>
    obtain ⟨k, es⟩ := kv'
    by_cases hk : k = src
    · simp only [appendEdge, hk, if_true, List.mem_cons] at h
      rcases h with h | h
      · right; right; exact ⟨es, by simp [hk], h⟩
      · right; left; exact List.mem_cons_of_mem _ h
    · simp only [appendEdge, hk, if_false, List.mem_cons] at h
      rcases h with h | h
      · right; left; rw [h]; exact List.mem_cons_self _ _
      · rcases ih h with h1 | h1 | ⟨es', h1, h2⟩
        · exact Or.inl h1
        · right; left; exact List.mem_cons_of_mem _ h1
        · right; right; exact ⟨es', List.mem_cons_of_mem _ h1, h2⟩

theorem mem_keys_addNode_self (g : Graph T) (x : T) : x ∈ (g.AddNode x).keys := by
  rw [keys_addNode]
  split
  · assumption
  · simp

theorem mem_keys_addNode_of_mem (g : Graph T) (x y : T) (h : y ∈ g.keys) :
    y ∈ (g.AddNode x).keys := by
  rw [keys_addNode]
  split
  · assumption
  · simp [h]

theorem wf_addEdge (g : Graph T) (src dst : T) (weight : Int) (wf : g.WF) :
    (g.AddEdge src dst weight).WF := by
  have wf2 : ((g.AddNode src).AddNode dst).WF := wf_addNode _ _ (wf_addNode _ _ wf)
  have hsrc : src ∈ ((g.AddNode src).AddNode dst).keys :=
    mem_keys_addNode_of_mem _ _ _ (mem_keys_addNode_self g src)
  have hdst : dst ∈ ((g.AddNode src).AddNode dst).keys := mem_keys_addNode_self _ dst
  have hkeys : (g.AddEdge src dst weight).keys = ((g.AddNode src).AddNode dst).keys := by
    simp only [Graph.AddEdge, Graph.keys]
    exact map_fst_appendEdge _ _ _ hsrc
  constructor
  · rw [hkeys]; exact wf2.1
  · intro kv hkv e he
    rw [hkeys]
    simp only [Graph.AddEdge] at hkv
    rcases mem_appendEdge _ _ _ _ hkv with h | h | ⟨es, h1, h2⟩
    · subst h
      simp only [List.mem_singleton] at he
      subst he; exact hdst
    · exact wf2.2 kv h e he
    · subst h2
      simp only [List.mem_append, List.mem_singleton] at he
      rcases he with he | he
      · exact wf2.2 _ h1 e he
      · subst he; exact hdst

theorem wf_deleteNode (g : Graph T) (x : T) (wf : g.WF) : (g.DeleteNode x).WF := by
  unfold Graph.DeleteNode
  cases h : lookup g.adjacency x with
  | none => exact wf
  | some es =>
    have hkeys : (Graph.mk ((g.adjacency.filter (fun kv => decide (kv.1 ≠ x))).map
        (fun kv => (kv.1, kv.2.filter (fun edge => decide (edge.Link ≠ x)))))).keys
        = g.keys.filter (fun k => decide (k ≠ x)) := by
      simp only [Graph.keys, List.map_map]
      rw [List.filter_map]
      rfl
    constructor
    · rw [hkeys]; exact wf.1.filter _
    · intro kv hkv e he
      rw [hkeys]
      simp only [List.mem_map, List.mem_filter] at hkv
      obtain ⟨kv', ⟨hkv', _⟩, rfl⟩ := hkv
      simp only [List.mem_filter, decide_eq_true_eq] at he
      simp only [List.mem_filter, decide_eq_true_eq]
      exact ⟨wf.2 kv' hkv' e he.1, he.2⟩

/-- Every graph made by the operations of the package satisfies the structural invariant. -/
theorem Built.wf {g : Graph T} (hb : Built g) : g.WF := by
  induction hb with
  | new => exact wf_new
  | addNode g value _ ih => exact wf_addNode g value ih
  | addEdge g src dst weight _ ih => exact wf_addEdge g src dst weight ih
  | deleteNode g value _ ih => exact wf_deleteNode g value ih

theorem upd_same {V : Type} (m : T → V) (k : T) (v : V) : upd m k v k = v := by
  simp [upd]

theorem upd_ne {V : Type} (m : T → V) (k : T) (v : V) (x : T) (h : x ≠ k) :
    upd m k v x = m x := by
  simp [upd, h]

theorem StatesStep.refl (s : T → visitedState) : StatesStep s s := fun _ => Or.inl rfl

theorem StatesStep.trans {s1 s2 s3 : T → visitedState} (h12 : StatesStep s1 s2)
    (h23 : StatesStep s2 s3) : StatesStep s1 s3 := by
  intro v
  rcases h12 v with h | ⟨h, h'⟩
  · rcases h23 v with k | ⟨k, k'⟩
    · left; rw [k, h]
    · right; exact ⟨by rw [← h]; exact k, k'⟩
  · rcases h23 v with k | ⟨k, _⟩
    · right; exact ⟨h, by rw [k]; exact h'⟩
    · rw [h'] at k; cases k

theorem StatesStep.visiting_iff {s1 s2 : T → visitedState} (h : StatesStep s1 s2) (v : T) :
    s2 v = visitedState.visiting ↔ s1 v = visitedState.visiting := by
  rcases h v with k | ⟨k, k'⟩
  · rw [k]
  · rw [k, k']; constructor <;> intro h' <;> cases h'

theorem StatesStep.visited_mono {s1 s2 : T → visitedState} (h : StatesStep s1 s2) (v : T)
    (hv : s1 v = visitedState.visited) : s2 v = visitedState.visited := by
  rcases h v with k | ⟨k, _⟩
  · rw [k]; exact hv
  · rw [hv] at k; cases k

theorem StatesStep.unvisited_anti {s1 s2 : T → visitedState} (h : StatesStep s1 s2) (v : T)
    (hv : s2 v = visitedState.unvisited) : s1 v = visitedState.unvisited := by
  rcases h v with k | ⟨k, _⟩
  · rw [← k]; exact hv
  · exact k

theorem unvisitedCount_le_of_step (g : Graph T) {s1 s2 : T → visitedState}
    (h : StatesStep s1 s2) : unvisitedCount g s2 ≤ unvisitedCount g s1 := by
  unfold unvisitedCount
  apply List.countP_mono_left
  intro x _ hx
  simp only [decide_eq_true_eq] at hx ⊢
  exact h.unvisited_anti x hx

theorem countP_lt_of_strict (l : List T) (p q : T → Bool) (hpq : ∀ x, q x = true → p x = true)
    (a : T) (ha : a ∈ l) (hp : p a = true) (hq : q a = false) :
    l.countP q < l.countP p := by
  induction l with
  | nil => simp at ha
  | cons x xs ih =>
    simp only [List.mem_cons] at ha
    by_cases hax : a = x
    · subst hax
      have hmono : xs.countP q ≤ xs.countP p := List.countP_mono_left (fun x _ h => hpq x h)
      rw [List.countP_cons_of_pos _ _ hp, List.countP_cons_of_neg _ _ (by simp [hq])]
      omega
    · have ha' : a ∈ xs := by
        rcases ha with h | h
        · exact absurd h hax
        · exact h
      have := ih ha'
      by_cases hqx : q x = true
      · rw [List.countP_cons_of_pos _ _ hqx, List.countP_cons_of_pos _ _ (hpq x hqx)]
        omega
      · rw [List.countP_cons_of_neg _ _ hqx]
        by_cases hpx : p x = true
        · rw [List.countP_cons_of_pos _ _ hpx]; omega
        · rw [List.countP_cons_of_neg _ _ hpx]; exact this

theorem unvisitedCount_upd_lt (g : Graph T) (s : T → visitedState) (node : T)
    (hnode : node ∈ g.keys) (hs : s node = visitedState.unvisited) :
    unvisitedCount g (upd s node visitedState.visiting) < unvisitedCount g s := by
  unfold unvisitedCount
  apply countP_lt_of_strict _ _ _ _ node hnode
  · simp [hs]
  · simp [upd_same]
  · intro x hx
    simp only [decide_eq_true_eq] at hx ⊢
    by_cases hxn : x = node
    · subst hxn; exact hs
    · rw [upd_ne _ _ _ _ hxn] at hx; exact hx

theorem StatesGood.reach_visited {g : Graph T} {s : T → visitedState} (hg : StatesGood g s)
    (v w : T) (hv : s v = visitedState.visited) (h : Relation.ReflTransGen g.Adj v w) :
    s w = visitedState.visited := by
  induction h with
  | refl => exact hv
  | tail _ hbc ih => exact hg.1 _ ih _ hbc

theorem checkCycleLoop_spec (g : Graph T) (wf : g.WF)
    (rec : T → (T → visitedState) → Option (Bool × (T → visitedState))) (bound : Nat)
    (hrec : CheckCycleSpec g rec bound) (node : T) :
    ∀ (es : List (Edge T)) (s : T → visitedState),
      (∀ e ∈ es, e ∈ (g.Neighbours node).1) → s node = visitedState.visiting →
      unvisitedCount g s ≤ bound → StatesGood g s →
      (∀ v, s v = visitedState.visiting → Relation.ReflTransGen g.Adj v node) →
      ∃ b s', checkCycleLoop rec es s = some (b, s') ∧
        (b = true → g.HasDirectedCycle) ∧
        (b = false → (∀ e ∈ es, s' e.Link = visitedState.visited) ∧ StatesStep s s' ∧
          StatesGood g s') := by
  intro es
  induction es with
  | nil =>
    intro s _ _ _ hgood _
    refine ⟨false, s, rfl, by simp, ?_⟩
    intro _
    exact ⟨by simp, StatesStep.refl s, hgood⟩
  | cons e rest ih =>
    intro s hes hnode hcount hgood hreach
    have he : e ∈ (g.Neighbours node).1 := hes e (List.mem_cons_self _ _)
    have hrest : ∀ e' ∈ rest, e' ∈ (g.Neighbours node).1 :=
      fun e' h => hes e' (List.mem_cons_of_mem _ h)
    have hadj : g.Adj node e.Link := ⟨e, he, rfl⟩
    cases hs : s e.Link with
    | visiting =>
      refine ⟨true, s, by simp [checkCycleLoop, hs], ?_, by simp⟩
      intro _
      exact ⟨e.Link, Relation.TransGen.tail' (hreach _ hs) hadj⟩
    | visited =>
      obtain ⟨b, s', h1, h2, h3⟩ := ih s hrest hnode hcount hgood hreach
      refine ⟨b, s', by simp [checkCycleLoop, hs, h1], h2, ?_⟩
      intro hb
      obtain ⟨h4, h5, h6⟩ := h3 hb
      refine ⟨?_, h5, h6⟩
      intro e' he'
      simp only [List.mem_cons] at he'
      rcases he' with rfl | he'
      · exact h5.visited_mono _ hs
      · exact h4 e' he'
    | unvisited =>
      have hreach' : ∀ v, s v = visitedState.visiting →
          Relation.ReflTransGen g.Adj v e.Link :=
        fun v hv => Relation.ReflTransGen.tail (hreach v hv) hadj
      obtain ⟨b1, s1, r1, r2, r3⟩ := hrec e.Link s hs (wf.link_mem_keys node e he) hcount
        hgood hreach'
      cases b1 with
      | true =>
        refine ⟨true, s1, by simp [checkCycleLoop, hs, r1], fun _ => r2 rfl, by simp⟩
      | false =>
        obtain ⟨q1, q2, q3⟩ := r3 rfl
        have hnode1 : s1 node = visitedState.visiting := (q2.visiting_iff node).2 hnode
        have hcount1 : unvisitedCount g s1 ≤ bound :=
          Nat.le_trans (unvisitedCount_le_of_step g q2) hcount
        have hreach1 : ∀ v, s1 v = visitedState.visiting →
            Relation.ReflTransGen g.Adj v node :=
          fun v hv => hreach v ((q2.visiting_iff v).1 hv)
        obtain ⟨b, s', h1, h2, h3⟩ := ih s1 hrest hnode1 hcount1 q3 hreach1
        refine ⟨b, s', by simp [checkCycleLoop, hs, r1, h1], h2, ?_⟩
        intro hb
        obtain ⟨h4, h5, h6⟩ := h3 hb
        refine ⟨?_, q2.trans h5, h6⟩
        intro e' he'
        simp only [List.mem_cons] at he'
        rcases he' with rfl | he'
        · exact h5.visited_mono _ q1
        · exact h4 e' he'

theorem checkCycle_spec (g : Graph T) (wf : g.WF) :
    ∀ fuel : Nat, CheckCycleSpec g (checkCycle g fuel) fuel := by
  intro fuel
  induction fuel with
  | zero =>
    intro node s hs hnode hcount _ _
    exfalso
    have : 0 < unvisitedCount g s := by
      unfold unvisitedCount
      exact List.countP_pos_iff.2 ⟨node, hnode, by simp [hs]⟩
    omega
  | succ fuel ih =>
    intro node s hs hnode hcount hgood hreach
    have hs0 : upd s node visitedState.visiting node = visitedState.visiting := upd_same _ _ _
    have hcount0 : unvisitedCount g (upd s node visitedState.visiting) ≤ fuel := by
      have := unvisitedCount_upd_lt g s node hnode hs
      omega
    have hgood0 : StatesGood g (upd s node visitedState.visiting) := by
      have hvis : ∀ v, upd s node visitedState.visiting v = visitedState.visited →
          v ≠ node ∧ s v = visitedState.visited := by
        intro v hv
        by_cases hvn : v = node
        · subst hvn; rw [upd_same] at hv; cases hv
        · rw [upd_ne _ _ _ _ hvn] at hv; exact ⟨hvn, hv⟩
      refine ⟨?_, ?_, ?_⟩
      · intro v hv w hvw
        obtain ⟨_, hv'⟩ := hvis v hv
        have hw := hgood.1 v hv' w hvw
        have hwn : w ≠ node := by
          intro h; subst h; rw [hs] at hw; cases hw
        rw [upd_ne _ _ _ _ hwn]; exact hw
      · intro v hv
        exact hgood.2.1 v (hvis v hv).2
      · intro v hv
        by_cases hvn : v = node
        · subst hvn; exact hnode
        · rw [upd_ne _ _ _ _ hvn] at hv; exact hgood.2.2 v hv
    have hreach0 : ∀ v, upd s node visitedState.visiting v = visitedState.visiting →
        Relation.ReflTransGen g.Adj v node := by
      intro v hv
      by_cases hvn : v = node
      · subst hvn; exact Relation.ReflTransGen.refl
      · rw [upd_ne _ _ _ _ hvn] at hv; exact hreach v hv
    obtain ⟨b, s1, h1, h2, h3⟩ := checkCycleLoop_spec g wf (checkCycle g fuel) fuel ih node
      (g.Neighbours node).1 (upd s node visitedState.visiting) (fun _ h => h) hs0 hcount0
      hgood0 hreach0
    cases b with
    | true =>
      exact ⟨true, s1, by simp [checkCycle, h1], fun _ => h2 rfl, by simp⟩
    | false =>
      obtain ⟨q1, q2, q3⟩ := h3 rfl
      have hnode1 : s1 node = visitedState.visiting := (q2.visiting_iff node).2 hs0
      refine ⟨false, upd s1 node visitedState.visited, by simp [checkCycle, h1], by simp, ?_⟩
      intro _
      refine ⟨upd_same _ _ _, ?_, ?_, ?_, ?_⟩
      · intro v
        by_cases hvn : v = node
        · subst hvn; right; exact ⟨hs, upd_same _ _ _⟩
        · rw [upd_ne _ _ _ _ hvn]
          have := q2 v
          rw [upd_ne _ _ _ _ hvn] at this
          exact this
      · intro v hv w hvw
        by_cases hvn : v = node
        · subst hvn
          obtain ⟨e, he, rfl⟩ := hvw
          have hw := q1 e he
          have hwn : e.Link ≠ v := by
            intro h; rw [h, hnode1] at hw; cases hw
          rw [upd_ne _ _ _ _ hwn]; exact hw
        · rw [upd_ne _ _ _ _ hvn] at hv
          by_cases hwn : w = node
          · subst hwn; exact upd_same _ _ _
          · rw [upd_ne _ _ _ _ hwn]; exact q3.1 v hv w hvw
      · intro v hv hcyc
        by_cases hvn : v = node
        · subst hvn
          obtain ⟨w, hvw, hwv⟩ := Relation.TransGen.head'_iff.1 hcyc
          obtain ⟨e, he, rfl⟩ := hvw
          have := q3.reach_visited e.Link v (q1 e he) hwv
          rw [hnode1] at this; cases this
        · rw [upd_ne _ _ _ _ hvn] at hv
          exact q3.2.1 v hv hcyc
      · intro v hv
        by_cases hvn : v = node
        · subst hvn; exact hnode
        · rw [upd_ne _ _ _ _ hvn] at hv; exact q3.2.2 v hv

theorem hasCycleLoop_spec (g : Graph T) (wf : g.WF) (fuel : Nat) (hf : g.keys.length ≤ fuel) :
    ∀ (roots : List T) (s : T → visitedState), (∀ r ∈ roots, r ∈ g.keys) → StatesGood g s →
      (∀ v, s v ≠ visitedState.visiting) →
      ∃ b, hasCycleLoop g fuel roots s = some b ∧ (b = true → g.HasDirectedCycle) ∧
        (b = false → ∃ s', StatesGood g s' ∧ (∀ v, s' v ≠ visitedState.visiting) ∧
          (∀ r ∈ roots, s' r = visitedState.visited) ∧ StatesStep s s') := by
  intro roots
  induction roots with
  | nil =>
    intro s _ hgood hnv
    exact ⟨false, rfl, by simp, fun _ => ⟨s, hgood, hnv, by simp, StatesStep.refl s⟩⟩
  | cons r rest ih =>
    intro s hroots hgood hnv
    have hrest : ∀ r' ∈ rest, r' ∈ g.keys := fun r' h => hroots r' (List.mem_cons_of_mem _ h)
    by_cases hs : s r = visitedState.unvisited
    · have hcount : unvisitedCount g s ≤ fuel :=
        Nat.le_trans (List.countP_le_length _) hf
      obtain ⟨b1, s1, r1, r2, r3⟩ := checkCycle_spec g wf fuel r s hs
        (hroots r (List.mem_cons_self _ _)) hcount hgood
        (fun v hv => absurd hv (hnv v))
      cases b1 with
      | true =>
        exact ⟨true, by simp [hasCycleLoop, hs, r1], fun _ => r2 rfl, by simp⟩
      | false =>
        obtain ⟨q1, q2, q3⟩ := r3 rfl
        have hnv1 : ∀ v, s1 v ≠ visitedState.visiting :=
          fun v hv => hnv v ((q2.visiting_iff v).1 hv)
        obtain ⟨b, h1, h2, h3⟩ := ih s1 hrest q3 hnv1
        refine ⟨b, by simp [hasCycleLoop, hs, r1, h1], h2, ?_⟩
        intro hb
        obtain ⟨s', k1, k2, k3, k4⟩ := h3 hb
        refine ⟨s', k1, k2, ?_, q2.trans k4⟩
        intro r' hr'
        simp only [List.mem_cons] at hr'
        rcases hr' with rfl | hr'
        · exact k4.visited_mono _ q1
        · exact k3 r' hr'
    · obtain ⟨b, h1, h2, h3⟩ := ih s hrest hgood hnv
      refine ⟨b, by simp [hasCycleLoop, hs, h1], h2, ?_⟩
      intro hb
      obtain ⟨s', k1, k2, k3, k4⟩ := h3 hb
      refine ⟨s', k1, k2, ?_, k4⟩
      intro r' hr'
      simp only [List.mem_cons] at hr'
      rcases hr' with rfl | hr'
      · have : s r' = visitedState.visited := by
          cases h : s r' with
          | unvisited => exact absurd h hs
          | visiting => exact absurd h (hnv r')
          | visited => rfl
        exact k4.visited_mono _ this
      · exact k3 r' hr'

theorem initStates_eq (l : List T) (s : T → visitedState)
    (hs : ∀ v, s v = visitedState.unvisited) :
    ∀ v, l.foldl (fun states node => upd states node visitedState.unvisited) s v
      = visitedState.unvisited := by
  induction l generalizing s with
  | nil => exact hs
  | cons x xs ih =>
    apply ih
    intro v
    show upd s x visitedState.unvisited v = visitedState.unvisited
    by_cases hv : v = x
    · subst hv; exact upd_same _ _ _
    · rw [upd_ne _ _ _ _ hv]; exact hs v

/-- `HasCycle` is exact, whatever the order of the roots. -/
theorem hasCycle_spec (g : Graph T) (wf : g.WF) (roots : List T) (hr : roots.Perm g.keys)
    (fuel : Nat) (hf : g.keys.length ≤ fuel) :
    ∃ b, g.HasCycle fuel roots = some b ∧ (b = true ↔ g.HasDirectedCycle) := by
  have hinit := initStates_eq g.keys (fun _ => visitedState.unvisited) (fun _ => rfl)
  have hgood : StatesGood g (g.keys.foldl
      (fun states node => upd states node visitedState.unvisited)
      (fun _ => visitedState.unvisited)) := by
    refine ⟨?_, ?_, ?_⟩
    · intro v hv; rw [hinit v] at hv; cases hv
    · intro v hv; rw [hinit v] at hv; cases hv
    · intro v hv; exact absurd (hinit v) hv
  obtain ⟨b, h1, h2, h3⟩ := hasCycleLoop_spec g wf fuel hf roots _
    (fun r h => hr.subset h) hgood (fun v hv => by rw [hinit v] at hv; cases hv)
  refine ⟨b, h1, h2, ?_⟩
  intro hcyc
  cases b with
  | true => rfl
  | false =>
    exfalso
    obtain ⟨s', k1, _, k3, _⟩ := h3 rfl
    obtain ⟨x, hx⟩ := hcyc
    obtain ⟨w, hxw, _⟩ := Relation.TransGen.head'_iff.1 hx
    obtain ⟨e, he, _⟩ := hxw
    have hxk : x ∈ g.keys := mem_keys_of_mem_neighbours g x e he
    exact k1.2.1 x (k3 x (hr.symm.subset hxk)) hx

/-- C7 (`HasCycle` is exact): for every graph made by `AddNode`, `AddEdge` and `DeleteNode`
and every order in which the keys are taken as roots, `HasCycle` returns `true` exactly when some
node has a non-empty directed walk back to itself. -/
theorem hasCycle_exact (g : Graph T) (hb : Built g) (roots : List T)
    (hr : roots.Perm g.keys) (fuel : Nat) (hf : g.keys.length ≤ fuel) :
    ∃ b, g.HasCycle fuel roots = some b ∧ (b = true ↔ g.HasDirectedCycle) :=
  hasCycle_spec g hb.wf roots hr fuel hf

/-- C7 on the test graphs: a self-loop, and a cycle 10→11→12→10 next to the edge 0→1, with
the roots taken in the reverse of the insertion order. -/
theorem hasCycle_exact_witness :
    (New.AddEdge 7 7 0 : Graph Nat).HasCycle 1 [7] = some true ∧
    ((((New.AddEdge 0 1 0).AddEdge 10 11 0).AddEdge 11 12 0).AddEdge 12 10 0 :
      Graph Nat).HasCycle 5 [12, 11, 10, 1, 0] = some true ∧
    ∃ b, ((((New.AddEdge 0 1 0).AddEdge 10 11 0).AddEdge 11 12 0).AddEdge 12 10 0 :
      Graph Nat).HasCycle 5 [12, 11, 10, 1, 0] = some b ∧
      (b = true ↔ ((((New.AddEdge 0 1 0).AddEdge 10 11 0).AddEdge 11 12 0).AddEdge 12 10 0 :
        Graph Nat).HasDirectedCycle) :=
  ⟨by decide, by decide,
    hasCycle_exact _ (Built.addEdge _ 12 10 0 (Built.addEdge _ 11 12 0
      (Built.addEdge _ 10 11 0 (Built.addEdge _ 0 1 0 Built.new))))
      [12, 11, 10, 1, 0]
      (by
        have hk : ((((New.AddEdge 0 1 0).AddEdge 10 11 0).AddEdge 11 12 0).AddEdge 12 10 0 :
            Graph Nat).keys = [0, 1, 10, 11, 12] := by decide
        rw [hk]
        exact List.reverse_perm [0, 1, 10, 11, 12])
      5 (by decide)⟩

theorem topoCount_le_of_mono (g : Graph T) (s1 s2 : (T → Bool) × List T)
    (h : ∀ v, s1.1 v = true → s2.1 v = true) : topoCount g s2 ≤ topoCount g s1 := by
  unfold topoCount
  apply List.countP_mono_left
  intro x _ hx
  simp only [decide_eq_true_eq] at hx ⊢
  cases h1 : s1.1 x with
  | false => rfl
  | true => rw [h x h1] at hx; cases hx

theorem topoLoop_spec (g : Graph T) (wf : g.WF) (hac : ¬ g.HasDirectedCycle)
    (rec : T → (T → Bool) × List T → Option ((T → Bool) × List T)) (bound : Nat)
    (hrec : TopoDfsSpec g rec bound) (node : T) :
    ∀ (es : List (Edge T)) (st : (T → Bool) × List T),
      (∀ e ∈ es, e ∈ (g.Neighbours node).1) → st.1 node = true → node ∉ st.2 →
      topoCount g st ≤ bound → TopoGood g st →
      (∀ v, st.1 v = true → v ∉ st.2 → Relation.ReflTransGen g.Adj v node) →
      ∃ st', topoLoop rec es st = some st' ∧ TopoGood g st' ∧
        (∀ e ∈ es, e.Link ∈ st'.2) ∧
        (∃ added, st'.2 = added ++ st.2) ∧ (∀ v, st.1 v = true → st'.1 v = true) ∧
        (∀ v, (st'.1 v = true ∧ v ∉ st'.2) ↔ (st.1 v = true ∧ v ∉ st.2)) := by
  intro es
  induction es with
  | nil =>
    intro st _ _ _ _ hgood _
    exact ⟨st, rfl, hgood, by simp, ⟨[], rfl⟩, fun _ h => h, fun _ => Iff.rfl⟩
  | cons e rest ih =>
    intro st hes hnode hnres hcount hgood hreach
    have he : e ∈ (g.Neighbours node).1 := hes e (List.mem_cons_self _ _)
    have hrest : ∀ e' ∈ rest, e' ∈ (g.Neighbours node).1 :=
      fun e' h => hes e' (List.mem_cons_of_mem _ h)
    have hadj : g.Adj node e.Link := ⟨e, he, rfl⟩
    by_cases hv : st.1 e.Link = false
    · obtain ⟨st1, r1, r2, r3, ⟨a1, r4⟩, r5, r6⟩ := hrec e.Link st hv
        (wf.link_mem_keys node e he) hcount hgood
        (fun v h1 h2 => Relation.ReflTransGen.tail (hreach v h1 h2) hadj)
      have hin1 : st1.1 node = true ∧ node ∉ st1.2 := (r6 node).2 ⟨hnode, hnres⟩
      obtain ⟨st', h1, h2, h3, ⟨a2, h4⟩, h5, h6⟩ := ih st1 hrest hin1.1 hin1.2
        (Nat.le_trans (topoCount_le_of_mono g st st1 r5) hcount) r2
        (fun v k1 k2 => hreach v ((r6 v).1 ⟨k1, k2⟩).1 ((r6 v).1 ⟨k1, k2⟩).2)
      refine ⟨st', by simp [topoLoop, hv, r1, h1], h2, ?_, ⟨a2 ++ a1, by rw [h4, r4]; simp⟩,
        fun v k => h5 v (r5 v k), fun v => (h6 v).trans (r6 v)⟩
      intro e' he'
      simp only [List.mem_cons] at he'
      rcases he' with rfl | he'
      · rw [h4]; exact List.mem_append_right _ r3
      · exact h3 e' he'
    · have hv' : st.1 e.Link = true := by simpa using hv
      have hin : e.Link ∈ st.2 := by
        by_contra hn
        exact hac ⟨e.Link, Relation.TransGen.tail' (hreach _ hv' hn) hadj⟩
      obtain ⟨st', h1, h2, h3, ⟨a2, h4⟩, h5, h6⟩ := ih st hrest hnode hnres hcount hgood hreach
      refine ⟨st', by simp [topoLoop, hv', h1], h2, ?_, ⟨a2, h4⟩, h5, h6⟩
      intro e' he'
      simp only [List.mem_cons] at he'
      rcases he' with rfl | he'
      · rw [h4]; exact List.mem_append_right _ hin
      · exact h3 e' he'

theorem topoDfs_spec (g : Graph T) (wf : g.WF) (hac : ¬ g.HasDirectedCycle) :
    ∀ fuel : Nat, TopoDfsSpec g (topoDfs g fuel) fuel := by
  intro fuel
  induction fuel with
  | zero =>
    intro node st hs hnode hcount _ _
    exfalso
    have : 0 < topoCount g st := by
      unfold topoCount
      exact List.countP_pos_iff.2 ⟨node, hnode, by simp [hs]⟩
    omega
  | succ fuel ih =>
    intro node st hs hnode hcount hgood hreach
    obtain ⟨g1, g2, g3, g4⟩ := hgood
    have hnres : node ∉ st.2 := by
      intro h; rw [g1 node h] at hs; cases hs
    have hcount0 : topoCount g (upd st.1 node true, st.2) ≤ fuel := by
      have : topoCount g (upd st.1 node true, st.2) < topoCount g st := by
        unfold topoCount
        apply countP_lt_of_strict _ _ _ _ node hnode
        · simp [hs]
        · simp [upd_same]
        · intro x hx
          simp only [decide_eq_true_eq] at hx ⊢
          by_cases hxn : x = node
          · subst hxn; exact hs
          · rw [upd_ne _ _ _ _ hxn] at hx; exact hx
      omega
    have hmono0 : ∀ v, st.1 v = true → upd st.1 node true v = true := by
      intro v hv
      by_cases hvn : v = node
      · subst hvn; exact upd_same _ _ _
      · rw [upd_ne _ _ _ _ hvn]; exact hv
    have hgood0 : TopoGood g (upd st.1 node true, st.2) := by
      refine ⟨fun v hv => hmono0 v (g1 v hv), g2, g3, ?_⟩
      intro v hv
      by_cases hvn : v = node
      · subst hvn; exact hnode
      · simp only [upd_ne _ _ _ _ hvn] at hv; exact g4 v hv
    have hreach0 : ∀ v, upd st.1 node true v = true → v ∉ st.2 →
        Relation.ReflTransGen g.Adj v node := by
      intro v hv hvr
      by_cases hvn : v = node
      · subst hvn; exact Relation.ReflTransGen.refl
      · rw [upd_ne _ _ _ _ hvn] at hv; exact hreach v hv hvr
    obtain ⟨st1, h1, h2, h3, ⟨a, h4⟩, h5, h6⟩ := topoLoop_spec g wf hac (topoDfs g fuel) fuel ih
      node (g.Neighbours node).1 (upd st.1 node true, st.2) (fun _ h => h) (upd_same _ _ _)
      hnres hcount0 hgood0 hreach0
    have hin1 : st1.1 node = true ∧ node ∉ st1.2 := (h6 node).2 ⟨upd_same _ _ _, hnres⟩
    obtain ⟨k1, k2, k3, k4⟩ := h2
    refine ⟨(st1.1, node :: st1.2), by simp [topoDfs, h1], ⟨?_, ?_, ?_, k4⟩,
      List.mem_cons_self _ _, ⟨node :: a, by simp at h4; simp [h4]⟩,
      fun v hv => h5 v (hmono0 v hv), ?_⟩
    · intro v hv
      simp only [List.mem_cons] at hv
      rcases hv with rfl | hv
      · exact hin1.1
      · exact k1 v hv
    · exact List.nodup_cons.2 ⟨hin1.2, k2⟩
    · intro u hu v huv
      simp only [List.mem_cons] at hu
      rcases hu with rfl | hu
      · obtain ⟨e, he, rfl⟩ := huv
        exact ⟨[], st1.2, rfl, h3 e he⟩
      · obtain ⟨l1, l2, e1, e2⟩ := k3 u hu v huv
        exact ⟨node :: l1, l2, by simp only [e1]; simp, e2⟩
    · intro v
      simp only [List.mem_cons, not_or]
      constructor
      · rintro ⟨q1, q2, q3⟩
        have := (h6 v).1 ⟨q1, q3⟩
        simp only at this
        rw [upd_ne _ _ _ _ q2] at this
        exact this
      · rintro ⟨q1, q2⟩
        have hvn : v ≠ node := by
          intro h; subst h; rw [hs] at q1; cases q1
        have := (h6 v).2 ⟨by simp only; rw [upd_ne _ _ _ _ hvn]; exact q1, q2⟩
        exact ⟨this.1, hvn, this.2⟩

theorem topoRoots_spec (g : Graph T) (wf : g.WF) (hac : ¬ g.HasDirectedCycle) (fuel : Nat)
    (hf : g.keys.length ≤ fuel) :
    ∀ (nodes : List T) (st : (T → Bool) × List T), (∀ r ∈ nodes, r ∈ g.keys) → TopoGood g st →
      (∀ v, st.1 v = true → v ∈ st.2) →
      ∃ st', topoRoots g fuel nodes st = some st' ∧ TopoGood g st' ∧
        (∀ v, st'.1 v = true → v ∈ st'.2) ∧ (∀ r ∈ nodes, r ∈ st'.2) ∧
        (∃ added, st'.2 = added ++ st.2) := by
  intro nodes
  induction nodes with
  | nil =>
    intro st _ hgood hdone
    exact ⟨st, rfl, hgood, hdone, by simp, ⟨[], rfl⟩⟩
  | cons r rest ih =>
    intro st hnodes hgood hdone
    have hrest : ∀ r' ∈ rest, r' ∈ g.keys := fun r' h => hnodes r' (List.mem_cons_of_mem _ h)
    by_cases hv : st.1 r = false
    · have hcount : topoCount g st ≤ fuel := Nat.le_trans (List.countP_le_length _) hf
      obtain ⟨st1, r1, r2, r3, ⟨a1, r4⟩, _, r6⟩ := topoDfs_spec g wf hac fuel r st hv
        (hnodes r (List.mem_cons_self _ _)) hcount hgood
        (fun v h1 h2 => absurd (hdone v h1) h2)
      have hdone1 : ∀ v, st1.1 v = true → v ∈ st1.2 := by
        intro v h1
        by_contra h2
        have := (r6 v).1 ⟨h1, h2⟩
        exact this.2 (hdone v this.1)
      obtain ⟨st', h1, h2, h3, h4, ⟨a2, h5⟩⟩ := ih st1 hrest r2 hdone1
      refine ⟨st', by simp [topoRoots, hv, r1, h1], h2, h3, ?_, ⟨a2 ++ a1, by rw [h5, r4]; simp⟩⟩
      intro r' hr'
      simp only [List.mem_cons] at hr'
      rcases hr' with rfl | hr'
      · rw [h5]; exact List.mem_append_right _ r3
      · exact h4 r' hr'
    · have hv' : st.1 r = true := by simpa using hv
      obtain ⟨st', h1, h2, h3, h4, ⟨a2, h5⟩⟩ := ih st hrest hgood hdone
      refine ⟨st', by simp [topoRoots, hv', h1], h2, h3, ?_, ⟨a2, h5⟩⟩
      intro r' hr'
      simp only [List.mem_cons] at hr'
      rcases hr' with rfl | hr'
      · rw [h5]; exact List.mem_append_right _ (hdone _ hv')
      · exact h4 r' hr'

/-- On a graph without a directed cycle `TopologicalSort` returns the keys, each once, in an
order in which every edge leads from an earlier to a later node. -/
theorem topologicalSort_spec (g : Graph T) (wf : g.WF) (hac : ¬ g.HasDirectedCycle)
    (roots nodes : List T) (hr : roots.Perm g.keys) (hn : nodes.Perm g.keys) (fuel : Nat)
    (hf : g.keys.length ≤ fuel) :
    ∃ res, g.TopologicalSort fuel roots nodes = some (some res, none) ∧ res.Nodup ∧
      (∀ k, k ∈ res ↔ k ∈ g.keys) ∧
      ∀ u v, g.Adj u v → ∃ l1 l2, res = l1 ++ u :: l2 ∧ v ∈ l2 := by
  obtain ⟨b, hb1, hb2⟩ := hasCycle_spec g wf roots hr fuel hf
  have hb : b = false := by
    cases b with
    | false => rfl
    | true => exact absurd (hb2.1 rfl) hac
  subst hb
  have hgood0 : TopoGood g ((fun _ => false), ([] : List T)) := by
    refine ⟨by simp, List.nodup_nil, by simp, by simp⟩
  obtain ⟨st', h1, h2, h3, h4, _⟩ := topoRoots_spec g wf hac fuel hf nodes _
    (fun r h => hn.subset h) hgood0 (by simp)
  refine ⟨st'.2, by simp [Graph.TopologicalSort, hb1, h1], h2.2.1, ?_, ?_⟩
  · intro k
    constructor
    · intro hk; exact h2.2.2.2 k (h2.1 k hk)
    · intro hk; exact h4 k (hn.symm.subset hk)
  · intro u v huv
    have hu : u ∈ st'.2 := by
      obtain ⟨e, he, _⟩ := huv
      exact h4 u (hn.symm.subset (mem_keys_of_mem_neighbours g u e he))
    exact h2.2.2.1 u hu v huv

theorem not_cycle_of_hasCycle_false (g : Graph T) (wf : g.WF) (roots : List T)
    (hr : roots.Perm g.keys) (fuel : Nat) (hf : g.keys.length ≤ fuel)
    (h : g.HasCycle fuel roots = some false) : ¬ g.HasDirectedCycle := by
  obtain ⟨b, hb1, hb2⟩ := hasCycle_spec g wf roots hr fuel hf
  rw [h] at hb1
  intro hc
  have := hb2.2 hc
  rw [← Option.some.inj hb1] at this
  cases this

/-- C8 (topological order on a DAG): for every graph without a directed cycle,
`TopologicalSort` returns no error and a sequence without repetition in which, for every edge
`(u, v)`, `u` stands strictly before `v`. -/
theorem topologicalSort_dag (g : Graph T) (hb : Built g) (hac : ¬ g.HasDirectedCycle)
    (roots nodes : List T) (hr : roots.Perm g.keys) (hn : nodes.Perm g.keys) (fuel : Nat)
    (hf : g.keys.length ≤ fuel) :
    ∃ res, g.TopologicalSort fuel roots nodes = some (some res, none) ∧ res.Nodup ∧
      ∀ u v, g.Adj u v → ∃ l1 l2, res = l1 ++ u :: l2 ∧ v ∈ l2 := by
  obtain ⟨res, h1, h2, _, h4⟩ := topologicalSort_spec g hb.wf hac roots nodes hr hn fuel hf
  exact ⟨res, h1, h2, h4⟩

/-- C8 on the test graph: the edges 0→1, 1→2, 2→3 give `[0, 1, 2, 3]`. -/
theorem topologicalSort_dag_witness :
    (((New.AddEdge 0 1 0).AddEdge 1 2 0).AddEdge 2 3 0 : Graph Nat).TopologicalSort 4
      [0, 1, 2, 3] [0, 1, 2, 3] = some (some [0, 1, 2, 3], none) ∧
    ∃ res, (((New.AddEdge 0 1 0).AddEdge 1 2 0).AddEdge 2 3 0 : Graph Nat).TopologicalSort 4
      [0, 1, 2, 3] [0, 1, 2, 3] = some (some res, none) ∧ res.Nodup ∧
      ∀ u v, (((New.AddEdge 0 1 0).AddEdge 1 2 0).AddEdge 2 3 0 : Graph Nat).Adj u v →
        ∃ l1 l2, res = l1 ++ u :: l2 ∧ v ∈ l2 := by
  have hb : Built (((New.AddEdge 0 1 0).AddEdge 1 2 0).AddEdge 2 3 0 : Graph Nat) :=
    Built.addEdge _ 2 3 0 (Built.addEdge _ 1 2 0 (Built.addEdge _ 0 1 0 Built.new))
  have hk : (((New.AddEdge 0 1 0).AddEdge 1 2 0).AddEdge 2 3 0 : Graph Nat).keys
      = [0, 1, 2, 3] := by decide
  have hp : ([0, 1, 2, 3] : List Nat).Perm
      (((New.AddEdge 0 1 0).AddEdge 1 2 0).AddEdge 2 3 0 : Graph Nat).keys := by
    rw [hk]
  have hac := not_cycle_of_hasCycle_false _ hb.wf [0, 1, 2, 3] hp 4 (by decide) (by decide)
  exact ⟨by decide, topologicalSort_dag _ hb hac [0, 1, 2, 3] [0, 1, 2, 3] hp hp 4 (by decide)⟩

/-- C9 (topological sort rejects cyclic graphs): for every graph with a directed cycle,
`TopologicalSort` returns a nil sequence and an error, and `HasCycle` returns `true`, whatever
the orders in which the keys are ranged over. -/
theorem topologicalSort_cyclic (g : Graph T) (hb : Built g) (hc : g.HasDirectedCycle)
    (roots nodes roots2 : List T) (hr : roots.Perm g.keys) (hr2 : roots2.Perm g.keys)
    (fuel : Nat) (hf : g.keys.length ≤ fuel) :
    g.TopologicalSort fuel roots nodes = some (none, some GraphError.cycle) ∧
    g.HasCycle fuel roots2 = some true := by
  obtain ⟨b, hb1, hb2⟩ := hasCycle_spec g hb.wf roots hr fuel hf
  obtain ⟨b', hb1', hb2'⟩ := hasCycle_spec g hb.wf roots2 hr2 fuel hf
  have e1 : b = true := hb2.2 hc
  have e2 : b' = true := hb2'.2 hc
  subst e1; subst e2
  exact ⟨by simp [Graph.TopologicalSort, hb1], hb1'⟩

/-- C9 on the test graph with the edges 0→1 and 1→0. -/
theorem topologicalSort_cyclic_witness :
    ((New.AddEdge 0 1 0).AddEdge 1 0 0 : Graph Nat).TopologicalSort 2 [0, 1] [0, 1]
      = some (none, some GraphError.cycle) ∧
    ((New.AddEdge 0 1 0).AddEdge 1 0 0 : Graph Nat).HasCycle 2 [1, 0] = some true := by
  have hb : Built ((New.AddEdge 0 1 0).AddEdge 1 0 0 : Graph Nat) :=
    Built.addEdge _ 1 0 0 (Built.addEdge _ 0 1 0 Built.new)
  have hk : ((New.AddEdge 0 1 0).AddEdge 1 0 0 : Graph Nat).keys = [0, 1] := by decide
  have hp : ([0, 1] : List Nat).Perm ((New.AddEdge 0 1 0).AddEdge 1 0 0 : Graph Nat).keys := by
    rw [hk]
  have hp2 : ([1, 0] : List Nat).Perm ((New.AddEdge 0 1 0).AddEdge 1 0 0 : Graph Nat).keys := by
    rw [hk]; exact List.Perm.swap 0 1 []
  have hc : ((New.AddEdge 0 1 0).AddEdge 1 0 0 : Graph Nat).HasDirectedCycle := by
    refine ⟨0, Relation.TransGen.tail (b := 1) (Relation.TransGen.single ?_) ?_⟩
    · exact ⟨⟨1, 0⟩, by decide, rfl⟩
    · exact ⟨⟨0, 0⟩, by decide, rfl⟩
  exact topologicalSort_cyclic _ hb hc [0, 1] [0, 1] [1, 0] hp hp2 2 (by decide)

theorem wrapInt_le_max (x : Int) : wrapInt x ≤ MaxInt := by
  unfold wrapInt MaxInt; omega

theorem wrapInt_ge_min (x : Int) : MinInt ≤ wrapInt x := by
  unfold wrapInt MinInt; omega

theorem wrapInt_of_range (x : Int) (h1 : MinInt ≤ x) (h2 : x ≤ MaxInt) : wrapInt x = x := by
  unfold wrapInt; unfold MinInt at h1; unfold MaxInt at h2; omega

theorem wrapInt_add_zero (x : Int) : wrapInt (wrapInt x + 0) = wrapInt x := by
  rw [Int.add_zero]
  exact wrapInt_of_range _ (wrapInt_ge_min x) (wrapInt_le_max x)

theorem strictWeak_priorityLess : StrictWeak (priorityLess : priorityNode T → _ → Bool) where
  asymm := by
    intro a b h; simp only [priorityLess, decide_eq_true_eq, decide_eq_false_iff_not] at *; omega
  trans := by intro a b c h1 h2; simp only [priorityLess, decide_eq_true_eq] at *; omega
  negTrans := by
    intro a b c h1 h2; simp only [priorityLess, decide_eq_false_iff_not] at *; omega

/-- What `Pop` does on a non-empty queue ordered by `priorityLess` that has the heap
property: it returns an entry of least priority and leaves the other entries. -/
theorem queue_pop [Inhabited T] (q : Heap (priorityNode T)) (hc : q.comparator = priorityLess)
    (hh : IsHeap priorityLess q.contents) (hne : q.IsEmpty = false) :
    List.Perm (q.Pop.1.1 :: q.Pop.2.contents) q.contents ∧
    q.Pop.2.comparator = priorityLess ∧ IsHeap priorityLess q.Pop.2.contents ∧
    ∀ pn ∈ q.contents, q.Pop.1.1.priority ≤ pn.priority := by
  cases hq : q.contents with
  | nil => simp [Heap.IsEmpty, hq] at hne
  | cons root rest =>
    have hperm := Pop_perm q root rest hq
    have hroot : q.Pop.1.1 = root := by rw [Pop_cons q root rest hq]
    refine ⟨?_, ?_, ?_, ?_⟩
    · rw [hroot]; exact hperm.cons root
    · rw [Pop_comparator, hc]
    · have := Pop_isHeap q (by rw [hc]; exact strictWeak_priorityLess) (by rw [hc]; exact hh)
      rw [hc] at this; exact this
    · intro pn hpn
      rw [hq] at hh
      have := isHeap_head_min priorityLess strictWeak_priorityLess root rest hh pn hpn
      rw [hroot]
      simp only [priorityLess, decide_eq_false_iff_not] at this
      omega

theorem queue_push (q : Heap (priorityNode T)) (hc : q.comparator = priorityLess)
    (hh : IsHeap priorityLess q.contents) (pn : priorityNode T) :
    List.Perm (q.Push pn).contents (pn :: q.contents) ∧
    (q.Push pn).comparator = priorityLess ∧ IsHeap priorityLess (q.Push pn).contents := by
  refine ⟨Push_perm q pn, by rw [Push_comparator, hc], ?_⟩
  have := Push_isHeap q pn (by rw [hc]; exact strictWeak_priorityLess) (by rw [hc]; exact hh)
  rw [hc] at this; exact this

theorem isEmpty_eq_true_iff {A : Type} (q : Heap A) : q.IsEmpty = true ↔ q.contents = [] := by
  simp [Heap.IsEmpty]

theorem upd_self_eq {V : Type} (m : T → V) (k : T) : upd m k (m k) = m := by
  funext x
  by_cases h : x = k
  · subst h; exact upd_same _ _ _
  · exact upd_ne _ _ _ _ h

theorem upd_upd {V : Type} (m : T → V) (k : T) (v w : V) : upd (upd m k v) k w = upd m k w := by
  funext x
  by_cases h : x = k
  · subst h; rw [upd_same, upd_same]
  · rw [upd_ne _ _ _ _ h, upd_ne _ _ _ _ h, upd_ne _ _ _ _ h]

theorem initDistances_eq (g : Graph T) (y : T) :
    initDistances g y = if y ∈ g.keys then MaxInt else 0 := by
  unfold initDistances
  have key : ∀ (l : List T) (d : T → Int),
      l.foldl (fun distances node => upd distances node MaxInt) d y
        = if y ∈ l then MaxInt else d y := by
    intro l
    induction l with
    | nil => intro d; simp
    | cons x xs ih =>
      intro d
      simp only [List.foldl_cons, ih, List.mem_cons]
      by_cases hyx : y = x
      · subst hyx; simp [upd_same]
      · simp [hyx, upd_ne _ _ _ _ hyx]
  rw [key]

section
variable [Inhabited T]

theorem sameSearch_relax (endNode node : T) :
    ∀ (es : List (Edge T)) (d : dijkstraState T) (a : astarState T), SameSearch d a →
      SameSearch (dijkstraRelax node es d) (astarRelax (fun _ _ => 0) endNode node es a) := by
  intro es
  induction es with
  | nil => intro d a h; exact h
  | cons e rest ih =>
    intro d a h
    obtain ⟨h1, h2, h3⟩ := h
    simp only [dijkstraRelax, astarRelax]
    rw [h1]
    split
    · apply ih
      refine ⟨?_, ?_, ?_⟩
      · simp only [h1]
      · simp only [h2]
      · simp only [h3, wrapInt_add_zero]
    · exact ih d a ⟨h1, h2, h3⟩

theorem astarRelax_noop (heuristic : T → T → Int) (endNode node : T) :
    ∀ (es : List (Edge T)) (a : astarState T),
      (∀ e ∈ es, ¬ wrapInt (a.scoreG node + e.Weight) < a.scoreG e.Link) →
      astarRelax heuristic endNode node es a = a := by
  intro es
  induction es with
  | nil => intro a _; rfl
  | cons e rest ih =>
    intro a h
    simp only [astarRelax]
    rw [if_neg (h e (List.mem_cons_self _ _))]
    exact ih a (fun e' he' => h e' (List.mem_cons_of_mem _ he'))

end

variable [Inhabited T]

theorem lazyInv_skip (endNode x : T) (done : List (Edge T)) (edge : Edge T)
    (nb : T → List (Edge T)) (d : dijkstraState T)
    (hnot : ¬ wrapInt (d.distances x + edge.Weight) < d.distances edge.Link)
    (inv : LazyInv endNode d (upd nb x done)) :
    LazyInv endNode d (upd nb x (done ++ [edge])) := by
  refine ⟨inv.cmp, inv.heap, inv.le_max, inv.entry, ?_, inv.goal⟩
  intro pn hpn
  rcases inv.fresh pn hpn with h | ⟨h1, h2⟩
  · exact Or.inl h
  · right
    refine ⟨h1, ?_⟩
    intro e he
    by_cases hx : pn.node = x
    · rw [hx, upd_same] at he
      rw [hx, upd_same] at h2
      rw [hx]
      simp only [List.mem_append, List.mem_singleton] at he
      rcases he with he | rfl
      · exact h2 e he
      · exact hnot
    · rw [upd_ne _ _ _ _ hx] at he
      rw [upd_ne _ _ _ _ hx] at h2
      exact h2 e he

theorem lazyInv_improve (endNode x : T) (done : List (Edge T)) (edge : Edge T)
    (nb : T → List (Edge T)) (d : dijkstraState T)
    (hlt : wrapInt (d.distances x + edge.Weight) < d.distances edge.Link)
    (inv : LazyInv endNode d (upd nb x done)) :
    LazyInv endNode
      { distances := upd d.distances edge.Link (wrapInt (d.distances x + edge.Weight))
        route := upd d.route edge.Link (some x)
        queue := d.queue.Push
          { node := edge.Link, priority := wrapInt (d.distances x + edge.Weight) } }
      (upd nb x (done ++ [edge])) := by
  obtain ⟨hperm, hcmp, hheap⟩ := queue_push d.queue inv.cmp inv.heap
    { node := edge.Link, priority := wrapInt (d.distances x + edge.Weight) }
  have hmono : ∀ y, upd d.distances edge.Link (wrapInt (d.distances x + edge.Weight)) y
      ≤ d.distances y := by
    intro y
    by_cases hy : y = edge.Link
    · subst hy; rw [upd_same]; omega
    · rw [upd_ne _ _ _ _ hy]
  have hmem : ∀ pn, pn ∈ (d.queue.Push
      { node := edge.Link, priority := wrapInt (d.distances x + edge.Weight) }).contents ↔
      pn = { node := edge.Link, priority := wrapInt (d.distances x + edge.Weight) } ∨
        pn ∈ d.queue.contents := by
    intro pn; rw [hperm.mem_iff]; exact List.mem_cons
  refine ⟨hcmp, hheap, ?_, ?_, ?_, ?_⟩
  · intro y
    exact le_trans (hmono y) (inv.le_max y)
  · intro pn hpn
    rcases (hmem pn).1 hpn with rfl | hpn
    · simp only [upd_same]
      have := inv.le_max edge.Link
      exact ⟨le_refl _, by omega⟩
    · exact ⟨le_trans (hmono _) (inv.entry pn hpn).1, (inv.entry pn hpn).2⟩
  · intro pn hpn
    simp only
    by_cases hl : pn.node = edge.Link
    · left
      refine ⟨_, (hmem _).2 (Or.inl rfl), hl.symm, ?_⟩
      simp only [hl, upd_same]
    · have hpn' : pn ∈ d.queue.contents := by
        rcases (hmem pn).1 hpn with h | h
        · rw [h] at hl; exact absurd rfl hl
        · exact h
      rw [upd_ne _ _ _ _ hl]
      rcases inv.fresh pn hpn' with ⟨pn', h1, h2, h3⟩ | ⟨h1, h2⟩
      · exact Or.inl ⟨pn', (hmem _).2 (Or.inr h1), h2, h3⟩
      · right
        refine ⟨h1, ?_⟩
        intro e he hcon
        have hle := hmono e.Link
        by_cases hx : pn.node = x
        · rw [hx, upd_same] at he
          rw [hx, upd_same] at h2
          rw [hx] at hcon
          simp only [List.mem_append, List.mem_singleton] at he
          rcases he with he | rfl
          · exact h2 e he (by omega)
          · rw [upd_same] at hcon; omega
        · rw [upd_ne _ _ _ _ hx] at he
          rw [upd_ne _ _ _ _ hx] at h2
          exact h2 e he (by omega)
  · intro hg
    simp only at hg
    by_cases hl : endNode = edge.Link
    · exact ⟨_, (hmem _).2 (Or.inl rfl), hl.symm⟩
    · rw [upd_ne _ _ _ _ hl] at hg
      obtain ⟨pn, h1, h2⟩ := inv.goal hg
      exact ⟨pn, (hmem _).2 (Or.inr h1), h2⟩

theorem lazyInv_relax (endNode x : T) (nb : T → List (Edge T)) :
    ∀ (todo done : List (Edge T)) (d : dijkstraState T),
      LazyInv endNode d (upd nb x done) →
      LazyInv endNode (dijkstraRelax x todo d) (upd nb x (done ++ todo)) := by
  intro todo
  induction todo with
  | nil => intro done d inv; simpa using inv
  | cons edge rest ih =>
    intro done d inv
    have happ : done ++ edge :: rest = (done ++ [edge]) ++ rest := by simp
    rw [happ]
    simp only [dijkstraRelax]
    split
    · rename_i hlt
      exact ih _ _ (lazyInv_improve endNode x done edge nb d hlt inv)
    · rename_i hnot
      exact ih _ _ (lazyInv_skip endNode x done edge nb d hnot inv)

/-- The state after `queue.Pop()` when the popped entry is stale. -/
theorem lazyInv_pop_stale (endNode : T) (nb : T → List (Edge T)) (d : dijkstraState T)
    (inv : LazyInv endNode d nb) (hne : d.queue.IsEmpty = false)
    (hst : d.distances d.queue.Pop.1.1.node < d.queue.Pop.1.1.priority) :
    (d.queue.Pop.1.1.node ≠ endNode ∧
      ∀ e ∈ nb d.queue.Pop.1.1.node,
        ¬ wrapInt (d.distances d.queue.Pop.1.1.node + e.Weight) < d.distances e.Link) ∧
    LazyInv endNode { d with queue := d.queue.Pop.2 } nb := by
  obtain ⟨hperm, hcmp, hheap, hmin⟩ := queue_pop d.queue inv.cmp inv.heap hne
  have hmem : ∀ pn, pn ∈ d.queue.contents ↔ pn = d.queue.Pop.1.1 ∨ pn ∈ d.queue.Pop.2.contents := by
    intro pn; rw [← hperm.mem_iff]; exact List.mem_cons
  have hpop : d.queue.Pop.1.1 ∈ d.queue.contents := (hmem _).2 (Or.inl rfl)
  have hclosed : d.queue.Pop.1.1.node ≠ endNode ∧
      ∀ e ∈ nb d.queue.Pop.1.1.node,
        ¬ wrapInt (d.distances d.queue.Pop.1.1.node + e.Weight) < d.distances e.Link := by
    rcases inv.fresh _ hpop with ⟨pn', h1, _, h3⟩ | h
    · have := hmin pn' h1
      omega
    · exact h
  refine ⟨hclosed, inv.cmp ▸ hcmp, hheap, inv.le_max, ?_, ?_, ?_⟩
  · intro pn hpn
    exact inv.entry pn ((hmem pn).2 (Or.inr hpn))
  · intro pn hpn
    rcases inv.fresh pn ((hmem pn).2 (Or.inr hpn)) with ⟨pn', h1, h2, h3⟩ | h
    · rcases (hmem pn').1 h1 with h | h
      · subst h
        rw [h2] at hst
        omega
      · exact Or.inl ⟨pn', h, h2, h3⟩
    · exact Or.inr h
  · intro hg
    obtain ⟨pn, h1, h2⟩ := inv.goal hg
    rcases (hmem pn).1 h1 with h | h
    · subst h; exact absurd h2 hclosed.1
    · exact ⟨pn, h, h2⟩

/-- The state after `queue.Pop()` when the popped node is not `end`: none of its edges has
been looked at yet. -/
theorem lazyInv_pop_expand (endNode : T) (nb : T → List (Edge T)) (d : dijkstraState T)
    (inv : LazyInv endNode d nb) (hne : d.queue.IsEmpty = false)
    (hx : d.queue.Pop.1.1.node ≠ endNode) :
    LazyInv endNode { d with queue := d.queue.Pop.2 } (upd nb d.queue.Pop.1.1.node []) := by
  obtain ⟨hperm, hcmp, hheap, _⟩ := queue_pop d.queue inv.cmp inv.heap hne
  have hmem : ∀ pn, pn ∈ d.queue.contents ↔ pn = d.queue.Pop.1.1 ∨ pn ∈ d.queue.Pop.2.contents := by
    intro pn; rw [← hperm.mem_iff]; exact List.mem_cons
  refine ⟨inv.cmp ▸ hcmp, hheap, inv.le_max, ?_, ?_, ?_⟩
  · intro pn hpn
    exact inv.entry pn ((hmem pn).2 (Or.inr hpn))
  · intro pn hpn
    by_cases hpx : pn.node = d.queue.Pop.1.1.node
    · right
      refine ⟨by rw [hpx]; exact hx, ?_⟩
      intro e he
      rw [hpx, upd_same] at he
      simp at he
    · rcases inv.fresh pn ((hmem pn).2 (Or.inr hpn)) with ⟨pn', h1, h2, h3⟩ | ⟨h1, h2⟩
      · rcases (hmem pn').1 h1 with h | h
        · subst h; exact absurd h2.symm hpx
        · exact Or.inl ⟨pn', h, h2, h3⟩
      · right
        refine ⟨h1, ?_⟩
        intro e he
        rw [upd_ne _ _ _ _ hpx] at he
        exact h2 e he
  · intro hg
    obtain ⟨pn, h1, h2⟩ := inv.goal hg
    rcases (hmem pn).1 h1 with h | h
    · subst h; exact absurd h2 hx
    · exact ⟨pn, h, h2⟩

theorem dijkstraLoop_succ (g : Graph T) (endNode : T) (fuel : Nat) (st : dijkstraState T) :
    dijkstraLoop g endNode (fuel + 1) st =
      if st.queue.IsEmpty then some st
      else if st.queue.Pop.1.1.priority > st.distances st.queue.Pop.1.1.node then
        dijkstraLoop g endNode fuel { st with queue := st.queue.Pop.2 }
      else if st.queue.Pop.1.1.node = endNode then some { st with queue := st.queue.Pop.2 }
      else dijkstraLoop g endNode fuel (dijkstraRelax st.queue.Pop.1.1.node
        (g.nbrs st.queue.Pop.1.1.node) { st with queue := st.queue.Pop.2 }) := rfl

theorem astarLoop_succ (g : Graph T) (heuristic : T → T → Int) (endNode : T) (fuel : Nat)
    (st : astarState T) :
    astarLoop g heuristic endNode (fuel + 1) st =
      if st.queue.IsEmpty then some (st, false)
      else if st.queue.Pop.1.1.node = endNode then some ({ st with queue := st.queue.Pop.2 }, true)
      else astarLoop g heuristic endNode fuel (astarRelax heuristic endNode st.queue.Pop.1.1.node
        (g.nbrs st.queue.Pop.1.1.node) { st with queue := st.queue.Pop.2 }) := rfl

theorem upd_nbrs_self (g : Graph T) (x : T) : upd g.nbrs x ([] ++ g.nbrs x) = g.nbrs := by
  rw [List.nil_append]; exact upd_self_eq _ _

/-- The loops of `Dijkstra` and of `AStar` with the zero heuristic run in lockstep: a stale
entry, which `Dijkstra` skips, is expanded by `AStar` without any effect. -/
theorem loops_agree (g : Graph T) (endNode : T) :
    ∀ (fuel : Nat) (d : dijkstraState T) (a : astarState T), SameSearch d a →
      LazyInv endNode d g.nbrs →
      (dijkstraLoop g endNode fuel d = none ∧
        astarLoop g (fun _ _ => 0) endNode fuel a = none) ∨
      ∃ d' a' flag, dijkstraLoop g endNode fuel d = some d' ∧
        astarLoop g (fun _ _ => 0) endNode fuel a = some (a', flag) ∧ SameSearch d' a' ∧
        (flag = true ↔ d'.distances endNode ≠ MaxInt) := by
  intro fuel
  induction fuel with
  | zero => intro d a _ _; exact Or.inl ⟨rfl, rfl⟩
  | succ fuel ih =>
    intro d a hsim inv
    obtain ⟨s1, s2, s3⟩ := hsim
    by_cases hemp : d.queue.IsEmpty = true
    · right
      refine ⟨d, a, false, by rw [dijkstraLoop_succ, if_pos hemp],
        by rw [astarLoop_succ, ← s3, if_pos hemp], ⟨s1, s2, s3⟩, ?_⟩
      have hnil := (isEmpty_eq_true_iff d.queue).1 hemp
      constructor
      · intro h; cases h
      · intro h
        obtain ⟨pn, hpn, _⟩ := inv.goal h
        rw [hnil] at hpn; cases hpn
    · have hne : d.queue.IsEmpty = false := by simpa using hemp
      have hemp' : ¬ a.queue.IsEmpty = true := by rw [← s3]; exact hemp
      have hsim1 : SameSearch { d with queue := d.queue.Pop.2 }
          { a with queue := a.queue.Pop.2 } := ⟨s1, s2, by simp only [s3]⟩
      obtain ⟨hperm, _, _, _⟩ := queue_pop d.queue inv.cmp inv.heap hne
      have hpop : d.queue.Pop.1.1 ∈ d.queue.contents :=
        hperm.subset (List.mem_cons_self _ _)
      by_cases hst : d.queue.Pop.1.1.priority > d.distances d.queue.Pop.1.1.node
      · obtain ⟨⟨hx, hrel⟩, inv1⟩ := lazyInv_pop_stale endNode g.nbrs d inv hne hst
        have hnoop : astarRelax (fun _ _ => 0) endNode a.queue.Pop.1.1.node
            (g.nbrs a.queue.Pop.1.1.node) { a with queue := a.queue.Pop.2 }
            = { a with queue := a.queue.Pop.2 } := by
          apply astarRelax_noop
          intro e he
          simp only [← s1, ← s3]
          exact hrel e (by rw [← s3] at he; exact he)
        have hd : dijkstraLoop g endNode (fuel + 1) d
            = dijkstraLoop g endNode fuel { d with queue := d.queue.Pop.2 } := by
          rw [dijkstraLoop_succ, if_neg hemp, if_pos hst]
        have ha : astarLoop g (fun _ _ => 0) endNode (fuel + 1) a
            = astarLoop g (fun _ _ => 0) endNode fuel { a with queue := a.queue.Pop.2 } := by
          have hx' : ¬ a.queue.Pop.1.1.node = endNode := by rw [← s3]; exact hx
          rw [astarLoop_succ, if_neg hemp', if_neg hx', hnoop]
        rw [hd, ha]
        exact ih _ _ hsim1 inv1
      · by_cases hx : d.queue.Pop.1.1.node = endNode
        · right
          refine ⟨{ d with queue := d.queue.Pop.2 }, { a with queue := a.queue.Pop.2 }, true,
            by rw [dijkstraLoop_succ, if_neg hemp, if_neg hst, if_pos hx], ?_, hsim1, ?_⟩
          · have hx' : a.queue.Pop.1.1.node = endNode := by rw [← s3]; exact hx
            rw [astarLoop_succ, if_neg hemp', if_pos hx']
          · have h1 := (inv.entry _ hpop).1
            have h2 := (inv.entry _ hpop).2
            rw [hx] at h1
            simp only [true_iff]
            intro h
            rw [h] at h1
            omega
        · have inv1 := lazyInv_pop_expand endNode g.nbrs d inv hne hx
          have inv2 := lazyInv_relax endNode d.queue.Pop.1.1.node g.nbrs
            (g.nbrs d.queue.Pop.1.1.node) [] _ inv1
          rw [upd_nbrs_self] at inv2
          have hsim2 := sameSearch_relax endNode d.queue.Pop.1.1.node
            (g.nbrs d.queue.Pop.1.1.node) _ _ hsim1
          have hd : dijkstraLoop g endNode (fuel + 1) d
              = dijkstraLoop g endNode fuel (dijkstraRelax d.queue.Pop.1.1.node
                  (g.nbrs d.queue.Pop.1.1.node) { d with queue := d.queue.Pop.2 }) := by
            rw [dijkstraLoop_succ, if_neg hemp, if_neg hst, if_neg hx]
          have ha : astarLoop g (fun _ _ => 0) endNode (fuel + 1) a
              = astarLoop g (fun _ _ => 0) endNode fuel
                  (astarRelax (fun _ _ => 0) endNode d.queue.Pop.1.1.node
                    (g.nbrs d.queue.Pop.1.1.node) { a with queue := a.queue.Pop.2 }) := by
            have hx' : ¬ a.queue.Pop.1.1.node = endNode := by rw [← s3]; exact hx
            rw [astarLoop_succ, if_neg hemp', if_neg hx', s3]
          rw [hd, ha]
          exact ih _ _ hsim2 inv2

/-- The invariant of lazy deletion holds when the loop of `Dijkstra` starts. -/
theorem lazyInv_init (g : Graph T) (start endNode : T) (he : endNode ∈ g.keys) :
    LazyInv endNode
      { distances := upd (initDistances g) start 0
        route := fun _ => none
        queue := (heap.New priorityLess).Push { node := start, priority := 0 } } g.nbrs := by
  obtain ⟨hperm, hcmp, hheap⟩ := queue_push (heap.New priorityLess) rfl (isHeap_nil _)
    ({ node := start, priority := 0 } : priorityNode T)
  have hmem : ∀ pn, pn ∈ ((heap.New priorityLess).Push
      ({ node := start, priority := 0 } : priorityNode T)).contents ↔
      pn = { node := start, priority := 0 } := by
    intro pn; rw [hperm.mem_iff]; simp [heap.New]
  have hd : ∀ y, upd (initDistances g) start 0 y ≤ MaxInt := by
    intro y
    by_cases hy : y = start
    · subst hy; rw [upd_same]; unfold MaxInt; omega
    · rw [upd_ne _ _ _ _ hy, initDistances_eq]
      split
      · exact le_refl _
      · unfold MaxInt; omega
  refine ⟨hcmp, hheap, hd, ?_, ?_, ?_⟩
  · intro pn hpn
    rw [(hmem pn).1 hpn]
    simp only [upd_same]
    exact ⟨le_refl _, by unfold MaxInt; omega⟩
  · intro pn hpn
    left
    refine ⟨pn, hpn, rfl, ?_⟩
    rw [(hmem pn).1 hpn]
    simp only [upd_same]
  · intro hg
    simp only at hg
    by_cases hes : endNode = start
    · exact ⟨_, (hmem _).2 rfl, hes.symm⟩
    · rw [upd_ne _ _ _ _ hes, initDistances_eq, if_pos he] at hg
      exact absurd rfl hg

/-- `AStar` with the zero heuristic and `Dijkstra` return the same, for every graph and every
bound on the number of iterations. -/
theorem astarZero_dijkstra (g : Graph T) (fuel : Nat) (start endNode : T) :
    g.AStar fuel start endNode (fun _ _ => 0) = g.Dijkstra fuel start endNode := by
  unfold Graph.AStar Graph.Dijkstra
  cases hs : lookup g.adjacency start with
  | none => rfl
  | some es1 =>
    cases he : lookup g.adjacency endNode with
    | none => rfl
    | some es2 =>
      simp only
      have hek : endNode ∈ g.keys := mem_keys_of_lookup g endNode es2 he
      have hsim : SameSearch
          ({ distances := upd (initDistances g) start 0
             route := fun _ => none
             queue := (heap.New priorityLess).Push { node := start, priority := 0 } } :
            dijkstraState T)
          ({ scoreG := upd (initDistances g) start 0
             scoreF := upd (fun _ => 0) start 0
             route := fun _ => none
             queue := (heap.New priorityLess).Push { node := start, priority := 0 } } :
            astarState T) := ⟨rfl, rfl, rfl⟩
      rcases loops_agree g endNode fuel _ _ hsim (lazyInv_init g start endNode hek) with
        ⟨h1, h2⟩ | ⟨d', a', flag, h1, h2, ⟨s1, s2, _⟩, h4⟩
      · rw [h1, h2]
      · rw [h1, h2]
        cases flag with
        | true =>
          have hne : d'.distances endNode ≠ MaxInt := h4.1 rfl
          simp only
          rw [if_neg hne, s1, s2]
        | false =>
          have heq : d'.distances endNode = MaxInt := by
            by_contra hne
            have := h4.2 hne
            cases this
          simp only
          rw [if_pos heq]

theorem isPath_append (g : Graph T) :
    ∀ (es1 : List (Edge T)) (u v w : T) (es2 : List (Edge T)),
      IsPath g u es1 v → IsPath g v es2 w → IsPath g u (es1 ++ es2) w := by
  intro es1
  induction es1 with
  | nil => intro u v w es2 h1 h2; simp only [IsPath] at h1; subst h1; simpa using h2
  | cons e es ih =>
    intro u v w es2 h1 h2
    simp only [IsPath, List.cons_append] at h1 ⊢
    exact ⟨h1.1, ih _ _ _ _ h1.2 h2⟩

theorem isPath_snoc (g : Graph T) (u x : T) (es : List (Edge T)) (e : Edge T)
    (h : IsPath g u es x) (he : e ∈ g.nbrs x) : IsPath g u (es ++ [e]) e.Link :=
  isPath_append g es u x e.Link [e] h ⟨he, rfl⟩

theorem isPath_snoc_inv (g : Graph T) :
    ∀ (es : List (Edge T)) (u v : T) (e : Edge T), IsPath g u (es ++ [e]) v →
      ∃ x, IsPath g u es x ∧ e ∈ g.nbrs x ∧ e.Link = v := by
  intro es
  induction es with
  | nil =>
    intro u v e h
    simp only [List.nil_append, IsPath] at h
    exact ⟨u, rfl, h.1, h.2⟩
  | cons e' es ih =>
    intro u v e h
    simp only [List.cons_append, IsPath] at h
    obtain ⟨x, h1, h2, h3⟩ := ih _ _ _ h.2
    exact ⟨x, ⟨h.1, h1⟩, h2, h3⟩

theorem pathWeight_nil : pathWeight ([] : List (Edge T)) = 0 := rfl

theorem pathWeight_append (es1 es2 : List (Edge T)) :
    pathWeight (es1 ++ es2) = pathWeight es1 + pathWeight es2 := by
  simp [pathWeight]

theorem pathWeight_snoc (es : List (Edge T)) (e : Edge T) :
    pathWeight (es ++ [e]) = pathWeight es + e.Weight := by
  simp [pathWeight]

theorem mem_nbrs_iff (g : Graph T) (u : T) (e : Edge T) :
    e ∈ g.nbrs u ↔ ∃ es, lookup g.adjacency u = some es ∧ e ∈ es :=
  mem_neighbours_iff g u e

theorem Graph.NonNeg.weight {g : Graph T} (hn : g.NonNeg) (u : T) (e : Edge T)
    (he : e ∈ g.nbrs u) : 0 ≤ e.Weight := by
  obtain ⟨es, h1, h2⟩ := (mem_nbrs_iff g u e).1 he
  exact hn (u, es) (lookup_mem _ _ _ h1) e h2

theorem Graph.Consistent.edge {g : Graph T} {endNode : T} {heuristic : T → T → Int}
    (hc : g.Consistent endNode heuristic) (u : T) (e : Edge T) (he : e ∈ g.nbrs u) :
    heuristic u endNode ≤ e.Weight + heuristic e.Link endNode := by
  obtain ⟨es, h1, h2⟩ := (mem_nbrs_iff g u e).1 he
  exact hc.2.2 (u, es) (lookup_mem _ _ _ h1) e h2

theorem pathWeight_nonneg (g : Graph T) (hn : g.NonNeg) :
    ∀ (es : List (Edge T)) (u v : T), IsPath g u es v → 0 ≤ pathWeight es := by
  intro es
  induction es with
  | nil => intro u v _; simp [pathWeight]
  | cons e es ih =>
    intro u v h
    simp only [IsPath] at h
    have h1 := hn.weight u e h.1
    have h2 := ih _ _ h.2
    simp only [pathWeight, List.map_cons, List.sum_cons] at h2 ⊢
    omega

theorem isPath_mem_keys (g : Graph T) (wf : g.WF) :
    ∀ (es : List (Edge T)) (u v : T), u ∈ g.keys → IsPath g u es v → v ∈ g.keys := by
  intro es
  induction es with
  | nil => intro u v hu h; simp only [IsPath] at h; subst h; exact hu
  | cons e es ih =>
    intro u v _ h
    simp only [IsPath] at h
    exact ih _ _ (wf.link_mem_keys u e h.1) h.2

theorem isPath_nodes_mem_keys (g : Graph T) (wf : g.WF) :
    ∀ (es : List (Edge T)) (u v : T), IsPath g u es v → ∀ y ∈ es.map Edge.Link, y ∈ g.keys := by
  intro es
  induction es with
  | nil => intro u v _ y hy; simp at hy
  | cons e es ih =>
    intro u v h y hy
    simp only [IsPath] at h
    simp only [List.map_cons, List.mem_cons] at hy
    rcases hy with rfl | hy
    · exact wf.link_mem_keys u e h.1
    · exact ih _ _ h.2 y hy

theorem isPath_getLast (g : Graph T) :
    ∀ (es : List (Edge T)) (u v : T), IsPath g u es v →
      (u :: es.map Edge.Link).getLast? = some v := by
  intro es
  induction es with
  | nil => intro u v h; simp only [IsPath] at h; subst h; rfl
  | cons e es ih =>
    intro u v h
    simp only [IsPath] at h
    have := ih _ _ h.2
    simp only [List.map_cons]
    rw [List.getLast?_cons_cons]
    exact this

/-- The sum `scoreG[node] + weight` formed for an edge of a reached node does not overflow. -/
theorem SearchCore.tentative {g : Graph T} {start : T} {st : astarState T}
    (core : SearchCore g start st) (hn : g.NonNeg) (hno : g.NoOverflow start) (x : T)
    (hx : x ∈ g.keys) (hxr : st.scoreG x < MaxInt) (edge : Edge T) (hedge : edge ∈ g.nbrs x) :
    0 ≤ st.scoreG x + edge.Weight ∧ st.scoreG x + edge.Weight < MaxInt ∧
      wrapInt (st.scoreG x + edge.Weight) = st.scoreG x + edge.Weight := by
  obtain ⟨es, h1, h2, _, h4⟩ := core.first x hx hxr
  have h5 := hno es x h1 h2 edge hedge
  have h6 := core.nonneg x hx
  have h7 := hn.weight x edge hedge
  have h8 : 0 ≤ st.scoreG x + edge.Weight := by omega
  have h9 : st.scoreG x + edge.Weight < MaxInt := by omega
  refine ⟨h8, h9, wrapInt_of_range _ ?_ (le_of_lt h9)⟩
  unfold MinInt; omega

theorem searchCore_improve (g : Graph T) (wf : g.WF) (hn : g.NonNeg) (start : T)
    (hno : g.NoOverflow start) (x : T) (edge : Edge T) (f : Int) (st : astarState T)
    (core : SearchCore g start st) (hx : x ∈ g.keys) (hxr : st.scoreG x < MaxInt)
    (hedge : edge ∈ g.nbrs x)
    (hlt : wrapInt (st.scoreG x + edge.Weight) < st.scoreG edge.Link) :
    SearchCore g start
      { route := upd st.route edge.Link (some x)
        scoreG := upd st.scoreG edge.Link (wrapInt (st.scoreG x + edge.Weight))
        scoreF := upd st.scoreF edge.Link f
        queue := st.queue.Push { node := edge.Link, priority := f } } ∧
    edge.Link ≠ x := by
  obtain ⟨t1, t2, t3⟩ := core.tentative hn hno x hx hxr edge hedge
  rw [t3] at hlt ⊢
  have hw := hn.weight x edge hedge
  have hl : edge.Link ∈ g.keys := wf.link_mem_keys x edge hedge
  have hls : edge.Link ≠ start := by
    intro h; rw [h, core.start_zero] at hlt; omega
  have hlx : edge.Link ≠ x := by
    intro h; rw [h] at hlt; omega
  have hmono : ∀ y, upd st.scoreG edge.Link (st.scoreG x + edge.Weight) y ≤ st.scoreG y := by
    intro y
    by_cases hy : y = edge.Link
    · subst hy; rw [upd_same]; omega
    · rw [upd_ne _ _ _ _ hy]
  have hmem : ∀ pn, pn ∈ (st.queue.Push { node := edge.Link, priority := f }).contents ↔
      pn = { node := edge.Link, priority := f } ∨ pn ∈ st.queue.contents := by
    intro pn; rw [(Push_perm _ _).mem_iff]; exact List.mem_cons
  refine ⟨⟨?_, ?_, ?_, ?_, ?_, ?_, ?_, ?_, ?_, ?_⟩, hlx⟩
  · simp only; rw [upd_ne _ _ _ _ hls.symm]; exact core.start_zero
  · simp only; rw [upd_ne _ _ _ _ hls.symm]; exact core.start_route
  · intro y hy; exact le_trans (hmono y) (core.le_max y hy)
  · intro y hy
    simp only
    by_cases hyl : y = edge.Link
    · subst hyl; rw [upd_same]; exact t1
    · rw [upd_ne _ _ _ _ hyl]; exact core.nonneg y hy
  · intro y hy hyr
    simp only at hyr ⊢
    by_cases hyl : y = edge.Link
    · subst hyl
      rw [upd_same]
      by_cases hold : st.scoreG edge.Link < MaxInt
      · obtain ⟨es, h1, h2, h3, h4⟩ := core.first _ hl hold
        exact ⟨es, h1, h2, fun z hz => lt_of_le_of_lt (hmono z) (h3 z hz), by omega⟩
      · obtain ⟨es, h1, h2, h3, h4⟩ := core.first x hx hxr
        refine ⟨es ++ [edge], isPath_snoc g start x es edge h1 hedge, ?_, ?_, ?_⟩
        · simp only [List.map_append, List.map_cons, List.map_nil]
          rw [← List.cons_append]
          refine List.Nodup.append h2 (List.nodup_singleton _) ?_
          intro z hz1 hz2
          simp only [List.mem_singleton] at hz2
          subst hz2
          simp only [List.mem_cons] at hz1
          rcases hz1 with h | h
          · exact hls h
          · exact hold (h3 _ h)
        · intro z hz
          simp only [List.map_append, List.map_cons, List.map_nil, List.mem_append,
            List.mem_singleton] at hz
          rcases hz with h | h
          · exact lt_of_le_of_lt (hmono z) (h3 z h)
          · subst h; rw [upd_same]; exact t2
        · rw [pathWeight_snoc]; omega
    · rw [upd_ne _ _ _ _ hyl] at hyr ⊢
      obtain ⟨es, h1, h2, h3, h4⟩ := core.first y hy hyr
      exact ⟨es, h1, h2, fun z hz => lt_of_le_of_lt (hmono z) (h3 z hz), h4⟩
  · intro y hy hyr
    simp only at hyr ⊢
    by_cases hyl : y = edge.Link
    · subst hyl
      rw [upd_same]
      obtain ⟨es, h1, h2⟩ := core.sound x hx hxr
      exact ⟨es ++ [edge], isPath_snoc g start x es edge h1 hedge, by
        rw [pathWeight_snoc, h2]⟩
    · rw [upd_ne _ _ _ _ hyl] at hyr ⊢
      exact core.sound y hy hyr
  · intro pn hpn
    simp only
    rcases (hmem pn).1 hpn with rfl | h
    · simp only [upd_same]; exact ⟨hl, t2⟩
    · exact ⟨(core.entry pn h).1, lt_of_le_of_lt (hmono _) (core.entry pn h).2⟩
  · intro z y hzy
    simp only at hzy ⊢
    by_cases hzl : z = edge.Link
    · subst hzl
      rw [upd_same] at hzy
      obtain rfl := Option.some.inj hzy
      rw [upd_same, upd_ne _ _ _ _ hlx.symm]
      exact ⟨hl, t2, hx, hxr, edge, hedge, rfl, le_refl _⟩
    · rw [upd_ne _ _ _ _ hzl] at hzy ⊢
      obtain ⟨h1, h2, h3, h4, e, h5, h6, h7⟩ := core.route_edge z y hzy
      refine ⟨h1, h2, h3, lt_of_le_of_lt (hmono y) h4, e, h5, h6, ?_⟩
      have := hmono y
      omega
  · intro y hy hyr hys
    simp only at hyr ⊢
    by_cases hyl : y = edge.Link
    · subst hyl; rw [upd_same]; exact ⟨x, rfl⟩
    · rw [upd_ne _ _ _ _ hyl] at hyr ⊢
      exact core.route_some y hy hyr hys
  · obtain ⟨tau, N, hN, hr⟩ := core.rank
    refine ⟨upd tau edge.Link N, N + 1, ?_, ?_⟩
    · intro y
      by_cases hyl : y = edge.Link
      · subst hyl; rw [upd_same]; omega
      · rw [upd_ne _ _ _ _ hyl]; have := hN y; omega
    · intro z y hzy
      simp only at hzy ⊢
      by_cases hzl : z = edge.Link
      · subst hzl
        rw [upd_same] at hzy
        obtain rfl := Option.some.inj hzy
        rw [upd_same, upd_same, upd_ne _ _ _ _ hlx.symm, upd_ne _ _ _ _ hlx.symm]
        have := hN x
        omega
      · rw [upd_ne _ _ _ _ hzl] at hzy
        rw [upd_ne _ _ _ _ hzl, upd_ne _ _ _ _ hzl]
        by_cases hyl : y = edge.Link
        · subst hyl
          rw [upd_same, upd_same]
          rcases hr z _ hzy with h | ⟨h, _⟩ <;> left <;> omega
        · rw [upd_ne _ _ _ _ hyl, upd_ne _ _ _ _ hyl]
          exact hr z y hzy

theorem searchClosed_skip (g : Graph T) (endNode x : T) (done : List (Edge T))
    (edge : Edge T) (st : astarState T)
    (hle : st.scoreG edge.Link ≤ st.scoreG x + edge.Weight)
    (cl : SearchClosed g endNode st (upd g.nbrs x done)) :
    SearchClosed g endNode st (upd g.nbrs x (done ++ [edge])) := by
  intro y hy hyr
  rcases cl y hy hyr with h | ⟨h1, h2⟩
  · exact Or.inl h
  · right
    refine ⟨h1, ?_⟩
    intro e he
    by_cases hyx : y = x
    · subst hyx
      rw [upd_same] at he h2
      simp only [List.mem_append, List.mem_singleton] at he
      rcases he with he | rfl
      · exact h2 e he
      · exact hle
    · rw [upd_ne _ _ _ _ hyx] at he h2
      exact h2 e he

theorem searchClosed_improve (g : Graph T) (endNode x : T) (done : List (Edge T))
    (edge : Edge T) (f v : Int) (st : astarState T) (hv : v < st.scoreG edge.Link)
    (hvx : v = st.scoreG x + edge.Weight) (hlx : edge.Link ≠ x)
    (cl : SearchClosed g endNode st (upd g.nbrs x done)) :
    SearchClosed g endNode
      { route := upd st.route edge.Link (some x)
        scoreG := upd st.scoreG edge.Link v
        scoreF := upd st.scoreF edge.Link f
        queue := st.queue.Push { node := edge.Link, priority := f } }
      (upd g.nbrs x (done ++ [edge])) := by
  have hmono : ∀ y, upd st.scoreG edge.Link v y ≤ st.scoreG y := by
    intro y
    by_cases hy : y = edge.Link
    · subst hy; rw [upd_same]; omega
    · rw [upd_ne _ _ _ _ hy]
  have hmem : ∀ pn, pn ∈ (st.queue.Push { node := edge.Link, priority := f }).contents ↔
      pn = { node := edge.Link, priority := f } ∨ pn ∈ st.queue.contents := by
    intro pn; rw [(Push_perm _ _).mem_iff]; exact List.mem_cons
  intro y hy hyr
  simp only at hyr ⊢
  by_cases hyl : y = edge.Link
  · exact Or.inl ⟨_, (hmem _).2 (Or.inl rfl), hyl.symm⟩
  · rw [upd_ne _ _ _ _ hyl] at hyr
    rcases cl y hy hyr with ⟨pn, h1, h2⟩ | ⟨h1, h2⟩
    · exact Or.inl ⟨pn, (hmem _).2 (Or.inr h1), h2⟩
    · right
      refine ⟨h1, ?_⟩
      intro e he
      rw [upd_ne _ _ _ _ hyl]
      have hm := hmono e.Link
      by_cases hyx : y = x
      · subst hyx
        rw [upd_same] at he h2
        simp only [List.mem_append, List.mem_singleton] at he
        rcases he with he | rfl
        · have := h2 e he; omega
        · rw [upd_same]; omega
      · rw [upd_ne _ _ _ _ hyx] at he h2
        have := h2 e he; omega

theorem sum_map_toNat_upd_lt (l : List T) (m : T → Int) (k : T) (v : Int) (hk : k ∈ l)
    (h0 : 0 ≤ v) (hv : v < m k) :
    (l.map (fun y => (upd m k v y).toNat)).sum < (l.map (fun y => (m y).toNat)).sum := by
  have hle : ∀ (l' : List T),
      (l'.map (fun y => (upd m k v y).toNat)).sum ≤ (l'.map (fun y => (m y).toNat)).sum := by
    intro l'
    induction l' with
    | nil => simp
    | cons a as ih =>
      simp only [List.map_cons, List.sum_cons]
      by_cases ha : a = k
      · subst ha; rw [upd_same]; omega
      · rw [upd_ne _ _ _ _ ha]; omega
  induction l with
  | nil => simp at hk
  | cons a as ih =>
    simp only [List.map_cons, List.sum_cons]
    by_cases ha : a = k
    · subst ha
      rw [upd_same]
      have := hle as
      omega
    · rw [upd_ne _ _ _ _ ha]
      simp only [List.mem_cons] at hk
      rcases hk with h | h
      · exact absurd h.symm ha
      · have := ih h; omega

theorem searchMeasure_improve (g : Graph T) (st : astarState T) (l x : T) (v f : Int)
    (hl : l ∈ g.keys) (h0 : 0 ≤ v) (hv : v < st.scoreG l) :
    searchMeasure g
      { route := upd st.route l (some x)
        scoreG := upd st.scoreG l v
        scoreF := upd st.scoreF l f
        queue := st.queue.Push { node := l, priority := f } } ≤ searchMeasure g st := by
  unfold searchMeasure
  have h1 := sum_map_toNat_upd_lt g.keys st.scoreG l v hl h0 hv
  have h2 : (st.queue.Push { node := l, priority := f }).contents.length
      = st.queue.contents.length + 1 := by
    rw [(Push_perm _ _).length_eq]; rfl
  simp only [h2]
  omega

/-- The loop over `neighbours` keeps the invariants, forms no sum that overflows, leaves the
score of the expanded node as it is and does not raise the measure. -/
theorem astarRelax_general (g : Graph T) (wf : g.WF) (hn : g.NonNeg) (start endNode : T)
    (hno : g.NoOverflow start) (heuristic : T → T → Int) (x : T) (hx : x ∈ g.keys) :
    ∀ (todo done : List (Edge T)) (st : astarState T), (∀ e ∈ todo, e ∈ g.nbrs x) →
      SearchCore g start st → st.scoreG x < MaxInt →
      SearchClosed g endNode st (upd g.nbrs x done) →
      SearchCore g start (astarRelax heuristic endNode x todo st) ∧
      SearchClosed g endNode (astarRelax heuristic endNode x todo st)
        (upd g.nbrs x (done ++ todo)) ∧
      searchMeasure g (astarRelax heuristic endNode x todo st) ≤ searchMeasure g st ∧
      (astarRelax heuristic endNode x todo st).scoreG x = st.scoreG x := by
  intro todo
  induction todo with
  | nil =>
    intro done st _ core _ cl
    exact ⟨core, by simpa using cl, le_refl _, rfl⟩
  | cons edge rest ih =>
    intro done st htodo core hxr cl
    have hedge : edge ∈ g.nbrs x := htodo edge (List.mem_cons_self _ _)
    have hrest : ∀ e ∈ rest, e ∈ g.nbrs x := fun e he => htodo e (List.mem_cons_of_mem _ he)
    have happ : done ++ edge :: rest = (done ++ [edge]) ++ rest := by simp
    obtain ⟨t1, t2, t3⟩ := core.tentative hn hno x hx hxr edge hedge
    rw [happ]
    simp only [astarRelax]
    split
    · rename_i hlt
      obtain ⟨core', hlx⟩ := searchCore_improve g wf hn start hno x edge
        (wrapInt (wrapInt (st.scoreG x + edge.Weight) + heuristic edge.Link endNode)) st core
        hx hxr hedge hlt
      have hxr' : (upd st.scoreG edge.Link (wrapInt (st.scoreG x + edge.Weight))) x
          < MaxInt := by
        rw [upd_ne _ _ _ _ hlx.symm]; exact hxr
      have cl' := searchClosed_improve g endNode x done edge
        (wrapInt (wrapInt (st.scoreG x + edge.Weight) + heuristic edge.Link endNode))
        (wrapInt (st.scoreG x + edge.Weight)) st hlt t3 hlx cl
      have hm := searchMeasure_improve g st edge.Link x (wrapInt (st.scoreG x + edge.Weight))
        (wrapInt (wrapInt (st.scoreG x + edge.Weight) + heuristic edge.Link endNode))
        (wf.link_mem_keys x edge hedge) (by rw [t3]; exact t1) hlt
      obtain ⟨r1, r2, r3, r4⟩ := ih (done ++ [edge]) _ hrest core' hxr' cl'
      refine ⟨r1, r2, le_trans r3 hm, ?_⟩
      rw [r4]
      exact upd_ne _ _ _ _ hlx.symm
    · rename_i hnot
      have cl' := searchClosed_skip g endNode x done edge st (by rw [t3] at hnot; omega) cl
      exact ih (done ++ [edge]) st hrest core hxr cl'

theorem queue_pop_perm {A : Type} [Inhabited A] (q : Heap A) (hne : q.IsEmpty = false) :
    List.Perm (q.Pop.1.1 :: q.Pop.2.contents) q.contents := by
  cases hq : q.contents with
  | nil => simp [Heap.IsEmpty, hq] at hne
  | cons root rest =>
    have hperm := Pop_perm q root rest hq
    have hroot : q.Pop.1.1 = root := by rw [Pop_cons q root rest hq]
    rw [hroot]; exact hperm.cons root

theorem searchCore_pop (g : Graph T) (start : T) (st : astarState T)
    (core : SearchCore g start st) (hne : st.queue.IsEmpty = false) :
    SearchCore g start { st with queue := st.queue.Pop.2 } ∧
    st.queue.Pop.1.1.node ∈ g.keys ∧ st.scoreG st.queue.Pop.1.1.node < MaxInt ∧
    searchMeasure g { st with queue := st.queue.Pop.2 } < searchMeasure g st := by
  have hperm := queue_pop_perm st.queue hne
  have hpop : st.queue.Pop.1.1 ∈ st.queue.contents := hperm.subset (List.mem_cons_self _ _)
  refine ⟨⟨core.start_zero, core.start_route, core.le_max, core.nonneg, core.first,
    core.sound, ?_, core.route_edge, core.route_some, core.rank⟩,
    (core.entry _ hpop).1, (core.entry _ hpop).2, ?_⟩
  · intro pn hpn
    exact core.entry pn (hperm.subset (List.mem_cons_of_mem _ hpn))
  · unfold searchMeasure
    have := hperm.length_eq
    simp only [List.length_cons] at this
    simp only
    omega

theorem searchClosed_pop (g : Graph T) (endNode : T) (st : astarState T)
    (cl : SearchClosed g endNode st g.nbrs) (hne : st.queue.IsEmpty = false)
    (hx : st.queue.Pop.1.1.node ≠ endNode) :
    SearchClosed g endNode { st with queue := st.queue.Pop.2 }
      (upd g.nbrs st.queue.Pop.1.1.node []) := by
  have hperm := queue_pop_perm st.queue hne
  intro y hy hyr
  by_cases hyx : y = st.queue.Pop.1.1.node
  · right
    refine ⟨by rw [hyx]; exact hx, ?_⟩
    intro e he
    rw [hyx, upd_same] at he
    cases he
  · rcases cl y hy hyr with ⟨pn, h1, h2⟩ | ⟨h1, h2⟩
    · left
      have := hperm.symm.subset h1
      simp only [List.mem_cons] at this
      rcases this with h | h
      · subst h; exact absurd h2.symm hyx
      · exact ⟨pn, h, h2⟩
    · right
      refine ⟨h1, ?_⟩
      intro e he
      rw [upd_ne _ _ _ _ hyx] at he
      exact h2 e he

/-- The loop of `AStar` ends within the fuel given by the measure, whatever the heuristic;
when it has popped `end`, `end` is reached, and otherwise the queue is empty. -/
theorem astarLoop_general (g : Graph T) (wf : g.WF) (hn : g.NonNeg) (start endNode : T)
    (hno : g.NoOverflow start) (heuristic : T → T → Int) :
    ∀ (fuel : Nat) (st : astarState T), SearchCore g start st →
      SearchClosed g endNode st g.nbrs → searchMeasure g st < fuel →
      ∃ st' flag, astarLoop g heuristic endNode fuel st = some (st', flag) ∧
        SearchCore g start st' ∧
        (flag = true → st'.scoreG endNode < MaxInt) ∧
        (flag = false → st'.queue.contents = [] ∧ SearchClosed g endNode st' g.nbrs) := by
  intro fuel
  induction fuel with
  | zero => intro st _ _ h; omega
  | succ fuel ih =>
    intro st core cl hm
    by_cases hemp : st.queue.IsEmpty = true
    · refine ⟨st, false, by rw [astarLoop_succ, if_pos hemp], core, by simp, ?_⟩
      intro _
      exact ⟨(isEmpty_eq_true_iff _).1 hemp, cl⟩
    · have hne : st.queue.IsEmpty = false := by simpa using hemp
      obtain ⟨core1, hx, hxr, hm1⟩ := searchCore_pop g start st core hne
      by_cases hxe : st.queue.Pop.1.1.node = endNode
      · refine ⟨{ st with queue := st.queue.Pop.2 }, true,
          by rw [astarLoop_succ, if_neg hemp, if_pos hxe], core1, ?_, by simp⟩
        intro _
        rw [← hxe]; exact hxr
      · have cl1 := searchClosed_pop g endNode st cl hne hxe
        obtain ⟨r1, r2, r3, _⟩ := astarRelax_general g wf hn start endNode hno heuristic
          st.queue.Pop.1.1.node hx (g.nbrs st.queue.Pop.1.1.node) []
          { st with queue := st.queue.Pop.2 } (fun _ h => h) core1 hxr cl1
        rw [upd_nbrs_self] at r2
        obtain ⟨st', flag, h1, h2, h3, h4⟩ := ih _ r1 r2 (by omega)
        exact ⟨st', flag, by rw [astarLoop_succ, if_neg hemp, if_neg hxe]; exact h1, h2, h3, h4⟩

/-- When the queue is empty every node reachable from `start` is reached and is not `end`. -/
theorem searchClosed_reach (g : Graph T) (wf : g.WF) (hn : g.NonNeg) (start endNode : T)
    (hs : start ∈ g.keys) (hno : g.NoOverflow start) (st : astarState T)
    (core : SearchCore g start st) (cl : SearchClosed g endNode st g.nbrs)
    (hq : st.queue.contents = []) :
    ∀ (es : List (Edge T)) (x : T), IsPath g start es x →
      st.scoreG x < MaxInt ∧ x ≠ endNode := by
  intro es
  induction es using List.reverseRecOn with
  | nil =>
    intro x h
    simp only [IsPath] at h
    subst h
    have hr : st.scoreG start < MaxInt := by rw [core.start_zero]; unfold MaxInt; omega
    refine ⟨hr, ?_⟩
    rcases cl start hs hr with ⟨pn, h1, _⟩ | ⟨h1, _⟩
    · rw [hq] at h1; cases h1
    · exact h1
  | append_singleton es edge ih =>
    intro x h
    obtain ⟨y, h1, h2, h3⟩ := isPath_snoc_inv g es start x edge h
    obtain ⟨hyr, _⟩ := ih y h1
    have hy : y ∈ g.keys := isPath_mem_keys g wf es start y hs h1
    have hxk : x ∈ g.keys := by rw [← h3]; exact wf.link_mem_keys y edge h2
    obtain ⟨_, t2, _⟩ := core.tentative hn hno y hy hyr edge h2
    have hxr : st.scoreG x < MaxInt := by
      rcases cl y hy hyr with ⟨pn, k1, _⟩ | ⟨_, k2⟩
      · rw [hq] at k1; cases k1
      · have := k2 edge h2
        rw [h3] at this
        omega
    refine ⟨hxr, ?_⟩
    rcases cl x hxk hxr with ⟨pn, k1, _⟩ | ⟨k1, _⟩
    · rw [hq] at k1; cases k1
    · exact k1

theorem buildPath_succ (route : T → Option T) (fuel : Nat) (n : T) (path : List T) :
    buildPath route (fuel + 1) n path =
      match route n with
      | none => some (n :: path)
      | some step => buildPath route fuel step (n :: path) := rfl

theorem rank_lt (N a b ta tb : Nat) (hta : ta < N)
    (h : a < b ∨ (a = b ∧ ta < tb)) : a * N + ta < b * N + tb := by
  rcases h with h | ⟨h, h'⟩
  · have h1 : (a + 1) * N ≤ b * N := Nat.mul_le_mul_right N h
    rw [Nat.succ_mul] at h1
    omega
  · subst h; omega

/-- Walking `route` back from a reached node ends at `start` after fewer steps than there are
keys, along edges of the graph whose weights sum to at most the score of the node. -/
theorem buildPath_spec (g : Graph T) (start : T) (st : astarState T)
    (core : SearchCore g start st) :
    ∀ x ∈ g.keys, st.scoreG x < MaxInt →
      ∃ es, IsPath g start es x ∧ pathWeight es ≤ st.scoreG x ∧
        (start :: es.map Edge.Link).Nodup ∧ (∀ y ∈ start :: es.map Edge.Link, y ∈ g.keys) ∧
        ∀ fuel acc, es.length < fuel →
          buildPath st.route fuel x acc = some ((start :: es.map Edge.Link) ++ acc) := by
  obtain ⟨tau, N, hN, hr⟩ := core.rank
  have key : ∀ (n : Nat) (x : T), (st.scoreG x).toNat * N + tau x = n → x ∈ g.keys →
      st.scoreG x < MaxInt →
      ∃ es, IsPath g start es x ∧ pathWeight es ≤ st.scoreG x ∧
        (start :: es.map Edge.Link).Nodup ∧ (∀ y ∈ start :: es.map Edge.Link, y ∈ g.keys) ∧
        (∀ y ∈ start :: es.map Edge.Link,
          (st.scoreG y).toNat * N + tau y ≤ (st.scoreG x).toNat * N + tau x) ∧
        ∀ fuel acc, es.length < fuel →
          buildPath st.route fuel x acc = some ((start :: es.map Edge.Link) ++ acc) := by
    intro n
    induction n using Nat.strong_induction_on with
    | _ n ih =>
      intro x hn hx hxr
      cases hroute : st.route x with
      | none =>
        have hxs : x = start := by
          by_contra hne
          obtain ⟨y, hy⟩ := core.route_some x hx hxr hne
          rw [hroute] at hy; cases hy
        subst hxs
        refine ⟨[], rfl, ?_, by simp, by simpa using hx, by simp, ?_⟩
        · rw [pathWeight_nil, core.start_zero]
        · intro fuel acc hf
          cases fuel with
          | zero => simp at hf
          | succ fuel => rw [buildPath_succ, hroute]; rfl
      | some y =>
        obtain ⟨_, _, hy, hyr, e, he, hel, hw⟩ := core.route_edge x y hroute
        have hrank : (st.scoreG y).toNat * N + tau y < (st.scoreG x).toNat * N + tau x := by
          apply rank_lt N _ _ _ _ (hN y)
          have h0y := core.nonneg y hy
          have h0x := core.nonneg x hx
          rcases hr x y hroute with h | ⟨h, h'⟩
          · left; omega
          · right; exact ⟨by rw [h], h'⟩
        obtain ⟨es, p1, p2, p3, p4, p5, p6⟩ := ih _ (by rw [← hn]; exact hrank) y rfl hy hyr
        have hxn : x ∉ start :: es.map Edge.Link := by
          intro hmem
          have := p5 x hmem
          omega
        refine ⟨es ++ [e], ?_, ?_, ?_, ?_, ?_, ?_⟩
        · rw [← hel]; exact isPath_snoc g start y es e p1 he
        · rw [pathWeight_snoc]; omega
        · simp only [List.map_append, List.map_cons, List.map_nil, hel]
          rw [← List.cons_append]
          refine List.Nodup.append p3 (List.nodup_singleton _) ?_
          intro z hz1 hz2
          simp only [List.mem_singleton] at hz2
          subst hz2
          exact hxn hz1
        · intro z hz
          simp only [List.map_append, List.map_cons, List.map_nil, hel] at hz
          rw [← List.cons_append, List.mem_append, List.mem_singleton] at hz
          rcases hz with h | h
          · exact p4 z h
          · subst h; exact hx
        · intro z hz
          simp only [List.map_append, List.map_cons, List.map_nil, hel] at hz
          rw [← List.cons_append, List.mem_append, List.mem_singleton] at hz
          rcases hz with h | h
          · have := p5 z h; omega
          · subst h; exact le_refl _
        · intro fuel acc hf
          cases fuel with
          | zero => simp at hf
          | succ fuel =>
            rw [buildPath_succ, hroute]
            simp only
            rw [p6 fuel (x :: acc) (by simp at hf; omega)]
            simp [hel]
  intro x hx hxr
  obtain ⟨es, p1, p2, p3, p4, _, p6⟩ := key _ x rfl hx hxr
  exact ⟨es, p1, p2, p3, p4, p6⟩

theorem nodup_length_le_keys (g : Graph T) (l : List T) (hnd : l.Nodup)
    (hsub : ∀ y ∈ l, y ∈ g.keys) : l.length ≤ g.keys.length :=
  (List.subperm_of_subset hnd hsub).length_le

theorem keys_length_lt_searchFuel (g : Graph T) : g.keys.length < searchFuel g := by
  unfold searchFuel; omega

theorem initQueue_mem (start : T) (p : Int) (pn : priorityNode T) :
    pn ∈ ((heap.New priorityLess).Push ({ node := start, priority := p } : priorityNode T)).contents
      ↔ pn = { node := start, priority := p } := by
  rw [(Push_perm _ _).mem_iff]; simp [heap.New]

theorem initScore_reached (g : Graph T) (start x : T) (hx : x ∈ g.keys)
    (hr : upd (initDistances g) start 0 x < MaxInt) : x = start := by
  by_contra hne
  rw [upd_ne _ _ _ _ hne, initDistances_eq, if_pos hx] at hr
  omega

theorem searchCore_init (g : Graph T) (start : T) (hs : start ∈ g.keys) (p : Int)
    (sf : T → Int) :
    SearchCore g start
      { scoreG := upd (initDistances g) start 0
        scoreF := sf
        route := fun _ => none
        queue := (heap.New priorityLess).Push { node := start, priority := p } } := by
  have hmax : (0 : Int) < MaxInt := by unfold MaxInt; omega
  refine ⟨upd_same _ _ _, rfl, ?_, ?_, ?_, ?_, ?_, ?_, ?_, ?_⟩
  · intro x hx
    simp only
    by_cases hxs : x = start
    · subst hxs; rw [upd_same]; omega
    · rw [upd_ne _ _ _ _ hxs, initDistances_eq, if_pos hx]
  · intro x hx
    simp only
    by_cases hxs : x = start
    · subst hxs; rw [upd_same]
    · rw [upd_ne _ _ _ _ hxs, initDistances_eq, if_pos hx]; omega
  · intro x hx hxr
    obtain rfl := initScore_reached g start x hx hxr
    refine ⟨[], rfl, by simp, by simp, ?_⟩
    simp only [upd_same, pathWeight_nil]; exact le_refl _
  · intro x hx hxr
    obtain rfl := initScore_reached g start x hx hxr
    exact ⟨[], rfl, by simp only [upd_same, pathWeight_nil]⟩
  · intro pn hpn
    rw [(initQueue_mem start p pn).1 hpn]
    simp only [upd_same]
    exact ⟨hs, hmax⟩
  · intro x y h; cases h
  · intro x hx hxr hxs
    exact absurd (initScore_reached g start x hx hxr) hxs
  · exact ⟨fun _ => 0, 1, fun _ => Nat.zero_lt_one, fun x y h => by cases h⟩

theorem searchClosed_init (g : Graph T) (start endNode : T) (p : Int) (sf : T → Int) :
    SearchClosed g endNode
      { scoreG := upd (initDistances g) start 0
        scoreF := sf
        route := fun _ => none
        queue := (heap.New priorityLess).Push { node := start, priority := p } } g.nbrs := by
  intro x hx hxr
  obtain rfl := initScore_reached g start x hx hxr
  exact Or.inl ⟨_, (initQueue_mem x p _).2 rfl, rfl⟩

theorem sum_map_toNat_le (l : List T) (m : T → Int) (hm : ∀ y ∈ l, m y ≤ MaxInt) :
    (l.map (fun y => (m y).toNat)).sum ≤ l.length * 9223372036854775807 := by
  induction l with
  | nil => simp
  | cons a as ih =>
    have h1 := hm a (List.mem_cons_self _ _)
    have h2 := ih (fun y hy => hm y (List.mem_cons_of_mem _ hy))
    simp only [List.map_cons, List.sum_cons, List.length_cons]
    unfold MaxInt at h1
    have h3 : (m a).toNat ≤ 9223372036854775807 := by omega
    rw [Nat.succ_mul]
    omega

theorem searchMeasure_init (g : Graph T) (start : T) (hs : start ∈ g.keys) (p : Int)
    (sf : T → Int) :
    searchMeasure g
      { scoreG := upd (initDistances g) start 0
        scoreF := sf
        route := fun _ => none
        queue := (heap.New priorityLess).Push { node := start, priority := p } }
      < searchFuel g := by
  have core := searchCore_init g start hs p sf
  have h1 := sum_map_toNat_le g.keys (upd (initDistances g) start 0) core.le_max
  have h2 : ((heap.New priorityLess).Push
      ({ node := start, priority := p } : priorityNode T)).contents.length = 1 := by
    rw [(Push_perm _ _).length_eq]; rfl
  unfold searchMeasure searchFuel
  simp only [h2]
  omega

/-- The outcome of `AStar` for present `start` and `end` on a graph with non-negative weights
and without overflow, whatever the heuristic: when `end` is reachable, a directed path from
`start` to `end` whose weights sum to at most the returned weight, which is the weight of some
walk; otherwise the error "path not found". -/
theorem astar_outcome (g : Graph T) (wf : g.WF) (hn : g.NonNeg) (start endNode : T)
    (hs : start ∈ g.keys) (he : endNode ∈ g.keys) (hno : g.NoOverflow start)
    (heuristic : T → T → Int) (fuel : Nat) (hf : searchFuel g ≤ fuel) :
    ∃ st flag, astarLoop g heuristic endNode fuel
        { scoreG := upd (initDistances g) start 0
          scoreF := upd (fun _ => 0) start (heuristic start endNode)
          route := fun _ => none
          queue := (heap.New priorityLess).Push
            { node := start, priority := heuristic start endNode } } = some (st, flag) ∧
      ((flag = true ∧ g.Reachable start endNode ∧
        ∃ es, IsPath g start es endNode ∧ pathWeight es ≤ st.scoreG endNode ∧
          (∃ es', IsPath g start es' endNode ∧ pathWeight es' = st.scoreG endNode) ∧
          g.AStar fuel start endNode heuristic
            = some (some (start :: es.map Edge.Link), st.scoreG endNode, none)) ∨
      (flag = false ∧ ¬ g.Reachable start endNode ∧
        g.AStar fuel start endNode heuristic = some (none, 0, some GraphError.pathNotFound))) := by
  obtain ⟨es1, hl1⟩ := lookup_isSome_of_mem_keys g.adjacency start hs
  obtain ⟨es2, hl2⟩ := lookup_isSome_of_mem_keys g.adjacency endNode he
  have core0 := searchCore_init g start hs (heuristic start endNode)
    (upd (fun _ => 0) start (heuristic start endNode))
  have cl0 := searchClosed_init g start endNode (heuristic start endNode)
    (upd (fun _ => 0) start (heuristic start endNode))
  have hm0 := searchMeasure_init g start hs (heuristic start endNode)
    (upd (fun _ => 0) start (heuristic start endNode))
  obtain ⟨st, flag, h1, core, h3, h4⟩ := astarLoop_general g wf hn start endNode hno heuristic
    fuel _ core0 cl0 (by omega)
  refine ⟨st, flag, h1, ?_⟩
  cases flag with
  | true =>
    left
    have hr := h3 rfl
    obtain ⟨es', q1, q2⟩ := core.sound endNode he hr
    obtain ⟨es, p1, p2, p3, p4, p5⟩ := buildPath_spec g start st core endNode he hr
    refine ⟨rfl, ⟨es', q1⟩, es, p1, p2, ⟨es', q1, q2⟩, ?_⟩
    have hlen : es.length < fuel := by
      have := nodup_length_le_keys g _ p3 p4
      have := keys_length_lt_searchFuel g
      simp only [List.length_cons, List.length_map] at *
      omega
    unfold Graph.AStar
    simp only [hl1, hl2, h1]
    rw [p5 fuel [] hlen]
    simp
  | false =>
    right
    obtain ⟨hq, cl⟩ := h4 rfl
    have hnr : ¬ g.Reachable start endNode := by
      rintro ⟨es, hes⟩
      exact (searchClosed_reach g wf hn start endNode hs hno st core cl hq es endNode hes).2 rfl
    refine ⟨rfl, hnr, ?_⟩
    unfold Graph.AStar
    simp only [hl1, hl2, h1]

theorem consInv_skip (g : Graph T) (start endNode x : T) (heuristic : T → T → Int)
    (done : List (Edge T)) (edge : Edge T) (st : astarState T)
    (hle : st.scoreG edge.Link ≤ st.scoreG x + edge.Weight)
    (cons : ConsInv g start endNode heuristic st (upd g.nbrs x done)) :
    ConsInv g start endNode heuristic st (upd g.nbrs x (done ++ [edge])) := by
  refine ⟨cons.cmp, cons.heap, cons.prio, ?_⟩
  intro y hy hyr
  rcases cons.closed y hy hyr with h | ⟨h1, h2, h3⟩
  · exact Or.inl h
  · right
    refine ⟨h1, h2, ?_⟩
    intro e he
    by_cases hyx : y = x
    · subst hyx
      rw [upd_same] at he h3
      simp only [List.mem_append, List.mem_singleton] at he
      rcases he with he | rfl
      · exact h3 e he
      · exact hle
    · rw [upd_ne _ _ _ _ hyx] at he h3
      exact h3 e he

theorem consInv_improve (g : Graph T) (start endNode x : T) (heuristic : T → T → Int)
    (hc : g.Consistent endNode heuristic) (hb : g.HeuristicBound start endNode heuristic)
    (done : List (Edge T)) (edge : Edge T) (v : Int) (st : astarState T)
    (hv : v < st.scoreG edge.Link) (hvx : v = st.scoreG x + edge.Weight) (hlx : edge.Link ≠ x)
    (hl : edge.Link ∈ g.keys) (hvm : v < MaxInt)
    (core' : SearchCore g start
      { route := upd st.route edge.Link (some x)
        scoreG := upd st.scoreG edge.Link v
        scoreF := upd st.scoreF edge.Link (wrapInt (v + heuristic edge.Link endNode))
        queue := st.queue.Push
          { node := edge.Link, priority := wrapInt (v + heuristic edge.Link endNode) } })
    (cons : ConsInv g start endNode heuristic st (upd g.nbrs x done)) :
    ConsInv g start endNode heuristic
      { route := upd st.route edge.Link (some x)
        scoreG := upd st.scoreG edge.Link v
        scoreF := upd st.scoreF edge.Link (wrapInt (v + heuristic edge.Link endNode))
        queue := st.queue.Push
          { node := edge.Link, priority := wrapInt (v + heuristic edge.Link endNode) } }
      (upd g.nbrs x (done ++ [edge])) := by
  have hlr : upd st.scoreG edge.Link v edge.Link < MaxInt := by
    rw [upd_same]; exact hvm
  have hf : wrapInt (v + heuristic edge.Link endNode) = v + heuristic edge.Link endNode := by
    obtain ⟨es, h1, h2, _, h4⟩ := core'.first edge.Link hl hlr
    have h5 := hb es edge.Link h1 h2
    have h6 := core'.nonneg edge.Link hl
    have h7 := hc.1 edge.Link hl
    simp only [upd_same] at h4 h6
    apply wrapInt_of_range
    · unfold MinInt; omega
    · omega
  rw [hf] at core' ⊢
  obtain ⟨hperm, hcmp, hheap⟩ := queue_push st.queue cons.cmp cons.heap
    { node := edge.Link, priority := v + heuristic edge.Link endNode }
  have hmono : ∀ y, upd st.scoreG edge.Link v y ≤ st.scoreG y := by
    intro y
    by_cases hy : y = edge.Link
    · subst hy; rw [upd_same]; omega
    · rw [upd_ne _ _ _ _ hy]
  have hmem : ∀ pn, pn ∈ (st.queue.Push
      { node := edge.Link, priority := v + heuristic edge.Link endNode }).contents ↔
      pn = { node := edge.Link, priority := v + heuristic edge.Link endNode } ∨
        pn ∈ st.queue.contents := by
    intro pn; rw [hperm.mem_iff]; exact List.mem_cons
  refine ⟨hcmp, hheap, ?_, ?_⟩
  · intro pn hpn
    simp only
    rcases (hmem pn).1 hpn with rfl | h
    · exact ⟨v, rfl, by simp only [upd_same]; exact le_refl _⟩
    · obtain ⟨c, h1, h2⟩ := cons.prio pn h
      exact ⟨c, h1, le_trans (hmono _) h2⟩
  · intro y hy hyr
    simp only at hyr ⊢
    by_cases hyl : y = edge.Link
    · left
      refine ⟨_, (hmem _).2 (Or.inl rfl), hyl.symm, ?_⟩
      simp only [hyl, upd_same]
    · rw [upd_ne _ _ _ _ hyl] at hyr ⊢
      rcases cons.closed y hy hyr with ⟨pn, h1, h2, h3⟩ | ⟨h1, h2, h3⟩
      · exact Or.inl ⟨pn, (hmem _).2 (Or.inr h1), h2, h3⟩
      · right
        refine ⟨h1, ?_, ?_⟩
        · intro es hes
          simp only [upd_ne _ _ _ _ hyl]
          exact h2 es hes
        · intro e he
          have hm := hmono e.Link
          by_cases hyx : y = x
          · subst hyx
            rw [upd_same] at he h3
            simp only [List.mem_append, List.mem_singleton] at he
            rcases he with he | rfl
            · have := h3 e he; omega
            · rw [upd_same]; omega
          · rw [upd_ne _ _ _ _ hyx] at he h3
            have := h3 e he; omega

/-- Under a consistent heuristic the loop over `neighbours` keeps both invariants. -/
theorem astarRelax_consistent (g : Graph T) (wf : g.WF) (hn : g.NonNeg) (start endNode : T)
    (hno : g.NoOverflow start) (heuristic : T → T → Int)
    (hc : g.Consistent endNode heuristic) (hb : g.HeuristicBound start endNode heuristic)
    (x : T) (hx : x ∈ g.keys) :
    ∀ (todo done : List (Edge T)) (st : astarState T), (∀ e ∈ todo, e ∈ g.nbrs x) →
      SearchCore g start st → st.scoreG x < MaxInt →
      ConsInv g start endNode heuristic st (upd g.nbrs x done) →
      ConsInv g start endNode heuristic (astarRelax heuristic endNode x todo st)
        (upd g.nbrs x (done ++ todo)) := by
  intro todo
  induction todo with
  | nil => intro done st _ _ _ cons; simpa using cons
  | cons edge rest ih =>
    intro done st htodo core hxr cons
    have hedge : edge ∈ g.nbrs x := htodo edge (List.mem_cons_self _ _)
    have hrest : ∀ e ∈ rest, e ∈ g.nbrs x := fun e he => htodo e (List.mem_cons_of_mem _ he)
    have happ : done ++ edge :: rest = (done ++ [edge]) ++ rest := by simp
    obtain ⟨t1, t2, t3⟩ := core.tentative hn hno x hx hxr edge hedge
    rw [happ]
    simp only [astarRelax]
    split
    · rename_i hlt
      obtain ⟨core', hlx⟩ := searchCore_improve g wf hn start hno x edge
        (wrapInt (wrapInt (st.scoreG x + edge.Weight) + heuristic edge.Link endNode)) st core
        hx hxr hedge hlt
      have hxr' : (upd st.scoreG edge.Link (wrapInt (st.scoreG x + edge.Weight))) x
          < MaxInt := by
        rw [upd_ne _ _ _ _ hlx.symm]; exact hxr
      have cons' := consInv_improve g start endNode x heuristic hc hb done edge
        (wrapInt (st.scoreG x + edge.Weight)) st hlt t3 hlx (wf.link_mem_keys x edge hedge)
        (by rw [t3]; exact t2) core' cons
      exact ih (done ++ [edge]) _ hrest core' hxr' cons'
    · rename_i hnot
      have cons' := consInv_skip g start endNode x heuristic done edge st
        (by rw [t3] at hnot; omega) cons
      exact ih (done ++ [edge]) st hrest core hxr cons'

/-- Under a consistent heuristic, for every walk from `start` to `x` either `x` has its least
score and cannot improve any score, or some queued entry has a priority of at most the weight of
the walk plus the heuristic value of `x`. -/
theorem consInv_frontier (g : Graph T) (wf : g.WF) (hn : g.NonNeg) (start endNode : T)
    (hs : start ∈ g.keys) (hno : g.NoOverflow start) (heuristic : T → T → Int)
    (hc : g.Consistent endNode heuristic) (st : astarState T)
    (core : SearchCore g start st) (cons : ConsInv g start endNode heuristic st g.nbrs) :
    ∀ (es : List (Edge T)) (x : T), IsPath g start es x →
      (st.scoreG x < MaxInt ∧ ScoreMin g start st x ∧
        ∀ e ∈ g.nbrs x, st.scoreG e.Link ≤ st.scoreG x + e.Weight) ∨
      (∃ pn ∈ st.queue.contents, pn.priority ≤ pathWeight es + heuristic x endNode) := by
  intro es
  induction es using List.reverseRecOn with
  | nil =>
    intro x h
    simp only [IsPath] at h
    subst h
    have hr : st.scoreG start < MaxInt := by rw [core.start_zero]; unfold MaxInt; omega
    rcases cons.closed start hs hr with ⟨pn, h1, _, h3⟩ | ⟨_, h2, h3⟩
    · right
      refine ⟨pn, h1, ?_⟩
      rw [h3, core.start_zero, pathWeight_nil]
    · exact Or.inl ⟨hr, h2, h3⟩
  | append_singleton es edge ih =>
    intro x h
    obtain ⟨y, h1, h2, h3⟩ := isPath_snoc_inv g es start x edge h
    have hy : y ∈ g.keys := isPath_mem_keys g wf es start y hs h1
    have hxk : x ∈ g.keys := by rw [← h3]; exact wf.link_mem_keys y edge h2
    rcases ih y h1 with ⟨hyr, hymin, hyrel⟩ | ⟨pn, k1, k2⟩
    · obtain ⟨_, t2, _⟩ := core.tentative hn hno y hy hyr edge h2
      have hle := hyrel edge h2
      rw [h3] at hle
      have hym := hymin es h1
      have hxr : st.scoreG x < MaxInt := by omega
      rcases cons.closed x hxk hxr with ⟨pn, q1, _, q3⟩ | ⟨_, q2, q3⟩
      · right
        refine ⟨pn, q1, ?_⟩
        rw [q3, pathWeight_snoc]
        omega
      · exact Or.inl ⟨hxr, q2, q3⟩
    · right
      refine ⟨pn, k1, ?_⟩
      have := hc.edge y edge h2
      rw [h3] at this
      rw [pathWeight_snoc]
      omega

/-- Under a consistent heuristic the popped node has its least score. -/
theorem scoreMin_pop (g : Graph T) (wf : g.WF) (hn : g.NonNeg) (start endNode : T)
    (hs : start ∈ g.keys) (hno : g.NoOverflow start) (heuristic : T → T → Int)
    (hc : g.Consistent endNode heuristic) (st : astarState T)
    (core : SearchCore g start st) (cons : ConsInv g start endNode heuristic st g.nbrs)
    (hne : st.queue.IsEmpty = false) : ScoreMin g start st st.queue.Pop.1.1.node := by
  obtain ⟨hperm, _, _, hmin⟩ := queue_pop st.queue cons.cmp cons.heap hne
  have hpop : st.queue.Pop.1.1 ∈ st.queue.contents := hperm.subset (List.mem_cons_self _ _)
  obtain ⟨c, p1, p2⟩ := cons.prio _ hpop
  intro es hes
  rcases consInv_frontier g wf hn start endNode hs hno heuristic hc st core cons es _ hes with
    ⟨_, h2, _⟩ | ⟨pn, h1, h2⟩
  · exact h2 es hes
  · have := hmin pn h1
    omega

theorem consInv_pop (g : Graph T) (start endNode : T) (heuristic : T → T → Int)
    (st : astarState T) (cons : ConsInv g start endNode heuristic st g.nbrs)
    (hne : st.queue.IsEmpty = false) (hx : st.queue.Pop.1.1.node ≠ endNode)
    (hmin : ScoreMin g start st st.queue.Pop.1.1.node) :
    ConsInv g start endNode heuristic { st with queue := st.queue.Pop.2 }
      (upd g.nbrs st.queue.Pop.1.1.node []) := by
  obtain ⟨hperm, hcmp, hheap, _⟩ := queue_pop st.queue cons.cmp cons.heap hne
  refine ⟨hcmp, hheap, ?_, ?_⟩
  · intro pn hpn
    exact cons.prio pn (hperm.subset (List.mem_cons_of_mem _ hpn))
  · intro y hy hyr
    by_cases hyx : y = st.queue.Pop.1.1.node
    · right
      refine ⟨by rw [hyx]; exact hx, by rw [hyx]; exact hmin, ?_⟩
      intro e he
      rw [hyx, upd_same] at he
      cases he
    · rcases cons.closed y hy hyr with ⟨pn, h1, h2, h3⟩ | ⟨h1, h2, h3⟩
      · left
        have := hperm.symm.subset h1
        simp only [List.mem_cons] at this
        rcases this with h | h
        · subst h; exact absurd h2.symm hyx
        · exact ⟨pn, h, h2, h3⟩
      · right
        refine ⟨h1, h2, ?_⟩
        intro e he
        rw [upd_ne _ _ _ _ hyx] at he
        exact h3 e he

theorem ConsInv.searchClosed {g : Graph T} {start endNode : T} {heuristic : T → T → Int}
    {st : astarState T} {cov : T → List (Edge T)}
    (cons : ConsInv g start endNode heuristic st cov) : SearchClosed g endNode st cov := by
  intro y hy hyr
  rcases cons.closed y hy hyr with ⟨pn, h1, h2, _⟩ | ⟨h1, _, h3⟩
  · exact Or.inl ⟨pn, h1, h2⟩
  · exact Or.inr ⟨h1, h3⟩

/-- Under a consistent heuristic, when the loop of `AStar` pops `end` the score of `end` is at
most the weight of every walk from `start` to `end`. -/
theorem astarLoop_consistent (g : Graph T) (wf : g.WF) (hn : g.NonNeg) (start endNode : T)
    (hs : start ∈ g.keys) (hno : g.NoOverflow start) (heuristic : T → T → Int)
    (hc : g.Consistent endNode heuristic) (hb : g.HeuristicBound start endNode heuristic) :
    ∀ (fuel : Nat) (st st' : astarState T), SearchCore g start st →
      ConsInv g start endNode heuristic st g.nbrs →
      astarLoop g heuristic endNode fuel st = some (st', true) →
      ScoreMin g start st' endNode := by
  intro fuel
  induction fuel with
  | zero => intro st st' _ _ h; cases h
  | succ fuel ih =>
    intro st st' core cons h
    rw [astarLoop_succ] at h
    by_cases hemp : st.queue.IsEmpty = true
    · rw [if_pos hemp] at h
      cases h
    · have hne : st.queue.IsEmpty = false := by simpa using hemp
      rw [if_neg hemp] at h
      have hmin := scoreMin_pop g wf hn start endNode hs hno heuristic hc st core cons hne
      obtain ⟨core1, hx, hxr, _⟩ := searchCore_pop g start st core hne
      by_cases hxe : st.queue.Pop.1.1.node = endNode
      · rw [if_pos hxe] at h
        obtain rfl := (Prod.mk.inj (Option.some.inj h)).1
        rw [hxe] at hmin
        exact hmin
      · rw [if_neg hxe] at h
        have cons1 := consInv_pop g start endNode heuristic st cons hne hxe hmin
        obtain ⟨r1, _, _, _⟩ := astarRelax_general g wf hn start endNode hno heuristic
          st.queue.Pop.1.1.node hx (g.nbrs st.queue.Pop.1.1.node) []
          { st with queue := st.queue.Pop.2 } (fun _ h => h) core1 hxr cons1.searchClosed
        have r2 := astarRelax_consistent g wf hn start endNode hno heuristic hc hb
          st.queue.Pop.1.1.node hx (g.nbrs st.queue.Pop.1.1.node) []
          { st with queue := st.queue.Pop.2 } (fun _ h => h) core1 hxr cons1
        rw [upd_nbrs_self] at r2
        exact ih _ st' r1 r2 h

theorem consInv_init (g : Graph T) (start endNode : T) (heuristic : T → T → Int)
    (sf : T → Int) :
    ConsInv g start endNode heuristic
      { scoreG := upd (initDistances g) start 0
        scoreF := sf
        route := fun _ => none
        queue := (heap.New priorityLess).Push
          { node := start, priority := heuristic start endNode } } g.nbrs := by
  obtain ⟨_, hcmp, hheap⟩ := queue_push (heap.New priorityLess) rfl (isHeap_nil _)
    ({ node := start, priority := heuristic start endNode } : priorityNode T)
  refine ⟨hcmp, hheap, ?_, ?_⟩
  · intro pn hpn
    rw [(initQueue_mem start _ pn).1 hpn]
    exact ⟨0, by simp, by simp only [upd_same]; exact le_refl _⟩
  · intro x hx hxr
    obtain rfl := initScore_reached g start x hx hxr
    left
    refine ⟨_, (initQueue_mem x _ _).2 rfl, rfl, ?_⟩
    simp only [upd_same]; simp

/-- Under a consistent heuristic `AStar` returns the minimum weight when `end` is reachable. -/
theorem astar_optimal (g : Graph T) (wf : g.WF) (hn : g.NonNeg) (start endNode : T)
    (hs : start ∈ g.keys) (he : endNode ∈ g.keys) (hno : g.NoOverflow start)
    (heuristic : T → T → Int) (hc : g.Consistent endNode heuristic)
    (hb : g.HeuristicBound start endNode heuristic) (hreach : g.Reachable start endNode)
    (fuel : Nat) (hf : searchFuel g ≤ fuel) :
    ∃ es w, g.AStar fuel start endNode heuristic
        = some (some (start :: es.map Edge.Link), w, none) ∧
      IsPath g start es endNode ∧ pathWeight es = w ∧ g.IsMinWeight start endNode w := by
  obtain ⟨st, flag, h1, h2⟩ := astar_outcome g wf hn start endNode hs he hno heuristic fuel hf
  rcases h2 with ⟨hfl, _, es, p1, p2, ⟨es', q1, q2⟩, p4⟩ | ⟨_, hnr, _⟩
  · subst hfl
    have hmin := astarLoop_consistent g wf hn start endNode hs hno heuristic hc hb fuel _ st
      (searchCore_init g start hs _ _) (consInv_init g start endNode heuristic _) h1
    have := hmin es p1
    exact ⟨es, st.scoreG endNode, p4, p1, by omega, ⟨es', q1, q2⟩, hmin⟩
  · exact absurd hreach hnr

theorem wrapInv_skip (g : Graph T) (endNode x : T) (heuristic : T → T → Int)
    (done : List (Edge T)) (edge : Edge T) (st : astarState T)
    (hle : st.scoreG edge.Link ≤ st.scoreG x + edge.Weight)
    (inv : WrapInv g endNode heuristic st (upd g.nbrs x done)) :
    WrapInv g endNode heuristic st (upd g.nbrs x (done ++ [edge])) := by
  refine ⟨inv.cmp, inv.heap, inv.goal, ?_⟩
  intro y hy hyr
  rcases inv.closed y hy hyr with h | ⟨h1, h3⟩
  · exact Or.inl h
  · right
    refine ⟨h1, ?_⟩
    intro e he
    by_cases hyx : y = x
    · subst hyx
      rw [upd_same] at he h3
      simp only [List.mem_append, List.mem_singleton] at he
      rcases he with he | rfl
      · exact h3 e he
      · exact hle
    · rw [upd_ne _ _ _ _ hyx] at he h3
      exact h3 e he

theorem wrapInv_improve (g : Graph T) (endNode x : T) (heuristic : T → T → Int)
    (hc : g.Consistent endNode heuristic)
    (done : List (Edge T)) (edge : Edge T) (v : Int) (st : astarState T)
    (hv : v < st.scoreG edge.Link) (hvx : v = st.scoreG x + edge.Weight) (hlx : edge.Link ≠ x)
    (hl : edge.Link ∈ g.keys) (hv0 : 0 ≤ v) (hvm : v < MaxInt)
    (inv : WrapInv g endNode heuristic st (upd g.nbrs x done)) :
    WrapInv g endNode heuristic
      { route := upd st.route edge.Link (some x)
        scoreG := upd st.scoreG edge.Link v
        scoreF := upd st.scoreF edge.Link (wrapInt (v + heuristic edge.Link endNode))
        queue := st.queue.Push
          { node := edge.Link, priority := wrapInt (v + heuristic edge.Link endNode) } }
      (upd g.nbrs x (done ++ [edge])) := by
  obtain ⟨hperm, hcmp, hheap⟩ := queue_push st.queue inv.cmp inv.heap
    { node := edge.Link, priority := wrapInt (v + heuristic edge.Link endNode) }
  have hmono : ∀ y, upd st.scoreG edge.Link v y ≤ st.scoreG y := by
    intro y
    by_cases hy : y = edge.Link
    · subst hy; rw [upd_same]; omega
    · rw [upd_ne _ _ _ _ hy]
  have hmem : ∀ pn, pn ∈ (st.queue.Push
      { node := edge.Link, priority := wrapInt (v + heuristic edge.Link endNode) }).contents ↔
      pn = { node := edge.Link, priority := wrapInt (v + heuristic edge.Link endNode) } ∨
        pn ∈ st.queue.contents := by
    intro pn; rw [hperm.mem_iff]; exact List.mem_cons
  have hh0 : 0 ≤ heuristic edge.Link endNode := hc.1 edge.Link hl
  refine ⟨hcmp, hheap, ?_, ?_⟩
  · intro pn hpn hnode
    simp only
    rcases (hmem pn).1 hpn with rfl | h
    · simp only at hnode
      rw [hnode, upd_same, hc.2.1, Int.add_zero]
      rw [wrapInt_of_range v (by unfold MinInt; omega) (le_of_lt hvm)]
    · exact le_trans (hmono _) (inv.goal pn h hnode)
  · intro y hy hyr
    simp only at hyr ⊢
    by_cases hyl : y = edge.Link
    · left
      refine ⟨_, (hmem _).2 (Or.inl rfl), hyl.symm, ?_⟩
      simp only [hyl, upd_same]
      intro hle
      exact wrapInt_of_range _ (by unfold MinInt; omega) hle
    · rw [upd_ne _ _ _ _ hyl] at hyr ⊢
      rcases inv.closed y hy hyr with ⟨pn, h1, h2, h3⟩ | ⟨h1, h3⟩
      · exact Or.inl ⟨pn, (hmem _).2 (Or.inr h1), h2, h3⟩
      · right
        refine ⟨h1, ?_⟩
        intro e he
        have hm := hmono e.Link
        by_cases hyx : y = x
        · subst hyx
          rw [upd_same] at he h3
          simp only [List.mem_append, List.mem_singleton] at he
          rcases he with he | rfl
          · have := h3 e he; omega
          · rw [upd_same]; omega
        · rw [upd_ne _ _ _ _ hyx] at he h3
          have := h3 e he; omega

/-- Under a consistent heuristic the loop over `neighbours` keeps the invariant `WrapInv`. -/
theorem astarRelax_wrap (g : Graph T) (wf : g.WF) (hn : g.NonNeg) (start endNode : T)
    (hno : g.NoOverflow start) (heuristic : T → T → Int)
    (hc : g.Consistent endNode heuristic) (x : T) (hx : x ∈ g.keys) :
    ∀ (todo done : List (Edge T)) (st : astarState T), (∀ e ∈ todo, e ∈ g.nbrs x) →
      SearchCore g start st → st.scoreG x < MaxInt →
      WrapInv g endNode heuristic st (upd g.nbrs x done) →
      WrapInv g endNode heuristic (astarRelax heuristic endNode x todo st)
        (upd g.nbrs x (done ++ todo)) := by
  intro todo
  induction todo with
  | nil => intro done st _ _ _ inv; simpa using inv
  | cons edge rest ih =>
    intro done st htodo core hxr inv
    have hedge : edge ∈ g.nbrs x := htodo edge (List.mem_cons_self _ _)
    have hrest : ∀ e ∈ rest, e ∈ g.nbrs x := fun e he => htodo e (List.mem_cons_of_mem _ he)
    have happ : done ++ edge :: rest = (done ++ [edge]) ++ rest := by simp
    obtain ⟨t1, t2, t3⟩ := core.tentative hn hno x hx hxr edge hedge
    rw [happ]
    simp only [astarRelax]
    split
    · rename_i hlt
      obtain ⟨core', hlx⟩ := searchCore_improve g wf hn start hno x edge
        (wrapInt (wrapInt (st.scoreG x + edge.Weight) + heuristic edge.Link endNode)) st core
        hx hxr hedge hlt
      have hxr' : (upd st.scoreG edge.Link (wrapInt (st.scoreG x + edge.Weight))) x
          < MaxInt := by
        rw [upd_ne _ _ _ _ hlx.symm]; exact hxr
      have inv' := wrapInv_improve g endNode x heuristic hc done edge
        (wrapInt (st.scoreG x + edge.Weight)) st hlt t3 hlx (wf.link_mem_keys x edge hedge)
        (by rw [t3]; exact t1) (by rw [t3]; exact t2) inv
      exact ih (done ++ [edge]) _ hrest core' hxr' inv'
    · rename_i hnot
      have inv' := wrapInv_skip g endNode x heuristic done edge st
        (by rw [t3] at hnot; omega) inv
      exact ih (done ++ [edge]) st hrest core hxr inv'

/-- Under a consistent heuristic, for every walk from `start` to `x` whose weight plus the
heuristic value of `x` is below `math.MaxInt`, either the score of `x` is at most the weight of
the walk and `x` is not `end` and cannot improve any score, or some queued entry has a priority
of at most the weight of the walk plus the heuristic value of `x`. -/
theorem wrapInv_frontier (g : Graph T) (wf : g.WF) (start endNode : T)
    (hs : start ∈ g.keys) (heuristic : T → T → Int)
    (hc : g.Consistent endNode heuristic) (st : astarState T)
    (core : SearchCore g start st) (inv : WrapInv g endNode heuristic st g.nbrs) :
    ∀ (es : List (Edge T)) (x : T), IsPath g start es x →
      pathWeight es + heuristic x endNode < MaxInt →
      (st.scoreG x ≤ pathWeight es ∧ x ≠ endNode ∧
        ∀ e ∈ g.nbrs x, st.scoreG e.Link ≤ st.scoreG x + e.Weight) ∨
      (∃ pn ∈ st.queue.contents, pn.priority ≤ pathWeight es + heuristic x endNode) := by
  intro es
  induction es using List.reverseRecOn with
  | nil =>
    intro x h hb
    simp only [IsPath] at h
    subst h
    rw [pathWeight_nil] at hb ⊢
    have hr : st.scoreG start < MaxInt := by rw [core.start_zero]; unfold MaxInt; omega
    rcases inv.closed start hs hr with ⟨pn, h1, _, h3⟩ | ⟨h2, h3⟩
    · right
      refine ⟨pn, h1, ?_⟩
      rw [h3 (by rw [core.start_zero]; omega), core.start_zero]
    · exact Or.inl ⟨by rw [core.start_zero], h2, h3⟩
  | append_singleton es edge ih =>
    intro x h hb
    obtain ⟨y, h1, h2, h3⟩ := isPath_snoc_inv g es start x edge h
    have hy : y ∈ g.keys := isPath_mem_keys g wf es start y hs h1
    have hxk : x ∈ g.keys := by rw [← h3]; exact wf.link_mem_keys y edge h2
    have hcons := hc.edge y edge h2
    rw [h3] at hcons
    have hx0 : 0 ≤ heuristic x endNode := hc.1 x hxk
    rw [pathWeight_snoc] at hb ⊢
    rcases ih y h1 (by omega) with ⟨hym, _, hyrel⟩ | ⟨pn, k1, k2⟩
    · have hle := hyrel edge h2
      rw [h3] at hle
      have hxr : st.scoreG x < MaxInt := by omega
      rcases inv.closed x hxk hxr with ⟨pn, q1, _, q3⟩ | ⟨q2, q3⟩
      · right
        refine ⟨pn, q1, ?_⟩
        rw [q3 (by omega)]
        omega
      · exact Or.inl ⟨by omega, q2, q3⟩
    · right
      exact ⟨pn, k1, by omega⟩

/-- Under a consistent heuristic, when `end` is popped its score is at most the weight of
every walk from `start` to `end`. -/
theorem scoreMin_goal (g : Graph T) (wf : g.WF) (start endNode : T)
    (hs : start ∈ g.keys) (heuristic : T → T → Int)
    (hc : g.Consistent endNode heuristic) (st : astarState T)
    (core : SearchCore g start st) (inv : WrapInv g endNode heuristic st g.nbrs)
    (hne : st.queue.IsEmpty = false) (hx : st.queue.Pop.1.1.node = endNode) :
    ScoreMin g start st endNode := by
  obtain ⟨hperm, _, _, hmin⟩ := queue_pop st.queue inv.cmp inv.heap hne
  have hpop : st.queue.Pop.1.1 ∈ st.queue.contents := hperm.subset (List.mem_cons_self _ _)
  have hg := inv.goal _ hpop hx
  have hr : st.scoreG endNode < MaxInt := by rw [← hx]; exact (core.entry _ hpop).2
  intro es hes
  by_cases hbig : pathWeight es + heuristic endNode endNode < MaxInt
  · rcases wrapInv_frontier g wf start endNode hs heuristic hc st core inv es _ hes hbig with
      ⟨_, h2, _⟩ | ⟨pn, h1, h2⟩
    · exact absurd rfl h2
    · have := hmin pn h1
      rw [hc.2.1] at h2
      omega
  · rw [hc.2.1] at hbig
    omega

theorem wrapInv_pop (g : Graph T) (endNode : T) (heuristic : T → T → Int)
    (st : astarState T) (inv : WrapInv g endNode heuristic st g.nbrs)
    (hne : st.queue.IsEmpty = false) (hx : st.queue.Pop.1.1.node ≠ endNode) :
    WrapInv g endNode heuristic { st with queue := st.queue.Pop.2 }
      (upd g.nbrs st.queue.Pop.1.1.node []) := by
  obtain ⟨hperm, hcmp, hheap, _⟩ := queue_pop st.queue inv.cmp inv.heap hne
  refine ⟨hcmp, hheap, ?_, ?_⟩
  · intro pn hpn hnode
    exact inv.goal pn (hperm.subset (List.mem_cons_of_mem _ hpn)) hnode
  · intro y hy hyr
    by_cases hyx : y = st.queue.Pop.1.1.node
    · right
      refine ⟨by rw [hyx]; exact hx, ?_⟩
      intro e he
      rw [hyx, upd_same] at he
      cases he
    · rcases inv.closed y hy hyr with ⟨pn, h1, h2, h3⟩ | ⟨h1, h3⟩
      · left
        have := hperm.symm.subset h1
        simp only [List.mem_cons] at this
        rcases this with h | h
        · subst h; exact absurd h2.symm hyx
        · exact ⟨pn, h, h2, h3⟩
      · right
        refine ⟨h1, ?_⟩
        intro e he
        rw [upd_ne _ _ _ _ hyx] at he
        exact h3 e he

theorem WrapInv.closedSearch {g : Graph T} {endNode : T} {heuristic : T → T → Int}
    {st : astarState T} {cov : T → List (Edge T)}
    (inv : WrapInv g endNode heuristic st cov) : SearchClosed g endNode st cov := by
  intro y hy hyr
  rcases inv.closed y hy hyr with ⟨pn, h1, h2, _⟩ | ⟨h1, h3⟩
  · exact Or.inl ⟨pn, h1, h2⟩
  · exact Or.inr ⟨h1, h3⟩

/-- Under a consistent heuristic, when the loop of `AStar` pops `end` the score of `end` is at
most the weight of every walk from `start` to `end`, also when sums of a score and a heuristic
value overflow. -/
theorem astarLoop_wrap (g : Graph T) (wf : g.WF) (hn : g.NonNeg) (start endNode : T)
    (hs : start ∈ g.keys) (hno : g.NoOverflow start) (heuristic : T → T → Int)
    (hc : g.Consistent endNode heuristic) :
    ∀ (fuel : Nat) (st st' : astarState T), SearchCore g start st →
      WrapInv g endNode heuristic st g.nbrs →
      astarLoop g heuristic endNode fuel st = some (st', true) →
      ScoreMin g start st' endNode := by
  intro fuel
  induction fuel with
  | zero => intro st st' _ _ h; cases h
  | succ fuel ih =>
    intro st st' core inv h
    rw [astarLoop_succ] at h
    by_cases hemp : st.queue.IsEmpty = true
    · rw [if_pos hemp] at h
      cases h
    · have hne : st.queue.IsEmpty = false := by simpa using hemp
      rw [if_neg hemp] at h
      obtain ⟨core1, hx, hxr, _⟩ := searchCore_pop g start st core hne
      by_cases hxe : st.queue.Pop.1.1.node = endNode
      · rw [if_pos hxe] at h
        obtain rfl := (Prod.mk.inj (Option.some.inj h)).1
        exact scoreMin_goal g wf start endNode hs heuristic hc st core inv hne hxe
      · rw [if_neg hxe] at h
        have inv1 := wrapInv_pop g endNode heuristic st inv hne hxe
        obtain ⟨r1, _, _, _⟩ := astarRelax_general g wf hn start endNode hno heuristic
          st.queue.Pop.1.1.node hx (g.nbrs st.queue.Pop.1.1.node) []
          { st with queue := st.queue.Pop.2 } (fun _ h => h) core1 hxr inv1.closedSearch
        have r2 := astarRelax_wrap g wf hn start endNode hno heuristic hc
          st.queue.Pop.1.1.node hx (g.nbrs st.queue.Pop.1.1.node) []
          { st with queue := st.queue.Pop.2 } (fun _ h => h) core1 hxr inv1
        rw [upd_nbrs_self] at r2
        exact ih _ st' r1 r2 h

theorem wrapInv_init (g : Graph T) (start endNode : T) (heuristic : T → T → Int)
    (hc : g.Consistent endNode heuristic) (sf : T → Int) :
    WrapInv g endNode heuristic
      { scoreG := upd (initDistances g) start 0
        scoreF := sf
        route := fun _ => none
        queue := (heap.New priorityLess).Push
          { node := start, priority := heuristic start endNode } } g.nbrs := by
  obtain ⟨_, hcmp, hheap⟩ := queue_push (heap.New priorityLess) rfl (isHeap_nil _)
    ({ node := start, priority := heuristic start endNode } : priorityNode T)
  refine ⟨hcmp, hheap, ?_, ?_⟩
  · intro pn hpn hnode
    rw [(initQueue_mem start _ pn).1 hpn] at hnode ⊢
    simp only at hnode ⊢
    rw [hnode, upd_same, hc.2.1]
  · intro x hx hxr
    obtain rfl := initScore_reached g start x hx hxr
    left
    refine ⟨_, (initQueue_mem x _ _).2 rfl, rfl, ?_⟩
    intro _
    simp only [upd_same]; simp

/-- Under a consistent heuristic `AStar` returns the minimum weight when `end` is reachable,
whatever the size of the heuristic values. -/
theorem astar_optimal_wrap (g : Graph T) (wf : g.WF) (hn : g.NonNeg) (start endNode : T)
    (hs : start ∈ g.keys) (he : endNode ∈ g.keys) (hno : g.NoOverflow start)
    (heuristic : T → T → Int) (hc : g.Consistent endNode heuristic)
    (hreach : g.Reachable start endNode) (fuel : Nat) (hf : searchFuel g ≤ fuel) :
    ∃ es w, g.AStar fuel start endNode heuristic
        = some (some (start :: es.map Edge.Link), w, none) ∧
      IsPath g start es endNode ∧ pathWeight es = w ∧ g.IsMinWeight start endNode w := by
  obtain ⟨st, flag, h1, h2⟩ := astar_outcome g wf hn start endNode hs he hno heuristic fuel hf
  rcases h2 with ⟨hfl, _, es, p1, p2, ⟨es', q1, q2⟩, p4⟩ | ⟨_, hnr, _⟩
  · subst hfl
    have hmin := astarLoop_wrap g wf hn start endNode hs hno heuristic hc fuel _ st
      (searchCore_init g start hs _ _) (wrapInv_init g start endNode heuristic hc _) h1
    have := hmin es p1
    exact ⟨es, st.scoreG endNode, p4, p1, by omega, ⟨es', q1, q2⟩, hmin⟩
  · exact absurd hreach hnr

theorem consistent_zero (g : Graph T) (hn : g.NonNeg) (endNode : T) :
    g.Consistent endNode (fun _ _ => 0) := by
  refine ⟨fun _ _ => le_refl _, rfl, ?_⟩
  intro kv hkv e he
  have := hn kv hkv e he
  simp only
  omega

theorem heuristicBound_zero (g : Graph T) (start endNode : T) (hno : g.NoOverflow start) :
    g.HeuristicBound start endNode (fun _ _ => 0) := by
  intro es x hes hnd
  simp only
  rcases List.eq_nil_or_concat es with h | ⟨es', e, h⟩
  · subst h; rw [pathWeight_nil]; unfold MaxInt; omega
  · rw [List.concat_eq_append] at h
    subst h
    obtain ⟨y, h1, h2, _⟩ := isPath_snoc_inv g es' start x e hes
    have hnd' : (start :: es'.map Edge.Link).Nodup := by
      simp only [List.map_append, List.map_cons, List.map_nil] at hnd
      rw [← List.cons_append] at hnd
      exact (List.nodup_append.1 hnd).1
    have := hno es' y h1 hnd' e h2
    rw [pathWeight_snoc]
    omega

theorem pathWeight_le_length_mul (g : Graph T) (W : Int)
    (hW : ∀ kv ∈ g.adjacency, ∀ e ∈ kv.2, e.Weight ≤ W) :
    ∀ (es : List (Edge T)) (u v : T), IsPath g u es v → pathWeight es ≤ es.length * W := by
  intro es
  induction es with
  | nil => intro u v _; simp [pathWeight]
  | cons e es ih =>
    intro u v h
    simp only [IsPath] at h
    obtain ⟨l, h1, h2⟩ := (mem_nbrs_iff g u e).1 h.1
    have hw := hW (u, l) (lookup_mem _ _ _ h1) e h2
    have := ih _ _ h.2
    simp only [pathWeight, List.map_cons, List.sum_cons, List.length_cons] at this ⊢
    push_cast
    linarith

theorem simplePath_length_lt (g : Graph T) (wf : g.WF) (start : T) (hs : start ∈ g.keys)
    (es : List (Edge T)) (x : T) (hes : IsPath g start es x)
    (hnd : (start :: es.map Edge.Link).Nodup) : es.length + 1 ≤ g.keys.length := by
  have := nodup_length_le_keys g _ hnd (by
    intro y hy
    simp only [List.mem_cons] at hy
    rcases hy with rfl | hy
    · exact hs
    · exact isPath_nodes_mem_keys g wf es start x hes y hy)
  simpa using this

/-- A bound on the weights that excludes overflow: no edge weighs more than `W` and the number
of nodes times `W` is below `math.MaxInt`. -/
theorem noOverflow_of_bounded (g : Graph T) (wf : g.WF) (start : T) (hs : start ∈ g.keys)
    (W : Int) (hW : ∀ kv ∈ g.adjacency, ∀ e ∈ kv.2, e.Weight ≤ W) (h0 : 0 ≤ W)
    (hb : g.keys.length * W < MaxInt) : g.NoOverflow start := by
  intro es x hes hnd e he
  have h1 := pathWeight_le_length_mul g W hW es start x hes
  have h2 := simplePath_length_lt g wf start hs es x hes hnd
  obtain ⟨l, k1, k2⟩ := (mem_nbrs_iff g x e).1 he
  have hw := hW (x, l) (lookup_mem _ _ _ k1) e k2
  have h3 : ((es.length : Int) + 1) * W ≤ (g.keys.length : Int) * W := by
    apply mul_le_mul_of_nonneg_right _ h0
    exact_mod_cast h2
  linarith

/-- A bound on the weights and on the heuristic that excludes overflow of `scoreG + heuristic`. -/
theorem heuristicBound_of_bounded (g : Graph T) (wf : g.WF) (start endNode : T)
    (hs : start ∈ g.keys) (heuristic : T → T → Int) (W H : Int)
    (hW : ∀ kv ∈ g.adjacency, ∀ e ∈ kv.2, e.Weight ≤ W) (h0 : 0 ≤ W)
    (hH : ∀ k ∈ g.keys, heuristic k endNode ≤ H)
    (hb : g.keys.length * W + H < MaxInt) : g.HeuristicBound start endNode heuristic := by
  intro es x hes hnd
  have h1 := pathWeight_le_length_mul g W hW es start x hes
  have h2 := simplePath_length_lt g wf start hs es x hes hnd
  have hx : x ∈ g.keys := isPath_mem_keys g wf es start x hs hes
  have h3 : (es.length : Int) * W ≤ (g.keys.length : Int) * W := by
    apply mul_le_mul_of_nonneg_right _ h0
    exact_mod_cast (by omega : es.length ≤ g.keys.length)
  have := hH x hx
  linarith

theorem mem_keys_iff_lookup (g : Graph T) (x : T) :
    x ∈ g.keys ↔ ∃ es, lookup g.adjacency x = some es := by
  constructor
  · exact lookup_isSome_of_mem_keys g.adjacency x
  · rintro ⟨es, h⟩; exact mem_keys_of_lookup g x es h

/-- The outcome of `Dijkstra` for present `start` and `end` on a graph with non-negative
weights and without overflow. -/
theorem dijkstra_outcome (g : Graph T) (wf : g.WF) (hn : g.NonNeg) (start endNode : T)
    (hs : start ∈ g.keys) (he : endNode ∈ g.keys) (hno : g.NoOverflow start)
    (fuel : Nat) (hf : searchFuel g ≤ fuel) :
    (g.Reachable start endNode ∧ ∃ es w, g.Dijkstra fuel start endNode
        = some (some (start :: es.map Edge.Link), w, none) ∧
      IsPath g start es endNode ∧ pathWeight es = w ∧ g.IsMinWeight start endNode w) ∨
    (¬ g.Reachable start endNode ∧
      g.Dijkstra fuel start endNode = some (none, 0, some GraphError.pathNotFound)) := by
  rw [← astarZero_dijkstra]
  by_cases hr : g.Reachable start endNode
  · left
    exact ⟨hr, astar_optimal g wf hn start endNode hs he hno (fun _ _ => 0)
      (consistent_zero g hn endNode) (heuristicBound_zero g start endNode hno) hr fuel hf⟩
  · right
    obtain ⟨st, flag, _, h2⟩ := astar_outcome g wf hn start endNode hs he hno (fun _ _ => 0)
      fuel hf
    rcases h2 with ⟨_, hr', _⟩ | ⟨_, _, h3⟩
    · exact absurd hr' hr
    · exact ⟨hr, h3⟩

theorem dijkstra_absent (g : Graph T) (fuel : Nat) (start endNode : T)
    (h : start ∉ g.keys ∨ endNode ∉ g.keys) :
    ∃ err, g.Dijkstra fuel start endNode = some (none, 0, some err) := by
  unfold Graph.Dijkstra
  cases hs : lookup g.adjacency start with
  | none => exact ⟨_, rfl⟩
  | some es1 =>
    cases he : lookup g.adjacency endNode with
    | none => exact ⟨_, rfl⟩
    | some es2 =>
      rcases h with h | h
      · exact absurd (mem_keys_of_lookup g start es1 hs) h
      · exact absurd (mem_keys_of_lookup g endNode es2 he) h

theorem astar_absent (g : Graph T) (fuel : Nat) (start endNode : T) (heuristic : T → T → Int)
    (h : start ∉ g.keys ∨ endNode ∉ g.keys) :
    ∃ err, g.AStar fuel start endNode heuristic = some (none, 0, some err) := by
  unfold Graph.AStar
  cases hs : lookup g.adjacency start with
  | none => exact ⟨_, rfl⟩
  | some es1 =>
    cases he : lookup g.adjacency endNode with
    | none => exact ⟨_, rfl⟩
    | some es2 =>
      rcases h with h | h
      · exact absurd (mem_keys_of_lookup g start es1 hs) h
      · exact absurd (mem_keys_of_lookup g endNode es2 he) h

theorem dijkstraTestGraph_built : Built dijkstraTestGraph :=
  Built.addEdge _ 2 3 2 (Built.addEdge _ 1 3 5 (Built.addEdge _ 1 2 1
    (Built.addEdge _ 0 2 4 (Built.addEdge _ 0 1 1 Built.new))))

theorem dijkstraTestGraph_nonNeg : dijkstraTestGraph.NonNeg := by
  unfold Graph.NonNeg; decide

theorem dijkstraTestGraph_noOverflow : dijkstraTestGraph.NoOverflow 0 :=
  noOverflow_of_bounded _ dijkstraTestGraph_built.wf 0 (by decide) 5 (by decide) (by decide)
    (by decide)

theorem isolatedGraph_built : Built (dijkstraTestGraph.AddNode 9) :=
  Built.addNode _ 9 dijkstraTestGraph_built

theorem isolatedGraph_noOverflow : (dijkstraTestGraph.AddNode 9).NoOverflow 0 :=
  noOverflow_of_bounded _ isolatedGraph_built.wf 0 (by decide) 5 (by decide) (by decide)
    (by decide)

theorem astarTestGraph_built : Built astarTestGraph :=
  Built.addEdge _ _ _ 10 (Built.addEdge _ _ _ 1 (Built.addEdge _ _ _ 1 Built.new))

/-- C1 (Dijkstra optimality): on a graph with non-negative weights whose path sums (a path
from `start` without a repeated node, followed by one more edge) stay below `math.MaxInt`, for
present `start` and `end` with `end` reachable from `start`, `Dijkstra` returns no error and a
total weight that is the minimum, over all directed walks from `start` to `end`, of the sum of
the edge weights. -/
theorem dijkstra_optimal (g : Graph T) (hb : Built g) (hn : g.NonNeg) (start endNode : T)
    (hs : start ∈ g.keys) (he : endNode ∈ g.keys) (hno : g.NoOverflow start)
    (hreach : g.Reachable start endNode) (fuel : Nat) (hf : searchFuel g ≤ fuel) :
    ∃ path w, g.Dijkstra fuel start endNode = some (some path, w, none) ∧
      g.IsMinWeight start endNode w := by
  rcases dijkstra_outcome g hb.wf hn start endNode hs he hno fuel hf with
    ⟨_, es, w, h1, _, _, h4⟩ | ⟨h1, _⟩
  · exact ⟨_, w, h1, h4⟩
  · exact absurd hreach h1

/-- C1 on the test graph: with the edges A→B(1), A→C(4), B→C(1), B→D(5), C→D(2),
`Dijkstra(A, D)` returns the path `[A, B, C, D]` and the weight 4, which is the minimum. -/
theorem dijkstra_optimal_witness :
    dijkstraTestGraph.Dijkstra (searchFuel dijkstraTestGraph) 0 3
      = some (some [0, 1, 2, 3], 4, none) ∧
    ∃ path w, dijkstraTestGraph.Dijkstra (searchFuel dijkstraTestGraph) 0 3
      = some (some path, w, none) ∧ dijkstraTestGraph.IsMinWeight 0 3 w :=
  ⟨by decide, dijkstra_optimal dijkstraTestGraph dijkstraTestGraph_built
    dijkstraTestGraph_nonNeg 0 3 (by decide) (by decide) dijkstraTestGraph_noOverflow
    ⟨[⟨1, 1⟩, ⟨2, 1⟩, ⟨3, 2⟩], by decide, by decide, by decide, rfl⟩
    (searchFuel dijkstraTestGraph) (le_refl _)⟩

/-- C2 as stated fails: with the single edge 0→1 of weight `math.MaxInt`, both nodes are
present and 1 is reachable from 0, yet `Dijkstra(0, 1)` returns the error "path not found". -/
theorem dijkstra_error_iff_counterexample :
    maxWeightGraph.NonNeg ∧ 0 ∈ maxWeightGraph.keys ∧ 1 ∈ maxWeightGraph.keys ∧
    maxWeightGraph.Reachable 0 1 ∧
    maxWeightGraph.Dijkstra (searchFuel maxWeightGraph) 0 1
      = some (none, 0, some GraphError.pathNotFound) :=
  ⟨by unfold Graph.NonNeg; decide, by decide, by decide,
    ⟨[⟨1, MaxInt⟩], by decide, rfl⟩, by decide⟩

/-- C2, amended (Dijkstra failure conditions): on a graph with non-negative weights whose path
sums stay below `math.MaxInt`, `Dijkstra` returns an error exactly when `start` is absent, or
`end` is absent, or no directed walk leads from `start` to `end`; with an error the path is nil
and the weight is 0. -/
theorem dijkstra_error_iff (g : Graph T) (hb : Built g) (hn : g.NonNeg) (start endNode : T)
    (hno : g.NoOverflow start) (fuel : Nat) (hf : searchFuel g ≤ fuel) :
    ∃ path w err, g.Dijkstra fuel start endNode = some (path, w, err) ∧
      (err ≠ none ↔ (start ∉ g.keys ∨ endNode ∉ g.keys ∨ ¬ g.Reachable start endNode)) ∧
      (err ≠ none → path = none ∧ w = 0) := by
  by_cases hs : start ∈ g.keys
  · by_cases he : endNode ∈ g.keys
    · rcases dijkstra_outcome g hb.wf hn start endNode hs he hno fuel hf with
        ⟨hr, es, w, h1, _⟩ | ⟨hr, h1⟩
      · refine ⟨_, w, none, h1, ?_, fun h => absurd rfl h⟩
        constructor
        · intro h; exact absurd rfl h
        · rintro (h | h | h)
          · exact absurd hs h
          · exact absurd he h
          · exact absurd hr h
      · exact ⟨none, 0, _, h1, ⟨fun _ => Or.inr (Or.inr hr), fun _ => by simp⟩,
          fun _ => ⟨rfl, rfl⟩⟩
    · obtain ⟨err, h1⟩ := dijkstra_absent g fuel start endNode (Or.inr he)
      exact ⟨none, 0, _, h1, ⟨fun _ => Or.inr (Or.inl he), fun _ => by simp⟩,
        fun _ => ⟨rfl, rfl⟩⟩
  · obtain ⟨err, h1⟩ := dijkstra_absent g fuel start endNode (Or.inl hs)
    exact ⟨none, 0, _, h1, ⟨fun _ => Or.inl hs, fun _ => by simp⟩, fun _ => ⟨rfl, rfl⟩⟩

/-- C2 on the test graph: after adding the isolated node Z (here 9), `Dijkstra(A, Z)` fails. -/
theorem dijkstra_error_iff_witness :
    (dijkstraTestGraph.AddNode 9).Dijkstra (searchFuel (dijkstraTestGraph.AddNode 9)) 0 9
      = some (none, 0, some GraphError.pathNotFound) ∧
    ∃ path w err, (dijkstraTestGraph.AddNode 9).Dijkstra
        (searchFuel (dijkstraTestGraph.AddNode 9)) 0 9 = some (path, w, err) ∧
      (err ≠ none ↔ (0 ∉ (dijkstraTestGraph.AddNode 9).keys ∨
        9 ∉ (dijkstraTestGraph.AddNode 9).keys ∨
        ¬ (dijkstraTestGraph.AddNode 9).Reachable 0 9)) ∧
      (err ≠ none → path = none ∧ w = 0) :=
  ⟨by decide, dijkstra_error_iff (dijkstraTestGraph.AddNode 9) isolatedGraph_built
    (by unfold Graph.NonNeg; decide) 0 9 isolatedGraph_noOverflow _ (le_refl _)⟩

/-- C3 as stated fails: with the edges 0→1 and 1→2 of weight 2^62 each, `Dijkstra(0, 2)`
succeeds with the path `[0, 1, 2]` and the total weight -2^63, and no choice of edges from 0 to
2 has that sum. -/
theorem dijkstra_path_valid_counterexample :
    overflowGraph.NonNeg ∧
    overflowGraph.Dijkstra (searchFuel overflowGraph) 0 2
      = some (some [0, 1, 2], -9223372036854775808, none) ∧
    ¬ ∃ es, IsPath overflowGraph 0 es 2 ∧ pathWeight es = -9223372036854775808 := by
  have hn : overflowGraph.NonNeg := by unfold Graph.NonNeg; decide
  refine ⟨hn, by decide, ?_⟩
  rintro ⟨es, h1, h2⟩
  have := pathWeight_nonneg overflowGraph hn es 0 2 h1
  omega

/-- C3, amended (Dijkstra path validity): on a graph with non-negative weights whose path sums
stay below `math.MaxInt`, whenever `Dijkstra` succeeds the returned path is non-empty, starts at
`start`, ends at `end`, follows edges of the graph, and the weights of these edges sum to exactly
the returned total weight. -/
theorem dijkstra_path_valid (g : Graph T) (hb : Built g) (hn : g.NonNeg) (start endNode : T)
    (hno : g.NoOverflow start) (fuel : Nat) (hf : searchFuel g ≤ fuel) (path : List T)
    (w : Int) (h : g.Dijkstra fuel start endNode = some (some path, w, none)) :
    ∃ es, IsPath g start es endNode ∧ path = start :: es.map Edge.Link ∧ pathWeight es = w ∧
      path.head? = some start ∧ path.getLast? = some endNode := by
  by_cases hp : start ∈ g.keys ∧ endNode ∈ g.keys
  · rcases dijkstra_outcome g hb.wf hn start endNode hp.1 hp.2 hno fuel hf with
      ⟨_, es, w', h1, h2, h3, _⟩ | ⟨_, h1⟩
    · rw [h] at h1
      have e1 := (Prod.mk.inj (Option.some.inj h1)).1
      have e2 := (Prod.mk.inj (Prod.mk.inj (Option.some.inj h1)).2).1
      have e1' := Option.some.inj e1
      subst e1'
      exact ⟨es, h2, rfl, by rw [h3, e2], rfl, isPath_getLast g es start endNode h2⟩
    · rw [h] at h1
      have e1 := (Prod.mk.inj (Option.some.inj h1)).1
      cases e1
  · obtain ⟨err, h1⟩ := dijkstra_absent g fuel start endNode (by
      by_contra hcon
      push_neg at hcon
      exact hp hcon)
    rw [h] at h1
    have e1 := (Prod.mk.inj (Option.some.inj h1)).1
    cases e1

/-- C3 on the test graph: the path `[A, B, C, D]` of weight 4. -/
theorem dijkstra_path_valid_witness :
    ∃ es, IsPath dijkstraTestGraph 0 es 3 ∧ [0, 1, 2, 3] = 0 :: es.map Edge.Link ∧
      pathWeight es = 4 ∧ [0, 1, 2, 3].head? = some 0 ∧ [0, 1, 2, 3].getLast? = some 3 :=
  dijkstra_path_valid dijkstraTestGraph dijkstraTestGraph_built dijkstraTestGraph_nonNeg 0 3
    dijkstraTestGraph_noOverflow (searchFuel dijkstraTestGraph) (le_refl _) [0, 1, 2, 3] 4
    (by decide)

/-- C4 (A* degenerates to Dijkstra): for every graph, also with negative weights, and all
`start`, `end`, `AStar` with the heuristic that is zero everywhere returns the same path, the
same total weight and the same error as `Dijkstra`, for every bound on the number of iterations
(when one runs out of fuel, so does the other); and on a graph with non-negative weights whose
path sums stay below `math.MaxInt` both do return, within `searchFuel g` iterations. -/
theorem astar_zero_eq_dijkstra (g : Graph T) (start endNode : T) :
    (∀ fuel, g.AStar fuel start endNode (fun _ _ => 0) = g.Dijkstra fuel start endNode) ∧
    (Built g → g.NonNeg → g.NoOverflow start → ∀ fuel, searchFuel g ≤ fuel →
      ∃ r, g.Dijkstra fuel start endNode = some r ∧
        g.AStar fuel start endNode (fun _ _ => 0) = some r) := by
  refine ⟨fun fuel => astarZero_dijkstra g fuel start endNode, ?_⟩
  intro hb hn hno fuel hf
  rw [astarZero_dijkstra g fuel start endNode]
  by_cases hp : start ∈ g.keys ∧ endNode ∈ g.keys
  · rcases dijkstra_outcome g hb.wf hn start endNode hp.1 hp.2 hno fuel hf with
      ⟨_, es, w, h1, _⟩ | ⟨_, h1⟩
    · exact ⟨_, h1, h1⟩
    · exact ⟨_, h1, h1⟩
  · obtain ⟨err, h1⟩ := dijkstra_absent g fuel start endNode (by
      by_contra hcon
      push_neg at hcon
      exact hp hcon)
    exact ⟨_, h1, h1⟩

/-- C4 on the test graph: with the zero heuristic `AStar(A, D)` and `Dijkstra(A, D)` agree for
every fuel, and both return a result. -/
theorem astar_zero_eq_dijkstra_witness :
    (∀ fuel, dijkstraTestGraph.AStar fuel 0 3 (fun _ _ => 0)
      = dijkstraTestGraph.Dijkstra fuel 0 3) ∧
    (∃ r, dijkstraTestGraph.Dijkstra (searchFuel dijkstraTestGraph) 0 3 = some r ∧
      dijkstraTestGraph.AStar (searchFuel dijkstraTestGraph) 0 3 (fun _ _ => 0) = some r) ∧
    dijkstraTestGraph.AStar (searchFuel dijkstraTestGraph) 0 3 (fun _ _ => 0)
      = some (some [0, 1, 2, 3], 4, none) :=
  ⟨(astar_zero_eq_dijkstra dijkstraTestGraph 0 3).1,
    (astar_zero_eq_dijkstra dijkstraTestGraph 0 3).2 dijkstraTestGraph_built
      dijkstraTestGraph_nonNeg dijkstraTestGraph_noOverflow _ (le_refl _),
    by decide⟩

/-- C5 as stated fails: with the single edge 0→1 of weight `math.MaxInt` and the zero
heuristic, which is consistent, 1 is reachable from 0, yet `AStar(0, 1)` returns an error and no
weight. -/
theorem astar_optimal_counterexample :
    maxWeightGraph.NonNeg ∧ maxWeightGraph.Consistent 1 (fun _ _ => 0) ∧
    maxWeightGraph.Reachable 0 1 ∧
    maxWeightGraph.AStar (searchFuel maxWeightGraph) 0 1 (fun _ _ => 0)
      = some (none, 0, some GraphError.pathNotFound) ∧
    ¬ maxWeightGraph.IsMinWeight 0 1 0 := by
  have hn : maxWeightGraph.NonNeg := by unfold Graph.NonNeg; decide
  refine ⟨hn, consistent_zero _ hn 1, ⟨[⟨1, MaxInt⟩], by decide, rfl⟩, by decide, ?_⟩
  rintro ⟨⟨es, h1, h2⟩, _⟩
  cases es with
  | nil => simp [IsPath] at h1
  | cons e es =>
    simp only [IsPath] at h1
    have he : e = ⟨1, MaxInt⟩ := by
      have hmem : e ∈ ([⟨1, MaxInt⟩] : List (Edge Nat)) := by
        have hnb : maxWeightGraph.nbrs 0 = [⟨1, MaxInt⟩] := by decide
        rw [← hnb]; exact h1.1
      simpa using hmem
    have := pathWeight_nonneg maxWeightGraph hn es _ _ h1.2
    simp only [pathWeight, List.map_cons, List.sum_cons] at h2 this
    rw [he] at h2
    simp only [MaxInt] at h2
    omega

/-- C5, amended (A* optimality under a consistent heuristic): on a graph with non-negative
weights whose path sums (a path from `start` without a repeated node, followed by one more edge)
stay below `math.MaxInt`, with a heuristic that is non-negative, zero at `end` and consistent,
whatever the size of its values, when `end` is reachable from `start`, `AStar` returns a path from
`start` to `end` whose total weight is the minimum over all directed walks from `start` to
`end`. -/
theorem astar_optimal_consistent (g : Graph T) (hb : Built g) (hn : g.NonNeg)
    (start endNode : T) (hs : start ∈ g.keys) (he : endNode ∈ g.keys)
    (hno : g.NoOverflow start) (heuristic : T → T → Int)
    (hc : g.Consistent endNode heuristic)
    (hreach : g.Reachable start endNode) (fuel : Nat) (hf : searchFuel g ≤ fuel) :
    ∃ path w, g.AStar fuel start endNode heuristic = some (some path, w, none) ∧
      g.IsMinWeight start endNode w := by
  obtain ⟨es, w, h1, _, _, h4⟩ := astar_optimal_wrap g hb.wf hn start endNode hs he hno
    heuristic hc hreach fuel hf
  exact ⟨_, w, h1, h4⟩

/-- C5 on the test graph: the edges (0,0)→(1,0) of weight 1, (1,0)→(1,1) of weight 1 and
(0,0)→(1,1) of weight 10 with the Manhattan heuristic give the path `[(0,0), (1,0), (1,1)]` and
the weight 2. And on the graph with the edges 0→1 and 0→2 of weight 1, with a consistent
heuristic that is `math.MaxInt` from 2 to 1, so that the priority of 2 overflows, `AStar(0, 1)`
returns the path `[0, 1]` of the least weight 1. -/
theorem astar_optimal_consistent_witness :
    astarTestGraph.AStar (searchFuel astarTestGraph) { x := 0, y := 0 } { x := 1, y := 1 }
      manhattanDistance
      = some (some [{ x := 0, y := 0 }, { x := 1, y := 0 }, { x := 1, y := 1 }], 2, none) ∧
    (∃ path w, astarTestGraph.AStar (searchFuel astarTestGraph) { x := 0, y := 0 }
      { x := 1, y := 1 } manhattanDistance = some (some path, w, none) ∧
      astarTestGraph.IsMinWeight { x := 0, y := 0 } { x := 1, y := 1 } w) ∧
    forkGraph.AStar (searchFuel forkGraph) 0 1 forkHeuristic = some (some [0, 1], 1, none) ∧
    ¬ forkGraph.HeuristicBound 0 1 forkHeuristic ∧
    ∃ path w, forkGraph.AStar (searchFuel forkGraph) 0 1 forkHeuristic
      = some (some path, w, none) ∧ forkGraph.IsMinWeight 0 1 w :=
  ⟨by decide, astar_optimal_consistent astarTestGraph astarTestGraph_built
    (by unfold Graph.NonNeg; decide) { x := 0, y := 0 } { x := 1, y := 1 } (by decide)
    (by decide)
    (noOverflow_of_bounded _ astarTestGraph_built.wf _ (by decide) 10 (by decide) (by decide)
      (by decide))
    manhattanDistance (by unfold Graph.Consistent; decide)
    ⟨[⟨{ x := 1, y := 1 }, 10⟩], by decide, rfl⟩ _ (le_refl _),
    by decide,
    fun h => absurd (h [⟨2, 1⟩] 2 ⟨by decide, rfl⟩ (by decide)) (by decide),
    astar_optimal_consistent forkGraph
    (Built.addEdge _ 0 2 1 (Built.addEdge _ 0 1 1 Built.new))
    (by unfold Graph.NonNeg; decide) 0 1 (by decide) (by decide)
    (noOverflow_of_bounded _ (Built.addEdge _ 0 2 1 (Built.addEdge _ 0 1 1 Built.new)).wf _
      (by decide) 1 (by decide) (by decide) (by decide))
    forkHeuristic (by unfold Graph.Consistent; decide)
    ⟨[⟨1, 1⟩], ⟨by decide, rfl⟩⟩ _ (le_refl _)⟩

/-- C6 as stated fails: with the single edge 0→1 of weight `math.MaxInt`, both nodes are
present and 1 is reachable from 0, yet `AStar(0, 1, h)` returns the error "path not found",
here for the heuristic that is 7 everywhere. -/
theorem astar_error_iff_counterexample :
    maxWeightGraph.NonNeg ∧ 0 ∈ maxWeightGraph.keys ∧ 1 ∈ maxWeightGraph.keys ∧
    maxWeightGraph.Reachable 0 1 ∧
    maxWeightGraph.AStar (searchFuel maxWeightGraph) 0 1 (fun _ _ => 7)
      = some (none, 0, some GraphError.pathNotFound) :=
  ⟨by unfold Graph.NonNeg; decide, by decide, by decide,
    ⟨[⟨1, MaxInt⟩], by decide, rfl⟩, by decide⟩

/-- C6, amended (A* failure conditions): on a graph with non-negative weights whose path sums
stay below `math.MaxInt`, for every heuristic, `AStar` returns an error exactly when `start` is
absent, or `end` is absent, or no directed walk leads from `start` to `end`; with an error the
path is nil and the weight is 0. -/
theorem astar_error_iff (g : Graph T) (hb : Built g) (hn : g.NonNeg) (start endNode : T)
    (hno : g.NoOverflow start) (heuristic : T → T → Int) (fuel : Nat)
    (hf : searchFuel g ≤ fuel) :
    ∃ path w err, g.AStar fuel start endNode heuristic = some (path, w, err) ∧
      (err ≠ none ↔ (start ∉ g.keys ∨ endNode ∉ g.keys ∨ ¬ g.Reachable start endNode)) ∧
      (err ≠ none → path = none ∧ w = 0) := by
  by_cases hs : start ∈ g.keys
  · by_cases he : endNode ∈ g.keys
    · obtain ⟨st, flag, _, h2⟩ := astar_outcome g hb.wf hn start endNode hs he hno heuristic
        fuel hf
      rcases h2 with ⟨_, hr, es, _, _, _, h1⟩ | ⟨_, hr, h1⟩
      · refine ⟨_, _, none, h1, ?_, fun h => absurd rfl h⟩
        constructor
        · intro h; exact absurd rfl h
        · rintro (h | h | h)
          · exact absurd hs h
          · exact absurd he h
          · exact absurd hr h
      · exact ⟨none, 0, _, h1, ⟨fun _ => Or.inr (Or.inr hr), fun _ => by simp⟩,
          fun _ => ⟨rfl, rfl⟩⟩
    · obtain ⟨err, h1⟩ := astar_absent g fuel start endNode heuristic (Or.inr he)
      exact ⟨none, 0, _, h1, ⟨fun _ => Or.inr (Or.inl he), fun _ => by simp⟩,
        fun _ => ⟨rfl, rfl⟩⟩
  · obtain ⟨err, h1⟩ := astar_absent g fuel start endNode heuristic (Or.inl hs)
    exact ⟨none, 0, _, h1, ⟨fun _ => Or.inl hs, fun _ => by simp⟩, fun _ => ⟨rfl, rfl⟩⟩

/-- C6 on the test graph "disconnected start and end yields no path": the nodes (0,0) and
(2,2) without any edge, with the Manhattan heuristic. -/
theorem astar_error_iff_witness :
    ((New.AddNode { x := 0, y := 0 }).AddNode { x := 2, y := 2 } : Graph coord).AStar 10
      { x := 0, y := 0 } { x := 2, y := 2 } manhattanDistance
      = some (none, 0, some GraphError.pathNotFound) ∧
    ∃ path w err,
      ((New.AddNode { x := 0, y := 0 }).AddNode { x := 2, y := 2 } : Graph coord).AStar
        (searchFuel ((New.AddNode { x := 0, y := 0 }).AddNode { x := 2, y := 2 } : Graph coord))
        { x := 0, y := 0 } { x := 2, y := 2 } manhattanDistance = some (path, w, err) ∧
      (err ≠ none ↔
        ({ x := 0, y := 0 } ∉
            ((New.AddNode { x := 0, y := 0 }).AddNode { x := 2, y := 2 } : Graph coord).keys ∨
          { x := 2, y := 2 } ∉
            ((New.AddNode { x := 0, y := 0 }).AddNode { x := 2, y := 2 } : Graph coord).keys ∨
          ¬ ((New.AddNode { x := 0, y := 0 }).AddNode { x := 2, y := 2 } :
            Graph coord).Reachable { x := 0, y := 0 } { x := 2, y := 2 })) ∧
      (err ≠ none → path = none ∧ w = 0) :=
  ⟨by decide, astar_error_iff _ (Built.addNode _ _ (Built.addNode _ _ Built.new))
    (by unfold Graph.NonNeg; decide) { x := 0, y := 0 } { x := 2, y := 2 }
    (noOverflow_of_bounded _ (Built.addNode _ _ (Built.addNode _ _ Built.new)).wf _
      (by decide) 0 (by decide) (by decide) (by decide))
    manhattanDistance _ (le_refl _)⟩

theorem lookup_append (l1 l2 : List (T × List (Edge T))) (y : T) :
    lookup (l1 ++ l2) y = match lookup l1 y with
      | some es => some es
      | none => lookup l2 y := by
  induction l1 with
  | nil => simp [lookup]
  | cons kv rest ih =>
    obtain ⟨k, es⟩ := kv
    by_cases hk : k = y
    · simp [lookup, hk]
    · simp [lookup, hk, ih]

theorem lookup_addNode (g : Graph T) (x y : T) :
    lookup (g.AddNode x).adjacency y
      = if y = x then some ((lookup g.adjacency x).getD []) else lookup g.adjacency y := by
  unfold Graph.AddNode
  cases hl : lookup g.adjacency x with
  | some es =>
    by_cases hy : y = x
    · subst hy; simp [hl]
    · simp [hy]
  | none =>
    simp only [lookup_append]
    by_cases hy : y = x
    · subst hy; simp [hl, lookup]
    · have : ¬ x = y := fun h => hy h.symm
      cases hl2 : lookup g.adjacency y <;> simp [hy, lookup, this]

theorem lookup_appendEdge_ne (src : T) (edge : Edge T) (l : List (T × List (Edge T))) (y : T)
    (hy : y ≠ src) : lookup (appendEdge src edge l) y = lookup l y := by
  have hy2 : ¬ src = y := fun h => hy h.symm
  induction l with
  | nil => simp [appendEdge, lookup, hy2]
  | cons kv rest ih =>
    obtain ⟨k, es⟩ := kv
    by_cases hk : k = src
    · subst hk; simp [appendEdge, lookup, hy2]
    · by_cases hky : k = y
      · subst hky; simp [appendEdge, lookup, hy]
      · simp [appendEdge, lookup, hk, hky, ih]

theorem lookup_appendEdge_self (src : T) (edge : Edge T) (l : List (T × List (Edge T))) :
    lookup (appendEdge src edge l) src = some ((lookup l src).getD [] ++ [edge]) := by
  induction l with
  | nil => simp [appendEdge, lookup]
  | cons kv rest ih =>
    obtain ⟨k, es⟩ := kv
    by_cases hk : k = src
    · subst hk; simp [appendEdge, lookup]
    · simp [appendEdge, lookup, hk, ih]

theorem neighbours_eq (g : Graph T) (y : T) :
    g.Neighbours y = ((lookup g.adjacency y).getD [], (lookup g.adjacency y).isSome) := by
  unfold Graph.Neighbours
  cases lookup g.adjacency y <;> rfl

theorem lookup_addEdge_self (g : Graph T) (src dst : T) (weight : Int) :
    lookup (g.AddEdge src dst weight).adjacency src
      = some ((lookup g.adjacency src).getD [] ++ [{ Link := dst, Weight := weight }]) := by
  unfold Graph.AddEdge
  simp only [lookup_appendEdge_self, lookup_addNode]
  by_cases h : src = dst
  · subst h; simp
  · simp [h]

theorem lookup_addEdge_ne (g : Graph T) (src dst : T) (weight : Int) (y : T) (hy : y ≠ src) :
    lookup (g.AddEdge src dst weight).adjacency y
      = if y = dst then some ((lookup g.adjacency dst).getD []) else lookup g.adjacency y := by
  unfold Graph.AddEdge
  simp only [lookup_appendEdge_ne _ _ _ _ hy, lookup_addNode]
  by_cases h : y = dst
  · subst h; simp [hy]
  · simp [h, hy]

theorem lookup_deleteNode_ne (l : List (T × List (Edge T))) (x y : T) (hy : y ≠ x) :
    lookup ((l.filter (fun kv => decide (kv.1 ≠ x))).map
        (fun kv => (kv.1, kv.2.filter (fun edge => decide (edge.Link ≠ x))))) y
      = (lookup l y).map (fun es => es.filter (fun edge => decide (edge.Link ≠ x))) := by
  induction l with
  | nil => simp [lookup]
  | cons kv rest ih =>
    obtain ⟨k, es⟩ := kv
    by_cases hk : k = x
    · have hky : ¬ k = y := fun h => hy (h ▸ hk)
      rw [List.filter_cons, if_neg (by simp [hk]), ih]
      simp only [lookup, if_neg hky]
    · rw [List.filter_cons, if_pos (by simp [hk]), List.map_cons]
      by_cases hky : k = y
      · simp only [lookup, if_pos hky, Option.map_some']
      · simp only [lookup, if_neg hky, ih]

theorem length_filter_key (l : List (T × List (Edge T))) (x : T)
    (hk : (l.map Prod.fst).Nodup) (hx : x ∈ l.map Prod.fst) :
    (l.filter (fun kv => decide (kv.1 ≠ x))).length + 1 = l.length := by
  induction l with
  | nil => simp at hx
  | cons kv rest ih =>
    obtain ⟨k, es⟩ := kv
    simp only [List.map_cons, List.nodup_cons] at hk
    by_cases hkx : k = x
    · subst hkx
      have hall : rest.filter (fun kv => decide (kv.1 ≠ k)) = rest := by
        rw [List.filter_eq_self]
        intro kv hkv
        have : kv.1 ≠ k := fun h => hk.1 (h ▸ List.mem_map_of_mem Prod.fst hkv)
        simp [this]
      rw [List.filter_cons, if_neg (by simp), hall, List.length_cons]
    · have hx2 : x ∈ rest.map Prod.fst := by
        simp only [List.map_cons, List.mem_cons] at hx
        rcases hx with h | h
        · exact absurd h.symm hkx
        · exact h
      have := ih hk.2 hx2
      rw [List.filter_cons, if_pos (by simp [hkx]), List.length_cons, List.length_cons]
      omega

theorem deleteNode_adjacency (g : Graph T) (x : T) (hx : x ∈ g.keys) :
    (g.DeleteNode x).adjacency = (g.adjacency.filter (fun kv => decide (kv.1 ≠ x))).map
        (fun kv => (kv.1, kv.2.filter (fun edge => decide (edge.Link ≠ x)))) := by
  obtain ⟨es, hes⟩ := (mem_keys_iff_lookup g x).1 hx
  unfold Graph.DeleteNode
  rw [hes]

theorem keys_deleteNode (g : Graph T) (x : T) (hx : x ∈ g.keys) :
    (g.DeleteNode x).keys = g.keys.filter (fun k => decide (k ≠ x)) := by
  unfold Graph.keys
  rw [deleteNode_adjacency g x hx, List.map_map, List.filter_map]
  rfl

theorem nodes_perm (g : Graph T) (ranged : List T) (sortNodes : List T → List T)
    (hs : ∀ l, List.Perm (sortNodes l) l) : List.Perm (g.Nodes ranged sortNodes) ranged := by
  unfold Graph.Nodes
  have : ∀ (l acc : List T), l.foldl (fun nodes node => nodes ++ [node]) acc = acc ++ l := by
    intro l
    induction l with
    | nil => intro acc; simp
    | cons a l ih => intro acc; simp [ih]
  rw [this, List.nil_append]
  exact hs ranged

/-- With nodes compared by identity (the `==` of integers and strings): in every graph made
from `New()` by calls of `AddNode`, `AddEdge` and `DeleteNode`, the target `Link` of every edge
in the edge list of any node is a key of the adjacency map, so that `Neighbours(Link)` returns
`ok = true`. -/
theorem graph_edge_targets_are_keys_identity (g : Graph T) (hb : Built g) (node : T)
    (edges : List (Edge T)) (hl : lookup g.adjacency node = some edges) (edge : Edge T)
    (he : edge ∈ edges) :
    edge.Link ∈ g.keys ∧ (g.Neighbours edge.Link).2 = true := by
  have h1 : edge.Link ∈ g.keys := hb.wf.2 _ (lookup_mem _ _ _ hl) _ he
  obtain ⟨es, hes⟩ := (mem_keys_iff_lookup g _).1 h1
  exact ⟨h1, by rw [neighbours_eq, hes]; rfl⟩

/-- With nodes compared by identity (the `==` of integers and strings): for every graph (a
map, so no key occurs twice) and every node `x` present in it, after `DeleteNode(x)` the node
`x` is not a key and not in `Nodes()`, `Len()` has dropped by exactly 1, the keys are the other
keys, and the edge list of every other node `y` is the sublist of its previous edge list with
exactly the edges whose target is not `x`: none leads to `x`, and every edge with another target
occurs as often as before, in the original relative order. -/
theorem deleteNode_purges_identity (g : Graph T) (hk : g.keys.Nodup) (x : T)
    (hx : x ∈ g.keys) :
    x ∉ (g.DeleteNode x).keys ∧
    (∀ (ranged : List T) (sortNodes : List T → List T),
      List.Perm ranged (g.DeleteNode x).keys → (∀ l, List.Perm (sortNodes l) l) →
      x ∉ (g.DeleteNode x).Nodes ranged sortNodes) ∧
    (g.DeleteNode x).Len + 1 = g.Len ∧
    (∀ y, y ∈ (g.DeleteNode x).keys ↔ y ∈ g.keys ∧ y ≠ x) ∧
    (∀ y es, y ≠ x → lookup g.adjacency y = some es →
      ∃ es1, lookup (g.DeleteNode x).adjacency y = some es1 ∧ List.Sublist es1 es ∧
        (∀ e ∈ es1, e.Link ≠ x) ∧ (∀ e : Edge T, e.Link ≠ x → es1.count e = es.count e) ∧
        es1 = es.filter (fun e => decide (e.Link ≠ x))) := by
  have hkeys := keys_deleteNode g x hx
  have h1 : x ∉ (g.DeleteNode x).keys := by
    rw [hkeys]; simp
  refine ⟨h1, ?_, ?_, ?_, ?_⟩
  · intro ranged sortNodes hr hs hmem
    exact h1 ((hr.mem_iff).1 (((nodes_perm _ ranged sortNodes hs).mem_iff).1 hmem))
  · unfold Graph.Len
    rw [deleteNode_adjacency g x hx, List.length_map]
    exact length_filter_key g.adjacency x hk hx
  · intro y
    rw [hkeys]
    simp
  · intro y es hy hl
    refine ⟨es.filter (fun e => decide (e.Link ≠ x)), ?_, List.filter_sublist es, ?_, ?_, rfl⟩
    · rw [deleteNode_adjacency g x hx, lookup_deleteNode_ne _ x y hy, hl]
      rfl
    · intro e he
      have := (List.mem_filter.1 he).2
      simpa using this
    · intro e he
      rw [List.count_filter]
      simpa using he

/-- C18 (DeleteNode of an absent node is a no-op): for every graph and every `x` that is not a
node of it, `DeleteNode(x)` leaves the adjacency map as it was: the same keys and, for every node,
the same edge list. -/
theorem deleteNode_absent (g : Graph T) (x : T) (hx : x ∉ g.keys) :
    g.DeleteNode x = g ∧ (g.DeleteNode x).keys = g.keys ∧
    (g.DeleteNode x).Len = g.Len ∧
    ∀ y, (g.DeleteNode x).Neighbours y = g.Neighbours y := by
  have h : g.DeleteNode x = g := by
    unfold Graph.DeleteNode
    rw [(lookup_eq_none_iff g.adjacency x).2 hx]
  rw [h]
  exact ⟨rfl, rfl, rfl, fun _ => rfl⟩

/-- C18 on the test graph: deleting "France" from the graph with the single node "London"
leaves `Len() = 1`. -/
theorem deleteNode_absent_witness :
    (((New : Graph String).AddNode "London").DeleteNode "France").Len = 1 ∧
    (((New : Graph String).AddNode "London").DeleteNode "France"
      = (New : Graph String).AddNode "London" ∧
    (((New : Graph String).AddNode "London").DeleteNode "France").keys
      = ((New : Graph String).AddNode "London").keys ∧
    (((New : Graph String).AddNode "London").DeleteNode "France").Len
      = ((New : Graph String).AddNode "London").Len ∧
    ∀ y, (((New : Graph String).AddNode "London").DeleteNode "France").Neighbours y
      = ((New : Graph String).AddNode "London").Neighbours y) :=
  ⟨by decide, deleteNode_absent ((New : Graph String).AddNode "London") "France" (by decide)⟩

/-- With nodes compared by identity (the `==` of integers and strings): for every graph and
all `from`, `to`, `weight` (any integer), after `AddEdge(from, to, weight)` the keys are the
previous keys together with `from` and `to`, `Neighbours(from)` is the previous edge list of
`from` (empty if `from` was new) followed by the single edge `(to, weight)`, the edge list of
every other node is as before (empty for `to` if it is new), and the edge occurs once more than
before in the list of `from`, so parallel edges are kept. -/
theorem addEdge_appends_identity (g : Graph T) (src dst : T) (weight : Int) :
    src ∈ (g.AddEdge src dst weight).keys ∧ dst ∈ (g.AddEdge src dst weight).keys ∧
    (∀ y, y ∈ (g.AddEdge src dst weight).keys ↔ y ∈ g.keys ∨ y = src ∨ y = dst) ∧
    (g.AddEdge src dst weight).Neighbours src
      = ((g.Neighbours src).1 ++ [{ Link := dst, Weight := weight }], true) ∧
    (∀ y, y ≠ src →
      ((g.AddEdge src dst weight).Neighbours y).1 = (g.Neighbours y).1) ∧
    (∀ y, y ≠ src → y ≠ dst →
      lookup (g.AddEdge src dst weight).adjacency y = lookup g.adjacency y) ∧
    ((g.AddEdge src dst weight).Neighbours src).1.count { Link := dst, Weight := weight }
      = (g.Neighbours src).1.count { Link := dst, Weight := weight } + 1 := by
  have hself := lookup_addEdge_self g src dst weight
  have hne := lookup_addEdge_ne g src dst weight
  have hkeys : ∀ y, y ∈ (g.AddEdge src dst weight).keys ↔ y ∈ g.keys ∨ y = src ∨ y = dst := by
    intro y
    rw [mem_keys_iff_lookup, mem_keys_iff_lookup]
    by_cases hy : y = src
    · subst hy; simp [hself]
    · rw [hne y hy]
      by_cases hd : y = dst
      · simp [hd]
      · simp [hd, hy]
  have hn : (g.AddEdge src dst weight).Neighbours src
      = ((g.Neighbours src).1 ++ [{ Link := dst, Weight := weight }], true) := by
    rw [neighbours_eq, hself, neighbours_eq]
    rfl
  refine ⟨(hkeys src).2 (Or.inr (Or.inl rfl)), (hkeys dst).2 (Or.inr (Or.inr rfl)), hkeys, hn,
    ?_, ?_, ?_⟩
  · intro y hy
    rw [neighbours_eq, hne y hy, neighbours_eq]
    by_cases hd : y = dst
    · subst hd; simp
    · simp [hd]
  · intro y hy hd
    rw [hne y hy, if_neg hd]
  · rw [hn]
    simp

/-- With nodes compared by identity (the `==` of integers and strings): for every graph and
`x`, `AddNode(x)` followed by `AddNode(x)` leaves the same graph as a single `AddNode(x)`; and
when `x` is already a node, `AddNode(x)` leaves the graph as it was, so `Len()` and the edge
list of `x` are kept. -/
theorem addNode_idempotent_identity (g : Graph T) (x : T) :
    (g.AddNode x).AddNode x = g.AddNode x ∧
    (x ∈ g.keys → g.AddNode x = g ∧ (g.AddNode x).Len = g.Len ∧
      (g.AddNode x).Neighbours x = g.Neighbours x) := by
  have h : ∀ g1 : Graph T, x ∈ g1.keys → g1.AddNode x = g1 := by
    intro g1 hx
    obtain ⟨es, hes⟩ := (mem_keys_iff_lookup g1 x).1 hx
    unfold Graph.AddNode
    rw [hes]
  refine ⟨h _ (mem_keys_addNode_self g x), ?_⟩
  intro hx
  rw [h g hx]
  exact ⟨rfl, rfl, rfl⟩

theorem nodes_eq (g : Graph T) (ranged : List T) (sortNodes : List T → List T) :
    g.Nodes ranged sortNodes = sortNodes ranged := by
  unfold Graph.Nodes
  have : ∀ (l acc : List T), l.foldl (fun nodes node => nodes ++ [node]) acc = acc ++ l := by
    intro l
    induction l with
    | nil => intro acc; simp
    | cons a l ih => intro acc; simp [ih]
  rw [this, List.nil_append]

theorem slicesSort_perm [LinearOrder T] (l : List T) : List.Perm (slicesSort l) l :=
  List.perm_insertionSort _ l

theorem slicesSort_sorted [LinearOrder T] (l : List T) :
    List.Sorted (fun a b => a ≤ b) (slicesSort l) :=
  List.sorted_insertionSort _ l

theorem slicesSort_eq [LinearOrder T] (l sorted : List T) (hp : List.Perm sorted l)
    (hs : List.Sorted (fun a b => a ≤ b) sorted) : slicesSort l = sorted :=
  List.eq_of_perm_of_sorted ((slicesSort_perm l).trans hp.symm) (slicesSort_sorted l) hs

/-- C21 (Nodes is sorted and duplicate-free): for every graph (a map, so no key occurs twice)
over an identity type that `<` orders linearly, as `int` and `string`, and for every order in
which the map is ranged over, `Nodes()` has length `Len()`, holds exactly the nodes of the graph,
each once, and is strictly ascending. -/
theorem nodes_sorted [LinearOrder T] (g : Graph T) (hk : g.keys.Nodup) (ranged : List T)
    (hr : List.Perm ranged g.keys) :
    (g.Nodes ranged slicesSort).length = g.Len ∧
    (∀ x, x ∈ g.Nodes ranged slicesSort ↔ x ∈ g.keys) ∧
    (g.Nodes ranged slicesSort).Nodup ∧
    List.Sorted (fun a b => a < b) (g.Nodes ranged slicesSort) := by
  rw [nodes_eq]
  have hp : List.Perm (slicesSort ranged) g.keys := (slicesSort_perm ranged).trans hr
  have hnd : (slicesSort ranged).Nodup := hp.nodup_iff.2 hk
  refine ⟨?_, fun x => hp.mem_iff, hnd, (slicesSort_sorted ranged).lt_of_le hnd⟩
  rw [hp.length_eq]
  simp [Graph.keys, Graph.Len]

/-- C21 on the test graph: the edges 1→2, 4→5, 7→8 give `Nodes() = [1, 2, 4, 5, 7, 8]`, here
with the map ranged over in the reverse of the order of insertion. -/
theorem nodes_sorted_witness :
    ((((New : Graph Int).AddEdge 1 2 3).AddEdge 4 5 6).AddEdge 7 8 9).Nodes
      [8, 7, 5, 4, 2, 1] slicesSort = [1, 2, 4, 5, 7, 8] ∧
    List.Sorted (fun a b => a < b)
      (((((New : Graph Int).AddEdge 1 2 3).AddEdge 4 5 6).AddEdge 7 8 9).Nodes
        [8, 7, 5, 4, 2, 1] slicesSort) :=
  ⟨by decide,
    (nodes_sorted ((((New : Graph Int).AddEdge 1 2 3).AddEdge 4 5 6).AddEdge 7 8 9) (by decide)
      [8, 7, 5, 4, 2, 1] (by decide)).2.2.2⟩

theorem intercalate_go_append (sep : String) (l : List String) :
    ∀ x acc : String, String.intercalate.go (x ++ acc) sep l
      = x ++ String.intercalate.go acc sep l := by
  induction l with
  | nil => intro x acc; simp [String.intercalate.go]
  | cons a l ih =>
    intro x acc
    simp only [String.intercalate.go]
    rw [String.append_assoc x acc sep, String.append_assoc x (acc ++ sep) a, ih]

theorem intercalate_cons_cons (sep a b : String) (l : List String) :
    sep.intercalate (a :: b :: l) = a ++ sep ++ sep.intercalate (b :: l) := by
  simp only [String.intercalate, String.intercalate.go]
  rw [intercalate_go_append]

theorem intercalate_singleton (sep a : String) : sep.intercalate [a] = a := by
  simp [String.intercalate, String.intercalate.go]

theorem writeEdges_eq :
    ∀ (es : List (Edge String)) (j : Int) (builder : String),
      writeEdges (j + es.length) j es builder
        = builder ++ ", ".intercalate (es.map formatEdge) := by
  intro es
  induction es with
  | nil => intro j builder; simp [writeEdges, String.intercalate]
  | cons e rest ih =>
    intro j builder
    have hlen : j + ((e :: rest).length : Int) = (j + 1) + (rest.length : Int) := by
      simp only [List.length_cons, Nat.cast_add, Nat.cast_one]; ring
    rw [hlen]
    simp only [writeEdges]
    cases rest with
    | nil =>
      have : ¬ (j < j + 1 + ((([] : List (Edge String)).length : Nat) : Int) - 1) := by
        simp
      rw [if_neg this]
      simp [writeEdges, intercalate_singleton]
    | cons e2 rest2 =>
      have : j < j + 1 + (((e2 :: rest2).length : Nat) : Int) - 1 := by
        simp only [List.length_cons, Nat.cast_add, Nat.cast_one]; omega
      rw [if_pos this, ih]
      simp only [List.map_cons]
      rw [intercalate_cons_cons]
      simp only [String.append_assoc]

theorem writeEdges_line (g : Graph String) (node builder : String) :
    (if (g.Neighbours node).1.length > 0 then
        writeEdges (g.Neighbours node).1.length 0 (g.Neighbours node).1
          (builder ++ node ++ " -> ")
      else builder ++ node) = builder ++ renderLine g node := by
  have hf : (fun e : Edge String => e.Link ++ " (" ++ toString e.Weight ++ ")")
      = formatEdge := rfl
  unfold renderLine
  rw [hf]
  cases hn : (g.Neighbours node).1 with
  | nil => simp
  | cons e rest =>
    have := writeEdges_eq (e :: rest) 0 (builder ++ node ++ " -> ")
    rw [zero_add] at this
    rw [if_pos (by simp), this]
    simp only [String.append_assoc]

theorem writeNodes_eq (g : Graph String) :
    ∀ (nodes : List String) (i : Int) (builder : String),
      writeNodes g (i + nodes.length) i nodes builder
        = builder ++ "\n".intercalate (nodes.map (renderLine g)) := by
  intro nodes
  induction nodes with
  | nil => intro i builder; simp [writeNodes, String.intercalate]
  | cons node rest ih =>
    intro i builder
    have hlen : i + ((node :: rest).length : Int) = (i + 1) + (rest.length : Int) := by
      simp only [List.length_cons, Nat.cast_add, Nat.cast_one]; ring
    rw [hlen]
    simp only [writeNodes]
    rw [writeEdges_line]
    cases rest with
    | nil =>
      have : ¬ (i < i + 1 + ((([] : List String).length : Nat) : Int) - 1) := by simp
      rw [if_neg this]
      simp [writeNodes, intercalate_singleton]
    | cons n2 rest2 =>
      have : i < i + 1 + (((n2 :: rest2).length : Nat) : Int) - 1 := by
        simp only [List.length_cons, Nat.cast_add, Nat.cast_one]; omega
      rw [if_pos this, ih]
      simp only [List.map_cons]
      rw [intercalate_cons_cons]
      simp only [String.append_assoc]

/-- C26 (graph rendering): for every graph over `string` and every order in which the map is
ranged over, `String()` is the rendering of the specification for the nodes in `Nodes()` order:
the lines joined by a single newline, where the line of a node without edges is the node and the
line of a node with edges is the node, `" -> "` and the items `target (weight)` in stored order
joined by `", "`; the empty graph renders as the empty string. -/
theorem string_renders (g : Graph String) (ranged : List String)
    (hr : List.Perm ranged g.keys) :
    g.String ranged = renderGraph g (g.Nodes ranged slicesSort) ∧
    (g.Len = 0 → g.String ranged = "") := by
  have h0 : g.Len = 0 → g.String ranged = "" := by
    intro h; unfold Graph.String; rw [if_pos h]
  refine ⟨?_, h0⟩
  by_cases h : g.Len = 0
  · rw [h0 h, nodes_eq]
    have hk : g.keys = [] := by
      have : g.adjacency = [] := List.length_eq_zero.1 h
      simp [Graph.keys, this]
    rw [hk] at hr
    rw [List.Perm.eq_nil hr]
    rfl
  · unfold Graph.String
    rw [if_neg h]
    have := writeNodes_eq g (g.Nodes ranged slicesSort) 0 ""
    rw [zero_add] at this
    rw [this]
    unfold renderGraph
    simp

theorem sorted_abc : List.Sorted (fun a b : String => a ≤ b) ["A", "B", "C"] := by
  have h1 : ("A" : String) < "B" := String.lt_iff_toList_lt.2 (by decide)
  have h2 : ("B" : String) < "C" := String.lt_iff_toList_lt.2 (by decide)
  have h3 : ("A" : String) < "C" := lt_trans h1 h2
  refine List.Pairwise.cons ?_ (List.Pairwise.cons ?_ (List.Pairwise.cons ?_ List.Pairwise.nil))
  · intro b hb
    rcases List.mem_cons.1 hb with h | h
    · rw [h]; exact le_of_lt h1
    · rw [List.mem_singleton.1 h]; exact le_of_lt h3
  · intro b hb
    rw [List.mem_singleton.1 hb]; exact le_of_lt h2
  · intro b hb
    exact absurd hb (List.not_mem_nil b)

/-- C26 on the test graph: the edges A→B(1), A→C(2), C→A(3) render as
`"A -> B (1), C (2)\nB\nC -> A (3)"`, and the empty graph as `""`. -/
theorem string_renders_witness :
    ((((New : Graph String).AddEdge "A" "B" 1).AddEdge "A" "C" 2).AddEdge "C" "A" 3).String
      ["A", "B", "C"] = "A -> B (1), C (2)\nB\nC -> A (3)" ∧
    (New : Graph String).String [] = "" := by
  have h := (string_renders ((((New : Graph String).AddEdge "A" "B" 1).AddEdge "A" "C"
    2).AddEdge "C" "A" 3) ["A", "B", "C"] (by decide)).1
  rw [nodes_eq, slicesSort_eq ["A", "B", "C"] ["A", "B", "C"] (List.Perm.refl _) sorted_abc] at h
  exact ⟨h.trans (by decide), ((string_renders (New : Graph String) [] (by decide)).2
    (by decide))⟩

theorem links_eq (g : Graph T) (node : T) :
    g.links node = ((lookup g.adjacency node).getD []).map Edge.Link := by
  unfold Graph.links
  rw [neighbours_eq]

theorem mem_links_iff (g : Graph T) (u w : T) :
    w ∈ g.links u ↔ ∃ e ∈ g.nbrs u, e.Link = w := by
  unfold Graph.links Graph.nbrs
  simp

theorem pendingEdges_mono (g : Graph T) (seen1 seen2 : List T)
    (h : ∀ x ∈ seen1, x ∈ seen2) : pendingEdges g seen2 ≤ pendingEdges g seen1 := by
  unfold pendingEdges
  induction g.adjacency with
  | nil => simp
  | cons kv rest ih =>
    simp only [List.map_cons, List.sum_cons]
    by_cases h1 : kv.1 ∈ seen1
    · simp only [if_pos h1, if_pos (h _ h1)]
      omega
    · by_cases h2 : kv.1 ∈ seen2
      · simp only [if_neg h1, if_pos h2]
        omega
      · simp only [if_neg h1, if_neg h2]
        omega

theorem pendingEdges_visit (g : Graph T) (seen : List T) (x : T) (hx : x ∉ seen) :
    pendingEdges g (seen ++ [x]) + (g.links x).length ≤ pendingEdges g seen := by
  rw [links_eq, List.length_map]
  unfold pendingEdges
  induction g.adjacency with
  | nil => simp [lookup]
  | cons kv rest ih =>
    obtain ⟨k, es⟩ := kv
    simp only [List.map_cons, List.sum_cons, lookup]
    by_cases hk : k = x
    · subst hk
      have hmono : ((rest.map (fun kv => if kv.1 ∈ seen ++ [k] then 0 else kv.2.length)).sum)
          ≤ (rest.map (fun kv => if kv.1 ∈ seen then 0 else kv.2.length)).sum := by
        have := pendingEdges_mono { adjacency := rest } seen (seen ++ [k])
          (fun y hy => List.mem_append_left _ hy)
        simpa [pendingEdges] using this
      have hin : k ∈ seen ++ [k] := by simp
      simp only [if_neg hx, if_pos hin, if_true, Option.getD_some]
      omega
    · have h1 : (k ∈ seen ++ [x]) ↔ k ∈ seen := by simp [hk]
      simp only [if_neg hk]
      by_cases hs : k ∈ seen
      · simp only [if_pos hs, if_pos (h1.2 hs)]
        omega
      · simp only [if_neg hs, if_neg (fun a => hs (h1.1 a))]
        omega

theorem pendingEdges_nil (g : Graph T) : pendingEdges g [] = g.edgeCount := by
  simp [pendingEdges, Graph.edgeCount]

theorem dfsPush_eq (visited : T → Bool) : ∀ (es : List (Edge T)) (queue : List T),
    dfsPush visited es queue
      = queue ++ (es.map Edge.Link).filter (fun x => !visited x) := by
  intro es
  induction es with
  | nil => intro queue; simp [dfsPush]
  | cons e rest ih =>
    intro queue
    simp only [dfsPush, List.map_cons, List.filter_cons]
    cases h : visited e.Link <;> simp [h, ih]

theorem dfsLoop_nil (g : Graph T) (fuel : Nat) (visited : T → Bool) (visits : List T) :
    dfsLoop g fuel [] visited visits = some visits := by
  cases fuel <;> simp [dfsLoop]

theorem dfsLoop_push (g : Graph T) (fuel : Nat) (stack : List T) (x : T)
    (visited : T → Bool) (visits : List T) :
    dfsLoop g (fuel + 1) (x :: stack).reverse visited visits
      = if visited x = true then dfsLoop g fuel stack.reverse visited visits
        else dfsLoop g fuel
          (((g.links x).filter (fun y => !(upd visited x true) y)) ++ stack).reverse
          (upd visited x true) (visits ++ [x]) := by
  have h1 : (x :: stack).reverse.getLast? = some x := by simp
  have h2 : (x :: stack).reverse.dropLast = stack.reverse := by simp
  simp only [dfsLoop, h1, h2, dfsPush_eq]
  cases hv : visited x
  · simp only [Bool.not_false, if_true, Bool.false_eq_true, if_false]
    congr 1
    simp [Graph.links, List.filter_reverse, List.map_reverse]
  · simp

theorem recursiveDfsLoop_append (rec : T → List T → Option (List T)) :
    ∀ (l1 l2 : List T) (seen : List T),
      recursiveDfsLoop rec (l1 ++ l2) seen
        = match recursiveDfsLoop rec l1 seen with
          | none => none
          | some mid => recursiveDfsLoop rec l2 mid := by
  intro l1
  induction l1 with
  | nil => intro l2 seen; simp [recursiveDfsLoop]
  | cons a l ih =>
    intro l2 seen
    simp only [List.cons_append, recursiveDfsLoop]
    cases rec a seen with
    | none => rfl
    | some s1 => exact ih l2 s1

theorem recursiveDfs_extends (g : Graph T) : ∀ (depth : Nat),
    (∀ (x : T) (seen r : List T), recursiveDfs g depth x seen = some r → seen <+: r) := by
  intro depth
  induction depth with
  | zero => intro x seen r h; simp [recursiveDfs] at h
  | succ d ih =>
    intro x seen r h
    simp only [recursiveDfs] at h
    by_cases hx : x ∈ seen
    · rw [if_pos hx] at h
      cases h
      exact List.prefix_refl _
    · rw [if_neg hx] at h
      have hloop : ∀ (l : List T) (s r : List T),
          recursiveDfsLoop (recursiveDfs g d) l s = some r → s <+: r := by
        intro l
        induction l with
        | nil => intro s r h; simp only [recursiveDfsLoop] at h; cases h; exact List.prefix_refl _
        | cons a l ihl =>
          intro s r h
          simp only [recursiveDfsLoop] at h
          cases h1 : recursiveDfs g d a s with
          | none => rw [h1] at h; cases h
          | some s1 =>
            rw [h1] at h
            exact (ih a s s1 h1).trans (ihl s1 r h)
      exact (List.prefix_append seen [x]).trans (hloop _ _ _ h)

theorem recursiveDfsLoop_extends (g : Graph T) (depth : Nat) : ∀ (l : List T) (s r : List T),
    recursiveDfsLoop (recursiveDfs g depth) l s = some r → s <+: r := by
  intro l
  induction l with
  | nil => intro s r h; simp only [recursiveDfsLoop] at h; cases h; exact List.prefix_refl _
  | cons a l ihl =>
    intro s r h
    simp only [recursiveDfsLoop] at h
    cases h1 : recursiveDfs g depth a s with
    | none => rw [h1] at h; cases h
    | some s1 =>
      rw [h1] at h
      exact (recursiveDfs_extends g depth a s s1 h1).trans (ihl s1 r h)

theorem recursiveDfs_succ (g : Graph T) : ∀ (depth : Nat) (x : T) (seen r : List T),
    recursiveDfs g depth x seen = some r → recursiveDfs g (depth + 1) x seen = some r := by
  intro depth
  induction depth with
  | zero => intro x seen r h; simp [recursiveDfs] at h
  | succ d ih =>
    intro x seen r h
    rw [recursiveDfs] at h ⊢
    by_cases hx : x ∈ seen
    · rw [if_pos hx] at h ⊢; exact h
    · rw [if_neg hx] at h ⊢
      have hloop : ∀ (l : List T) (s r : List T),
          recursiveDfsLoop (recursiveDfs g d) l s = some r →
          recursiveDfsLoop (recursiveDfs g (d + 1)) l s = some r := by
        intro l
        induction l with
        | nil => intro s r h; simpa [recursiveDfsLoop] using h
        | cons a l ihl =>
          intro s r h
          simp only [recursiveDfsLoop] at h ⊢
          cases h1 : recursiveDfs g d a s with
          | none => rw [h1] at h; cases h
          | some s1 =>
            rw [h1] at h
            rw [ih a s s1 h1]
            exact ihl s1 r h
      exact hloop _ _ _ h

theorem recursiveDfsLoop_succ (g : Graph T) (depth : Nat) : ∀ (l : List T) (s r : List T),
    recursiveDfsLoop (recursiveDfs g depth) l s = some r →
    recursiveDfsLoop (recursiveDfs g (depth + 1)) l s = some r := by
  intro l
  induction l with
  | nil => intro s r h; simpa [recursiveDfsLoop] using h
  | cons a l ihl =>
    intro s r h
    simp only [recursiveDfsLoop] at h ⊢
    cases h1 : recursiveDfs g depth a s with
    | none => rw [h1] at h; cases h
    | some s1 =>
      rw [h1] at h
      rw [recursiveDfs_succ g depth a s s1 h1]
      exact ihl s1 r h

theorem recursiveDfsLoop_mono (g : Graph T) (d1 d2 : Nat) (h : d1 ≤ d2) (l : List T)
    (s r : List T) (hr : recursiveDfsLoop (recursiveDfs g d1) l s = some r) :
    recursiveDfsLoop (recursiveDfs g d2) l s = some r := by
  induction h with
  | refl => exact hr
  | step _ ih => exact recursiveDfsLoop_succ g _ l s r ih

theorem recursiveDfsLoop_filter (g : Graph T) (depth : Nat) (base : List T) :
    ∀ (l : List T) (s : List T), base <+: s →
      recursiveDfsLoop (recursiveDfs g (depth + 1)) (l.filter (fun y => decide (y ∉ base))) s
        = recursiveDfsLoop (recursiveDfs g (depth + 1)) l s := by
  intro l
  induction l with
  | nil => intro s _; rfl
  | cons a l ih =>
    intro s hs
    by_cases ha : a ∈ base
    · have has : a ∈ s := hs.subset ha
      have : recursiveDfs g (depth + 1) a s = some s := by
        rw [recursiveDfs, if_pos has]
      rw [List.filter_cons, if_neg (by simpa using ha)]
      simp only [recursiveDfsLoop, this]
      exact ih s hs
    · rw [List.filter_cons, if_pos (by simpa using ha)]
      simp only [recursiveDfsLoop]
      cases h1 : recursiveDfs g (depth + 1) a s with
      | none => rfl
      | some s1 =>
        exact ih s1 (hs.trans (recursiveDfs_extends g _ a s s1 h1))

theorem marks_upd (visited : T → Bool) (visits : List T) (x : T)
    (hm : ∀ y, visited y = true ↔ y ∈ visits) :
    ∀ y, upd visited x true y = true ↔ y ∈ visits ++ [x] := by
  intro y
  by_cases hy : y = x
  · subst hy; simp [upd]
  · simp [upd, hy, hm y]

theorem filter_marks (visited : T → Bool) (visits : List T) (l : List T)
    (hm : ∀ y, visited y = true ↔ y ∈ visits) :
    l.filter (fun y => !visited y) = l.filter (fun y => decide (y ∉ visits)) := by
  apply List.filter_congr
  intro y _
  cases h : visited y
  · have : y ∉ visits := fun a => by rw [(hm y).2 a] at h; cases h
    simp [this]
  · have : y ∈ visits := (hm y).1 h
    simp [this]

theorem dfs_refines (g : Graph T) : ∀ (n : Nat) (stack visits : List T) (visited : T → Bool),
    (∀ y, visited y = true ↔ y ∈ visits) →
    stack.length + pendingEdges g visits ≤ n →
    ∀ (fuel depth : Nat), n ≤ fuel → pendingEdges g visits + 1 ≤ depth →
    ∃ r, dfsLoop g fuel stack.reverse visited visits = some r ∧
      recursiveDfsLoop (recursiveDfs g depth) stack visits = some r := by
  intro n
  induction n with
  | zero =>
    intro stack visits visited _ hn fuel depth _ _
    have : stack = [] := List.length_eq_zero.1 (by omega)
    subst this
    exact ⟨visits, dfsLoop_nil g fuel visited visits, rfl⟩
  | succ n ih =>
    intro stack visits visited hm hn fuel depth hf hd
    cases stack with
    | nil => exact ⟨visits, dfsLoop_nil g fuel visited visits, rfl⟩
    | cons x s =>
      obtain ⟨f, rfl⟩ : ∃ f, fuel = f + 1 := ⟨fuel - 1, by omega⟩
      obtain ⟨d, rfl⟩ : ∃ d, depth = d + 1 := ⟨depth - 1, by omega⟩
      simp only [List.length_cons] at hn
      rw [dfsLoop_push]
      by_cases hx : x ∈ visits
      · rw [if_pos ((hm x).2 hx)]
        obtain ⟨r, h1, h2⟩ := ih s visits visited hm (by omega) f (d + 1) (by omega) hd
        refine ⟨r, h1, ?_⟩
        simp only [recursiveDfsLoop]
        rw [recursiveDfs, if_pos hx]
        exact h2
      · have hvx : ¬ visited x = true := fun a => hx ((hm x).1 a)
        rw [if_neg hvx]
        have hm2 := marks_upd visited visits x hm
        have hp := pendingEdges_visit g visits x hx
        rw [filter_marks _ _ _ hm2]
        have hlen : ((g.links x).filter (fun y => decide (y ∉ visits ++ [x]))).length
            ≤ (g.links x).length := List.length_filter_le _ _
        simp only [recursiveDfsLoop]
        rw [recursiveDfs, if_neg hx]
        by_cases hdeg : (g.links x).length = 0
        · have hnil : g.links x = [] := List.length_eq_zero.1 hdeg
          rw [hnil]
          simp only [List.filter_nil, List.nil_append, recursiveDfsLoop]
          exact ih s (visits ++ [x]) (upd visited x true) hm2 (by omega) f (d + 1) (by omega)
            (by omega)
        · obtain ⟨d1, rfl⟩ : ∃ d1, d = d1 + 1 := ⟨d - 1, by omega⟩
          obtain ⟨r, h1, h2⟩ := ih
            (((g.links x).filter (fun y => decide (y ∉ visits ++ [x]))) ++ s)
            (visits ++ [x]) (upd visited x true) hm2
            (by rw [List.length_append]; omega) f (d1 + 1) (by omega) (by omega)
          refine ⟨r, h1, ?_⟩
          rw [recursiveDfsLoop_append] at h2
          rw [recursiveDfsLoop_filter g d1 (visits ++ [x]) (g.links x) (visits ++ [x])
            (List.prefix_refl _)] at h2
          cases h3 : recursiveDfsLoop (recursiveDfs g (d1 + 1)) (g.links x) (visits ++ [x]) with
          | none => rw [h3] at h2; cases h2
          | some mid =>
            rw [h3] at h2
            simp only
            exact recursiveDfsLoop_succ g (d1 + 1) s mid r h2

theorem dfsLoop_start (g : Graph T) (start : T) (fuel depth : Nat)
    (hf : traversalFuel g ≤ fuel) (hd : traversalFuel g ≤ depth) :
    ∃ r, dfsLoop g fuel [start] (fun _ => false) [] = some r ∧
      recursiveDfs g depth start [] = some r := by
  obtain ⟨r, h1, h2⟩ := dfs_refines g (1 + g.edgeCount) [start] [] (fun _ => false)
    (by simp) (by rw [pendingEdges_nil]; simp) fuel depth
    (by unfold traversalFuel at hf; omega)
    (by rw [pendingEdges_nil]; unfold traversalFuel at hd; omega)
  refine ⟨r, h1, ?_⟩
  simp only [recursiveDfsLoop] at h2
  cases h3 : recursiveDfs g depth start [] with
  | none => rw [h3] at h2; cases h2
  | some s1 => rw [h3] at h2; simpa [recursiveDfsLoop] using h2

theorem reachable_link (g : Graph T) (start u w : T) (hu : g.Reachable start u)
    (hw : w ∈ g.links u) : g.Reachable start w := by
  obtain ⟨es, hes⟩ := hu
  obtain ⟨e, he, rfl⟩ := (mem_links_iff g u w).1 hw
  exact ⟨es ++ [e], isPath_snoc g start u es e hes he⟩

theorem closed_reach (g : Graph T) (visits : List T)
    (hc : ∀ u ∈ visits, ∀ w ∈ g.links u, w ∈ visits) :
    ∀ (es : List (Edge T)) (u x : T), u ∈ visits → IsPath g u es x → x ∈ visits := by
  intro es
  induction es with
  | nil => intro u x hu h; simp only [IsPath] at h; exact h ▸ hu
  | cons e es ih =>
    intro u x hu h
    simp only [IsPath] at h
    exact ih e.Link x (hc u hu _ ((mem_links_iff g u _).2 ⟨e, h.1, rfl⟩)) h.2

theorem dfsLoop_zero (g : Graph T) (x : T) (stack : List T) (visited : T → Bool)
    (visits : List T) : dfsLoop g 0 (x :: stack).reverse visited visits = none := by
  have h1 : (x :: stack).reverse.getLast? = some x := by simp
  simp only [dfsLoop, h1]

theorem dfs_visits (g : Graph T) (start : T) : ∀ (fuel : Nat) (stack visits : List T)
    (visited : T → Bool) (r : List T), DfsInv g start visits stack visited →
    dfsLoop g fuel stack.reverse visited visits = some r →
    r.Nodup ∧ ∀ x, x ∈ r ↔ g.Reachable start x := by
  have hfinal : ∀ (visits : List T) (visited : T → Bool),
      DfsInv g start visits [] visited →
      visits.Nodup ∧ ∀ x, x ∈ visits ↔ g.Reachable start x := by
    intro visits visited inv
    refine ⟨inv.nodup, fun x => ⟨fun hx => inv.reach x (Or.inl hx), ?_⟩⟩
    rintro ⟨es, hes⟩
    have hs : start ∈ visits := by
      rcases inv.started with h | h
      · exact h
      · simp at h
    refine closed_reach g visits ?_ es start x hs hes
    intro u hu w hw
    rcases inv.closed u hu w hw with h | h
    · exact h
    · simp at h
  intro fuel
  induction fuel with
  | zero =>
    intro stack visits visited r inv h
    cases stack with
    | nil =>
      rw [List.reverse_nil, dfsLoop_nil] at h
      cases h
      exact hfinal visits visited inv
    | cons x s => rw [dfsLoop_zero] at h; cases h
  | succ f ih =>
    intro stack visits visited r inv h
    cases stack with
    | nil =>
      rw [List.reverse_nil, dfsLoop_nil] at h
      cases h
      exact hfinal visits visited inv
    | cons x s =>
      rw [dfsLoop_push] at h
      by_cases hx : x ∈ visits
      · rw [if_pos ((inv.marks x).2 hx)] at h
        refine ih s visits visited r ?_ h
        refine ⟨inv.marks, inv.nodup, ?_, ?_, ?_⟩
        · intro y hy
          rcases hy with hy | hy
          · exact inv.reach y (Or.inl hy)
          · exact inv.reach y (Or.inr (List.mem_cons_of_mem _ hy))
        · intro u hu w hw
          rcases inv.closed u hu w hw with h1 | h1
          · exact Or.inl h1
          · rcases List.mem_cons.1 h1 with h2 | h2
            · exact Or.inl (h2 ▸ hx)
            · exact Or.inr h2
        · rcases inv.started with h1 | h1
          · exact Or.inl h1
          · rcases List.mem_cons.1 h1 with h2 | h2
            · exact Or.inl (h2 ▸ hx)
            · exact Or.inr h2
      · have hvx : ¬ visited x = true := fun a => hx ((inv.marks x).1 a)
        rw [if_neg hvx] at h
        have hm2 := marks_upd visited visits x inv.marks
        rw [filter_marks _ _ _ hm2] at h
        have hrx : g.Reachable start x := inv.reach x (Or.inr (List.mem_cons_self _ _))
        refine ih _ (visits ++ [x]) (upd visited x true) r ?_ h
        refine ⟨hm2, ?_, ?_, ?_, ?_⟩
        · rw [List.nodup_append]
          refine ⟨inv.nodup, List.nodup_singleton x, ?_⟩
          intro y hy hy2
          rw [List.mem_singleton] at hy2
          exact hx (hy2 ▸ hy)
        · intro y hy
          rcases hy with hy | hy
          · rcases List.mem_append.1 hy with h1 | h1
            · exact inv.reach y (Or.inl h1)
            · rw [List.mem_singleton] at h1
              exact h1 ▸ hrx
          · rcases List.mem_append.1 hy with h1 | h1
            · exact reachable_link g start x y hrx (List.mem_filter.1 h1).1
            · exact inv.reach y (Or.inr (List.mem_cons_of_mem _ h1))
        · intro u hu w hw
          rcases List.mem_append.1 hu with h1 | h1
          · rcases inv.closed u h1 w hw with h2 | h2
            · exact Or.inl (List.mem_append_left _ h2)
            · rcases List.mem_cons.1 h2 with h3 | h3
              · exact Or.inl (by rw [h3]; simp)
              · exact Or.inr (List.mem_append_right _ h3)
          · rw [List.mem_singleton] at h1
            subst h1
            by_cases hwv : w ∈ visits ++ [u]
            · exact Or.inl hwv
            · exact Or.inr (List.mem_append_left _
                (List.mem_filter.2 ⟨hw, by simpa using hwv⟩))
        · rcases inv.started with h1 | h1
          · exact Or.inl (List.mem_append_left _ h1)
          · rcases List.mem_cons.1 h1 with h2 | h2
            · exact Or.inl (by rw [h2]; simp)
            · exact Or.inr (List.mem_append_right _ h2)

theorem dfsInv_init (g : Graph T) (start : T) :
    DfsInv g start [] [start] (fun _ => false) := by
  refine ⟨by simp, List.nodup_nil, ?_, by simp, Or.inr (by simp)⟩
  intro x hx
  rcases hx with hx | hx
  · simp at hx
  · rw [List.mem_singleton] at hx
    exact ⟨[], hx.symm⟩

theorem dfs_outcome (g : Graph T) (start : T) (hs : start ∈ g.keys) (fuel depth : Nat)
    (hf : traversalFuel g ≤ fuel) (hd : traversalFuel g ≤ depth) :
    ∃ visits, g.DFS fuel start = some (visits, none) ∧
      recursiveDfs g depth start [] = some visits ∧ visits.Nodup ∧
      ∀ x, x ∈ visits ↔ g.Reachable start x := by
  obtain ⟨r, h1, h2⟩ := dfsLoop_start g start fuel depth hf hd
  obtain ⟨es, hes⟩ := (mem_keys_iff_lookup g start).1 hs
  have h3 := dfs_visits g start fuel [start] [] (fun _ => false) r (dfsInv_init g start) h1
  refine ⟨r, ?_, h2, h3⟩
  unfold Graph.DFS
  rw [hes]
  simp only
  rw [h1]

theorem traversal_absent (g : Graph T) (start : T) (hs : start ∉ g.keys) (fuel : Nat) :
    g.BFS fuel start = some ([], some GraphError.startNotFound) ∧
    g.DFS fuel start = some ([], some GraphError.startNotFound) := by
  have := (lookup_eq_none_iff g.adjacency start).2 hs
  unfold Graph.BFS Graph.DFS
  rw [this]
  exact ⟨rfl, rfl⟩

theorem bfsRelax_spec : ∀ (nbrs : List (Edge T)) (queue : List T) (visited : T → Bool),
    ∃ fresh : List T, (bfsRelax nbrs (queue, visited)).1 = queue ++ fresh ∧
      (∀ x, (bfsRelax nbrs (queue, visited)).2 x = true ↔ visited x = true ∨ x ∈ fresh) ∧
      fresh.Nodup ∧
      (∀ x ∈ fresh, visited x = false ∧ x ∈ nbrs.map Edge.Link) ∧
      (∀ x ∈ nbrs.map Edge.Link, visited x = true ∨ x ∈ fresh) ∧
      fresh.length ≤ nbrs.length ∧
      fresh.Pairwise (fun a b =>
        (nbrs.map Edge.Link).indexOf a < (nbrs.map Edge.Link).indexOf b) := by
  intro nbrs
  induction nbrs with
  | nil =>
    intro queue visited
    exact ⟨[], by simp [bfsRelax], by simp [bfsRelax], List.nodup_nil, by simp, by simp,
      by simp, List.Pairwise.nil⟩
  | cons e rest ih =>
    intro queue visited
    cases hv : visited e.Link with
    | false =>
      obtain ⟨fresh, h1, h2, h3, h4, h5, h6, h7⟩ :=
        ih (queue ++ [e.Link]) (upd visited e.Link true)
      have hstep : bfsRelax (e :: rest) (queue, visited)
          = bfsRelax rest (queue ++ [e.Link], upd visited e.Link true) := by
        simp [bfsRelax, hv]
      have hnot : e.Link ∉ fresh := by
        intro hm
        have := (h4 _ hm).1
        simp [upd] at this
      have hne : ∀ y ∈ fresh, e.Link ≠ y := fun y hy e1 => hnot (e1 ▸ hy)
      have hold : ∀ y ∈ fresh, visited y = false := by
        intro y hy
        have := (h4 y hy).1
        have hney : ¬ y = e.Link := fun e1 => hne y hy e1.symm
        simpa [upd, hney] using this
      refine ⟨e.Link :: fresh, ?_, ?_, ?_, ?_, ?_, ?_, ?_⟩
      · rw [hstep, h1]; simp
      · intro x
        rw [hstep, h2]
        by_cases hx : x = e.Link
        · subst hx; simp [upd]
        · simp [upd, hx]
      · exact List.nodup_cons.2 ⟨hnot, h3⟩
      · intro x hx
        rcases List.mem_cons.1 hx with h | h
        · subst h; exact ⟨hv, by simp⟩
        · exact ⟨hold x h, by simp [(h4 x h).2]⟩
      · intro x hx
        rw [List.map_cons, List.mem_cons] at hx
        rcases hx with h | h
        · exact Or.inr (by rw [h]; simp)
        · rcases h5 x h with h8 | h8
          · by_cases hxe : x = e.Link
            · exact Or.inr (by rw [hxe]; simp)
            · left; simpa [upd, hxe] using h8
          · exact Or.inr (List.mem_cons_of_mem _ h8)
      · simp only [List.length_cons]; omega
      · rw [List.pairwise_cons]
        constructor
        · intro y hy
          rw [List.map_cons, List.indexOf_cons_self, List.indexOf_cons_ne _ (hne y hy)]
          exact Nat.succ_pos _
        · refine List.Pairwise.imp_of_mem ?_ h7
          intro a b ha hb hab
          rw [List.map_cons, List.indexOf_cons_ne _ (hne a ha),
            List.indexOf_cons_ne _ (hne b hb)]
          exact Nat.succ_lt_succ hab
    | true =>
      obtain ⟨fresh, h1, h2, h3, h4, h5, h6, h7⟩ := ih queue visited
      have hstep : bfsRelax (e :: rest) (queue, visited) = bfsRelax rest (queue, visited) := by
        simp [bfsRelax, hv]
      have hne : ∀ y ∈ fresh, e.Link ≠ y := by
        intro y hy e1
        have := (h4 y hy).1
        rw [← e1, hv] at this
        cases this
      refine ⟨fresh, by rw [hstep, h1], by rw [hstep]; exact h2, h3, ?_, ?_, ?_, ?_⟩
      · intro x hx
        exact ⟨(h4 x hx).1, by simp [(h4 x hx).2]⟩
      · intro x hx
        rw [List.map_cons, List.mem_cons] at hx
        rcases hx with h | h
        · exact Or.inl (h ▸ hv)
        · exact h5 x h
      · simp only [List.length_cons]; omega
      · refine List.Pairwise.imp_of_mem ?_ h7
        intro a b ha hb hab
        rw [List.map_cons, List.indexOf_cons_ne _ (hne a ha),
          List.indexOf_cons_ne _ (hne b hb)]
        exact Nat.succ_lt_succ hab

theorem bfsLoop_nil (g : Graph T) (fuel : Nat) (visited : T → Bool) (visits : List T) :
    bfsLoop g fuel ([], visited) visits = some visits := by
  cases fuel <;> simp [bfsLoop]

theorem bfsLoop_cons (g : Graph T) (fuel : Nat) (next : T) (queue : List T)
    (visited : T → Bool) (visits : List T) :
    bfsLoop g (fuel + 1) (next :: queue, visited) visits
      = bfsLoop g fuel (bfsRelax (g.Neighbours next).1 (queue, visited)) (visits ++ [next]) := by
  simp [bfsLoop]

theorem bfs_step (g : Graph T) (start u : T) (visits queue : List T) (visited : T → Bool)
    (level : T → Nat) (parent : T → T)
    (inv : BfsInv g start visits (u :: queue) visited level parent) :
    ∃ level1 parent1,
      BfsInv g start (visits ++ [u]) (bfsRelax (g.Neighbours u).1 (queue, visited)).1
        (bfsRelax (g.Neighbours u).1 (queue, visited)).2 level1 parent1 ∧
      (bfsRelax (g.Neighbours u).1 (queue, visited)).1.length
        + pendingEdges g (visits ++ [u]) + 1 ≤ (u :: queue).length + pendingEdges g visits := by
  obtain ⟨fresh, h1, h2, h3, h4, h5, h6, h7⟩ := bfsRelax_spec (g.Neighbours u).1 queue visited
  have hlinks : (g.Neighbours u).1.map Edge.Link = g.links u := rfl
  rw [hlinks] at h4 h5 h7
  rw [h1]
  have hD : (visits ++ [u]) ++ (queue ++ fresh) = (visits ++ u :: queue) ++ fresh := by simp
  have hfD : ∀ x ∈ fresh, x ∉ visits ++ u :: queue := by
    intro x hx hm
    have := (h4 x hx).1
    rw [(inv.marks x).2 hm] at this
    cases this
  have huD : u ∈ visits ++ u :: queue := by simp
  have hnd := List.nodup_append.1 inv.nodup
  have huv : u ∉ visits := fun hm => hnd.2.2 hm (List.mem_cons_self _ _)
  have hstart : start ∈ visits ++ u :: queue := by
    have := inv.head
    cases hl : visits ++ u :: queue with
    | nil => simp at hl
    | cons a l =>
      rw [hl] at this
      simp only [List.head?_cons, Option.some.injEq] at this
      rw [this]; simp
  have hidx : ∀ v ∈ visits, (visits ++ [u]).indexOf v = visits.indexOf v :=
    fun v hv => List.indexOf_append_of_mem hv
  have hidxu : (visits ++ [u]).indexOf u = visits.length := by
    rw [List.indexOf_append_of_not_mem huv]; simp
  refine ⟨fun x => if x ∈ fresh then level u + 1 else level x,
    fun x => if x ∈ fresh then u else parent x, ?_, ?_⟩
  · have hlv : ∀ x ∈ visits ++ u :: queue,
        (if x ∈ fresh then level u + 1 else level x) = level x :=
      fun x hx => if_neg (fun hf => hfD x hf hx)
    have hpa : ∀ x ∈ visits ++ u :: queue, (if x ∈ fresh then u else parent x) = parent x :=
      fun x hx => if_neg (fun hf => hfD x hf hx)
    have hspanu : ∀ x ∈ visits ++ u :: queue, level x ≤ level u + 1 :=
      fun x hx => inv.span x hx u (List.mem_cons_self _ _)
    constructor
    · intro x
      rw [h2, hD, inv.marks x]
      simp only [List.mem_append]
    · rw [hD, List.nodup_append]
      exact ⟨inv.nodup, h3, fun x hx hf => hfD x hf hx⟩
    · rw [hD, List.head?_append_of_ne_nil _ (by simp)]
      exact inv.head
    · show (if start ∈ fresh then level u + 1 else level start) = 0
      rw [hlv start hstart]
      exact inv.levelStart
    · rw [hD, List.pairwise_append]
      refine ⟨?_, ?_, ?_⟩
      · refine List.Pairwise.imp_of_mem ?_ inv.sorted
        intro a b ha hb hab
        try simp only
        rw [hlv a ha, hlv b hb]
        exact hab
      · refine List.Pairwise.imp_of_mem ?_ h7
        intro a b ha hb _
        try simp only
        rw [if_pos ha, if_pos hb]
      · intro a ha b hb
        try simp only
        rw [hlv a ha, if_pos hb]
        exact hspanu a ha
    · intro x hx y hy
      rw [hD] at hx
      try simp only
      rcases List.mem_append.1 hy with hy1 | hy1
      · have hyD : y ∈ visits ++ u :: queue := by simp [hy1]
        rw [hlv y hyD]
        rcases List.mem_append.1 hx with hx1 | hx1
        · rw [hlv x hx1]
          exact inv.span x hx1 y (List.mem_cons_of_mem _ hy1)
        · rw [if_pos hx1]
          have hsort := List.pairwise_append.1 inv.sorted
          have huy : level u ≤ level y := by
            have := hsort.2.1
            rw [List.pairwise_cons] at this
            exact this.1 y hy1
          omega
      · rw [if_pos hy1]
        rcases List.mem_append.1 hx with hx1 | hx1
        · rw [hlv x hx1]
          have := hspanu x hx1
          omega
        · rw [if_pos hx1]
          omega
    · intro x hx
      rw [hD] at hx
      try simp only
      rcases List.mem_append.1 hx with hx1 | hx1
      · rw [hlv x hx1]
        exact inv.path x hx1
      · rw [if_pos hx1]
        obtain ⟨es, hes, hlen⟩ := inv.path u huD
        obtain ⟨e, he, hel⟩ := (mem_links_iff g u x).1 (h4 x hx1).2
        refine ⟨es ++ [e], ?_, by simp [hlen]⟩
        rw [← hel]
        exact isPath_snoc g start u es e hes he
    · intro v hv w hw
      rw [hD]
      try simp only
      rcases List.mem_append.1 hv with hv1 | hv1
      · obtain ⟨c1, c2⟩ := inv.closed v hv1 w hw
        have hvD : v ∈ visits ++ u :: queue := List.mem_append_left _ hv1
        rw [hlv w c1, hlv v hvD]
        exact ⟨List.mem_append_left _ c1, c2⟩
      · rw [List.mem_singleton] at hv1
        subst hv1
        rw [hlv v huD]
        rcases h5 w hw with c | c
        · have hwD := (inv.marks w).1 c
          rw [hlv w hwD]
          exact ⟨List.mem_append_left _ hwD, hspanu w hwD⟩
        · rw [if_pos c]
          exact ⟨List.mem_append_right _ c, le_refl _⟩
    · intro x hx hxs
      rw [hD] at hx
      try simp only
      rcases List.mem_append.1 hx with hx1 | hx1
      · rw [hpa x hx1]
        obtain ⟨p1, p2, p3⟩ := inv.par x hx1 hxs
        refine ⟨List.mem_append_left _ p1, p2, ?_⟩
        intro v hv hxv
        rw [hidx _ p1]
        rcases List.mem_append.1 hv with hv1 | hv1
        · rw [hidx v hv1]
          exact p3 v hv1 hxv
        · rw [List.mem_singleton] at hv1
          rw [hv1, hidxu]
          exact le_of_lt (List.indexOf_lt_length.2 p1)
      · rw [if_pos hx1]
        refine ⟨by simp, (h4 x hx1).2, ?_⟩
        intro v hv hxv
        rcases List.mem_append.1 hv with hv1 | hv1
        · exact absurd (inv.closed v hv1 x hxv).1 (hfD x hx1)
        · rw [List.mem_singleton] at hv1
          rw [hv1]
    · rw [hD, List.pairwise_append]
      refine ⟨?_, ?_, ?_⟩
      · refine List.Pairwise.imp_of_mem ?_ inv.ord
        intro a b ha hb hab has hbs
        try simp only
        rw [hpa a ha, hpa b hb]
        have pa := (inv.par a ha has).1
        have pb := (inv.par b hb hbs).1
        rw [hidx _ pa, hidx _ pb]
        exact hab has hbs
      · refine List.Pairwise.imp_of_mem ?_ h7
        intro a b ha hb hab _ _
        try simp only
        rw [if_pos ha, if_pos hb]
        exact Or.inr ⟨rfl, hab⟩
      · intro a ha b hb has _
        try simp only
        rw [hpa a ha, if_pos hb]
        have pa := (inv.par a ha has).1
        rw [hidx _ pa, hidxu]
        exact Or.inl (List.indexOf_lt_length.2 pa)
  · have hp := pendingEdges_visit g visits u huv
    have hl : (g.links u).length = (g.Neighbours u).1.length := by
      simp [Graph.links]
    simp only [List.length_append, List.length_cons]
    omega

theorem bfs_run (g : Graph T) (start : T) : ∀ (n : Nat) (visits queue : List T)
    (visited : T → Bool) (level : T → Nat) (parent : T → T),
    BfsInv g start visits queue visited level parent →
    queue.length + pendingEdges g visits ≤ n → ∀ fuel, n ≤ fuel →
    ∃ r visited1 level1 parent1, bfsLoop g fuel (queue, visited) visits = some r ∧
      BfsInv g start r [] visited1 level1 parent1 := by
  intro n
  induction n with
  | zero =>
    intro visits queue visited level parent inv hn fuel _
    have : queue = [] := List.length_eq_zero.1 (by omega)
    subst this
    exact ⟨visits, visited, level, parent, bfsLoop_nil g fuel visited visits, inv⟩
  | succ n ih =>
    intro visits queue visited level parent inv hn fuel hf
    cases queue with
    | nil => exact ⟨visits, visited, level, parent, bfsLoop_nil g fuel visited visits, inv⟩
    | cons u queue =>
      obtain ⟨f, rfl⟩ : ∃ f, fuel = f + 1 := ⟨fuel - 1, by omega⟩
      obtain ⟨level1, parent1, inv1, hm⟩ := bfs_step g start u visits queue visited level
        parent inv
      rw [bfsLoop_cons]
      exact ih _ _ _ level1 parent1 inv1 (by omega) f (by omega)

theorem bfsInv_init (g : Graph T) (start : T) :
    BfsInv g start [] [start] (upd (fun _ => false) start true) (fun _ => 0)
      (fun _ => start) := by
  refine ⟨?_, by simp, by simp, rfl, by simp, by simp, ?_, by simp, ?_, by simp⟩
  · intro x
    by_cases hx : x = start
    · simp [upd, hx]
    · simp [upd, hx]
  · intro x hx
    simp only [List.nil_append, List.mem_singleton] at hx
    exact ⟨[], hx.symm, rfl⟩
  · intro x hx hxs
    simp only [List.nil_append, List.mem_singleton] at hx
    exact absurd hx hxs

theorem bfsInv_final (g : Graph T) (start : T) (r : List T) (visited : T → Bool)
    (level : T → Nat) (parent : T → T) (inv : BfsInv g start r [] visited level parent) :
    r.Nodup ∧ r.head? = some start ∧ (∀ x, x ∈ r ↔ g.Reachable start x) ∧
    (∀ x ∈ r, g.HopDist start x (level x)) ∧
    r.Pairwise (fun x y => ∀ dx dy, g.HopDist start x dx → g.HopDist start y dy → dx ≤ dy) ∧
    (∀ u x y, FirstFrom g start r u x → FirstFrom g start r u y →
      (g.links u).indexOf x < (g.links u).indexOf y → r.indexOf x < r.indexOf y) := by
  have hnd : r.Nodup := by simpa using inv.nodup
  have hhead : r.head? = some start := by simpa using inv.head
  have hstart : start ∈ r := by
    cases r with
    | nil => simp at hhead
    | cons a l =>
      simp only [List.head?_cons, Option.some.injEq] at hhead
      rw [hhead]; simp
  have hclosed : ∀ u ∈ r, ∀ w ∈ g.links u, w ∈ r ∧ level w ≤ level u + 1 := by
    intro u hu w hw
    simpa using inv.closed u hu w hw
  have hlower : ∀ (es : List (Edge T)) (x : T), IsPath g start es x →
      x ∈ r ∧ level x ≤ es.length := by
    intro es
    induction es using List.reverseRecOn with
    | nil =>
      intro x h
      simp only [IsPath] at h
      rw [← h]
      exact ⟨hstart, by rw [inv.levelStart]; simp⟩
    | append_singleton es e ih =>
      intro x h
      obtain ⟨y, hy, he, hel⟩ := isPath_snoc_inv g es start x e h
      obtain ⟨i1, i2⟩ := ih y hy
      obtain ⟨c1, c2⟩ := hclosed y i1 x ((mem_links_iff g y x).2 ⟨e, he, hel⟩)
      refine ⟨c1, ?_⟩
      rw [List.length_append, List.length_singleton]
      omega
  have hdist : ∀ x ∈ r, g.HopDist start x (level x) := by
    intro x hx
    obtain ⟨es, hes, hlen⟩ := inv.path x (by simpa using hx)
    exact ⟨⟨es, hes, hlen⟩, fun es2 h2 => (hlower es2 x h2).2⟩
  have huniq : ∀ x dx, x ∈ r → g.HopDist start x dx → dx = level x := by
    intro x dx hx hd
    obtain ⟨⟨es1, p1, l1⟩, m1⟩ := hd
    obtain ⟨⟨es2, p2, l2⟩, m2⟩ := hdist x hx
    have a := m1 es2 p2
    have b := m2 es1 p1
    omega
  refine ⟨hnd, hhead, ?_, hdist, ?_, ?_⟩
  · intro x
    constructor
    · intro hx
      obtain ⟨es, hes, _⟩ := inv.path x (by simpa using hx)
      exact ⟨es, hes⟩
    · rintro ⟨es, hes⟩
      exact (hlower es x hes).1
  · have hs : r.Pairwise (fun a b => level a ≤ level b) := by simpa using inv.sorted
    refine List.Pairwise.imp_of_mem ?_ hs
    intro a b ha hb hab dx dy hdx hdy
    rw [huniq a dx ha hdx, huniq b dy hb hdy]
    exact hab
  · intro u x y fx fy hlt
    obtain ⟨x1, x2, x3, x4⟩ := fx
    obtain ⟨y1, y2, y3, y4⟩ := fy
    have hxr : x ∈ r := (hclosed u x2 x x3).1
    have hyr : y ∈ r := (hclosed u y2 y y3).1
    have hpar : ∀ z, z ∈ r → z ≠ start → z ∈ g.links u →
        (∀ v ∈ r, z ∈ g.links v → r.indexOf u ≤ r.indexOf v) → parent z = u := by
      intro z hz hzs hzu hfirst
      obtain ⟨p1, p2, p3⟩ := inv.par z (by simpa using hz) hzs
      have a := hfirst (parent z) p1 p2
      have b := p3 u x2 hzu
      exact (List.indexOf_inj p1 x2).1 (le_antisymm b a)
    have hpx := hpar x hxr x1 x3 x4
    have hpy := hpar y hyr y1 y3 y4
    have hne : x ≠ y := by
      intro e
      rw [e] at hlt
      exact lt_irrefl _ hlt
    have hord : r.Pairwise (fun x y => x ≠ start → y ≠ start →
        r.indexOf (parent x) < r.indexOf (parent y) ∨
        (parent x = parent y ∧
          (g.links (parent x)).indexOf x < (g.links (parent x)).indexOf y)) := by
      simpa using inv.ord
    rcases Nat.lt_or_ge (r.indexOf x) (r.indexOf y) with h | h
    · exact h
    · exfalso
      have hlt2 : r.indexOf y < r.indexOf x := by
        rcases Nat.lt_or_ge (r.indexOf y) (r.indexOf x) with h2 | h2
        · exact h2
        · exact absurd ((List.indexOf_inj hxr hyr).1 (le_antisymm h2 h)) hne
      rw [List.pairwise_iff_getElem] at hord
      have hiy := List.indexOf_lt_length.2 hyr
      have hix := List.indexOf_lt_length.2 hxr
      have := hord (r.indexOf y) (r.indexOf x) hiy hix hlt2
      simp only [List.getElem_indexOf] at this
      rcases this y1 x1 with c | ⟨_, c⟩
      · rw [hpx, hpy] at c
        exact lt_irrefl _ c
      · rw [hpy] at c
        omega

theorem bfs_outcome (g : Graph T) (start : T) (hs : start ∈ g.keys) (fuel : Nat)
    (hf : traversalFuel g ≤ fuel) :
    ∃ visits, g.BFS fuel start = some (visits, none) ∧
      visits.Nodup ∧ visits.head? = some start ∧ (∀ x, x ∈ visits ↔ g.Reachable start x) ∧
      visits.Pairwise (fun x y => ∀ dx dy, g.HopDist start x dx → g.HopDist start y dy →
        dx ≤ dy) ∧
      (∀ u x y, FirstFrom g start visits u x → FirstFrom g start visits u y →
        (g.links u).indexOf x < (g.links u).indexOf y →
        visits.indexOf x < visits.indexOf y) := by
  obtain ⟨r, v1, l1, p1, h1, inv⟩ := bfs_run g start (1 + g.edgeCount) [] [start] _ _ _
    (bfsInv_init g start) (by rw [pendingEdges_nil]; simp) fuel
    (by unfold traversalFuel at hf; omega)
  obtain ⟨a, b, c, _, d, e⟩ := bfsInv_final g start r v1 l1 p1 inv
  obtain ⟨es, hes⟩ := (mem_keys_iff_lookup g start).1 hs
  refine ⟨r, ?_, a, b, c, d, e⟩
  unfold Graph.BFS
  rw [hes]
  simp only
  rw [h1]

/-- C22 (traversal from an absent start): for every graph and every `start`, `BFS` and `DFS`
return (within `traversalFuel g` iterations), each returns an error exactly when `start` is not a
node of the graph, and with an error `onVisit` is never called; so on an empty graph both return
an error. -/
theorem traversal_error_iff (g : Graph T) (start : T) (fuel : Nat)
    (hf : traversalFuel g ≤ fuel) :
    ∃ bvisits berr dvisits derr,
      g.BFS fuel start = some (bvisits, berr) ∧ g.DFS fuel start = some (dvisits, derr) ∧
      (berr ≠ none ↔ start ∉ g.keys) ∧ (derr ≠ none ↔ start ∉ g.keys) ∧
      (berr ≠ none → bvisits = []) ∧ (derr ≠ none → dvisits = []) ∧
      (g.Len = 0 → berr ≠ none ∧ derr ≠ none) := by
  by_cases hs : start ∈ g.keys
  · obtain ⟨bv, hb, _⟩ := bfs_outcome g start hs fuel hf
    obtain ⟨dv, hd, _⟩ := dfs_outcome g start hs fuel fuel hf hf
    refine ⟨bv, none, dv, none, hb, hd, ?_, ?_, fun h => absurd rfl h, fun h => absurd rfl h, ?_⟩
    · exact ⟨fun h => absurd rfl h, fun h => absurd hs h⟩
    · exact ⟨fun h => absurd rfl h, fun h => absurd hs h⟩
    · intro h0
      have : g.adjacency = [] := List.length_eq_zero.1 h0
      simp [Graph.keys, this] at hs
  · obtain ⟨hb, hd⟩ := traversal_absent g start hs fuel
    exact ⟨[], _, [], _, hb, hd, ⟨fun _ => hs, fun _ => by simp⟩, ⟨fun _ => hs, fun _ => by simp⟩,
      fun _ => rfl, fun _ => rfl, fun _ => ⟨by simp, by simp⟩⟩

/-- C22 on the test graphs: on the empty graph `BFS("")` and `DFS("")` return an error without
a visit; on the graph with the edge A→B both succeed from A. -/
theorem traversal_error_iff_witness :
    (New : Graph String).BFS (traversalFuel (New : Graph String)) ""
      = some ([], some GraphError.startNotFound) ∧
    (New : Graph String).DFS (traversalFuel (New : Graph String)) ""
      = some ([], some GraphError.startNotFound) ∧
    ((New : Graph String).AddEdge "A" "B" 1).BFS 3 "A" = some (["A", "B"], none) ∧
    ∃ bvisits berr dvisits derr,
      (New : Graph String).BFS (traversalFuel (New : Graph String)) ""
        = some (bvisits, berr) ∧
      (New : Graph String).DFS (traversalFuel (New : Graph String)) ""
        = some (dvisits, derr) ∧
      (berr ≠ none ↔ "" ∉ (New : Graph String).keys) ∧
      (derr ≠ none ↔ "" ∉ (New : Graph String).keys) ∧
      (berr ≠ none → bvisits = []) ∧ (derr ≠ none → dvisits = []) ∧
      ((New : Graph String).Len = 0 → berr ≠ none ∧ derr ≠ none) :=
  ⟨by decide, by decide, by decide,
    traversal_error_iff (New : Graph String) "" _ (le_refl _)⟩

/-- C23 (iterative DFS reproduces recursive pre-order): for every graph and every present
start node, `DFS(start, visit)` returns no error and the sequence of nodes passed to the callback
is the sequence of the recursive depth-first search that visits a node on first arrival and then
recurses into the targets of its edges in stored order, skipping nodes already visited. -/
theorem dfs_matches_recursive (g : Graph T) (start : T) (hs : start ∈ g.keys)
    (fuel depth : Nat) (hf : traversalFuel g ≤ fuel) (hd : traversalFuel g ≤ depth) :
    ∃ visits, g.DFS fuel start = some (visits, none) ∧
      recursiveDfs g depth start [] = some visits := by
  obtain ⟨r, h1, h2, _⟩ := dfs_outcome g start hs fuel depth hf hd
  exact ⟨r, h1, h2⟩

/-- C23 on the test graph: with the edges A→B, A→C, B→D, B→E, C→F, E→F, `DFS` from A visits
`[A, B, D, E, F, C]`, as the recursive search does. -/
theorem dfs_matches_recursive_witness :
    (((((((New : Graph String).AddEdge "A" "B" 1).AddEdge "A" "C" 1).AddEdge "B" "D" 1).AddEdge
      "B" "E" 1).AddEdge "C" "F" 1).AddEdge "E" "F" 1).DFS 8 "A"
      = some (["A", "B", "D", "E", "F", "C"], none) ∧
    ∃ visits,
      (((((((New : Graph String).AddEdge "A" "B" 1).AddEdge "A" "C" 1).AddEdge "B" "D"
        1).AddEdge "B" "E" 1).AddEdge "C" "F" 1).AddEdge "E" "F" 1).DFS 8 "A"
        = some (visits, none) ∧
      recursiveDfs (((((((New : Graph String).AddEdge "A" "B" 1).AddEdge "A" "C" 1).AddEdge "B"
        "D" 1).AddEdge "B" "E" 1).AddEdge "C" "F" 1).AddEdge "E" "F" 1) 8 "A" []
        = some visits :=
  ⟨by decide, dfs_matches_recursive _ "A" (by decide) 8 8 (by decide) (by decide)⟩

/-- C24 (BFS visits in level order): for every graph and every present start node,
`BFS(start, visit)` returns no error, calls the callback on `start` first, and of two nodes of
the sequence the earlier has a hop distance from `start` (least number of edges of a walk) that is
at most that of the later; and the targets first discovered from one node come in the order of
their first occurrence in that node's stored edge list. -/
theorem bfs_level_order (g : Graph T) (start : T) (hs : start ∈ g.keys) (fuel : Nat)
    (hf : traversalFuel g ≤ fuel) :
    ∃ visits, g.BFS fuel start = some (visits, none) ∧ visits.head? = some start ∧
      visits.Pairwise (fun x y => ∀ dx dy, g.HopDist start x dx → g.HopDist start y dy →
        dx ≤ dy) ∧
      (∀ x ∈ visits, ∃ dx, g.HopDist start x dx) ∧
      (∀ u x y, FirstFrom g start visits u x → FirstFrom g start visits u y →
        (g.links u).indexOf x < (g.links u).indexOf y →
        visits.indexOf x < visits.indexOf y) := by
  obtain ⟨r, v1, l1, p1, h1, inv⟩ := bfs_run g start (1 + g.edgeCount) [] [start] _ _ _
    (bfsInv_init g start) (by rw [pendingEdges_nil]; simp) fuel
    (by unfold traversalFuel at hf; omega)
  obtain ⟨_, b, _, c, d, e⟩ := bfsInv_final g start r v1 l1 p1 inv
  obtain ⟨es, hes⟩ := (mem_keys_iff_lookup g start).1 hs
  refine ⟨r, ?_, b, d, fun x hx => ⟨l1 x, c x hx⟩, e⟩
  unfold Graph.BFS
  rw [hes]
  simp only
  rw [h1]

/-- C24 on the test graph: with the edges A→B, A→C, B→D, B→E, C→F, E→F, `BFS` from A visits
`[A, B, C, D, E, F]`. -/
theorem bfs_level_order_witness :
    (((((((New : Graph String).AddEdge "A" "B" 1).AddEdge "A" "C" 1).AddEdge "B" "D" 1).AddEdge
      "B" "E" 1).AddEdge "C" "F" 1).AddEdge "E" "F" 1).BFS 8 "A"
      = some (["A", "B", "C", "D", "E", "F"], none) ∧
    ∃ visits,
      (((((((New : Graph String).AddEdge "A" "B" 1).AddEdge "A" "C" 1).AddEdge "B" "D"
        1).AddEdge "B" "E" 1).AddEdge "C" "F" 1).AddEdge "E" "F" 1).BFS 8 "A"
        = some (visits, none) ∧ visits.head? = some "A" ∧
      visits.Pairwise (fun x y => ∀ dx dy,
        (((((((New : Graph String).AddEdge "A" "B" 1).AddEdge "A" "C" 1).AddEdge "B" "D"
          1).AddEdge "B" "E" 1).AddEdge "C" "F" 1).AddEdge "E" "F" 1).HopDist "A" x dx →
        (((((((New : Graph String).AddEdge "A" "B" 1).AddEdge "A" "C" 1).AddEdge "B" "D"
          1).AddEdge "B" "E" 1).AddEdge "C" "F" 1).AddEdge "E" "F" 1).HopDist "A" y dy →
        dx ≤ dy) :=
  ⟨by decide,
    (bfs_level_order _ "A" (by decide) 8 (by decide)).imp
      (fun _ h => ⟨h.1, h.2.1, h.2.2.1⟩)⟩

/-- C25 (traversals visit exactly the reachable set, once each): for every graph and every
present start node, `BFS` and `DFS` return no error and each calls the callback exactly once for
every node reachable from `start` by a directed walk, `start` included, and for no other node,
also when the graph has cycles or a node is reachable along several walks. -/
theorem traversals_visit_reachable (g : Graph T) (start : T) (hs : start ∈ g.keys)
    (fuel : Nat) (hf : traversalFuel g ≤ fuel) :
    ∃ bvisits dvisits, g.BFS fuel start = some (bvisits, none) ∧
      g.DFS fuel start = some (dvisits, none) ∧
      (∀ x, g.Reachable start x → bvisits.count x = 1 ∧ dvisits.count x = 1) ∧
      (∀ x, ¬ g.Reachable start x → bvisits.count x = 0 ∧ dvisits.count x = 0) ∧
      bvisits.Nodup ∧ dvisits.Nodup ∧
      (∀ x, x ∈ bvisits ↔ g.Reachable start x) ∧ (∀ x, x ∈ dvisits ↔ g.Reachable start x) := by
  obtain ⟨bv, hb, b1, _, b2, _⟩ := bfs_outcome g start hs fuel hf
  obtain ⟨dv, hd, _, d1, d2⟩ := dfs_outcome g start hs fuel fuel hf hf
  refine ⟨bv, dv, hb, hd, ?_, ?_, b1, d1, b2, d2⟩
  · intro x hx
    exact ⟨List.count_eq_one_of_mem b1 ((b2 x).2 hx),
      List.count_eq_one_of_mem d1 ((d2 x).2 hx)⟩
  · intro x hx
    exact ⟨List.count_eq_zero_of_not_mem (fun a => hx ((b2 x).1 a)),
      List.count_eq_zero_of_not_mem (fun a => hx ((d2 x).1 a))⟩

/-- C25 on a graph with a cycle and a node reached along two walks: with the edges A→B, A→C,
B→D, C→D, D→A and the separate edge X→Y, both traversals from A visit A, B, C, D once each and
neither X nor Y. -/
theorem traversals_visit_reachable_witness :
    (((((((New : Graph String).AddEdge "A" "B" 1).AddEdge "A" "C" 1).AddEdge "B" "D" 1).AddEdge
      "C" "D" 1).AddEdge "D" "A" 1).AddEdge "X" "Y" 1).BFS 8 "A"
      = some (["A", "B", "C", "D"], none) ∧
    (((((((New : Graph String).AddEdge "A" "B" 1).AddEdge "A" "C" 1).AddEdge "B" "D" 1).AddEdge
      "C" "D" 1).AddEdge "D" "A" 1).AddEdge "X" "Y" 1).DFS 8 "A"
      = some (["A", "B", "D", "C"], none) ∧
    ∃ bvisits dvisits,
      (((((((New : Graph String).AddEdge "A" "B" 1).AddEdge "A" "C" 1).AddEdge "B" "D"
        1).AddEdge "C" "D" 1).AddEdge "D" "A" 1).AddEdge "X" "Y" 1).BFS 8 "A"
        = some (bvisits, none) ∧
      (((((((New : Graph String).AddEdge "A" "B" 1).AddEdge "A" "C" 1).AddEdge "B" "D"
        1).AddEdge "C" "D" 1).AddEdge "D" "A" 1).AddEdge "X" "Y" 1).DFS 8 "A"
        = some (dvisits, none) ∧
      bvisits.Nodup ∧ dvisits.Nodup :=
  ⟨by decide, by decide,
    (traversals_visit_reachable _ "A" (by decide) 8 (by decide)).imp
      (fun _ h => h.imp (fun _ h2 => ⟨h2.1, h2.2.1, h2.2.2.2.2.1, h2.2.2.2.2.2.1⟩))⟩

theorem dijkstraLoop_mono (g : Graph T) (endNode : T) :
    ∀ (fuel : Nat) (st r : dijkstraState T), dijkstraLoop g endNode fuel st = some r →
      dijkstraLoop g endNode (fuel + 1) st = some r := by
  intro fuel
  induction fuel with
  | zero => intro st r h; simp only [dijkstraLoop] at h; cases h
  | succ fuel ih =>
    intro st r h
    rw [dijkstraLoop_succ] at h ⊢
    split_ifs at h ⊢ with h1 h2 h3
    · exact h
    · exact ih _ _ h
    · exact h
    · exact ih _ _ h

theorem dijkstraLoop_le (g : Graph T) (endNode : T) (fuel fuel2 : Nat) (hle : fuel ≤ fuel2)
    (st r : dijkstraState T) (h : dijkstraLoop g endNode fuel st = some r) :
    dijkstraLoop g endNode fuel2 st = some r := by
  induction fuel2, hle using Nat.le_induction with
  | base => exact h
  | succ n _ ih => exact dijkstraLoop_mono g endNode n st r ih

theorem astarLoop_mono (g : Graph T) (heuristic : T → T → Int) (endNode : T) :
    ∀ (fuel : Nat) (st : astarState T) (r : astarState T × Bool),
      astarLoop g heuristic endNode fuel st = some r →
      astarLoop g heuristic endNode (fuel + 1) st = some r := by
  intro fuel
  induction fuel with
  | zero => intro st r h; simp only [astarLoop] at h; cases h
  | succ fuel ih =>
    intro st r h
    rw [astarLoop_succ] at h ⊢
    split_ifs at h ⊢ with h1 h2
    · exact h
    · exact h
    · exact ih _ _ h

theorem astarLoop_le (g : Graph T) (heuristic : T → T → Int) (endNode : T) (fuel fuel2 : Nat)
    (hle : fuel ≤ fuel2) (st : astarState T) (r : astarState T × Bool)
    (h : astarLoop g heuristic endNode fuel st = some r) :
    astarLoop g heuristic endNode fuel2 st = some r := by
  induction fuel2, hle using Nat.le_induction with
  | base => exact h
  | succ n _ ih => exact astarLoop_mono g heuristic endNode n st r ih

theorem buildPath_mono (route : T → Option T) :
    ∀ (fuel : Nat) (n : T) (path r : List T), buildPath route fuel n path = some r →
      buildPath route (fuel + 1) n path = some r := by
  intro fuel
  induction fuel with
  | zero => intro n path r h; simp only [buildPath] at h; cases h
  | succ fuel ih =>
    intro n path r h
    rw [buildPath_succ] at h ⊢
    cases hr : route n with
    | none => rw [hr] at h; exact h
    | some step => rw [hr] at h; exact ih _ _ _ h

theorem buildPath_le (route : T → Option T) (fuel fuel2 : Nat) (hle : fuel ≤ fuel2) (n : T)
    (path r : List T) (h : buildPath route fuel n path = some r) :
    buildPath route fuel2 n path = some r := by
  induction fuel2, hle using Nat.le_induction with
  | base => exact h
  | succ n2 _ ih => exact buildPath_mono route n2 n path r ih

theorem dijkstra_le (g : Graph T) (start endNode : T) (fuel fuel2 : Nat) (hle : fuel ≤ fuel2)
    (r : Option (List T) × Int × Option GraphError)
    (h : g.Dijkstra fuel start endNode = some r) : g.Dijkstra fuel2 start endNode = some r := by
  unfold Graph.Dijkstra at h ⊢
  cases h1 : lookup g.adjacency start with
  | none => rw [h1] at h; exact h
  | some es1 =>
    rw [h1] at h
    cases h2 : lookup g.adjacency endNode with
    | none => rw [h2] at h; exact h
    | some es2 =>
      rw [h2] at h
      simp only at h ⊢
      cases h3 : dijkstraLoop g endNode fuel
          { distances := upd (initDistances g) start 0
            route := fun _ => none
            queue := (heap.New priorityLess).Push { node := start, priority := 0 } } with
      | none => rw [h3] at h; cases h
      | some st =>
        rw [h3] at h
        rw [dijkstraLoop_le g endNode fuel fuel2 hle _ st h3]
        simp only at h ⊢
        split_ifs at h ⊢ with h4
        · exact h
        · cases h5 : buildPath st.route fuel endNode [] with
          | none => rw [h5] at h; cases h
          | some path =>
            rw [h5] at h
            rw [buildPath_le st.route fuel fuel2 hle endNode [] path h5]
            exact h

theorem astar_le (g : Graph T) (start endNode : T) (heuristic : T → T → Int)
    (fuel fuel2 : Nat) (hle : fuel ≤ fuel2) (r : Option (List T) × Int × Option GraphError)
    (h : g.AStar fuel start endNode heuristic = some r) :
    g.AStar fuel2 start endNode heuristic = some r := by
  unfold Graph.AStar at h ⊢
  cases h1 : lookup g.adjacency start with
  | none => rw [h1] at h; exact h
  | some es1 =>
    rw [h1] at h
    cases h2 : lookup g.adjacency endNode with
    | none => rw [h2] at h; exact h
    | some es2 =>
      rw [h2] at h
      simp only at h ⊢
      cases h3 : astarLoop g heuristic endNode fuel
          { scoreG := upd (initDistances g) start 0
            scoreF := upd (fun _ => 0) start (heuristic start endNode)
            route := fun _ => none
            queue := (heap.New priorityLess).Push
              { node := start, priority := heuristic start endNode } } with
      | none => rw [h3] at h; cases h
      | some sf =>
        rw [h3] at h
        rw [astarLoop_le g heuristic endNode fuel fuel2 hle _ sf h3]
        obtain ⟨st, flag⟩ := sf
        cases flag with
        | false => exact h
        | true =>
          simp only at h ⊢
          cases h5 : buildPath st.route fuel endNode [] with
          | none => rw [h5] at h; cases h
          | some path =>
            rw [h5] at h
            rw [buildPath_le st.route fuel fuel2 hle endNode [] path h5]
            exact h

/-- With nodes compared by identity (the `==` of integers and strings): for every graph made
by `AddNode`, `AddEdge` and `DeleteNode` that has no directed cycle, whatever the orders in
which the keys are ranged over, `TopologicalSort` returns no error and a sequence of length
`Len()` that is a rearrangement of the nodes of the graph: every node occurs in it exactly once
and nothing else occurs. -/
theorem topologicalSort_permutation_identity (g : Graph T) (hb : Built g)
    (hac : ¬ g.HasDirectedCycle)
    (roots nodes : List T) (hr : roots.Perm g.keys) (hn : nodes.Perm g.keys) (fuel : Nat)
    (hf : g.keys.length ≤ fuel) :
    ∃ res, g.TopologicalSort fuel roots nodes = some (some res, none) ∧
      res.length = g.Len ∧ List.Perm res g.keys ∧
      (∀ k, k ∈ g.keys → res.count k = 1) ∧ (∀ k, k ∉ g.keys → res.count k = 0) := by
  obtain ⟨res, h1, h2, h3, _⟩ := topologicalSort_spec g hb.wf hac roots nodes hr hn fuel hf
  have hp : List.Perm res g.keys := (List.perm_ext_iff_of_nodup h2 hb.wf.1).2 h3
  refine ⟨res, h1, ?_, hp, ?_, ?_⟩
  · rw [hp.length_eq]; simp [Graph.keys, Graph.Len]
  · intro k hk
    exact List.count_eq_one_of_mem h2 ((h3 k).2 hk)
  · intro k hk
    exact List.count_eq_zero_of_not_mem (fun h => hk ((h3 k).1 h))

theorem search_self_queue (s : T) (p : Int) :
    ((heap.New priorityLess).Push ({ node := s, priority := p } : priorityNode T)).IsEmpty
      = false ∧
    ((heap.New priorityLess).Push ({ node := s, priority := p } : priorityNode T)).Pop.1.1
      = { node := s, priority := p } := by
  constructor <;> rfl

/-- C38 (search from a node to itself): for every graph, whatever its weights, every node `s`
present in it and every heuristic, `Dijkstra(s, s)` and `AStar(s, s, h)` return, after one
iteration of each loop, the path `[s]`, the weight 0 and no error. -/
theorem search_self (g : Graph T) (s : T) (hs : s ∈ g.keys) (heuristic : T → T → Int)
    (fuel : Nat) (hf : 1 ≤ fuel) :
    g.Dijkstra fuel s s = some (some [s], 0, none) ∧
    g.AStar fuel s s heuristic = some (some [s], 0, none) := by
  obtain ⟨es, hl⟩ := lookup_isSome_of_mem_keys g.adjacency s hs
  obtain ⟨n, rfl⟩ : ∃ n, fuel = n + 1 := ⟨fuel - 1, by omega⟩
  constructor
  · unfold Graph.Dijkstra
    rw [hl]
    simp only
    rw [dijkstraLoop_succ]
    rw [(search_self_queue s 0).1, (search_self_queue s 0).2]
    simp only [Bool.false_eq_true, if_false, upd_same, gt_iff_lt, lt_self_iff_false, if_true]
    rw [if_neg (by decide), buildPath_succ]
  · unfold Graph.AStar
    rw [hl]
    simp only
    rw [astarLoop_succ]
    rw [(search_self_queue s (heuristic s s)).1, (search_self_queue s (heuristic s s)).2]
    simp only [Bool.false_eq_true, if_false, if_true, upd_same]
    rw [buildPath_succ]

/-- C38 on a node of a cycle and on a node without edges: in the graph with the edges 0→1,
1→0 and 1→2 the search from 0 to 0 returns `[0]` and 0, and so does the search from 4 to 4 in a
graph where 4 is isolated. -/
theorem search_self_witness :
    componentsGraph.Dijkstra 1 4 4 = some (some [4], 0, none) ∧
    componentsGraph.AStar 1 4 4 (fun _ _ => 7) = some (some [4], 0, none) ∧
    wrapCycleGraph.Dijkstra 1 0 0 = some (some [0], 0, none) ∧
    wrapCycleGraph.AStar 1 0 0 (fun _ _ => 7) = some (some [0], 0, none) :=
  ⟨by decide, by decide, search_self wrapCycleGraph 0 (by decide) (fun _ _ => 7) 1 (le_refl 1)⟩

theorem detourGraph_built : Built detourGraph :=
  Built.addEdge _ "M" "E" 1 (Built.addEdge _ "S" "M" 1 (Built.addEdge _ "S" "E" 10 Built.new))

theorem detourGraph_nonNeg : detourGraph.NonNeg := by unfold Graph.NonNeg; decide

theorem detourGraph_noOverflow : detourGraph.NoOverflow "S" :=
  noOverflow_of_bounded _ detourGraph_built.wf "S" (by decide) 10 (by decide) (by decide)
    (by decide)

/-- C32 (A* does not compensate for an inadmissible heuristic): in the graph with the edges
S→E of weight 10, S→M of weight 1 and M→E of weight 1, whose weights are non-negative, with the
heuristic that is 100 from M to E, where the edge M→E has weight 1, and 0 elsewhere,
`AStar(S, E, h)` returns the path `[S, E]` of weight 10 and no error, while `Dijkstra(S, E)`
returns the path `[S, M, E]` of weight 2, the minimum; 10 is strictly greater than 2. Three
iterations of each loop, or more, give these results. -/
theorem astar_inadmissible (fuel : Nat) (hf : 3 ≤ fuel) :
    detourGraph.NonNeg ∧
    detourGraph.AStar fuel "S" "E" detourHeuristic = some (some ["S", "E"], 10, none) ∧
    detourGraph.Dijkstra fuel "S" "E" = some (some ["S", "M", "E"], 2, none) ∧
    (2 : Int) < 10 ∧
    detourGraph.IsMinWeight "S" "E" 2 ∧
    detourHeuristic "M" "E" = 100 ∧
    IsPath detourGraph "M" [{ Link := "E", Weight := 1 }] "E" := by
  have hd3 : detourGraph.Dijkstra 3 "S" "E" = some (some ["S", "M", "E"], 2, none) := by decide
  have ha3 : detourGraph.AStar 3 "S" "E" detourHeuristic = some (some ["S", "E"], 10, none) := by
    decide
  refine ⟨detourGraph_nonNeg, astar_le _ _ _ _ 3 fuel hf _ ha3,
    dijkstra_le _ _ _ 3 fuel hf _ hd3, by decide, ?_, by decide, ⟨by decide, rfl⟩⟩
  have hlarge := dijkstra_le detourGraph "S" "E" 3 (searchFuel detourGraph)
    (by decide) _ hd3
  rcases dijkstra_outcome detourGraph detourGraph_built.wf detourGraph_nonNeg "S" "E"
    (by decide) (by decide) detourGraph_noOverflow (searchFuel detourGraph) (le_refl _) with
    ⟨_, es, w, h1, _, _, h4⟩ | ⟨_, h1⟩
  · rw [hlarge] at h1
    have hw : w = 2 := by
      have := Option.some.inj h1
      have h2 := congrArg (fun r => r.2.1) this
      exact h2.symm
    rw [hw] at h4
    exact h4
  · rw [hlarge] at h1
    cases h1

/-- C32 with three iterations of each loop. -/
theorem astar_inadmissible_witness :
    detourGraph.NonNeg ∧
    detourGraph.AStar 3 "S" "E" detourHeuristic = some (some ["S", "E"], 10, none) ∧
    detourGraph.Dijkstra 3 "S" "E" = some (some ["S", "M", "E"], 2, none) ∧
    (2 : Int) < 10 ∧
    detourGraph.IsMinWeight "S" "E" 2 ∧
    detourHeuristic "M" "E" = 100 ∧
    IsPath detourGraph "M" [{ Link := "E", Weight := 1 }] "E" :=
  astar_inadmissible 3 (le_refl 3)

/-- C37 as stated fails: with the edges 0→1 and 1→2 of weight 2^62 each, whose weights are
non-negative, `AStar(0, 2, h)` with the zero heuristic succeeds with the path `[0, 1, 2]` and the
weight -2^63, which is less than the minimum path weight 2^63 from 0 to 2. -/
theorem astar_path_real_counterexample :
    overflowGraph.NonNeg ∧
    overflowGraph.AStar (searchFuel overflowGraph) 0 2 (fun _ _ => 0)
      = some (some [0, 1, 2], -9223372036854775808, none) ∧
    overflowGraph.IsMinWeight 0 2 9223372036854775808 ∧
    (-9223372036854775808 : Int) < 9223372036854775808 := by
  have hn : overflowGraph.NonNeg := by unfold Graph.NonNeg; decide
  refine ⟨hn, by decide, ⟨⟨[⟨1, 4611686018427387904⟩, ⟨2, 4611686018427387904⟩],
    ⟨by decide, by decide, rfl⟩, by decide⟩, ?_⟩, by decide⟩
  intro es hp
  have hn0 : overflowGraph.nbrs 0 = [⟨1, 4611686018427387904⟩] := by decide
  have hn1 : overflowGraph.nbrs 1 = [⟨2, 4611686018427387904⟩] := by decide
  have hn2 : overflowGraph.nbrs 2 = [] := by decide
  cases es with
  | nil => exact absurd hp (show (0 : Nat) ≠ 2 by decide)
  | cons e1 es1 =>
    obtain ⟨hm1, hp1⟩ := hp
    rw [hn0, List.mem_singleton] at hm1
    subst hm1
    cases es1 with
    | nil => exact absurd hp1 (show (1 : Nat) ≠ 2 by decide)
    | cons e2 es2 =>
      obtain ⟨hm2, hp2⟩ := hp1
      rw [hn1, List.mem_singleton] at hm2
      subst hm2
      have hrest := pathWeight_nonneg overflowGraph hn es2 _ _ hp2
      simp only [pathWeight, List.map_cons, List.sum_cons] at hrest ⊢
      omega

/-- C37, amended (A* never under-reports and returns a real route): on a graph with
non-negative weights whose path sums stay below `math.MaxInt`, for every heuristic, whenever
`AStar` succeeds the returned path starts with `start`, ends with `end` and follows edges of the
graph, the weights of these edges sum to at most the returned weight, the returned weight is the
weight of some walk from `start` to `end`, and it is not less than the minimum path weight from
`start` to `end`, which exists. -/
theorem astar_path_real (g : Graph T) (hb : Built g) (hn : g.NonNeg) (start endNode : T)
    (hno : g.NoOverflow start) (heuristic : T → T → Int) (fuel : Nat)
    (hf : searchFuel g ≤ fuel) (path : List T) (w : Int)
    (h : g.AStar fuel start endNode heuristic = some (some path, w, none)) :
    ∃ es, IsPath g start es endNode ∧ path = start :: es.map Edge.Link ∧
      path.head? = some start ∧ path.getLast? = some endNode ∧ pathWeight es ≤ w ∧
      (∃ es', IsPath g start es' endNode ∧ pathWeight es' = w) ∧
      (∃ d, g.IsMinWeight start endNode d ∧ d ≤ w) ∧
      ∀ d, g.IsMinWeight start endNode d → d ≤ w := by
  by_cases hs : start ∈ g.keys
  · by_cases he : endNode ∈ g.keys
    · obtain ⟨st, flag, _, h2⟩ := astar_outcome g hb.wf hn start endNode hs he hno heuristic
        fuel hf
      rcases h2 with ⟨_, hr, es, h3, h4, ⟨es', h5, h6⟩, h7⟩ | ⟨_, _, h7⟩
      · rw [h7] at h
        have hinj := Option.some.inj h
        have hpath : start :: es.map Edge.Link = path :=
          Option.some.inj (congrArg (fun r => r.1) hinj)
        have hw : st.scoreG endNode = w := congrArg (fun r => r.2.1) hinj
        rw [hw] at h4 h6
        have hmin : ∀ d, g.IsMinWeight start endNode d → d ≤ w := by
          intro d hd
          rw [← h6]
          exact hd.2 es' h5
        refine ⟨es, h3, hpath.symm, by rw [← hpath]; rfl, ?_, h4, ⟨es', h5, h6⟩, ?_, hmin⟩
        · rw [← hpath]; exact isPath_getLast g es start endNode h3
        · rcases dijkstra_outcome g hb.wf hn start endNode hs he hno fuel hf with
            ⟨_, _, wd, _, _, _, h8⟩ | ⟨hnr, _⟩
          · exact ⟨wd, h8, hmin wd h8⟩
          · exact absurd hr hnr
      · rw [h7] at h
        cases h
    · obtain ⟨err, h1⟩ := astar_absent g fuel start endNode heuristic (Or.inr he)
      rw [h1] at h
      cases h
  · obtain ⟨err, h1⟩ := astar_absent g fuel start endNode heuristic (Or.inl hs)
    rw [h1] at h
    cases h

/-- C37 on the graph with the edges S→E (10), S→M (1), M→E (1) and the heuristic that is 100
from M to E: `AStar(S, E, h)` returns the path `[S, E]` along the edge S→E, and its weight 10 is
not less than the minimum. -/
theorem astar_path_real_witness :
    ∃ es, IsPath detourGraph "S" es "E" ∧ ["S", "E"] = "S" :: es.map Edge.Link ∧
      ["S", "E"].head? = some "S" ∧ ["S", "E"].getLast? = some "E" ∧ pathWeight es ≤ 10 ∧
      (∃ es', IsPath detourGraph "S" es' "E" ∧ pathWeight es' = 10) ∧
      (∃ d, detourGraph.IsMinWeight "S" "E" d ∧ d ≤ 10) ∧
      ∀ d, detourGraph.IsMinWeight "S" "E" d → d ≤ 10 :=
  astar_path_real detourGraph detourGraph_built detourGraph_nonNeg "S" "E"
    detourGraph_noOverflow detourHeuristic (searchFuel detourGraph) (le_refl _) ["S", "E"] 10
    (astar_le _ _ _ _ 3 _ (by decide) _ (by decide))

theorem route_acyclic (g : Graph T) (start : T) (st : astarState T)
    (core : SearchCore g start st) :
    ∀ x, ¬ Relation.TransGen (fun a b => st.route a = some b) x x := by
  obtain ⟨tau, N, _, hrank⟩ := core.rank
  have key : ∀ a b, Relation.TransGen (fun a b => st.route a = some b) a b →
      st.scoreG b < st.scoreG a ∨ (st.scoreG b = st.scoreG a ∧ tau b < tau a) := by
    intro a b hab
    induction hab with
    | single h => exact hrank _ _ h
    | tail _ h ih =>
      have h2 := hrank _ _ h
      omega
  intro x hx
  have := key x x hx
  omega

theorem route_walk_ends (g : Graph T) (start : T) (st : astarState T)
    (core : SearchCore g start st) (x : T) (hx : x ∈ g.keys) (hr : st.scoreG x < MaxInt)
    (fuel : Nat) (hf : searchFuel g ≤ fuel) :
    ∃ path, buildPath st.route fuel x [] = some path := by
  obtain ⟨es, _, _, hnd, hk, hb⟩ := buildPath_spec g start st core x hx hr
  have hlen := nodup_length_le_keys g _ hnd hk
  have hlt := keys_length_lt_searchFuel g
  simp only [List.length_cons, List.length_map] at hlen
  exact ⟨_, hb fuel [] (by omega)⟩

/-- C39 as stated fails: with the edges 0→1 and 1→0 of weight 2^62 each and 1→2 of weight 1,
whose weights are non-negative, the loop of `Dijkstra(0, 2)` ends after five iterations, but
the sum 2^62 + 2^62 wraps around to a negative number, so 1 becomes the predecessor of the
start node 0 while 0 is the predecessor of 1; the walk that rebuilds the path from 2 never ends,
and neither `Dijkstra(0, 2)` nor `AStar(0, 2, h)` with the zero heuristic returns, whatever the
number of iterations allowed. -/
theorem search_terminates_counterexample :
    wrapCycleGraph.NonNeg ∧ 0 ∈ wrapCycleGraph.keys ∧ 2 ∈ wrapCycleGraph.keys ∧
    (∃ st, dijkstraLoop wrapCycleGraph 2 5
        { distances := upd (initDistances wrapCycleGraph) 0 0
          route := fun _ => none
          queue := (heap.New priorityLess).Push { node := 0, priority := 0 } } = some st ∧
      st.route 0 = some 1 ∧ st.route 1 = some 0 ∧ st.route 2 = some 1 ∧
      ∀ fuel, buildPath st.route fuel 2 [] = none) ∧
    (∀ fuel, wrapCycleGraph.Dijkstra fuel 0 2 = none) ∧
    (∀ fuel, wrapCycleGraph.AStar fuel 0 2 (fun _ _ => 0) = none) := by
  have hwalk : ∀ (route : Nat → Option Nat), route 0 = some 1 → route 1 = some 0 →
      route 2 = some 1 → ∀ (fuel n : Nat) (acc : List Nat), n = 0 ∨ n = 1 ∨ n = 2 →
      buildPath route fuel n acc = none := by
    intro route r0 r1 r2 fuel
    induction fuel with
    | zero => intro n acc _; rfl
    | succ fuel ih =>
      intro n acc hn
      rw [buildPath_succ]
      rcases hn with h | h | h
      · rw [h, r0]; exact ih 1 _ (Or.inr (Or.inl rfl))
      · rw [h, r1]; exact ih 0 _ (Or.inl rfl)
      · rw [h, r2]; exact ih 1 _ (Or.inr (Or.inl rfl))
  have hd : (dijkstraLoop wrapCycleGraph 2 5
      { distances := upd (initDistances wrapCycleGraph) 0 0
        route := fun _ => none
        queue := (heap.New priorityLess).Push { node := 0, priority := 0 } }).map
      (fun st => (st.route 0, st.route 1, st.route 2, decide (st.distances 2 = MaxInt)))
      = some (some 1, some 0, some 1, false) := by decide
  have ha : (astarLoop wrapCycleGraph (fun _ _ => 0) 2 5
      { scoreG := upd (initDistances wrapCycleGraph) 0 0
        scoreF := upd (fun _ => 0) 0 ((fun _ _ => 0) 0 2)
        route := fun _ => none
        queue := (heap.New priorityLess).Push
          { node := 0, priority := (fun _ _ => 0) 0 2 } }).map
      (fun sf => (sf.1.route 0, sf.1.route 1, sf.1.route 2, sf.2))
      = some (some 1, some 0, some 1, true) := by decide
  have hl0 : lookup wrapCycleGraph.adjacency 0
      = some [{ Link := 1, Weight := 4611686018427387904 }] := by decide
  have hl2 : lookup wrapCycleGraph.adjacency 2 = some [] := by decide
  cases hds : dijkstraLoop wrapCycleGraph 2 5
      { distances := upd (initDistances wrapCycleGraph) 0 0
        route := fun _ => none
        queue := (heap.New priorityLess).Push { node := 0, priority := 0 } } with
  | none => rw [hds] at hd; cases hd
  | some st =>
    rw [hds] at hd
    have hd1 := Option.some.inj hd
    have r0 : st.route 0 = some 1 := congrArg (fun r => r.1) hd1
    have r1 : st.route 1 = some 0 := congrArg (fun r => r.2.1) hd1
    have r2 : st.route 2 = some 1 := congrArg (fun r => r.2.2.1) hd1
    have hdist : ¬ st.distances 2 = MaxInt := by
      have := congrArg (fun r => r.2.2.2) hd1
      simpa using this
    cases has : astarLoop wrapCycleGraph (fun _ _ => 0) 2 5
        { scoreG := upd (initDistances wrapCycleGraph) 0 0
          scoreF := upd (fun _ => 0) 0 ((fun _ _ => 0) 0 2)
          route := fun _ => none
          queue := (heap.New priorityLess).Push
            { node := 0, priority := (fun _ _ => 0) 0 2 } } with
    | none => rw [has] at ha; cases ha
    | some sf =>
      rw [has] at ha
      obtain ⟨sa, flag⟩ := sf
      have ha1 := Option.some.inj ha
      have a0 : sa.route 0 = some 1 := congrArg (fun r => r.1) ha1
      have a1 : sa.route 1 = some 0 := congrArg (fun r => r.2.1) ha1
      have a2 : sa.route 2 = some 1 := congrArg (fun r => r.2.2.1) ha1
      have hflag : flag = true := congrArg (fun r => r.2.2.2) ha1
      subst hflag
      refine ⟨by unfold Graph.NonNeg; decide, by decide, by decide,
        ⟨st, rfl, r0, r1, r2, fun fuel => hwalk st.route r0 r1 r2 fuel 2 [] (Or.inr (Or.inr rfl))⟩,
        ?_, ?_⟩
      · intro fuel
        by_cases hf : 5 ≤ fuel
        · unfold Graph.Dijkstra
          rw [hl0, hl2]
          simp only
          rw [dijkstraLoop_le wrapCycleGraph 2 5 fuel hf _ st hds]
          simp only
          rw [if_neg hdist, hwalk st.route r0 r1 r2 fuel 2 [] (Or.inr (Or.inr rfl))]
        · have : fuel = 0 ∨ fuel = 1 ∨ fuel = 2 ∨ fuel = 3 ∨ fuel = 4 := by omega
          rcases this with h | h | h | h | h <;> subst h <;> decide
      · intro fuel
        by_cases hf : 5 ≤ fuel
        · unfold Graph.AStar
          rw [hl0, hl2]
          simp only
          rw [astarLoop_le wrapCycleGraph _ 2 5 fuel hf _ _ has]
          simp only
          rw [hwalk sa.route a0 a1 a2 fuel 2 [] (Or.inr (Or.inr rfl))]
        · have : fuel = 0 ∨ fuel = 1 ∨ fuel = 2 ∨ fuel = 3 ∨ fuel = 4 := by omega
          rcases this with h | h | h | h | h <;> subst h <;> decide

/-- C39, amended (shortest-path searches terminate): on a graph with non-negative weights
whose path sums stay below `math.MaxInt`, for present `start` and `end` and every heuristic,
`Dijkstra` and `AStar` return within `searchFuel g` iterations of each loop; the loop of each
ends in a state whose map `route` assigns no predecessor to `start` and contains no cycle,
and from which the walk that rebuilds the path from `end` ends whenever `end` was reached. -/
theorem search_terminates (g : Graph T) (hb : Built g) (hn : g.NonNeg) (start endNode : T)
    (hs : start ∈ g.keys) (he : endNode ∈ g.keys) (hno : g.NoOverflow start)
    (heuristic : T → T → Int) (fuel : Nat) (hf : searchFuel g ≤ fuel) :
    (∃ r, g.Dijkstra fuel start endNode = some r) ∧
    (∃ r, g.AStar fuel start endNode heuristic = some r) ∧
    (∃ st, dijkstraLoop g endNode fuel
        { distances := upd (initDistances g) start 0
          route := fun _ => none
          queue := (heap.New priorityLess).Push { node := start, priority := 0 } } = some st ∧
      st.route start = none ∧
      (∀ x, ¬ Relation.TransGen (fun a b => st.route a = some b) x x) ∧
      (st.distances endNode ≠ MaxInt →
        ∃ path, buildPath st.route fuel endNode [] = some path)) ∧
    (∃ st flag, astarLoop g heuristic endNode fuel
        { scoreG := upd (initDistances g) start 0
          scoreF := upd (fun _ => 0) start (heuristic start endNode)
          route := fun _ => none
          queue := (heap.New priorityLess).Push
            { node := start, priority := heuristic start endNode } } = some (st, flag) ∧
      st.route start = none ∧
      (∀ x, ¬ Relation.TransGen (fun a b => st.route a = some b) x x) ∧
      (flag = true → ∃ path, buildPath st.route fuel endNode [] = some path)) := by
  have hloop : ∀ (h : T → T → Int), ∃ st flag, astarLoop g h endNode fuel
      { scoreG := upd (initDistances g) start 0
        scoreF := upd (fun _ => 0) start (h start endNode)
        route := fun _ => none
        queue := (heap.New priorityLess).Push
          { node := start, priority := h start endNode } } = some (st, flag) ∧
      SearchCore g start st ∧ (flag = true → st.scoreG endNode < MaxInt) := by
    intro h
    obtain ⟨st, flag, h1, h2, h3, _⟩ := astarLoop_general g hb.wf hn start endNode hno h fuel _
      (searchCore_init g start hs (h start endNode) _)
      (searchClosed_init g start endNode (h start endNode) _)
      (lt_of_lt_of_le (searchMeasure_init g start hs (h start endNode) _) hf)
    exact ⟨st, flag, h1, h2, h3⟩
  refine ⟨?_, ?_, ?_, ?_⟩
  · rcases dijkstra_outcome g hb.wf hn start endNode hs he hno fuel hf with
      ⟨_, es, w, h1, _⟩ | ⟨_, h1⟩
    · exact ⟨_, h1⟩
    · exact ⟨_, h1⟩
  · obtain ⟨st, flag, _, h2⟩ := astar_outcome g hb.wf hn start endNode hs he hno heuristic
      fuel hf
    rcases h2 with ⟨_, _, es, _, _, _, h1⟩ | ⟨_, _, h1⟩
    · exact ⟨_, h1⟩
    · exact ⟨_, h1⟩
  · obtain ⟨sa, flag, h1, core, _⟩ := hloop (fun _ _ => 0)
    rcases loops_agree g endNode fuel
        { distances := upd (initDistances g) start 0
          route := fun _ => none
          queue := (heap.New priorityLess).Push { node := start, priority := 0 } }
        { scoreG := upd (initDistances g) start 0
          scoreF := upd (fun _ => 0) start ((fun _ _ => 0) start endNode)
          route := fun _ => none
          queue := (heap.New priorityLess).Push
            { node := start, priority := (fun _ _ => 0) start endNode } }
        ⟨rfl, rfl, rfl⟩ (lazyInv_init g start endNode he) with ⟨_, h2⟩ | ⟨d, a, fl, h2, h3, h4, _⟩
    · rw [h1] at h2; cases h2
    · rw [h1] at h3
      have ha : sa = a := congrArg (fun r => r.1) (Option.some.inj h3)
      subst ha
      obtain ⟨e1, e2, _⟩ := h4
      refine ⟨d, h2, ?_, ?_, ?_⟩
      · rw [e2]; exact core.start_route
      · rw [e2]; exact route_acyclic g start sa core
      · intro hne
        rw [e2]
        apply route_walk_ends g start sa core endNode he _ fuel hf
        have := core.le_max endNode he
        rw [e1] at hne
        exact lt_of_le_of_ne this hne
  · obtain ⟨st, flag, h1, core, h3⟩ := hloop heuristic
    exact ⟨st, flag, h1, core.start_route, route_acyclic g start st core,
      fun hfl => route_walk_ends g start st core endNode he (h3 hfl) fuel hf⟩

/-- C39 on the test graph of `Dijkstra`, from A to D with the zero heuristic. -/
theorem search_terminates_witness :
    dijkstraTestGraph.Dijkstra (searchFuel dijkstraTestGraph) 0 3
      = some (some [0, 1, 2, 3], 4, none) ∧
    (∃ r, dijkstraTestGraph.Dijkstra (searchFuel dijkstraTestGraph) 0 3 = some r) ∧
    (∃ r, dijkstraTestGraph.AStar (searchFuel dijkstraTestGraph) 0 3 (fun _ _ => 0) = some r) ∧
    (∃ st, dijkstraLoop dijkstraTestGraph 3 (searchFuel dijkstraTestGraph)
        { distances := upd (initDistances dijkstraTestGraph) 0 0
          route := fun _ => none
          queue := (heap.New priorityLess).Push { node := 0, priority := 0 } } = some st ∧
      st.route 0 = none ∧
      (∀ x, ¬ Relation.TransGen (fun a b => st.route a = some b) x x) ∧
      (st.distances 3 ≠ MaxInt →
        ∃ path, buildPath st.route (searchFuel dijkstraTestGraph) 3 [] = some path)) ∧
    (∃ st flag, astarLoop dijkstraTestGraph (fun _ _ => 0) 3 (searchFuel dijkstraTestGraph)
        { scoreG := upd (initDistances dijkstraTestGraph) 0 0
          scoreF := upd (fun _ => 0) 0 ((fun _ _ => 0) 0 3)
          route := fun _ => none
          queue := (heap.New priorityLess).Push
            { node := 0, priority := (fun _ _ => 0) 0 3 } } = some (st, flag) ∧
      st.route 0 = none ∧
      (∀ x, ¬ Relation.TransGen (fun a b => st.route a = some b) x x) ∧
      (flag = true →
        ∃ path, buildPath st.route (searchFuel dijkstraTestGraph) 3 [] = some path)) :=
  ⟨by decide, search_terminates dijkstraTestGraph dijkstraTestGraph_built
    (by unfold Graph.NonNeg; decide) 0 3 (by decide) (by decide) dijkstraTestGraph_noOverflow
    (fun _ _ => 0) (searchFuel dijkstraTestGraph) (le_refl _)⟩

section
variable [Comparable T] [LawfulComparable T]

theorem lookup_agree (l : List (T × List (Edge T))) (x : T)
    (h : Comparable.eq x x = true ∨ ∀ kv ∈ l, Comparable.eq kv.1 kv.1 = true) :
    comparable.lookup l x = lookup l x := by
  induction l with
  | nil => rfl
  | cons kv rest ih =>
    obtain ⟨k, es⟩ := kv
    have hk : Comparable.eq k x = decide (k = x) := by
      apply comparable_eq_decide
      rcases h with h | h
      · exact Or.inr h
      · exact Or.inl (h (k, es) (List.mem_cons_self _ _))
    have hrest : Comparable.eq x x = true ∨ ∀ kv ∈ rest, Comparable.eq kv.1 kv.1 = true := by
      rcases h with h | h
      · exact Or.inl h
      · exact Or.inr (fun kv hkv => h kv (List.mem_cons_of_mem _ hkv))
    simp only [comparable.lookup, lookup, hk, ih hrest, decide_eq_true_eq]

theorem lookup_irreflexive (l : List (T × List (Edge T))) (x : T)
    (h : Comparable.eq x x = false) : comparable.lookup l x = none := by
  induction l with
  | nil => rfl
  | cons kv rest ih =>
    obtain ⟨k, es⟩ := kv
    simp only [comparable.lookup, comparable_eq_false k x (Or.inr h), ih]
    simp

theorem assign_absent (l : List (T × List (Edge T))) (x : T) (es : List (Edge T))
    (hx : Comparable.eq x x = true) (h : lookup l x = none) :
    comparable.assign l x es = l ++ [(x, es)] := by
  induction l with
  | nil => rfl
  | cons kv rest ih =>
    obtain ⟨k, es0⟩ := kv
    have hk : Comparable.eq k x = decide (k = x) := comparable_eq_decide k x (Or.inr hx)
    simp only [lookup] at h
    by_cases e : k = x
    · rw [if_pos e] at h; cases h
    · rw [if_neg e] at h
      simp only [comparable.assign, hk, decide_eq_true_eq, if_neg e, ih h, List.cons_append]

theorem addNode_agree (g : Graph T) (x : T) (hx : Comparable.eq x x = true) :
    comparable.AddNode g x = g.AddNode x := by
  unfold comparable.AddNode Graph.AddNode
  rw [lookup_agree g.adjacency x (Or.inl hx)]
  cases h : lookup g.adjacency x with
  | some es => rfl
  | none =>
    simp only
    rw [assign_absent g.adjacency x [] hx h]

theorem assign_appendEdge (l : List (T × List (Edge T))) (src : T) (e : Edge T)
    (hs : Comparable.eq src src = true) :
    comparable.assign l src ((lookup l src).getD [] ++ [e]) = appendEdge src e l := by
  induction l with
  | nil => rfl
  | cons kv rest ih =>
    obtain ⟨k, es⟩ := kv
    have hk : Comparable.eq k src = decide (k = src) := comparable_eq_decide k src (Or.inr hs)
    by_cases e1 : k = src
    · simp only [comparable.assign, lookup, appendEdge, hk, decide_eq_true_eq, if_pos e1,
        Option.getD_some]
    · simp only [comparable.assign, lookup, appendEdge, hk, decide_eq_true_eq, if_neg e1, ih]

theorem addEdge_agree (g : Graph T) (src dst : T) (weight : Int)
    (hs : Comparable.eq src src = true) (hd : Comparable.eq dst dst = true) :
    comparable.AddEdge g src dst weight = g.AddEdge src dst weight := by
  unfold comparable.AddEdge Graph.AddEdge
  rw [addNode_agree g src hs, addNode_agree _ dst hd, lookup_agree _ src (Or.inl hs),
    assign_appendEdge _ src _ hs]

theorem assign_mid (pre suf : List (T × List (Edge T))) (k : T) (es es1 : List (Edge T))
    (hk : Comparable.eq k k = true) (hpre : ∀ kv ∈ pre, kv.1 ≠ k) :
    comparable.assign (pre ++ (k, es) :: suf) k es1 = pre ++ (k, es1) :: suf := by
  induction pre with
  | nil =>
    simp only [List.nil_append, comparable.assign, hk, if_true]
  | cons kv rest ih =>
    obtain ⟨k0, es0⟩ := kv
    have h0 : Comparable.eq k0 k = decide (k0 = k) := comparable_eq_decide k0 k (Or.inr hk)
    have hne : k0 ≠ k := hpre (k0, es0) (List.mem_cons_self _ _)
    show comparable.assign ((k0, es0) :: (rest ++ (k, es) :: suf)) k es1
      = (k0, es0) :: (rest ++ (k, es1) :: suf)
    simp only [comparable.assign, h0, decide_eq_true_eq, if_neg hne]
    rw [ih (fun kv h => hpre kv (List.mem_cons_of_mem _ h))]

theorem foldl_assign (f : T × List (Edge T) → List (Edge T)) :
    ∀ (suf pre : List (T × List (Edge T))), ((pre ++ suf).map Prod.fst).Nodup →
      (∀ kv ∈ suf, Comparable.eq kv.1 kv.1 = true) →
      suf.foldl (fun adjacency kv => comparable.assign adjacency kv.1 (f kv))
          (pre.map (fun kv => (kv.1, f kv)) ++ suf)
        = (pre ++ suf).map (fun kv => (kv.1, f kv)) := by
  intro suf
  induction suf with
  | nil => intro pre _ _; simp
  | cons kv rest ih =>
    intro pre hn hr
    obtain ⟨k, es⟩ := kv
    have hpre : ∀ p ∈ pre.map (fun kv => (kv.1, f kv)), p.1 ≠ k := by
      intro p hp e
      obtain ⟨q, hq, hqp⟩ := List.mem_map.1 hp
      rw [List.map_append, List.map_cons] at hn
      have hq1 : q.1 = k := by rw [← hqp] at e; exact e
      exact (List.nodup_append.1 hn).2.2 (List.mem_map_of_mem Prod.fst hq)
        (by rw [hq1]; exact List.mem_cons_self _ _)
    rw [List.foldl_cons]
    simp only
    rw [assign_mid _ rest k es (f (k, es)) (hr (k, es) (List.mem_cons_self _ _)) hpre]
    have e : pre.map (fun kv => (kv.1, f kv)) ++ (k, f (k, es)) :: rest
        = (pre ++ [(k, es)]).map (fun kv => (kv.1, f kv)) ++ rest := by simp
    rw [e, ih (pre ++ [(k, es)]) (by simpa using hn)
      (fun kv h => hr kv (List.mem_cons_of_mem _ h))]
    simp

theorem deleteNode_agree (g : Graph T) (x : T) (hk : g.keys.Nodup)
    (hr : comparable.KeysReflexive g) : comparable.DeleteNode g x = g.DeleteNode x := by
  have hkv : ∀ kv ∈ g.adjacency, Comparable.eq kv.1 kv.1 = true :=
    fun kv h => hr kv.1 (List.mem_map_of_mem Prod.fst h)
  unfold comparable.DeleteNode Graph.DeleteNode
  rw [lookup_agree g.adjacency x (Or.inr hkv)]
  cases h : lookup g.adjacency x with
  | none => rfl
  | some es =>
    have hx : Comparable.eq x x = true := hr x (mem_keys_of_lookup g x es h)
    have e1 : g.adjacency.filter (fun kv => !Comparable.eq kv.1 x)
        = g.adjacency.filter (fun kv => decide (kv.1 ≠ x)) := by
      apply List.filter_congr
      intro kv _
      rw [comparable_eq_decide kv.1 x (Or.inr hx)]
      simp
    have e2 : ∀ kv : T × List (Edge T),
        kv.2.filter (fun edge => !Comparable.eq edge.Link x)
          = kv.2.filter (fun edge => decide (edge.Link ≠ x)) := by
      intro kv
      apply List.filter_congr
      intro edge _
      rw [comparable_eq_decide edge.Link x (Or.inr hx)]
      simp
    simp only
    rw [e1]
    have hn : ((g.adjacency.filter (fun kv => decide (kv.1 ≠ x))).map Prod.fst).Nodup :=
      (List.Nodup.sublist ((List.filter_sublist _).map Prod.fst) hk)
    have hfr : ∀ kv ∈ g.adjacency.filter (fun kv => decide (kv.1 ≠ x)),
        Comparable.eq kv.1 kv.1 = true := fun kv h => hkv kv (List.mem_filter.1 h).1
    have := foldl_assign (fun kv => kv.2.filter (fun edge => !Comparable.eq edge.Link x))
      (g.adjacency.filter (fun kv => decide (kv.1 ≠ x))) [] (by simpa using hn) hfr
    simp only [List.map_nil, List.nil_append] at this
    rw [this]
    simp only [e2]

theorem neighbours_agree (g : Graph T) (x : T)
    (h : Comparable.eq x x = true ∨ comparable.KeysReflexive g) :
    comparable.Neighbours g x = g.Neighbours x := by
  unfold comparable.Neighbours Graph.Neighbours
  rw [lookup_agree g.adjacency x (h.imp id
    (fun hr kv hkv => hr kv.1 (List.mem_map_of_mem Prod.fst hkv)))]

theorem neighbours_irreflexive (g : Graph T) (x : T) (h : Comparable.eq x x = false) :
    comparable.Neighbours g x = ([], false) := by
  unfold comparable.Neighbours
  rw [lookup_irreflexive g.adjacency x h]

theorem keysReflexive_addNode (g : Graph T) (hr : comparable.KeysReflexive g) (x : T)
    (hx : Comparable.eq x x = true) : comparable.KeysReflexive (g.AddNode x) := by
  intro k hk
  rw [keys_addNode] at hk
  split at hk
  · exact hr k hk
  · rcases List.mem_append.1 hk with h | h
    · exact hr k h
    · rw [List.mem_singleton.1 h]; exact hx

theorem keysReflexive_addEdge (g : Graph T) (hr : comparable.KeysReflexive g) (src dst : T)
    (weight : Int) (hs : Comparable.eq src src = true) (hd : Comparable.eq dst dst = true) :
    comparable.KeysReflexive (g.AddEdge src dst weight) := by
  intro k hk
  rcases ((addEdge_appends_identity g src dst weight).2.2.1 k).1 hk with h | h | h
  · exact hr k h
  · rw [h]; exact hs
  · rw [h]; exact hd

theorem keysReflexive_deleteNode (g : Graph T) (hr : comparable.KeysReflexive g) (x : T) :
    comparable.KeysReflexive (g.DeleteNode x) := by
  intro k hk
  by_cases hx : x ∈ g.keys
  · rw [keys_deleteNode g x hx] at hk
    exact hr k (List.mem_filter.1 hk).1
  · rw [(deleteNode_absent g x hx).1] at hk
    exact hr k hk

theorem run_built : ∀ (calls : List (comparable.Call T)) (g : Graph T), Built g →
    comparable.KeysReflexive g → (∀ c ∈ calls, comparable.Reflexive c) →
    Built (comparable.run g calls) ∧ comparable.KeysReflexive (comparable.run g calls) := by
  intro calls
  induction calls with
  | nil => intro g hb hr _; exact ⟨hb, hr⟩
  | cons call rest ih =>
    intro g hb hr hc
    have hcall := hc call (List.mem_cons_self _ _)
    have hrest : ∀ c ∈ rest, comparable.Reflexive c :=
      fun c h => hc c (List.mem_cons_of_mem _ h)
    cases call with
    | addNode value =>
      simp only [comparable.run]
      rw [addNode_agree g value hcall]
      exact ih _ (Built.addNode g value hb) (keysReflexive_addNode g hr value hcall) hrest
    | addEdge src dst weight =>
      simp only [comparable.run]
      rw [addEdge_agree g src dst weight hcall.1 hcall.2]
      exact ih _ (Built.addEdge g src dst weight hb)
        (keysReflexive_addEdge g hr src dst weight hcall.1 hcall.2) hrest
    | deleteNode value =>
      simp only [comparable.run]
      rw [deleteNode_agree g value hb.wf.1 hr]
      exact ih _ (Built.deleteNode g value hb) (keysReflexive_deleteNode g hr value) hrest

theorem keysReflexive_new : comparable.KeysReflexive (New : Graph T) := by
  intro k hk
  simp [New, Graph.keys] at hk

theorem upd_agree {V : Type} (m : T → V) (k : T) (v : V) (hk : Comparable.eq k k = true) :
    comparable.upd m k v = upd m k v := by
  funext x
  unfold comparable.upd upd
  rw [comparable_eq_decide x k (Or.inr hk)]
  simp

theorem checkCycleLoop_congr
    (rec1 rec2 : T → (T → visitedState) → Option (Bool × (T → visitedState)))
    (es : List (Edge T)) (h : ∀ e ∈ es, ∀ s, rec1 e.Link s = rec2 e.Link s) :
    ∀ s, checkCycleLoop rec1 es s = checkCycleLoop rec2 es s := by
  induction es with
  | nil => intro s; rfl
  | cons e rest ih =>
    intro s
    have hrest := ih (fun e1 h1 => h e1 (List.mem_cons_of_mem _ h1))
    simp only [checkCycleLoop, h e (List.mem_cons_self _ _), hrest]

theorem topoLoop_congr (rec1 rec2 : T → (T → Bool) × List T → Option ((T → Bool) × List T))
    (es : List (Edge T)) (h : ∀ e ∈ es, ∀ s, rec1 e.Link s = rec2 e.Link s) :
    ∀ s, topoLoop rec1 es s = topoLoop rec2 es s := by
  induction es with
  | nil => intro s; rfl
  | cons e rest ih =>
    intro s
    have hrest := ih (fun e1 h1 => h e1 (List.mem_cons_of_mem _ h1))
    simp only [topoLoop, h e (List.mem_cons_self _ _), hrest]

theorem links_reflexive (g : Graph T) (wf : g.WF) (hr : comparable.KeysReflexive g) (x : T) :
    ∀ e ∈ (g.Neighbours x).1, Comparable.eq e.Link e.Link = true := by
  intro e he
  rw [neighbours_eq] at he
  cases h : lookup g.adjacency x with
  | none => rw [h] at he; simp at he
  | some es =>
    rw [h] at he
    exact hr _ (wf.2 _ (lookup_mem _ _ _ h) e he)

theorem checkCycle_agree (g : Graph T) (wf : g.WF) (hr : comparable.KeysReflexive g) :
    ∀ (fuel : Nat) (node : T) (s : T → visitedState), Comparable.eq node node = true →
      comparable.checkCycle g fuel node s = checkCycle g fuel node s := by
  intro fuel
  induction fuel with
  | zero => intro node s _; rfl
  | succ fuel ih =>
    intro node s hn
    simp only [comparable.checkCycle, checkCycle]
    rw [neighbours_agree g node (Or.inl hn), upd_agree s node _ hn,
      checkCycleLoop_congr (comparable.checkCycle g fuel) (checkCycle g fuel) _
        (fun e he s1 => ih e.Link s1 (links_reflexive g wf hr node e he))]
    cases checkCycleLoop (checkCycle g fuel) (g.Neighbours node).1
        (upd s node visitedState.visiting) with
    | none => rfl
    | some r =>
      obtain ⟨b, s1⟩ := r
      cases b with
      | true => rfl
      | false =>
        simp only
        rw [upd_agree s1 node _ hn]

theorem hasCycleLoop_agree (g : Graph T) (wf : g.WF) (hr : comparable.KeysReflexive g)
    (fuel : Nat) : ∀ (roots : List T) (s : T → visitedState),
      (∀ r ∈ roots, Comparable.eq r r = true) →
      comparable.hasCycleLoop g fuel roots s = hasCycleLoop g fuel roots s := by
  intro roots
  induction roots with
  | nil => intro s _; rfl
  | cons r rest ih =>
    intro s h
    have hrest : ∀ r ∈ rest, Comparable.eq r r = true :=
      fun x hx => h x (List.mem_cons_of_mem _ hx)
    simp only [comparable.hasCycleLoop, hasCycleLoop,
      checkCycle_agree g wf hr fuel r s (h r (List.mem_cons_self _ _)), ih _ hrest]

theorem foldl_upd_agree {V : Type} (v : V) : ∀ (keys : List T) (m : T → V),
    (∀ k ∈ keys, Comparable.eq k k = true) →
    keys.foldl (fun states node => comparable.upd states node v) m
      = keys.foldl (fun states node => upd states node v) m := by
  intro keys
  induction keys with
  | nil => intro m _; rfl
  | cons k rest ih =>
    intro m h
    simp only [List.foldl_cons]
    rw [upd_agree m k v (h k (List.mem_cons_self _ _))]
    exact ih _ (fun x hx => h x (List.mem_cons_of_mem _ hx))

theorem hasCycle_agree (g : Graph T) (wf : g.WF) (hr : comparable.KeysReflexive g)
    (fuel : Nat) (roots : List T) (h : ∀ r ∈ roots, Comparable.eq r r = true) :
    comparable.HasCycle g fuel roots = g.HasCycle fuel roots := by
  unfold comparable.HasCycle Graph.HasCycle
  rw [foldl_upd_agree visitedState.unvisited g.keys _ hr,
    hasCycleLoop_agree g wf hr fuel roots _ h]

theorem topoDfs_agree (g : Graph T) (wf : g.WF) (hr : comparable.KeysReflexive g) :
    ∀ (fuel : Nat) (node : T) (st : (T → Bool) × List T), Comparable.eq node node = true →
      comparable.topoDfs g fuel node st = topoDfs g fuel node st := by
  intro fuel
  induction fuel with
  | zero => intro node st _; rfl
  | succ fuel ih =>
    intro node st hn
    simp only [comparable.topoDfs, topoDfs]
    rw [neighbours_agree g node (Or.inl hn), upd_agree st.1 node _ hn,
      topoLoop_congr (comparable.topoDfs g fuel) (topoDfs g fuel) _
        (fun e he s1 => ih e.Link s1 (links_reflexive g wf hr node e he))]

theorem topoRoots_agree (g : Graph T) (wf : g.WF) (hr : comparable.KeysReflexive g)
    (fuel : Nat) : ∀ (nodes : List T) (st : (T → Bool) × List T),
      (∀ r ∈ nodes, Comparable.eq r r = true) →
      comparable.topoRoots g fuel nodes st = topoRoots g fuel nodes st := by
  intro nodes
  induction nodes with
  | nil => intro st _; rfl
  | cons r rest ih =>
    intro st h
    have hrest : ∀ r ∈ rest, Comparable.eq r r = true :=
      fun x hx => h x (List.mem_cons_of_mem _ hx)
    simp only [comparable.topoRoots, topoRoots,
      topoDfs_agree g wf hr fuel r st (h r (List.mem_cons_self _ _)), ih _ hrest]

theorem topologicalSort_agree (g : Graph T) (wf : g.WF) (hr : comparable.KeysReflexive g)
    (fuel : Nat) (roots nodes : List T) (h1 : ∀ r ∈ roots, Comparable.eq r r = true)
    (h2 : ∀ r ∈ nodes, Comparable.eq r r = true) :
    comparable.TopologicalSort g fuel roots nodes = g.TopologicalSort fuel roots nodes := by
  unfold comparable.TopologicalSort Graph.TopologicalSort
  rw [hasCycle_agree g wf hr fuel roots h1, topoRoots_agree g wf hr fuel nodes _ h2]

theorem adj_agree (g : Graph T) (hr : comparable.KeysReflexive g) (u v : T) :
    comparable.Adj g u v ↔ g.Adj u v := by
  unfold comparable.Adj Graph.Adj
  rw [neighbours_agree g u (Or.inr hr)]

theorem hasDirectedCycle_agree (g : Graph T) (hr : comparable.KeysReflexive g) :
    comparable.HasDirectedCycle g ↔ g.HasDirectedCycle := by
  have e : comparable.Adj g = g.Adj := by
    funext u v
    exact propext (adj_agree g hr u v)
  unfold comparable.HasDirectedCycle Graph.HasDirectedCycle
  rw [e]

end

/-- C16 as stated fails: in a graph over `float64`, after `AddEdge(1, NaN, 0)` the edge list
of 1 holds an edge whose target NaN is not found in the adjacency map: `Neighbours(NaN)`
returns `ok = false`. -/
theorem graph_edge_targets_are_keys_counterexample :
    comparable.lookup (comparable.run (New : Graph float64)
      [comparable.Call.addEdge (float64.num 1) float64.NaN 0]).adjacency (float64.num 1)
      = some [⟨float64.NaN, 0⟩] ∧
    comparable.Neighbours (comparable.run (New : Graph float64)
      [comparable.Call.addEdge (float64.num 1) float64.NaN 0]) float64.NaN = ([], false) := by
  decide

/-- C16, amended (graph structural invariant): for a node type with any `==`, in every graph
made from `New()` by calls of `AddNode`, `AddEdge` and `DeleteNode` in which every node added
by `AddNode` or `AddEdge` is equal to itself (no floating-point NaN is added), the target `Link`
of every edge in the edge list of any node is a key of the adjacency map, so that
`Neighbours(Link)` returns `ok = true`. -/
theorem graph_edge_targets_are_keys [Comparable T] [LawfulComparable T]
    (calls : List (comparable.Call T)) (hcalls : ∀ c ∈ calls, comparable.Reflexive c)
    (node : T) (edges : List (Edge T))
    (hl : comparable.lookup (comparable.run New calls).adjacency node = some edges)
    (edge : Edge T) (he : edge ∈ edges) :
    edge.Link ∈ (comparable.run New calls).keys ∧
    (comparable.Neighbours (comparable.run New calls) edge.Link).2 = true := by
  obtain ⟨hb, hr⟩ := run_built calls New Built.new keysReflexive_new hcalls
  rw [lookup_agree _ node
    (Or.inr (fun kv hkv => hr kv.1 (List.mem_map_of_mem Prod.fst hkv)))] at hl
  obtain ⟨h1, h2⟩ := graph_edge_targets_are_keys_identity _ hb node edges hl edge he
  exact ⟨h1, by rw [neighbours_agree _ _ (Or.inr hr)]; exact h2⟩

/-- C16 on the test graph: after the edges A→B, B→C, C→A and `DeleteNode(B)`, the edge of C
leads to A, which is a key. And on a graph over `float64`: after the edge 1→2 and
`DeleteNode(NaN)`, which deletes nothing, the edge of 1 leads to 2, which is found. -/
theorem graph_edge_targets_are_keys_witness :
    (comparable.run (New : Graph String) [comparable.Call.addEdge "A" "B" 10,
      comparable.Call.addEdge "B" "C" 20, comparable.Call.addEdge "C" "A" 30,
      comparable.Call.deleteNode "B"]).adjacency = [("A", []), ("C", [⟨"A", 30⟩])] ∧
    ("A" ∈ (comparable.run (New : Graph String) [comparable.Call.addEdge "A" "B" 10,
      comparable.Call.addEdge "B" "C" 20, comparable.Call.addEdge "C" "A" 30,
      comparable.Call.deleteNode "B"]).keys ∧
    (comparable.Neighbours (comparable.run (New : Graph String)
      [comparable.Call.addEdge "A" "B" 10, comparable.Call.addEdge "B" "C" 20,
        comparable.Call.addEdge "C" "A" 30, comparable.Call.deleteNode "B"]) "A").2 = true) ∧
    (comparable.Neighbours (comparable.run (New : Graph float64)
      [comparable.Call.addEdge (float64.num 1) (float64.num 2) 0,
        comparable.Call.deleteNode float64.NaN]) (float64.num 2)).2 = true :=
  ⟨by decide, graph_edge_targets_are_keys [comparable.Call.addEdge "A" "B" 10,
    comparable.Call.addEdge "B" "C" 20, comparable.Call.addEdge "C" "A" 30,
    comparable.Call.deleteNode "B"] (by decide) "C" [⟨"A", 30⟩] (by decide) ⟨"A", 30⟩
    (by decide),
    (graph_edge_targets_are_keys [comparable.Call.addEdge (float64.num 1) (float64.num 2) 0,
      comparable.Call.deleteNode float64.NaN] (by decide) (float64.num 1)
      [⟨float64.num 2, 0⟩] (by decide) ⟨float64.num 2, 0⟩ (by decide)).2⟩

/-- C17 as stated fails: in the graph over `float64` with the nodes NaN and 1, where no key
occurs twice, `DeleteNode(1)` assigns to the key NaN, which adds an entry: `Len()` is 2 before
and 2 after. -/
theorem deleteNode_purges_counterexample :
    (comparable.run (New : Graph float64) [comparable.Call.addNode float64.NaN,
      comparable.Call.addNode (float64.num 1)]).keys.Nodup ∧
    float64.num 1 ∈ (comparable.run (New : Graph float64)
      [comparable.Call.addNode float64.NaN, comparable.Call.addNode (float64.num 1)]).keys ∧
    (comparable.run (New : Graph float64) [comparable.Call.addNode float64.NaN,
      comparable.Call.addNode (float64.num 1)]).Len = 2 ∧
    (comparable.DeleteNode (comparable.run (New : Graph float64)
      [comparable.Call.addNode float64.NaN, comparable.Call.addNode (float64.num 1)])
      (float64.num 1)).Len = 2 := by
  decide

/-- C17, amended (DeleteNode purges the node and all edges into it): for a node type with
any `==`, for every graph (a map, so no key occurs twice) whose keys are all equal to
themselves (no floating-point NaN) and every node `x` present in it, after `DeleteNode(x)` the
node `x` is not a key and not in `Nodes()`, `Len()` has dropped by exactly 1, the keys are the
other keys, and the edge list of every other node `y` is the sublist of its previous edge list
with exactly the edges whose target is not `x`: none leads to `x`, and every edge with another
target occurs as often as before, in the original relative order. -/
theorem deleteNode_purges [Comparable T] [LawfulComparable T] (g : Graph T)
    (hk : g.keys.Nodup) (hr : comparable.KeysReflexive g) (x : T) (hx : x ∈ g.keys) :
    x ∉ (comparable.DeleteNode g x).keys ∧
    (∀ (ranged : List T) (sortNodes : List T → List T),
      List.Perm ranged (comparable.DeleteNode g x).keys → (∀ l, List.Perm (sortNodes l) l) →
      x ∉ (comparable.DeleteNode g x).Nodes ranged sortNodes) ∧
    (comparable.DeleteNode g x).Len + 1 = g.Len ∧
    (∀ y, y ∈ (comparable.DeleteNode g x).keys ↔ y ∈ g.keys ∧ y ≠ x) ∧
    (∀ y es, y ≠ x → comparable.lookup g.adjacency y = some es →
      ∃ es1, comparable.lookup (comparable.DeleteNode g x).adjacency y = some es1 ∧
        List.Sublist es1 es ∧
        (∀ e ∈ es1, e.Link ≠ x) ∧ (∀ e : Edge T, e.Link ≠ x → es1.count e = es.count e) ∧
        es1 = es.filter (fun e => !Comparable.eq e.Link x)) := by
  have hr1 := keysReflexive_deleteNode g hr x
  have hkv : ∀ g1 : Graph T, comparable.KeysReflexive g1 →
      ∀ kv ∈ g1.adjacency, Comparable.eq kv.1 kv.1 = true :=
    fun g1 h kv hkv => h kv.1 (List.mem_map_of_mem Prod.fst hkv)
  rw [deleteNode_agree g x hk hr]
  obtain ⟨p1, p2, p3, p4, p5⟩ := deleteNode_purges_identity g hk x hx
  refine ⟨p1, p2, p3, p4, ?_⟩
  intro y es hy hl
  rw [lookup_agree _ y (Or.inr (hkv g hr))] at hl
  obtain ⟨es1, q1, q2, q3, q4, q5⟩ := p5 y es hy hl
  refine ⟨es1, by rw [lookup_agree _ y (Or.inr (hkv _ hr1))]; exact q1, q2, q3, q4, ?_⟩
  rw [q5]
  apply List.filter_congr
  intro e _
  rw [comparable_eq_decide e.Link x (Or.inr (hr x hx))]
  simp

/-- C17 on the test graph: with the edges A→B(10), B→C(20), C→A(30), `DeleteNode(B)` leaves
2 nodes, A with no edges and C with the single edge to A of weight 30. -/
theorem deleteNode_purges_witness :
    (comparable.DeleteNode (comparable.run (New : Graph String)
      [comparable.Call.addEdge "A" "B" 10, comparable.Call.addEdge "B" "C" 20,
        comparable.Call.addEdge "C" "A" 30]) "B").adjacency
      = [("A", []), ("C", [⟨"A", 30⟩])] ∧
    ("B" ∉ (comparable.DeleteNode (comparable.run (New : Graph String)
      [comparable.Call.addEdge "A" "B" 10, comparable.Call.addEdge "B" "C" 20,
        comparable.Call.addEdge "C" "A" 30]) "B").keys ∧
    (comparable.DeleteNode (comparable.run (New : Graph String)
      [comparable.Call.addEdge "A" "B" 10, comparable.Call.addEdge "B" "C" 20,
        comparable.Call.addEdge "C" "A" 30]) "B").Len + 1
      = (comparable.run (New : Graph String)
      [comparable.Call.addEdge "A" "B" 10, comparable.Call.addEdge "B" "C" 20,
        comparable.Call.addEdge "C" "A" 30]).Len) :=
  ⟨by decide,
    (deleteNode_purges (comparable.run (New : Graph String)
      [comparable.Call.addEdge "A" "B" 10, comparable.Call.addEdge "B" "C" 20,
        comparable.Call.addEdge "C" "A" 30]) (by decide) (by decide) "B" (by decide)).1,
    (deleteNode_purges (comparable.run (New : Graph String)
      [comparable.Call.addEdge "A" "B" 10, comparable.Call.addEdge "B" "C" 20,
        comparable.Call.addEdge "C" "A" 30]) (by decide) (by decide) "B" (by decide)).2.2.1⟩

/-- C19 as stated fails: on the empty graph over `float64`, `AddEdge(NaN, 1, 0)` adds three
entries to the adjacency map and `Neighbours(NaN)` returns no edge and `ok = false`; and after
`AddEdge(1, NaN, 0)` the target NaN is not found either. -/
theorem addEdge_appends_counterexample :
    (comparable.AddEdge (New : Graph float64) float64.NaN (float64.num 1) 0).Len = 3 ∧
    comparable.Neighbours (comparable.AddEdge (New : Graph float64) float64.NaN
      (float64.num 1) 0) float64.NaN = ([], false) ∧
    comparable.Neighbours (comparable.AddEdge (New : Graph float64) (float64.num 1)
      float64.NaN 0) float64.NaN = ([], false) := by
  decide

/-- C19, amended (AddEdge appends one edge and adds both endpoints): for a node type with
any `==`, for every graph and all `from`, `to` equal to themselves (no floating-point NaN) and
`weight` (any integer), after `AddEdge(from, to, weight)` the keys are the previous keys
together with `from` and `to`, both of which `Neighbours` finds, `Neighbours(from)` is the
previous edge list of `from` (empty if `from` was new) followed by the single edge
`(to, weight)`, the edge list of every other node is as before (empty for `to` if it is new),
and the edge occurs once more than before in the list of `from`, so parallel edges are kept. -/
theorem addEdge_appends [Comparable T] [LawfulComparable T] (g : Graph T) (src dst : T)
    (weight : Int) (hs : Comparable.eq src src = true) (hd : Comparable.eq dst dst = true) :
    src ∈ (comparable.AddEdge g src dst weight).keys ∧
    dst ∈ (comparable.AddEdge g src dst weight).keys ∧
    (∀ y, y ∈ (comparable.AddEdge g src dst weight).keys ↔ y ∈ g.keys ∨ y = src ∨ y = dst) ∧
    (comparable.Neighbours (comparable.AddEdge g src dst weight) dst).2 = true ∧
    comparable.Neighbours (comparable.AddEdge g src dst weight) src
      = ((comparable.Neighbours g src).1 ++ [{ Link := dst, Weight := weight }], true) ∧
    (∀ y, y ≠ src → (comparable.Neighbours (comparable.AddEdge g src dst weight) y).1
      = (comparable.Neighbours g y).1) ∧
    (∀ y, y ≠ src → y ≠ dst →
      comparable.lookup (comparable.AddEdge g src dst weight).adjacency y
        = comparable.lookup g.adjacency y) ∧
    (comparable.Neighbours (comparable.AddEdge g src dst weight) src).1.count
        { Link := dst, Weight := weight }
      = (comparable.Neighbours g src).1.count { Link := dst, Weight := weight } + 1 := by
  rw [addEdge_agree g src dst weight hs hd]
  obtain ⟨p1, p2, p3, p4, p5, p6, p7⟩ := addEdge_appends_identity g src dst weight
  rw [neighbours_agree _ src (Or.inl hs), neighbours_agree g src (Or.inl hs),
    neighbours_agree _ dst (Or.inl hd)]
  have hfound : ((g.AddEdge src dst weight).Neighbours dst).2 = true := by
    obtain ⟨es, hes⟩ := (mem_keys_iff_lookup _ dst).1 p2
    rw [neighbours_eq, hes]
    rfl
  refine ⟨p1, p2, p3, hfound, p4, ?_, ?_, p7⟩
  · intro y hy
    cases hyy : Comparable.eq y y with
    | true =>
      rw [neighbours_agree _ y (Or.inl hyy), neighbours_agree g y (Or.inl hyy)]
      exact p5 y hy
    | false => rw [neighbours_irreflexive _ y hyy, neighbours_irreflexive g y hyy]
  · intro y hy hyd
    cases hyy : Comparable.eq y y with
    | true =>
      rw [lookup_agree _ y (Or.inl hyy), lookup_agree _ y (Or.inl hyy)]
      exact p6 y hy hyd
    | false => rw [lookup_irreflexive _ y hyy, lookup_irreflexive _ y hyy]

/-- C19 on the test graph: `AddEdge(Sweden, Norway, 1)`, `AddEdge(Spain, France, 2)` and
`AddEdge(Spain, Portugal, 3)` give `Neighbours(Spain) = [(France, 2), (Portugal, 3)]`. -/
theorem addEdge_appends_witness :
    comparable.Neighbours (comparable.run (New : Graph String)
      [comparable.Call.addEdge "Sweden" "Norway" 1, comparable.Call.addEdge "Spain" "France" 2,
        comparable.Call.addEdge "Spain" "Portugal" 3]) "Spain"
      = ([⟨"France", 2⟩, ⟨"Portugal", 3⟩], true) ∧
    comparable.Neighbours (comparable.AddEdge (comparable.run (New : Graph String)
      [comparable.Call.addEdge "Sweden" "Norway" 1,
        comparable.Call.addEdge "Spain" "France" 2]) "Spain" "Portugal" 3) "Spain"
      = ((comparable.Neighbours (comparable.run (New : Graph String)
          [comparable.Call.addEdge "Sweden" "Norway" 1,
            comparable.Call.addEdge "Spain" "France" 2]) "Spain").1
          ++ [{ Link := "Portugal", Weight := 3 }], true) :=
  ⟨by decide,
    (addEdge_appends (comparable.run (New : Graph String)
      [comparable.Call.addEdge "Sweden" "Norway" 1,
        comparable.Call.addEdge "Spain" "France" 2]) "Spain" "Portugal" 3 (by decide)
      (by decide)).2.2.2.2.1⟩

/-- C20 as stated fails: on the empty graph over `float64`, `AddNode(NaN)` gives `Len() = 1`
and `AddNode(NaN)` twice gives `Len() = 2`, with an entry of key NaN present before the second
call. -/
theorem addNode_idempotent_counterexample :
    (comparable.AddNode (New : Graph float64) float64.NaN).Len = 1 ∧
    float64.NaN ∈ (comparable.AddNode (New : Graph float64) float64.NaN).keys ∧
    (comparable.AddNode (comparable.AddNode (New : Graph float64) float64.NaN)
      float64.NaN).Len = 2 := by
  decide

/-- C20, amended (AddNode is idempotent): for a node type with any `==`, for every graph and
every `x` equal to itself (not a floating-point NaN), `AddNode(x)` followed by `AddNode(x)`
leaves the same graph as a single `AddNode(x)`; and when `x` is already a node, `AddNode(x)`
leaves the graph as it was, so `Len()` and the edge list of `x` are kept. -/
theorem addNode_idempotent [Comparable T] [LawfulComparable T] (g : Graph T) (x : T)
    (hx : Comparable.eq x x = true) :
    comparable.AddNode (comparable.AddNode g x) x = comparable.AddNode g x ∧
    (x ∈ g.keys → comparable.AddNode g x = g ∧ (comparable.AddNode g x).Len = g.Len ∧
      comparable.Neighbours (comparable.AddNode g x) x = comparable.Neighbours g x) := by
  rw [addNode_agree g x hx, addNode_agree _ x hx]
  obtain ⟨p1, p2⟩ := addNode_idempotent_identity g x
  refine ⟨p1, ?_⟩
  intro h
  obtain ⟨q1, q2, q3⟩ := p2 h
  rw [neighbours_agree _ x (Or.inl hx), neighbours_agree g x (Or.inl hx)]
  exact ⟨q1, q2, q3⟩

/-- C20 on the test graph: `AddNode(London)` twice gives `Len() = 1`; and `AddNode(A)` after
`AddEdge(A, B, 10)` keeps the edge of A. -/
theorem addNode_idempotent_witness :
    (comparable.AddNode (comparable.AddNode (New : Graph String) "London") "London").Len
      = 1 ∧
    (comparable.AddNode (comparable.AddNode (New : Graph String) "London") "London"
      = comparable.AddNode (New : Graph String) "London") ∧
    (comparable.Neighbours (comparable.AddNode
      (comparable.AddEdge (New : Graph String) "A" "B" 10) "A") "A" = ([⟨"B", 10⟩], true)) ∧
    (comparable.AddNode (comparable.AddEdge (New : Graph String) "A" "B" 10) "A"
        = comparable.AddEdge (New : Graph String) "A" "B" 10 ∧
      (comparable.AddNode (comparable.AddEdge (New : Graph String) "A" "B" 10) "A").Len
        = (comparable.AddEdge (New : Graph String) "A" "B" 10).Len ∧
      comparable.Neighbours (comparable.AddNode
          (comparable.AddEdge (New : Graph String) "A" "B" 10) "A") "A"
        = comparable.Neighbours (comparable.AddEdge (New : Graph String) "A" "B" 10) "A") :=
  ⟨by decide, (addNode_idempotent (New : Graph String) "London" (by decide)).1, by decide,
    (addNode_idempotent (comparable.AddEdge (New : Graph String) "A" "B" 10) "A"
      (by decide)).2 (by decide)⟩

/-- C36 as stated fails: the graph over `float64` with the one edge from 1 to NaN has no
directed cycle and `Len()` is 2, but `TopologicalSort` returns a sequence of length 3 in which
NaN occurs twice, whichever way `Nodes()` orders the two keys. -/
theorem topologicalSort_permutation_counterexample :
    (comparable.run (New : Graph float64)
      [comparable.Call.addEdge (float64.num 1) float64.NaN 0]).Len = 2 ∧
    ¬ comparable.HasDirectedCycle (comparable.run (New : Graph float64)
      [comparable.Call.addEdge (float64.num 1) float64.NaN 0]) ∧
    comparable.TopologicalSort (comparable.run (New : Graph float64)
      [comparable.Call.addEdge (float64.num 1) float64.NaN 0]) 2
      [float64.num 1, float64.NaN] [float64.NaN, float64.num 1]
      = some (some [float64.num 1, float64.NaN, float64.NaN], none) ∧
    comparable.TopologicalSort (comparable.run (New : Graph float64)
      [comparable.Call.addEdge (float64.num 1) float64.NaN 0]) 2
      [float64.num 1, float64.NaN] [float64.num 1, float64.NaN]
      = some (some [float64.NaN, float64.num 1, float64.NaN], none) := by
  refine ⟨by decide, ?_, by decide, by decide⟩
  have hadj : ∀ u v, comparable.Adj (comparable.run (New : Graph float64)
      [comparable.Call.addEdge (float64.num 1) float64.NaN 0]) u v →
      u = float64.num 1 ∧ v = float64.NaN := by
    intro u v h
    obtain ⟨e, he, hl⟩ := h
    have hg : (comparable.run (New : Graph float64)
        [comparable.Call.addEdge (float64.num 1) float64.NaN 0]).adjacency
        = [(float64.num 1, [⟨float64.NaN, 0⟩]), (float64.NaN, [])] := by decide
    unfold comparable.Neighbours at he
    rw [hg] at he
    cases u with
    | NaN =>
      have he0 : e ∈ ([] : List (Edge float64)) := he
      exact absurd he0 (List.not_mem_nil e)
    | num n =>
      by_cases hn : n = 1
      · subst hn
        have he1 : e ∈ [(⟨float64.NaN, 0⟩ : Edge float64)] := he
        rw [List.mem_singleton] at he1
        rw [he1] at hl
        exact ⟨rfl, hl.symm⟩
      · have hnone : comparable.lookup
            [(float64.num 1, [(⟨float64.NaN, 0⟩ : Edge float64)]), (float64.NaN, [])]
            (float64.num n) = none := by
          have h1 : Comparable.eq (float64.num 1) (float64.num n) = false := by
            show decide ((1 : Int) = n) = false
            exact decide_eq_false (fun e => hn e.symm)
          have h2 : Comparable.eq float64.NaN (float64.num n) = false := rfl
          simp only [comparable.lookup, h1, h2]
          simp
        rw [hnone] at he
        exact absurd he (by simp)
  intro hc
  obtain ⟨x, hx⟩ := hc
  have h1 : x = float64.num 1 := by
    rcases Relation.TransGen.head'_iff.1 hx with ⟨y, hxy, _⟩
    exact (hadj x y hxy).1
  have h2 : x = float64.NaN := by
    rcases Relation.TransGen.tail'_iff.1 hx with ⟨y, _, hyx⟩
    exact (hadj y x hyx).2
  rw [h1] at h2
  cases h2

/-- C36, amended (topological sort output is a permutation of the nodes): for a node type
with any `==`, for every graph made from `New()` by calls of `AddNode`, `AddEdge` and
`DeleteNode` in which every node added by `AddNode` or `AddEdge` is equal to itself (no
floating-point NaN is added) and that has no directed cycle, whatever the orders in which the keys are ranged over, `TopologicalSort`
returns no error and a sequence of length `Len()` that is a rearrangement of the nodes of the
graph: every node occurs in it exactly once and nothing else occurs. -/
theorem topologicalSort_permutation [Comparable T] [LawfulComparable T]
    (calls : List (comparable.Call T)) (hcalls : ∀ c ∈ calls, comparable.Reflexive c)
    (hac : ¬ comparable.HasDirectedCycle (comparable.run New calls))
    (roots nodes : List T) (hr : roots.Perm (comparable.run New calls).keys)
    (hn : nodes.Perm (comparable.run New calls).keys) (fuel : Nat)
    (hf : (comparable.run New calls).keys.length ≤ fuel) :
    ∃ res, comparable.TopologicalSort (comparable.run New calls) fuel roots nodes
        = some (some res, none) ∧
      res.length = (comparable.run New calls).Len ∧
      List.Perm res (comparable.run New calls).keys ∧
      (∀ k, k ∈ (comparable.run New calls).keys → res.count k = 1) ∧
      (∀ k, k ∉ (comparable.run New calls).keys → res.count k = 0) := by
  obtain ⟨hb, hkr⟩ := run_built calls New Built.new keysReflexive_new hcalls
  have hac1 : ¬ (comparable.run New calls).HasDirectedCycle :=
    fun h => hac ((hasDirectedCycle_agree _ hkr).2 h)
  rw [topologicalSort_agree _ hb.wf hkr fuel roots nodes
    (fun r h => hkr r (hr.mem_iff.1 h)) (fun r h => hkr r (hn.mem_iff.1 h))]
  exact topologicalSort_permutation_identity _ hb hac1 roots nodes hr hn fuel hf

/-- C36 on a graph with two components and an isolated node: the edges 0→1 and 2→3 and the
node 4 give `[4, 2, 3, 0, 1]`, of length `Len() = 5`. -/
theorem topologicalSort_permutation_witness :
    comparable.TopologicalSort (comparable.run (New : Graph Nat)
      [comparable.Call.addEdge 0 1 0, comparable.Call.addEdge 2 3 0,
        comparable.Call.addNode 4]) 5 [0, 1, 2, 3, 4] [0, 1, 2, 3, 4]
      = some (some [4, 2, 3, 0, 1], none) ∧
    ∃ res, comparable.TopologicalSort (comparable.run (New : Graph Nat)
        [comparable.Call.addEdge 0 1 0, comparable.Call.addEdge 2 3 0,
          comparable.Call.addNode 4]) 5 [0, 1, 2, 3, 4] [0, 1, 2, 3, 4]
        = some (some res, none) ∧
      res.length = (comparable.run (New : Graph Nat)
        [comparable.Call.addEdge 0 1 0, comparable.Call.addEdge 2 3 0,
          comparable.Call.addNode 4]).Len ∧
      List.Perm res (comparable.run (New : Graph Nat)
        [comparable.Call.addEdge 0 1 0, comparable.Call.addEdge 2 3 0,
          comparable.Call.addNode 4]).keys ∧
      (∀ k, k ∈ (comparable.run (New : Graph Nat)
        [comparable.Call.addEdge 0 1 0, comparable.Call.addEdge 2 3 0,
          comparable.Call.addNode 4]).keys → res.count k = 1) ∧
      (∀ k, k ∉ (comparable.run (New : Graph Nat)
        [comparable.Call.addEdge 0 1 0, comparable.Call.addEdge 2 3 0,
          comparable.Call.addNode 4]).keys → res.count k = 0) := by
  refine ⟨by decide, topologicalSort_permutation [comparable.Call.addEdge 0 1 0,
    comparable.Call.addEdge 2 3 0, comparable.Call.addNode 4] (by decide) ?_
    [0, 1, 2, 3, 4] [0, 1, 2, 3, 4] (by decide) (by decide) 5 (by decide)⟩
  intro hc
  have hrun : comparable.run (New : Graph Nat) [comparable.Call.addEdge 0 1 0,
      comparable.Call.addEdge 2 3 0, comparable.Call.addNode 4] = componentsGraph := by
    simp only [comparable.run]
    rw [addEdge_agree _ 0 1 0 (by decide) (by decide),
      addEdge_agree _ 2 3 0 (by decide) (by decide), addNode_agree _ 4 (by decide)]
    rfl
  have hbuilt : Built componentsGraph :=
    Built.addNode _ 4 (Built.addEdge _ 2 3 0 (Built.addEdge _ 0 1 0 Built.new))
  have hkr : comparable.KeysReflexive componentsGraph := by decide
  rw [hrun] at hc
  have hc1 : componentsGraph.HasDirectedCycle := (hasDirectedCycle_agree _ hkr).1 hc
  have h := hasCycle_spec componentsGraph hbuilt.wf [0, 1, 2, 3, 4] (by decide) 5 (by decide)
  obtain ⟨b, hb1, hb2⟩ := h
  have hf : componentsGraph.HasCycle 5 [0, 1, 2, 3, 4] = some false := by decide
  rw [hf] at hb1
  have hbt : b = true := hb2.2 hc1
  rw [hbt] at hb1
  cases hb1

end graph

namespace binarysearchtree

variable {T : Type} [LinearOrder T]

theorem values_mk (v : T) (left right : node T) :
    (node.mk v left right).values = left.values ++ v :: right.values := rfl

theorem mem_values_mk (x v : T) (left right : node T) :
    x ∈ (node.mk v left right).values ↔ x ∈ left.values ∨ x = v ∨ x ∈ right.values := by
  rw [values_mk, List.mem_append, List.mem_cons]

theorem length_values_mk (v : T) (left right : node T) :
    (node.mk v left right).values.length = left.values.length + right.values.length + 1 := by
  rw [values_mk, List.length_append, List.length_cons]
  omega

theorem traverseInOrder_eq (n : node T) : ∀ values : List T,
    traverseInOrder n values = values ++ n.values := by
  induction n with
  | nil => intro values; simp [traverseInOrder, node.values]
  | mk v left right ihl ihr =>
    intro values
    simp [traverseInOrder, node.values, ihl, ihr]

theorem valuesInOrder_eq (t : Tree T) : t.ValuesInOrder = t.root.values := by
  simp [Tree.ValuesInOrder, traverseInOrder_eq]

theorem isBST_sorted (n : node T) (h : IsBST n) : List.Sorted (fun a b => a < b) n.values := by
  induction n with
  | nil => simp [node.values]
  | mk v left right ihl ihr =>
    obtain ⟨hl, hr, h1, h2⟩ := h
    simp only [node.values, List.Sorted, List.pairwise_append, List.pairwise_cons]
    refine ⟨ihl hl, ⟨h2, ihr hr⟩, ?_⟩
    intro a ha b hb
    rcases List.mem_cons.1 hb with h | h
    · rw [h]; exact h1 a ha
    · exact lt_trans (h1 a ha) (h2 b h)

theorem mem_insert (n : node T) (value : T) : ∀ (size : Int) (x : T),
    x ∈ (insert n value size).1.values ↔ x = value ∨ x ∈ n.values := by
  induction n with
  | nil => intro size x; simp [insert, node.values]
  | mk v left right ihl ihr =>
    intro size x
    simp only [insert]
    by_cases h1 : value < v
    · simp only [if_pos h1, node.values, List.mem_append, List.mem_cons, ihl]
      tauto
    · by_cases h2 : value > v
      · simp only [if_neg h1, if_pos h2, node.values, List.mem_append, List.mem_cons, ihr]
        tauto
      · have : value = v := le_antisymm (not_lt.1 h2) (not_lt.1 h1)
        simp only [if_neg h1, if_neg h2, node.values, List.mem_append, List.mem_cons]
        rw [this]
        tauto

theorem isBST_insert (n : node T) (value : T) (h : IsBST n) : ∀ size : Int,
    IsBST (insert n value size).1 := by
  induction n with
  | nil => intro size; simp [insert, IsBST, node.values]
  | mk v left right ihl ihr =>
    intro size
    obtain ⟨hl, hr, h1, h2⟩ := h
    simp only [insert]
    by_cases c1 : value < v
    · simp only [if_pos c1, IsBST]
      refine ⟨ihl hl size, hr, ?_, h2⟩
      intro x hx
      rcases (mem_insert left value size x).1 hx with h | h
      · rw [h]; exact c1
      · exact h1 x h
    · by_cases c2 : value > v
      · simp only [if_neg c1, if_pos c2, IsBST]
        refine ⟨hl, ihr hr size, h1, ?_⟩
        intro x hx
        rcases (mem_insert right value size x).1 hx with h | h
        · rw [h]; exact c2
        · exact h2 x h
      · simp only [if_neg c1, if_neg c2, IsBST]
        exact ⟨hl, hr, h1, h2⟩

theorem length_insert (n : node T) (value : T) (h : IsBST n) : ∀ size : Int,
    ((insert n value size).1.values.length : Int) - (insert n value size).2
      = (n.values.length : Int) - size := by
  induction n with
  | nil => intro size; simp [insert, node.values]
  | mk v left right ihl ihr =>
    intro size
    obtain ⟨hl, hr, h1, h2⟩ := h
    simp only [insert]
    by_cases c1 : value < v
    · have := ihl hl size
      simp only [if_pos c1, node.values, List.length_append, List.length_cons, Nat.cast_add,
        Nat.cast_one]
      omega
    · by_cases c2 : value > v
      · have := ihr hr size
        simp only [if_neg c1, if_pos c2, node.values, List.length_append, List.length_cons,
          Nat.cast_add, Nat.cast_one]
        omega
      · simp only [if_neg c1, if_neg c2]

theorem isNil_iff (n : node T) : n.isNil = true ↔ n = node.nil := by
  cases n <;> simp [node.isNil]

theorem minNode_spec (n : node T) (h : IsBST n) (hn : n ≠ node.nil) :
    ∃ m right, minNode n = node.mk m node.nil right ∧ m ∈ n.values ∧
      ∀ x ∈ n.values, m ≤ x := by
  induction n with
  | nil => exact absurd rfl hn
  | mk v left right ihl _ =>
    obtain ⟨hl, hr, h1, h2⟩ := h
    cases left with
    | nil =>
      refine ⟨v, right, rfl, by simp [node.values], ?_⟩
      intro x hx
      simp only [node.values, List.nil_append, List.mem_cons] at hx
      rcases hx with h | h
      · exact le_of_eq h.symm
      · exact le_of_lt (h2 x h)
    | mk lv ll lr =>
      obtain ⟨m, r, e1, e2, e3⟩ := ihl hl (by simp)
      refine ⟨m, r, by simp only [minNode]; exact e1, ?_, ?_⟩
      · rw [mem_values_mk]
        exact Or.inl e2
      · intro x hx
        rw [mem_values_mk] at hx
        have hm : m < v := h1 m e2
        rcases hx with h | h | h
        · exact e3 x h
        · rw [h]; exact le_of_lt hm
        · exact le_of_lt (lt_trans hm (h2 x h))

theorem remove_spec (n : node T) (h : IsBST n) : ∀ (value : T) (size : Int),
    IsBST (remove n value size).1 ∧
    (∀ x, x ∈ (remove n value size).1.values ↔ x ∈ n.values ∧ x ≠ value) ∧
    (value ∈ n.values → (remove n value size).2 = size - 1 ∧
      (remove n value size).1.values.length + 1 = n.values.length) ∧
    (value ∉ n.values → remove n value size = (n, size)) := by
  induction n with
  | nil => intro value size; simp [remove, IsBST, node.values]
  | mk v left right ihl ihr =>
    intro value size
    obtain ⟨hl, hr, h1, h2⟩ := h
    by_cases c1 : value < v
    · obtain ⟨i1, i2, i3, i4⟩ := ihl hl value size
      have hnr : value ∉ right.values := fun hm => absurd (h2 value hm) (not_lt.2 (le_of_lt c1))
      have hne : value ≠ v := ne_of_lt c1
      have hrem : remove (node.mk v left right) value size
          = (node.mk v (remove left value size).1 right, (remove left value size).2) := by
        simp only [remove, if_pos c1]
      rw [hrem]
      refine ⟨⟨i1, hr, fun x hx => h1 x ((i2 x).1 hx).1, h2⟩, ?_, ?_, ?_⟩
      · intro x
        rw [mem_values_mk, mem_values_mk, i2]
        constructor
        · rintro (⟨a, b⟩ | rfl | c)
          · exact ⟨Or.inl a, b⟩
          · exact ⟨Or.inr (Or.inl rfl), fun e => hne e.symm⟩
          · exact ⟨Or.inr (Or.inr c), fun e => hnr (e ▸ c)⟩
        · rintro ⟨a | a | a, b⟩
          · exact Or.inl ⟨a, b⟩
          · exact Or.inr (Or.inl a)
          · exact Or.inr (Or.inr a)
      · intro hm
        have hml : value ∈ left.values := by
          rw [mem_values_mk] at hm
          rcases hm with a | a | a
          · exact a
          · exact absurd a hne
          · exact absurd a hnr
        obtain ⟨j1, j2⟩ := i3 hml
        refine ⟨j1, ?_⟩
        rw [length_values_mk, length_values_mk]
        omega
      · intro hm
        have hml : value ∉ left.values := fun a => hm ((mem_values_mk _ _ _ _).2 (Or.inl a))
        rw [i4 hml]
    · by_cases c2 : value > v
      · obtain ⟨i1, i2, i3, i4⟩ := ihr hr value size
        have hnl : value ∉ left.values :=
          fun hm => absurd (h1 value hm) (not_lt.2 (le_of_lt c2))
        have hne : value ≠ v := ne_of_gt c2
        have hrem : remove (node.mk v left right) value size
            = (node.mk v left (remove right value size).1, (remove right value size).2) := by
          simp only [remove, if_neg c1, if_pos c2]
        rw [hrem]
        refine ⟨⟨hl, i1, h1, fun x hx => h2 x ((i2 x).1 hx).1⟩, ?_, ?_, ?_⟩
        · intro x
          rw [mem_values_mk, mem_values_mk, i2]
          constructor
          · rintro (a | rfl | ⟨a, b⟩)
            · exact ⟨Or.inl a, fun e => hnl (e ▸ a)⟩
            · exact ⟨Or.inr (Or.inl rfl), fun e => hne e.symm⟩
            · exact ⟨Or.inr (Or.inr a), b⟩
          · rintro ⟨a | a | a, b⟩
            · exact Or.inl a
            · exact Or.inr (Or.inl a)
            · exact Or.inr (Or.inr ⟨a, b⟩)
        · intro hm
          have hmr : value ∈ right.values := by
            rw [mem_values_mk] at hm
            rcases hm with a | a | a
            · exact absurd a hnl
            · exact absurd a hne
            · exact a
          obtain ⟨j1, j2⟩ := i3 hmr
          refine ⟨j1, ?_⟩
          rw [length_values_mk, length_values_mk]
          omega
        · intro hm
          have hmr : value ∉ right.values :=
            fun a => hm ((mem_values_mk _ _ _ _).2 (Or.inr (Or.inr a)))
          rw [i4 hmr]
      · have hv : value = v := le_antisymm (not_lt.1 c2) (not_lt.1 c1)
        subst hv
        have hnl : value ∉ left.values := fun hm => absurd (h1 value hm) (lt_irrefl _)
        have hnr : value ∉ right.values := fun hm => absurd (h2 value hm) (lt_irrefl _)
        have hmem : value ∈ (node.mk value left right).values :=
          (mem_values_mk _ _ _ _).2 (Or.inr (Or.inl rfl))
        have hkeep : ∀ (keep : node T) (x : T), x ∈ keep.values → value ∉ keep.values →
            x ≠ value := fun keep x a b e => b (e ▸ a)
        cases left with
        | nil =>
          cases right with
          | nil =>
            have hrem : remove (node.mk value node.nil node.nil) value size
                = (node.nil, size - 1) := by
              simp [remove, node.isNil]
            rw [hrem]
            refine ⟨trivial, ?_, fun _ => ⟨rfl, rfl⟩, fun hm => absurd hmem hm⟩
            intro x
            rw [mem_values_mk]
            simp only [node.values, List.not_mem_nil, false_or, or_false, false_iff, not_and,
              not_not]
            exact fun a => a
          | mk rv rl rr =>
            have hrem : remove (node.mk value node.nil (node.mk rv rl rr)) value size
                = (node.mk rv rl rr, size - 1) := by
              simp [remove, node.isNil]
            rw [hrem]
            refine ⟨hr, ?_, fun _ => ⟨rfl, ?_⟩, fun hm => absurd hmem hm⟩
            · intro x
              rw [mem_values_mk x value]
              constructor
              · intro a
                exact ⟨Or.inr (Or.inr a), hkeep _ x a hnr⟩
              · rintro ⟨a | a | a, b⟩
                · simp [node.values] at a
                · exact absurd a b
                · exact a
            · rw [length_values_mk value]
              simp [node.values]
        | mk lv ll lr =>
          cases right with
          | nil =>
            have hrem : remove (node.mk value (node.mk lv ll lr) node.nil) value size
                = (node.mk lv ll lr, size - 1) := by
              simp [remove, node.isNil]
            rw [hrem]
            refine ⟨hl, ?_, fun _ => ⟨rfl, ?_⟩, fun hm => absurd hmem hm⟩
            · intro x
              rw [mem_values_mk x value]
              constructor
              · intro a
                exact ⟨Or.inl a, hkeep _ x a hnl⟩
              · rintro ⟨a | a | a, b⟩
                · exact a
                · exact absurd a b
                · simp [node.values] at a
            · rw [length_values_mk value]
              simp [node.values]
          | mk rv rl rr =>
            obtain ⟨m, mr, e1, e2, e3⟩ := minNode_spec (node.mk rv rl rr) hr (by simp)
            have hrem : remove (node.mk value (node.mk lv ll lr) (node.mk rv rl rr)) value size
                = (node.mk m (node.mk lv ll lr)
                    (remove (node.mk rv rl rr) m (size - 1)).1,
                  (remove (node.mk rv rl rr) m (size - 1)).2 + 1) := by
              simp only [remove, if_neg c1, if_neg c2, node.isNil, Bool.false_and,
                Bool.false_eq_true, if_false, e1]
            rw [hrem]
            obtain ⟨i1, i2, i3, i4⟩ := ihr hr m (size - 1)
            obtain ⟨j1, j2⟩ := i3 e2
            have hvm : value < m := h2 m e2
            refine ⟨⟨hl, i1 , fun x hx => lt_trans (h1 x hx) hvm, ?_⟩, ?_, ?_,
              fun hm => absurd hmem hm⟩
            · intro x hx
              obtain ⟨a, b⟩ := (i2 x).1 hx
              exact lt_of_le_of_ne (e3 x a) (fun e => b e.symm)
            · intro x
              rw [mem_values_mk x m, mem_values_mk x value, i2]
              constructor
              · rintro (a | rfl | ⟨a, b⟩)
                · exact ⟨Or.inl a, hkeep _ x a hnl⟩
                · exact ⟨Or.inr (Or.inr e2), ne_of_gt hvm⟩
                · exact ⟨Or.inr (Or.inr a), hkeep _ x a hnr⟩
              · rintro ⟨a | a | a, b⟩
                · exact Or.inl a
                · exact absurd a b
                · by_cases hxm : x = m
                  · exact Or.inr (Or.inl hxm)
                  · exact Or.inr (Or.inr ⟨a, hxm⟩)
            · intro _
              refine ⟨by rw [j1]; ring, ?_⟩
              rw [length_values_mk m, length_values_mk value]
              omega

theorem contains_iff (n : node T) (h : IsBST n) (x : T) :
    contains n x = true ↔ x ∈ n.values := by
  induction n with
  | nil => simp [contains, node.values]
  | mk v left right ihl ihr =>
    obtain ⟨hl, hr, h1, h2⟩ := h
    simp only [contains, node.values, List.mem_append, List.mem_cons]
    by_cases c0 : x = v
    · simp [c0]
    · by_cases c1 : x < v
      · simp only [if_neg c0, if_pos c1, ihl hl]
        constructor
        · exact fun a => Or.inl a
        · rintro (a | a | a)
          · exact a
          · exact absurd a c0
          · exact absurd (h2 x a) (not_lt.2 (le_of_lt c1))
      · simp only [if_neg c0, if_neg c1, ihr hr]
        constructor
        · exact fun a => Or.inr (Or.inr a)
        · rintro (a | a | a)
          · exact absurd (h1 x a) c1
          · exact absurd a c0
          · exact a

theorem live_nil (x : T) : ¬ Live ([] : List (Call T)) x := by
  rintro ⟨b, a, h, _⟩
  cases b <;> simp at h

theorem apply_append (calls : List (Call T)) : ∀ (t : Tree T) (call : Call T),
    t.apply (calls ++ [call]) = (t.apply calls).apply [call] := by
  induction calls with
  | nil => intro t call; rfl
  | cons c rest ih =>
    intro t call
    cases c with
    | insert value => exact ih (t.Insert value) call
    | remove value => exact ih (t.Remove value) call

theorem live_append_insert (calls : List (Call T)) (v x : T) :
    Live (calls ++ [Call.insert v]) x ↔ x = v ∨ Live calls x := by
  constructor
  · rintro ⟨b, a, h, hn⟩
    rcases List.eq_nil_or_concat a with ha | ⟨a1, c, ha⟩
    · subst ha
      have := List.append_inj' h (by simp)
      have h2 := this.2
      simp only [List.cons.injEq, Call.insert.injEq, and_true] at h2
      exact Or.inl h2.symm
    · subst ha
      rw [List.concat_eq_append, ← List.cons_append, ← List.append_assoc] at h
      have := List.append_inj' h (by simp)
      refine Or.inr ⟨b, a1, this.1, ?_⟩
      intro hm
      exact hn (by simp [hm])
  · rintro (h | ⟨b, a, h, hn⟩)
    · subst h
      exact ⟨calls, [], rfl, by simp⟩
    · refine ⟨b, a ++ [Call.insert v], by rw [h]; simp, ?_⟩
      simp only [List.mem_append, List.mem_singleton, not_or]
      exact ⟨hn, by simp⟩

theorem live_append_remove (calls : List (Call T)) (v x : T) :
    Live (calls ++ [Call.remove v]) x ↔ x ≠ v ∧ Live calls x := by
  constructor
  · rintro ⟨b, a, h, hn⟩
    rcases List.eq_nil_or_concat a with ha | ⟨a1, c, ha⟩
    · subst ha
      have := List.append_inj' h (by simp)
      have h2 := this.2
      simp at h2
    · subst ha
      rw [List.concat_eq_append, ← List.cons_append, ← List.append_assoc] at h
      have := List.append_inj' h (by simp)
      have hc : c = Call.remove v := by
        have h2 := this.2
        simp only [List.cons.injEq, and_true] at h2
        exact h2.symm
      refine ⟨?_, b, a1, this.1, ?_⟩
      · intro e
        apply hn
        rw [hc, e]
        simp
      · intro hm
        exact hn (by simp [hm])
  · rintro ⟨hne, b, a, h, hn⟩
    refine ⟨b, a ++ [Call.remove v], by rw [h]; simp, ?_⟩
    simp only [List.mem_append, List.mem_singleton, not_or]
    refine ⟨hn, ?_⟩
    intro e
    simp only [Call.remove.injEq] at e
    exact hne e

theorem apply_spec (calls : List (Call T)) :
    IsBST ((Tree.mk node.nil 0 : Tree T).apply calls).root ∧
    (∀ x, x ∈ ((Tree.mk node.nil 0 : Tree T).apply calls).root.values ↔ Live calls x) ∧
    ((((Tree.mk node.nil 0 : Tree T).apply calls).root.values.length : Nat) : Int)
      = ((Tree.mk node.nil 0 : Tree T).apply calls).size := by
  induction calls using List.reverseRecOn with
  | nil =>
    refine ⟨trivial, fun x => ?_, rfl⟩
    simp only [Tree.apply, node.values, List.not_mem_nil, false_iff]
    exact live_nil x
  | append_singleton calls call ih =>
    obtain ⟨h1, h2, h3⟩ := ih
    rw [apply_append]
    cases call with
    | insert v =>
      simp only [Tree.apply, Tree.Insert]
      refine ⟨isBST_insert _ v h1 _, fun x => ?_, ?_⟩
      · rw [mem_insert, h2, live_append_insert]
      · have := length_insert _ v h1 ((Tree.mk node.nil 0 : Tree T).apply calls).size
        omega
    | remove v =>
      simp only [Tree.apply, Tree.Remove]
      obtain ⟨r1, r2, r3, r4⟩ :=
        remove_spec _ h1 v ((Tree.mk node.nil 0 : Tree T).apply calls).size
      refine ⟨r1, fun x => ?_, ?_⟩
      · rw [r2, h2, live_append_remove]
        tauto
      · by_cases hm : v ∈ ((Tree.mk node.nil 0 : Tree T).apply calls).root.values
        · obtain ⟨j1, j2⟩ := r3 hm
          rw [j1]
          omega
        · rw [r4 hm]
          exact h3

theorem new_nil : (New ([] : List T)) = Tree.mk node.nil 0 := rfl

/-- With values ordered linearly by `<` (as integers and strings are): for every tree made from
the empty tree by calls of `Insert` and `Remove`, `ValuesInOrder()` is strictly ascending, holds
exactly the values that were inserted and not removed by a later call, and its length is
`Len()`. -/
theorem bst_inorder_sorted_identity (calls : List (Call T)) :
    List.Sorted (fun a b => a < b) ((New ([] : List T)).apply calls).ValuesInOrder ∧
    (∀ x, x ∈ ((New ([] : List T)).apply calls).ValuesInOrder ↔ Live calls x) ∧
    ((((New ([] : List T)).apply calls).ValuesInOrder.length : Nat) : Int)
      = ((New ([] : List T)).apply calls).Len := by
  obtain ⟨h1, h2, h3⟩ := apply_spec calls
  rw [new_nil, valuesInOrder_eq]
  exact ⟨isBST_sorted _ h1, h2, h3⟩

/-- With values ordered linearly by `<` (as integers and strings are): for every tree that is
ordered as a binary search tree and every value `v`, if `Contains(v)` holds then after
`Remove(v)` it does not, `Len()` has dropped by exactly 1, also when the removed node has two
children, and `Contains` is as before for every other value; if `Contains(v)` does not hold,
`Remove(v)` leaves the tree and `Len()` as they were. -/
theorem bst_remove_identity (t : Tree T) (hb : IsBST t.root) (v : T) :
    (t.Contains v = true →
      (t.Remove v).Contains v = false ∧ (t.Remove v).Len = t.Len - 1 ∧
      (∀ x, x ≠ v → (t.Remove v).Contains x = t.Contains x) ∧
      (t.Remove v).ValuesInOrder.length + 1 = t.ValuesInOrder.length) ∧
    (t.Contains v = false → t.Remove v = t) ∧
    IsBST (t.Remove v).root := by
  obtain ⟨r1, r2, r3, r4⟩ := remove_spec t.root hb v t.size
  have hc : ∀ x, (t.Remove v).Contains x = true ↔ x ∈ t.root.values ∧ x ≠ v := by
    intro x
    unfold Tree.Contains Tree.Remove
    rw [contains_iff _ r1, r2]
  refine ⟨?_, ?_, r1⟩
  · intro hcv
    have hm : v ∈ t.root.values := (contains_iff _ hb v).1 hcv
    obtain ⟨j1, j2⟩ := r3 hm
    refine ⟨?_, j1, ?_, ?_⟩
    · cases h : (t.Remove v).Contains v with
      | false => rfl
      | true => exact absurd rfl ((hc v).1 h).2
    · intro x hx
      rw [Bool.eq_iff_iff, hc x]
      unfold Tree.Contains
      rw [contains_iff _ hb]
      exact ⟨fun a => a.1, fun a => ⟨a, hx⟩⟩
    · rw [valuesInOrder_eq, valuesInOrder_eq]
      exact j2
  · intro hcv
    have hm : v ∉ t.root.values := by
      intro a
      have := (contains_iff _ hb v).2 a
      unfold Tree.Contains at hcv
      rw [this] at hcv
      exact absurd hcv (by simp)
    unfold Tree.Remove
    rw [r4 hm]

section
variable [Ordered T] [LawfulOrdered T]

theorem ordered_eq_decide (a b : T) (h : Ordered.eq a a = true ∨ Ordered.eq b b = true) :
    Ordered.eq a b = decide (a = b) := by
  by_cases e : a = b
  · rw [decide_eq_true e]
    rcases h with h | h
    · rw [← e]; exact h
    · rw [e]; exact h
  · rw [decide_eq_false e]
    cases hab : Ordered.eq a b with
    | false => rfl
    | true => exact absurd (LawfulOrdered.eq_of a b hab) e

theorem ordered_eq_false (a b : T) (h : Ordered.eq a a = false) : Ordered.eq a b = false := by
  cases hab : Ordered.eq a b with
  | false => rfl
  | true =>
    have e := LawfulOrdered.eq_of a b hab
    rw [← e, h] at hab
    exact absurd hab (by simp)

theorem ordered_lt_decide (a b : T) (ha : Ordered.eq a a = true) (hb : Ordered.eq b b = true) :
    Ordered.lt a b = decide (a < b) := by
  by_cases e : a < b
  · rw [decide_eq_true e]
    exact (LawfulOrdered.lt_iff a b ha hb).2 e
  · rw [decide_eq_false e]
    cases hab : Ordered.lt a b with
    | false => rfl
    | true => exact absurd ((LawfulOrdered.lt_iff a b ha hb).1 hab) e

theorem allReflexive_mk (v : T) (left right : node T) :
    ordered.AllReflexive (node.mk v left right) ↔
      Ordered.eq v v = true ∧ ordered.AllReflexive left ∧ ordered.AllReflexive right := by
  unfold ordered.AllReflexive
  constructor
  · intro h
    refine ⟨h v ?_, fun x hx => h x ?_, fun x hx => h x ?_⟩
    · rw [mem_values_mk]; exact Or.inr (Or.inl rfl)
    · rw [mem_values_mk]; exact Or.inl hx
    · rw [mem_values_mk]; exact Or.inr (Or.inr hx)
  · intro h x hx
    rw [mem_values_mk] at hx
    rcases hx with hx | hx | hx
    · exact h.2.1 x hx
    · rw [hx]; exact h.1
    · exact h.2.2 x hx

theorem insert_agree (n : node T) (value : T) (hv : Ordered.eq value value = true)
    (hn : ordered.AllReflexive n) :
    ∀ size : Int, ordered.insert n value size = insert n value size := by
  induction n with
  | nil => intro size; rfl
  | mk v left right ihl ihr =>
    intro size
    obtain ⟨h1, h2, h3⟩ := (allReflexive_mk v left right).1 hn
    simp only [ordered.insert, insert, ordered_lt_decide value v hv h1,
      ordered_lt_decide v value h1 hv, ihl h2, ihr h3, decide_eq_true_eq, gt_iff_lt]

theorem minNode_mem (n : node T) : ∀ (m : T) (l r : node T), minNode n = node.mk m l r →
    m ∈ n.values := by
  induction n with
  | nil => intro m l r h; simp [minNode] at h
  | mk v left right ihl _ =>
    intro m l r h
    cases left with
    | nil =>
      simp only [minNode, node.mk.injEq] at h
      rw [mem_values_mk, ← h.1]
      exact Or.inr (Or.inl rfl)
    | mk lv ll lr =>
      simp only [minNode] at h
      rw [mem_values_mk]
      exact Or.inl (ihl m l r h)

theorem remove_agree (n : node T) (hn : ordered.AllReflexive n) :
    ∀ (value : T) (size : Int), Ordered.eq value value = true →
      ordered.remove n value size = remove n value size := by
  induction n with
  | nil => intro value size _; rfl
  | mk v left right ihl ihr =>
    intro value size hv
    obtain ⟨h1, h2, h3⟩ := (allReflexive_mk v left right).1 hn
    simp only [ordered.remove, remove, ordered_lt_decide value v hv h1,
      ordered_lt_decide v value h1 hv, ihl h2 value size hv, ihr h3 value size hv,
      decide_eq_true_eq, gt_iff_lt]
    cases hm : minNode right with
    | nil => rfl
    | mk m l r =>
      simp only
      rw [ihr h3 m (size - 1) (h3 m (minNode_mem right m l r hm))]

theorem contains_agree_reflexive (n : node T) (hn : ordered.AllReflexive n) (x : T)
    (hx : Ordered.eq x x = true) : ordered.contains n x = contains n x := by
  induction n with
  | nil => rfl
  | mk v left right ihl ihr =>
    obtain ⟨h1, h2, h3⟩ := (allReflexive_mk v left right).1 hn
    simp only [ordered.contains, contains, ordered_lt_decide x v hx h1,
      ordered_eq_decide x v (Or.inl hx), ihl h2, ihr h3, decide_eq_true_eq]

theorem contains_irreflexive (n : node T) (x : T) (hx : Ordered.eq x x = false) :
    ordered.contains n x = false := by
  induction n with
  | nil => rfl
  | mk v left right ihl ihr =>
    simp only [ordered.contains, ordered_eq_false x v hx, ihl, ihr]
    simp

theorem contains_agree (n : node T) (hn : ordered.AllReflexive n) (hb : IsBST n) (x : T) :
    ordered.contains n x = contains n x := by
  cases hx : Ordered.eq x x with
  | true => exact contains_agree_reflexive n hn x hx
  | false =>
    rw [contains_irreflexive n x hx]
    cases hc : contains n x with
    | false => rfl
    | true =>
      have := hn x ((contains_iff n hb x).1 hc)
      rw [hx] at this
      exact absurd this (by simp)

theorem isBST_agree (n : node T) (hn : ordered.AllReflexive n) : ordered.IsBST n ↔ IsBST n := by
  induction n with
  | nil => exact Iff.rfl
  | mk v left right ihl ihr =>
    obtain ⟨h1, h2, h3⟩ := (allReflexive_mk v left right).1 hn
    simp only [ordered.IsBST, IsBST, ihl h2, ihr h3]
    have e1 : (∀ x ∈ left.values, Ordered.lt x v = true) ↔ ∀ x ∈ left.values, x < v :=
      forall₂_congr (fun x hx => LawfulOrdered.lt_iff x v (h2 x hx) h1)
    have e2 : (∀ x ∈ right.values, Ordered.lt v x = true) ↔ ∀ x ∈ right.values, v < x :=
      forall₂_congr (fun x hx => LawfulOrdered.lt_iff v x h1 (h3 x hx))
    rw [e1, e2]

theorem allReflexive_treeInsert (n : node T) (hn : ordered.AllReflexive n) (value : T)
    (hv : Ordered.eq value value = true) (size : Int) :
    ordered.AllReflexive (insert n value size).1 := by
  intro x hx
  rcases (mem_insert n value size x).1 hx with e | e
  · rw [e]; exact hv
  · exact hn x e

theorem allReflexive_treeRemove (n : node T) (hn : ordered.AllReflexive n) (hb : IsBST n)
    (value : T) (size : Int) : ordered.AllReflexive (remove n value size).1 := by
  intro x hx
  exact hn x (((remove_spec n hb value size).2.1 x).1 hx).1

theorem treeApply_agree : ∀ (calls : List (Call T)) (t : Tree T), IsBST t.root →
    ordered.AllReflexive t.root → (∀ c ∈ calls, ordered.Reflexive c) →
    ordered.apply t calls = t.apply calls ∧ ordered.AllReflexive (t.apply calls).root ∧
      IsBST (t.apply calls).root := by
  intro calls
  induction calls with
  | nil => intro t hb hr _; exact ⟨rfl, hr, hb⟩
  | cons call rest ih =>
    intro t hb hr hc
    have hcall := hc call (List.mem_cons_self _ _)
    have hrest : ∀ c ∈ rest, ordered.Reflexive c := fun c h => hc c (List.mem_cons_of_mem _ h)
    cases call with
    | insert value =>
      have e : ordered.Insert t value = t.Insert value := by
        unfold ordered.Insert Tree.Insert
        rw [insert_agree t.root value hcall hr]
      simp only [ordered.apply, Tree.apply]
      rw [e]
      exact ih _ (isBST_insert _ value hb _) (allReflexive_treeInsert _ hr value hcall _) hrest
    | remove value =>
      have e : ordered.Remove t value = t.Remove value := by
        unfold ordered.Remove Tree.Remove
        rw [remove_agree t.root hr value t.size hcall]
      simp only [ordered.apply, Tree.apply]
      rw [e]
      exact ih _ (remove_spec _ hb value _).1 (allReflexive_treeRemove _ hr hb value _) hrest

theorem treeApply_isBST (calls : List (Call T))
    (hcalls : ∀ c ∈ calls, ordered.Reflexive c) :
    ordered.IsBST (ordered.apply (ordered.New ([] : List T)) calls).root ∧
    ordered.AllReflexive (ordered.apply (ordered.New ([] : List T)) calls).root := by
  have hnew : ordered.New ([] : List T) = New ([] : List T) := rfl
  obtain ⟨hagree, hr, hb⟩ := treeApply_agree calls (New ([] : List T)) trivial
    (fun x hx => by simp [New, node.values] at hx) hcalls
  rw [hnew, hagree]
  exact ⟨(isBST_agree _ hr).2 hb, hr⟩

/-- C27, amended (in-order traversal is sorted): for a value type whose `<` orders the values
that are equal to themselves linearly, for every tree made from the empty tree by calls of
`Insert` and `Remove` whose values are all equal to themselves (no floating-point NaN),
`ValuesInOrder()` is strictly ascending, holds exactly the values that were inserted and not
removed by a later call, and its length is `Len()`. -/
theorem bst_inorder_sorted (calls : List (Call T))
    (hcalls : ∀ c ∈ calls, ordered.Reflexive c) :
    List.Sorted (fun a b => Ordered.lt a b = true)
      (ordered.apply (ordered.New ([] : List T)) calls).ValuesInOrder ∧
    (∀ x, x ∈ (ordered.apply (ordered.New ([] : List T)) calls).ValuesInOrder ↔
      Live calls x) ∧
    (((ordered.apply (ordered.New ([] : List T)) calls).ValuesInOrder.length : Nat) : Int)
      = (ordered.apply (ordered.New ([] : List T)) calls).Len := by
  have hnew : ordered.New ([] : List T) = New ([] : List T) := rfl
  obtain ⟨hagree, hr, _⟩ := treeApply_agree calls (New ([] : List T)) trivial
    (fun x hx => by simp [New, node.values] at hx) hcalls
  obtain ⟨h1, h2, h3⟩ := bst_inorder_sorted_identity calls
  rw [hnew, hagree]
  refine ⟨?_, h2, h3⟩
  have hmem : ∀ x ∈ ((New ([] : List T)).apply calls).ValuesInOrder, Ordered.eq x x = true := by
    intro x hx
    rw [valuesInOrder_eq] at hx
    exact hr x hx
  exact List.Pairwise.imp_of_mem
    (fun ha hb hab => (LawfulOrdered.lt_iff _ _ (hmem _ ha) (hmem _ hb)).2 hab) h1

/-- C28, amended (removal): for a value type whose `<` orders the values that are equal to
themselves linearly, for every tree that is ordered as a binary search tree and holds only
values equal to themselves, and every value `v` equal to itself (not a floating-point NaN), if
`Contains(v)` holds then after `Remove(v)` it does not, `Len()` has dropped by exactly 1, also
when the removed node has two children, and `Contains` is as before for every other value; if
`Contains(v)` does not hold, `Remove(v)` leaves the tree and `Len()` as they were. -/
theorem bst_remove (t : Tree T) (hb : ordered.IsBST t.root)
    (hr : ordered.AllReflexive t.root) (v : T) (hv : Ordered.eq v v = true) :
    (ordered.Contains t v = true →
      ordered.Contains (ordered.Remove t v) v = false ∧
      (ordered.Remove t v).Len = t.Len - 1 ∧
      (∀ x, x ≠ v → ordered.Contains (ordered.Remove t v) x = ordered.Contains t x) ∧
      (ordered.Remove t v).ValuesInOrder.length + 1 = t.ValuesInOrder.length) ∧
    (ordered.Contains t v = false → ordered.Remove t v = t) ∧
    ordered.IsBST (ordered.Remove t v).root := by
  have hb1 : IsBST t.root := (isBST_agree t.root hr).1 hb
  have e : ordered.Remove t v = t.Remove v := by
    unfold ordered.Remove Tree.Remove
    rw [remove_agree t.root hr v t.size hv]
  have hr2 : ordered.AllReflexive (t.Remove v).root := allReflexive_treeRemove _ hr hb1 v _
  obtain ⟨p1, p2, p3⟩ := bst_remove_identity t hb1 v
  have c1 : ∀ x, ordered.Contains t x = t.Contains x :=
    fun x => contains_agree t.root hr hb1 x
  have c2 : ∀ x, ordered.Contains (t.Remove v) x = (t.Remove v).Contains x :=
    fun x => contains_agree _ hr2 p3 x
  rw [e]
  simp only [c1, c2]
  exact ⟨p1, p2, (isBST_agree _ hr2).2 p3⟩

end

/-- C27 as stated fails: on a tree of `float64`, after `Insert(NaN)` the call `Insert(5)` is
dropped: `ValuesInOrder()` is `[NaN]` and `Len()` is 1, although 5 was inserted and not
removed. -/
theorem bst_inorder_sorted_counterexample :
    (ordered.apply (ordered.New ([] : List float64))
      [Call.insert float64.NaN, Call.insert (float64.num 5)]).ValuesInOrder = [float64.NaN] ∧
    (ordered.apply (ordered.New ([] : List float64))
      [Call.insert float64.NaN, Call.insert (float64.num 5)]).Len = 1 ∧
    Live [Call.insert float64.NaN, Call.insert (float64.num 5)] (float64.num 5) :=
  ⟨by decide, by decide, ⟨[Call.insert float64.NaN], [], rfl, by simp⟩⟩

/-- C27 on the test tree: inserting 10, 5, 15, 3, 7, 12, 18 gives the in-order values
`[3, 5, 7, 10, 12, 15, 18]`, also through `New(10, 5, 15, 3, 7, 12, 18)`; after `Remove(5)`
they are `[3, 7, 10, 12, 15, 18]`. The same holds of a tree of `float64` numbers. -/
theorem bst_inorder_sorted_witness :
    (ordered.apply (ordered.New ([] : List Int)) [Call.insert 10, Call.insert 5,
      Call.insert 15, Call.insert 3, Call.insert 7, Call.insert 12,
      Call.insert 18]).ValuesInOrder = [3, 5, 7, 10, 12, 15, 18] ∧
    (ordered.New ([10, 5, 15, 3, 7, 12, 18] : List Int)).ValuesInOrder
      = [3, 5, 7, 10, 12, 15, 18] ∧
    (ordered.apply (ordered.New ([] : List Int)) [Call.insert 10, Call.insert 5,
      Call.insert 15, Call.insert 3, Call.insert 7, Call.insert 12, Call.insert 18,
      Call.remove 5]).ValuesInOrder = [3, 7, 10, 12, 15, 18] ∧
    List.Sorted (fun a b => Ordered.lt a b = true)
      (ordered.apply (ordered.New ([] : List Int)) [Call.insert 10, Call.insert 5,
        Call.insert 15, Call.insert 3, Call.insert 7, Call.insert 12, Call.insert 18,
        Call.remove 5]).ValuesInOrder ∧
    (ordered.apply (ordered.New ([] : List float64)) [Call.insert (float64.num 2),
      Call.insert (float64.num 1), Call.insert (float64.num 3)]).ValuesInOrder
      = [float64.num 1, float64.num 2, float64.num 3] ∧
    List.Sorted (fun a b => Ordered.lt a b = true)
      (ordered.apply (ordered.New ([] : List float64)) [Call.insert (float64.num 2),
        Call.insert (float64.num 1), Call.insert (float64.num 3)]).ValuesInOrder :=
  ⟨by decide, by decide, by decide,
    (bst_inorder_sorted [Call.insert (10 : Int), Call.insert 5, Call.insert 15, Call.insert 3,
      Call.insert 7, Call.insert 12, Call.insert 18, Call.remove 5] (by decide)).1,
    by decide,
    (bst_inorder_sorted [Call.insert (float64.num 2), Call.insert (float64.num 1),
      Call.insert (float64.num 3)] (by decide)).1⟩

/-- C28 as stated fails: on the tree `New(5, 3, 8)` of `float64`, which is ordered as a binary
search tree, `Contains(NaN)` is false, yet `Remove(NaN)` deletes the root: the values go from
`[3, 5, 8]` to `[3, 8]` and `Len()` from 3 to 2. -/
theorem bst_remove_counterexample :
    ordered.IsBST (ordered.New [float64.num 5, float64.num 3, float64.num 8]).root ∧
    ordered.Contains (ordered.New [float64.num 5, float64.num 3, float64.num 8]) float64.NaN
      = false ∧
    (ordered.New [float64.num 5, float64.num 3, float64.num 8]).ValuesInOrder
      = [float64.num 3, float64.num 5, float64.num 8] ∧
    (ordered.New [float64.num 5, float64.num 3, float64.num 8]).Len = 3 ∧
    (ordered.Remove (ordered.New [float64.num 5, float64.num 3, float64.num 8])
      float64.NaN).ValuesInOrder = [float64.num 3, float64.num 8] ∧
    (ordered.Remove (ordered.New [float64.num 5, float64.num 3, float64.num 8])
      float64.NaN).Len = 2 := by
  decide

/-- C28 on the test trees: removing 5, a node with two children, from the tree with 10, 5,
15, 3, 7 leaves `Len() = 4` and `Contains(5)` false; removing 11, which is not in the tree,
changes nothing. -/
theorem bst_remove_witness :
    (ordered.Remove (ordered.New ([10, 5, 15, 3, 7] : List Int)) 5).Len = 4 ∧
    ordered.IsBST (ordered.New ([10, 5, 15, 3, 7] : List Int)).root ∧
    ordered.AllReflexive (ordered.New ([10, 5, 15, 3, 7] : List Int)).root ∧
    (ordered.Contains (ordered.Remove (ordered.New ([10, 5, 15, 3, 7] : List Int)) 5) 5
      = false ∧
    (ordered.Remove (ordered.New ([10, 5, 15, 3, 7] : List Int)) 5).Len
      = (ordered.New ([10, 5, 15, 3, 7] : List Int)).Len - 1 ∧
    (∀ x, x ≠ 5 →
      ordered.Contains (ordered.Remove (ordered.New ([10, 5, 15, 3, 7] : List Int)) 5) x
        = ordered.Contains (ordered.New ([10, 5, 15, 3, 7] : List Int)) x) ∧
    (ordered.Remove (ordered.New ([10, 5, 15, 3, 7] : List Int)) 5).ValuesInOrder.length + 1
      = (ordered.New ([10, 5, 15, 3, 7] : List Int)).ValuesInOrder.length) ∧
    ordered.Remove (ordered.New ([10, 5, 15, 3, 7] : List Int)) 11
      = ordered.New ([10, 5, 15, 3, 7] : List Int) :=
  ⟨by decide, by decide, by decide,
    (bst_remove (ordered.New ([10, 5, 15, 3, 7] : List Int)) (by decide) (by decide) 5
      (by decide)).1 (by decide),
    (bst_remove (ordered.New ([10, 5, 15, 3, 7] : List Int)) (by decide) (by decide) 11
      (by decide)).2.1 (by decide)⟩

end binarysearchtree

namespace cache

variable {K V : Type} [DecidableEq K]

theorem entry_ext (e1 e2 : entry K V) (h1 : e1.key = e2.key) (h2 : e1.value = e2.value) :
    e1 = e2 := by
  cases e1; cases e2; simp_all

theorem nextAt_of_get (nodes : List (node K V)) (a : Nat) (n : node K V)
    (h : nodes.get? a = some n) : nextAt nodes a = n.next := by
  unfold nextAt; rw [h]

theorem prevAt_of_get (nodes : List (node K V)) (a : Nat) (n : node K V)
    (h : nodes.get? a = some n) : prevAt nodes a = n.previous := by
  unfold prevAt; rw [h]

theorem entAt_of_get (nodes : List (node K V)) (a : Nat) (n : node K V)
    (h : nodes.get? a = some n) : entAt nodes a = n.e := by
  unfold entAt; rw [h]

theorem get_of_lt (nodes : List (node K V)) (a : Nat) (h : a < nodes.length) :
    ∃ n, nodes.get? a = some n := by
  rw [List.get?_eq_getElem?]
  exact ⟨nodes[a], List.getElem?_eq_getElem h⟩

theorem lt_of_get (nodes : List (node K V)) (a : Nat) (n : node K V)
    (h : nodes.get? a = some n) : a < nodes.length := by
  rw [List.get?_eq_getElem?] at h
  exact (List.getElem?_eq_some.1 h).1

theorem get_set (nodes : List (node K V)) (a x : Nat) (n : node K V) (h : a < nodes.length) :
    (nodes.set a n).get? x = if x = a then some n else nodes.get? x := by
  simp only [List.get?_eq_getElem?, List.getElem?_set]
  by_cases hx : x = a
  · subst hx; simp [h]
  · have : ¬ a = x := fun e => hx e.symm
    simp [hx, this]

theorem setNext_spec (nodes : List (node K V)) (a : Nat) (v : Option Nat)
    (h : a < nodes.length) :
    ∃ nodes1, setNext nodes a v = some nodes1 ∧ nodes1.length = nodes.length ∧
      nextAt nodes1 = Function.update (nextAt nodes) a v ∧
      prevAt nodes1 = prevAt nodes ∧ entAt nodes1 = entAt nodes := by
  obtain ⟨n, hn⟩ := get_of_lt nodes a h
  refine ⟨nodes.set a { n with next := v }, by unfold setNext; rw [hn], by simp, ?_, ?_, ?_⟩
  · funext x
    unfold nextAt
    rw [get_set nodes a x _ h, Function.update_apply]
    by_cases hx : x = a
    · rw [if_pos hx, if_pos hx]
    · rw [if_neg hx, if_neg hx]
  · funext x
    unfold prevAt
    rw [get_set nodes a x _ h]
    by_cases hx : x = a
    · subst hx; rw [if_pos rfl, hn]
    · rw [if_neg hx]
  · funext x
    unfold entAt
    rw [get_set nodes a x _ h]
    by_cases hx : x = a
    · subst hx; rw [if_pos rfl, hn]
    · rw [if_neg hx]

theorem setPrevious_spec (nodes : List (node K V)) (a : Nat) (v : Option Nat)
    (h : a < nodes.length) :
    ∃ nodes1, setPrevious nodes a v = some nodes1 ∧ nodes1.length = nodes.length ∧
      nextAt nodes1 = nextAt nodes ∧
      prevAt nodes1 = Function.update (prevAt nodes) a v ∧ entAt nodes1 = entAt nodes := by
  obtain ⟨n, hn⟩ := get_of_lt nodes a h
  refine ⟨nodes.set a { n with previous := v }, by unfold setPrevious; rw [hn], by simp,
    ?_, ?_, ?_⟩
  · funext x
    unfold nextAt
    rw [get_set nodes a x _ h]
    by_cases hx : x = a
    · subst hx; rw [if_pos rfl, hn]
    · rw [if_neg hx]
  · funext x
    unfold prevAt
    rw [get_set nodes a x _ h, Function.update_apply]
    by_cases hx : x = a
    · rw [if_pos hx, if_pos hx]
    · rw [if_neg hx, if_neg hx]
  · funext x
    unfold entAt
    rw [get_set nodes a x _ h]
    by_cases hx : x = a
    · subst hx; rw [if_pos rfl, hn]
    · rw [if_neg hx]

theorem setValue_spec (nodes : List (node K V)) (a : Nat) (value : V) (e : entry K V)
    (h : entAt nodes a = some e) :
    ∃ nodes1, setValue nodes a value = some nodes1 ∧ nodes1.length = nodes.length ∧
      nextAt nodes1 = nextAt nodes ∧ prevAt nodes1 = prevAt nodes ∧
      entAt nodes1 = Function.update (entAt nodes) a (some { key := e.key, value := value }) := by
  cases hn : nodes.get? a with
  | none => unfold entAt at h; rw [hn] at h; cases h
  | some n =>
    have he : n.e = some e := by unfold entAt at h; rw [hn] at h; exact h
    have hlt : a < nodes.length := lt_of_get nodes a n hn
    refine ⟨nodes.set a { n with e := some { key := e.key, value := value } },
      by unfold setValue; rw [hn]; simp only; rw [he], by simp, ?_, ?_, ?_⟩
    · funext x
      unfold nextAt
      rw [get_set nodes a x _ hlt]
      by_cases hx : x = a
      · subst hx; rw [if_pos rfl, hn]
      · rw [if_neg hx]
    · funext x
      unfold prevAt
      rw [get_set nodes a x _ hlt]
      by_cases hx : x = a
      · subst hx; rw [if_pos rfl, hn]
      · rw [if_neg hx]
    · funext x
      unfold entAt
      rw [get_set nodes a x _ hlt, Function.update_apply]
      by_cases hx : x = a
      · rw [if_pos hx, if_pos hx]
      · rw [if_neg hx, if_neg hx]

theorem chain_frame (nxt prv nxt1 prv1 : Nat → Option Nat) :
    ∀ (l : List Nat) (a b : Nat), Chain nxt prv a l b →
      (∀ y ∈ a :: l, nxt1 y = nxt y) → (∀ y ∈ l ++ [b], prv1 y = prv y) →
      Chain nxt1 prv1 a l b := by
  intro l
  induction l with
  | nil =>
    intro a b h h1 h2
    simp only [Chain] at h ⊢
    exact ⟨by rw [h1 a (by simp)]; exact h.1, by rw [h2 b (by simp)]; exact h.2⟩
  | cons x xs ih =>
    intro a b h h1 h2
    simp only [Chain] at h ⊢
    refine ⟨by rw [h1 a (by simp)]; exact h.1, by rw [h2 x (by simp)]; exact h.2.1, ?_⟩
    exact ih x b h.2.2 (fun y hy => h1 y (List.mem_cons_of_mem _ hy))
      (fun y hy => h2 y (by simp only [List.cons_append, List.mem_cons]; exact Or.inr hy))

theorem chain_unlink (nxt prv : Nat → Option Nat) (a : Nat) (l2 : List Nat) (t : Nat) :
    ∀ (l1 : List Nat) (h : Nat), Chain nxt prv h (l1 ++ a :: l2) t →
      (h :: ((l1 ++ a :: l2) ++ [t])).Nodup →
      ∃ p n, prv a = some p ∧ nxt a = some n ∧ p ∈ h :: l1 ∧ n ∈ l2 ++ [t] ∧
        Chain (Function.update nxt p (some n)) (Function.update prv n (some p)) h (l1 ++ l2) t := by
  intro l1
  induction l1 with
  | nil =>
    intro h hc hn
    rw [List.nil_append] at hc hn
    simp only [Chain] at hc
    obtain ⟨c1, c2, c3⟩ := hc
    have hn1 := List.nodup_cons.1 hn
    have hn2 := List.nodup_cons.1 (show (a :: (l2 ++ [t])).Nodup from hn1.2)
    cases l2 with
    | nil =>
      simp only [Chain] at c3
      refine ⟨h, t, c2, c3.1, List.mem_cons_self _ _, by simp, ?_⟩
      rw [List.nil_append]
      simp only [Chain]
      exact ⟨Function.update_same _ _ _, Function.update_same _ _ _⟩
    | cons y ys =>
      simp only [Chain] at c3
      refine ⟨h, y, c2, c3.1, List.mem_cons_self _ _, by simp, ?_⟩
      rw [List.nil_append]
      simp only [Chain]
      refine ⟨Function.update_same _ _ _, Function.update_same _ _ _, ?_⟩
      have hn3 := List.nodup_cons.1 (show (y :: (ys ++ [t])).Nodup from hn2.2)
      refine chain_frame nxt prv _ _ ys y t c3.2.2 ?_ ?_
      · intro z hz
        have hzh : z ≠ h := by
          intro e
          apply hn1.1
          rw [← e]
          exact List.mem_cons_of_mem _ (List.mem_append_left _ hz)
        exact Function.update_noteq hzh _ _
      · intro z hz
        have hzy : z ≠ y := fun e => hn3.1 (e ▸ hz)
        exact Function.update_noteq hzy _ _
  | cons z zs ih =>
    intro h hc hn
    simp only [List.cons_append, Chain] at hc
    obtain ⟨c1, c2, c3⟩ := hc
    have hn1 := List.nodup_cons.1 hn
    have hn2 := List.nodup_cons.1 (show (z :: ((zs ++ a :: l2) ++ [t])).Nodup from hn1.2)
    obtain ⟨p, n, e1, e2, e3, e4, e5⟩ := ih z c3 hn1.2
    refine ⟨p, n, e1, e2, List.mem_cons_of_mem _ e3, e4, ?_⟩
    simp only [List.cons_append, Chain]
    have hph : p ≠ h := by
      intro e
      apply hn1.1
      rw [← e]
      rcases List.mem_cons.1 e3 with e6 | e6
      · rw [e6]; exact List.mem_cons_self _ _
      · exact List.mem_cons_of_mem _
          (List.mem_append_left _ (List.mem_append_left _ e6))
    have hnz : n ≠ z := by
      intro e
      apply hn2.1
      rw [← e]
      rcases List.mem_append.1 e4 with e6 | e6
      · exact List.mem_append_left _
          (List.mem_append_right _ (List.mem_cons_of_mem _ e6))
      · exact List.mem_append_right _ e6
    refine ⟨?_, ?_, e5⟩
    · rw [Function.update_noteq (Ne.symm hph)]; exact c1
    · rw [Function.update_noteq (Ne.symm hnz)]; exact c2

theorem chain_head (nxt prv : Nat → Option Nat) (l : List Nat) (h t : Nat)
    (hc : Chain nxt prv h l t) : ∃ first, nxt h = some first ∧ first ∈ l ++ [t] ∧
      (l ++ [t]).head? = some first := by
  cases l with
  | nil => exact ⟨t, hc.1, by simp, by simp⟩
  | cons x xs => exact ⟨x, hc.1, by simp, by simp⟩

theorem chain_addFront (nxt prv : Nat → Option Nat) (l : List Nat) (h t a first : Nat)
    (hc : Chain nxt prv h l t) (hn : (h :: (l ++ [t])).Nodup) (ha : a ∉ h :: (l ++ [t]))
    (hf : nxt h = some first) :
    Chain (Function.update (Function.update nxt a (some first)) h (some a))
      (Function.update (Function.update prv a (some h)) first (some a)) h (a :: l) t := by
  have hah : a ≠ h := fun e => ha (by rw [e]; exact List.mem_cons_self _ _)
  have hn1 := List.nodup_cons.1 hn
  have hfirst : first ∈ l ++ [t] := by
    obtain ⟨f2, e1, e2, _⟩ := chain_head nxt prv l h t hc
    rw [hf] at e1
    cases e1
    exact e2
  have haf : a ≠ first := fun e => ha (by rw [e]; exact List.mem_cons_of_mem _ hfirst)
  simp only [Chain]
  refine ⟨Function.update_same _ _ _, ?_, ?_⟩
  · rw [Function.update_noteq haf, Function.update_same]
  · cases l with
    | nil =>
      simp only [Chain] at hc ⊢
      rw [hf] at hc
      have hft : first = t := Option.some.inj hc.1
      refine ⟨?_, ?_⟩
      · rw [Function.update_noteq hah, Function.update_same, hft]
      · rw [← hft]; exact Function.update_same _ _ _
    | cons x xs =>
      simp only [Chain] at hc ⊢
      obtain ⟨c1, c2, c3⟩ := hc
      rw [hf] at c1
      have hfx : first = x := Option.some.inj c1
      have hn2 := List.nodup_cons.1 (show (x :: (xs ++ [t])).Nodup from hn1.2)
      refine ⟨?_, ?_, ?_⟩
      · rw [Function.update_noteq hah, Function.update_same, hfx]
      · rw [← hfx]; exact Function.update_same _ _ _
      · refine chain_frame nxt prv _ _ xs x t c3 ?_ ?_
        · intro y hy
          have hyl : y ∈ (x :: xs) ++ [t] := List.mem_append_left _ hy
          have hyh : y ≠ h := fun e => hn1.1 (e ▸ hyl)
          have hya : y ≠ a := fun e => ha (List.mem_cons_of_mem _ (e ▸ hyl))
          rw [Function.update_noteq hyh, Function.update_noteq hya]
        · intro y hy
          have hyl : y ∈ (x :: xs) ++ [t] := List.mem_cons_of_mem _ hy
          have hyf : y ≠ first := fun e => hn2.1 (by rw [← hfx, ← e]; exact hy)
          have hya : y ≠ a := fun e => ha (List.mem_cons_of_mem _ (e ▸ hyl))
          rw [Function.update_noteq hyf, Function.update_noteq hya]

theorem ListInv.valid_mem {c : LRU K V} {l : List Nat} (inv : ListInv c l) (a : Nat)
    (h : a ∈ c.head :: (l ++ [c.tail])) : a < c.nodes.length :=
  inv.valid a h

theorem unlink_spec (c : LRU K V) (l1 l2 : List Nat) (a : Nat)
    (inv : ListInv c (l1 ++ a :: l2)) :
    ∃ c1, c.unlink a = some c1 ∧ ListInv c1 (l1 ++ l2) ∧ c1.cache = c.cache ∧
      c1.capacity = c.capacity ∧ c1.head = c.head ∧ c1.tail = c.tail ∧
      c1.nodes.length = c.nodes.length ∧ entAt c1.nodes = entAt c.nodes := by
  obtain ⟨p, n, hp, hn, hpm, hnm, hchain⟩ :=
    chain_unlink (nextAt c.nodes) (prevAt c.nodes) a l2 c.tail l1 c.head inv.chain inv.nodup
  have hav : a < c.nodes.length := inv.valid a (by simp)
  have hpv : p < c.nodes.length := inv.valid p (by
    rcases List.mem_cons.1 hpm with e | e
    · rw [e]; exact List.mem_cons_self _ _
    · exact List.mem_cons_of_mem _ (List.mem_append_left _ (List.mem_append_left _ e)))
  have hnv : n < c.nodes.length := inv.valid n (by
    rcases List.mem_append.1 hnm with e | e
    · exact List.mem_cons_of_mem _
        (List.mem_append_left _ (List.mem_append_right _ (List.mem_cons_of_mem _ e)))
    · exact List.mem_cons_of_mem _ (List.mem_append_right _ e))
  obtain ⟨na, hna⟩ := get_of_lt c.nodes a hav
  have hnap : na.previous = some p := by rw [← prevAt_of_get _ _ _ hna]; exact hp
  have hnan : na.next = some n := by rw [← nextAt_of_get _ _ _ hna]; exact hn
  obtain ⟨nodes1, s1, len1, nx1, pv1, en1⟩ := setNext_spec c.nodes p na.next hpv
  obtain ⟨n1, hn1⟩ := get_of_lt nodes1 a (by rw [len1]; exact hav)
  have hn1n : n1.next = some n := by
    rw [← nextAt_of_get _ _ _ hn1, nx1, Function.update_apply]
    by_cases e : a = p
    · rw [if_pos e]; exact hnan
    · rw [if_neg e]; exact hn
  have hn1p : n1.previous = some p := by
    rw [← prevAt_of_get _ _ _ hn1, pv1]; exact hp
  obtain ⟨nodes2, s2, len2, nx2, pv2, en2⟩ := setPrevious_spec nodes1 n n1.previous
    (by rw [len1]; exact hnv)
  refine ⟨{ c with nodes := nodes2 }, ?_, ?_, rfl, rfl, rfl, rfl, by simp only; rw [len2, len1],
    by simp only; rw [en2, en1]⟩
  · unfold LRU.unlink
    rw [hna]
    simp only
    rw [hnap]
    simp only
    rw [s1]
    simp only
    rw [hn1]
    simp only
    rw [hn1n]
    simp only
    rw [s2]
  · have hsub : ∀ x, x ∈ c.head :: ((l1 ++ l2) ++ [c.tail]) →
        x ∈ c.head :: ((l1 ++ a :: l2) ++ [c.tail]) := by
      intro x hx
      simp only [List.mem_cons, List.mem_append, List.mem_singleton] at hx ⊢
      tauto
    constructor
    · intro x hx
      simp only
      rw [len2, len1]
      exact inv.valid x (hsub x hx)
    · have hn0 : (c.head :: ((l1 ++ a :: l2) ++ [c.tail])).Nodup := inv.nodup
      have hsl : List.Sublist (c.head :: ((l1 ++ l2) ++ [c.tail]))
          (c.head :: ((l1 ++ a :: l2) ++ [c.tail])) := by
        refine List.Sublist.cons₂ _ (List.Sublist.append ?_ (List.Sublist.refl _))
        exact List.Sublist.append (List.Sublist.refl _) (List.sublist_cons_self _ _)
      exact hn0.sublist hsl
    · simp only
      rw [nx2, pv2, nx1, pv1, hn1p, hnan]
      exact hchain
    · intro x hx
      simp only
      rw [en2, en1]
      exact inv.ents x (by
        simp only [List.mem_append, List.mem_cons] at hx ⊢
        tauto)

theorem addFront_spec (c : LRU K V) (l : List Nat) (a : Nat) (inv : ListInv c l)
    (ha : a ∉ c.head :: (l ++ [c.tail])) (hv : a < c.nodes.length)
    (he : ∃ e, entAt c.nodes a = some e) :
    ∃ c1, c.addFront a = some c1 ∧ ListInv c1 (a :: l) ∧ c1.cache = c.cache ∧
      c1.capacity = c.capacity ∧ c1.head = c.head ∧ c1.tail = c.tail ∧
      c1.nodes.length = c.nodes.length ∧ entAt c1.nodes = entAt c.nodes := by
  obtain ⟨first, hf, hfm, _⟩ :=
    chain_head (nextAt c.nodes) (prevAt c.nodes) l c.head c.tail inv.chain
  have hhv : c.head < c.nodes.length := inv.valid c.head (List.mem_cons_self _ _)
  have hfv : first < c.nodes.length := inv.valid first (List.mem_cons_of_mem _ hfm)
  have hah : a ≠ c.head := fun e => ha (by rw [e]; exact List.mem_cons_self _ _)
  obtain ⟨h, hh⟩ := get_of_lt c.nodes c.head hhv
  have hhn : h.next = some first := by rw [← nextAt_of_get _ _ _ hh]; exact hf
  obtain ⟨nodes1, s1, len1, nx1, pv1, en1⟩ := setNext_spec c.nodes a h.next hv
  obtain ⟨nodes2, s2, len2, nx2, pv2, en2⟩ := setPrevious_spec nodes1 a (some c.head)
    (by rw [len1]; exact hv)
  obtain ⟨h2, hh2⟩ := get_of_lt nodes2 c.head (by rw [len2, len1]; exact hhv)
  have hh2n : h2.next = some first := by
    rw [← nextAt_of_get _ _ _ hh2, nx2, nx1, Function.update_noteq (Ne.symm hah)]
    exact hf
  obtain ⟨nodes3, s3, len3, nx3, pv3, en3⟩ := setPrevious_spec nodes2 first (some a)
    (by rw [len2, len1]; exact hfv)
  obtain ⟨nodes4, s4, len4, nx4, pv4, en4⟩ := setNext_spec nodes3 c.head (some a)
    (by rw [len3, len2, len1]; exact hhv)
  refine ⟨{ c with nodes := nodes4 }, ?_, ?_, rfl, rfl, rfl, rfl,
    by simp only; rw [len4, len3, len2, len1], by simp only; rw [en4, en3, en2, en1]⟩
  · unfold LRU.addFront
    rw [hh]
    simp only
    rw [s1]
    simp only
    rw [s2]
    simp only
    rw [hh2]
    simp only
    rw [hh2n]
    simp only
    rw [s3]
    simp only
    rw [s4]
  · constructor
    · intro x hx
      simp only
      rw [len4, len3, len2, len1]
      simp only [List.cons_append, List.mem_cons] at hx
      rcases hx with e | e | e
      · rw [e]; exact hhv
      · rw [e]; exact hv
      · exact inv.valid x (List.mem_cons_of_mem _ e)
    · have hn0 : (c.head :: (l ++ [c.tail])).Nodup := inv.nodup
      have hn1 := List.nodup_cons.1 hn0
      show (c.head :: (a :: (l ++ [c.tail]))).Nodup
      refine List.nodup_cons.2 ⟨?_, List.nodup_cons.2 ⟨?_, hn1.2⟩⟩
      · intro hm
        rcases List.mem_cons.1 hm with e | e
        · exact hah e.symm
        · exact hn1.1 e
      · intro hm
        exact ha (List.mem_cons_of_mem _ hm)
    · simp only
      rw [nx4, pv4, nx3, pv3, nx2, pv2, nx1, pv1, hhn]
      exact chain_addFront _ _ l c.head c.tail a first inv.chain inv.nodup ha hf
    · intro x hx
      simp only
      rw [en4, en3, en2, en1]
      rcases List.mem_cons.1 hx with e | e
      · rw [e]; exact he
      · exact inv.ents x e

theorem valuesLoop_spec (c : LRU K V) : ∀ (l : List Nat) (p first : Nat) (fuel : Nat)
    (values : List V), Chain (nextAt c.nodes) (prevAt c.nodes) p l c.tail →
    (∀ a ∈ l, a ≠ c.tail) → nextAt c.nodes p = some first → l.length ≤ fuel →
    (∀ a ∈ l, ∃ e, entAt c.nodes a = some e) →
    ∃ es : List (entry K V), l.map (entAt c.nodes) = es.map some ∧
      valuesLoop c fuel first values = some (values ++ es.map entry.value) := by
  intro l
  induction l with
  | nil =>
    intro p first fuel values hc _ hf _ _
    simp only [Chain] at hc
    rw [hf] at hc
    have : first = c.tail := Option.some.inj hc.1
    refine ⟨[], rfl, ?_⟩
    cases fuel <;> simp [valuesLoop, this]
  | cons x xs ih =>
    intro p first fuel values hc hnt hf hfuel hents
    simp only [Chain] at hc
    obtain ⟨c1, _, c3⟩ := hc
    rw [hf] at c1
    have hfx : first = x := Option.some.inj c1
    subst hfx
    obtain ⟨f, rfl⟩ : ∃ f, fuel = f + 1 := ⟨fuel - 1, by
      simp only [List.length_cons] at hfuel; omega⟩
    obtain ⟨e, he⟩ := hents first (List.mem_cons_self _ _)
    obtain ⟨nx, hnx, _, _⟩ := chain_head _ _ xs first c.tail c3
    cases hg : c.nodes.get? first with
    | none => unfold entAt at he; rw [hg] at he; cases he
    | some n =>
      have hne : n.e = some e := by rw [← entAt_of_get _ _ _ hg]; exact he
      have hnn : n.next = some nx := by rw [← nextAt_of_get _ _ _ hg]; exact hnx
      obtain ⟨es, h1, h2⟩ := ih first nx f (values ++ [e.value]) c3
        (fun a ha => hnt a (List.mem_cons_of_mem _ ha)) hnx
        (by simp only [List.length_cons] at hfuel; omega)
        (fun a ha => hents a (List.mem_cons_of_mem _ ha))
      refine ⟨e :: es, by rw [List.map_cons, List.map_cons, he, h1], ?_⟩
      unfold valuesLoop
      rw [if_neg (hnt first (List.mem_cons_self _ _)), hg]
      simp only
      rw [hne, hnn]
      simp only
      rw [h2]
      simp

theorem mapGet_some (m : List (K × Nat)) (k : K) (a : Nat) (h : mapGet m k = some a) :
    (k, a) ∈ m := by
  induction m with
  | nil => simp [mapGet] at h
  | cons kv rest ih =>
    obtain ⟨k1, a1⟩ := kv
    simp only [mapGet] at h
    by_cases hk : k1 = k
    · rw [if_pos hk] at h
      cases h
      rw [hk]
      exact List.mem_cons_self _ _
    · rw [if_neg hk] at h
      exact List.mem_cons_of_mem _ (ih h)

theorem mapGet_none_iff (m : List (K × Nat)) (k : K) :
    mapGet m k = none ↔ k ∉ m.map Prod.fst := by
  induction m with
  | nil => simp [mapGet]
  | cons kv rest ih =>
    obtain ⟨k1, a1⟩ := kv
    simp only [mapGet, List.map_cons, List.mem_cons, not_or]
    by_cases hk : k1 = k
    · rw [if_pos hk]
      simp [hk]
    · rw [if_neg hk, ih]
      exact ⟨fun h => ⟨fun e => hk e.symm, h⟩, fun h => h.2⟩

theorem mapSet_absent (m : List (K × Nat)) (k : K) (a : Nat) (h : k ∉ m.map Prod.fst) :
    mapSet m k a = m ++ [(k, a)] := by
  induction m with
  | nil => rfl
  | cons kv rest ih =>
    obtain ⟨k1, a1⟩ := kv
    simp only [List.map_cons, List.mem_cons, not_or] at h
    simp only [mapSet]
    rw [if_neg (fun e => h.1 e.symm), ih h.2]
    rfl

theorem mapDelete_perm (m : List (K × Nat)) (k : K) (a : Nat)
    (hn : (m.map Prod.fst).Nodup) (hm : (k, a) ∈ m) :
    List.Perm m ((k, a) :: mapDelete m k) := by
  induction m with
  | nil => simp at hm
  | cons kv rest ih =>
    obtain ⟨k1, a1⟩ := kv
    simp only [List.map_cons, List.nodup_cons] at hn
    unfold mapDelete at ih ⊢
    by_cases hk : k1 = k
    · subst hk
      have hka : (k1, a) = (k1, a1) := by
        rcases List.mem_cons.1 hm with e | e
        · exact e
        · exact absurd (List.mem_map_of_mem Prod.fst e) hn.1
      have hall : rest.filter (fun kv => decide (kv.1 ≠ k1)) = rest := by
        rw [List.filter_eq_self]
        intro x hx
        have : x.1 ≠ k1 := fun e => hn.1 (e ▸ List.mem_map_of_mem Prod.fst hx)
        simp [this]
      rw [List.filter_cons, if_neg (by simp), hall, hka]
    · have hm2 : (k, a) ∈ rest := by
        rcases List.mem_cons.1 hm with e | e
        · exact absurd (congrArg Prod.fst e).symm hk
        · exact e
      rw [List.filter_cons, if_pos (by simp [hk])]
      exact ((ih hn.2 hm2).cons (k1, a1)).trans (List.Perm.swap _ _ _)

theorem chain_last (nxt prv : Nat → Option Nat) (t x : Nat) :
    ∀ (l : List Nat) (h : Nat), Chain nxt prv h (l ++ [x]) t → prv t = some x := by
  intro l
  induction l with
  | nil => intro h hc; simp only [List.nil_append, Chain] at hc; exact hc.2.2.2
  | cons y ys ih => intro h hc; simp only [List.cons_append, Chain] at hc; exact ih y hc.2.2

theorem keys_perm (c : LRU K V) (m : List (K × V)) (inv : LRUInv c m) :
    List.Perm ((c.cache.map Prod.fst).map some) ((m.map Prod.fst).map some) := by
  obtain ⟨l, _, hp, hm⟩ := inv.list
  have h1 : (c.cache.map Prod.snd).map (fun a => (entAt c.nodes a).map entry.key)
      = (c.cache.map Prod.fst).map some := by
    rw [List.map_map, List.map_map]
    apply List.map_congr_left
    intro kv hkv
    obtain ⟨e, he, hk⟩ := inv.keyAt kv.1 kv.2 hkv
    simp [he, hk]
  have h2 : l.map (fun a => (entAt c.nodes a).map entry.key) = (m.map Prod.fst).map some := by
    have : l.map (fun a => (entAt c.nodes a).map entry.key)
        = (l.map (entAt c.nodes)).map (fun o => o.map entry.key) := by
      rw [List.map_map]; rfl
    rw [this, hm, List.map_map, List.map_map]
    rfl
  rw [← h1, ← h2]
  exact hp.map _

theorem keys_nodup (c : LRU K V) (m : List (K × V)) (inv : LRUInv c m) :
    (m.map Prod.fst).Nodup := by
  have h1 : ((c.cache.map Prod.fst).map some).Nodup :=
    inv.keys.map (Option.some_injective K)
  exact List.Nodup.of_map _ (((keys_perm c m inv).nodup_iff).1 h1)

theorem mem_keys_iff (c : LRU K V) (m : List (K × V)) (inv : LRUInv c m) (k : K) :
    k ∈ m.map Prod.fst ↔ k ∈ c.cache.map Prod.fst := by
  have := (keys_perm c m inv).mem_iff (a := some k)
  simp only [List.mem_map, Option.some.injEq, exists_eq_right] at this ⊢
  exact this.symm

theorem length_eq (c : LRU K V) (m : List (K × V)) (inv : LRUInv c m) :
    m.length = c.cache.length := by
  have := (keys_perm c m inv).length_eq
  simpa using this.symm

theorem find_absent (m : List (K × V)) (k : K) (h : k ∉ m.map Prod.fst) :
    m.find? (fun kv => decide (kv.1 = k)) = none := by
  rw [List.find?_eq_none]
  intro x hx
  have : x.1 ≠ k := fun e => h (e ▸ List.mem_map_of_mem Prod.fst hx)
  simp [this]

theorem filter_absent (m : List (K × V)) (k : K) (h : k ∉ m.map Prod.fst) :
    m.filter (fun kv => decide (kv.1 ≠ k)) = m := by
  rw [List.filter_eq_self]
  intro x hx
  have : x.1 ≠ k := fun e => h (e ▸ List.mem_map_of_mem Prod.fst hx)
  simp [this]

theorem find_split (m1 m2 : List (K × V)) (k : K) (v : V) (h1 : k ∉ m1.map Prod.fst) :
    (m1 ++ (k, v) :: m2).find? (fun kv => decide (kv.1 = k)) = some (k, v) := by
  rw [List.find?_append, find_absent m1 k h1]
  simp

theorem filter_split (m1 m2 : List (K × V)) (k : K) (v : V) (h1 : k ∉ m1.map Prod.fst)
    (h2 : k ∉ m2.map Prod.fst) :
    (m1 ++ (k, v) :: m2).filter (fun kv => decide (kv.1 ≠ k)) = m1 ++ m2 := by
  rw [List.filter_append, filter_absent m1 k h1, List.filter_cons, if_neg (by simp),
    filter_absent m2 k h2]

theorem split_at (c : LRU K V) (m : List (K × V)) (inv : LRUInv c m) (k : K) (a : Nat)
    (h : mapGet c.cache k = some a) :
    ∃ l1 l2 m1 m2 v, ListInv c (l1 ++ a :: l2) ∧
      (c.cache.map Prod.snd).Perm (l1 ++ a :: l2) ∧ m = m1 ++ (k, v) :: m2 ∧
      l1.map (entAt c.nodes) = m1.map (fun kv => some { key := kv.1, value := kv.2 }) ∧
      l2.map (entAt c.nodes) = m2.map (fun kv => some { key := kv.1, value := kv.2 }) ∧
      entAt c.nodes a = some { key := k, value := v } ∧
      k ∉ m1.map Prod.fst ∧ k ∉ m2.map Prod.fst := by
  obtain ⟨l, li, hp, hm⟩ := inv.list
  have hmem := mapGet_some _ _ _ h
  have hal : a ∈ l := hp.mem_iff.1 (List.mem_map_of_mem Prod.snd hmem)
  obtain ⟨l1, l2, rfl⟩ := List.append_of_mem hal
  rw [List.map_append, List.map_cons] at hm
  obtain ⟨m1, mr, e1, e2, e3⟩ := List.map_eq_append_iff.1 hm.symm
  obtain ⟨kv, m2, e4, e5, e6⟩ := List.map_eq_cons_iff.1 e3
  obtain ⟨e, he, hk⟩ := inv.keyAt k a hmem
  have hkv : kv.1 = k := by
    rw [he] at e5
    have := Option.some.inj e5
    rw [← hk, ← this]
  obtain ⟨k1, v⟩ := kv
  simp only at hkv
  subst hkv
  subst e4
  subst e1
  have hnd := keys_nodup c _ inv
  rw [List.map_append, List.map_cons, List.nodup_append] at hnd
  have hnd2 := List.nodup_cons.1 hnd.2.1
  refine ⟨l1, l2, m1, m2, v, li, hp, rfl, e2.symm, e6.symm, e5.symm, ?_, hnd2.1⟩
  intro hin
  exact hnd.2.2 hin (List.mem_cons_self _ _)

theorem touch_spec (c : LRU K V) (l1 l2 : List Nat) (a : Nat)
    (inv : ListInv c (l1 ++ a :: l2)) :
    ∃ c2 n, (c.unlink a).bind (fun c1 => c1.addFront a) = some c2 ∧
      ListInv c2 (a :: (l1 ++ l2)) ∧ c2.cache = c.cache ∧ c2.capacity = c.capacity ∧
      entAt c2.nodes = entAt c.nodes ∧ c2.nodes.get? a = some n := by
  obtain ⟨c1, u1, u2, u3, u4, u5, u6, u7, u8⟩ := unlink_spec c l1 l2 a inv
  have hn0 : (c.head :: ((l1 ++ a :: l2) ++ [c.tail])).Nodup := inv.nodup
  have hav : a < c.nodes.length := inv.valid a (by simp)
  have ha : a ∉ c1.head :: ((l1 ++ l2) ++ [c1.tail]) := by
    rw [u5, u6]
    have hh := List.nodup_cons.1 hn0
    have h3 : ((l1 ++ [c.tail]) ++ a :: l2).Nodup ∨ True := Or.inr trivial
    intro hm
    rcases List.mem_cons.1 hm with e | e
    · exact hh.1 (by rw [← e]; simp)
    · have hnd := hh.2
      rw [List.append_assoc, List.nodup_append] at hnd
      have hnd2 := List.nodup_cons.1 (show (a :: (l2 ++ [c.tail])).Nodup from hnd.2.1)
      rcases List.mem_append.1 e with e2 | e2
      · rcases List.mem_append.1 e2 with e3 | e3
        · exact hnd.2.2 e3 (List.mem_cons_self _ _)
        · exact hnd2.1 (List.mem_append_left _ e3)
      · exact hnd2.1 (List.mem_append_right _ e2)
  obtain ⟨e, he⟩ := inv.ents a (by simp)
  obtain ⟨c2, a1, a2, a3, a4, a5, a6, a7, a8⟩ := addFront_spec c1 (l1 ++ l2) a u2 ha
    (by rw [u7]; exact hav) ⟨e, by rw [u8]; exact he⟩
  obtain ⟨n, hn⟩ := get_of_lt c2.nodes a (by rw [a7, u7]; exact hav)
  refine ⟨c2, n, by rw [u1]; exact a1, a2, by rw [a3, u3], by rw [a4, u4], by rw [a8, u8], hn⟩

theorem get_spec [Inhabited V] (c : LRU K V) (m : List (K × V)) (inv : LRUInv c m) (key : K) :
    ∃ r c1, c.Get key = some (r, c1) ∧ LRUInv c1 (modelGet m key) ∧
      c1.capacity = c.capacity ∧
      r = (match m.find? (fun kv => decide (kv.1 = key)) with
        | some kv => (kv.2, true)
        | none => (default, false)) := by
  cases hg : mapGet c.cache key with
  | none =>
    have hk : key ∉ m.map Prod.fst := by
      rw [mem_keys_iff c m inv]; exact (mapGet_none_iff _ _).1 hg
    have hf := find_absent m key hk
    refine ⟨(default, false), c, ?_, ?_, rfl, ?_⟩
    · unfold LRU.Get; rw [hg]
    · unfold modelGet; rw [hf]; exact inv
    · rw [hf]
  | some a =>
    obtain ⟨l1, l2, m1, m2, v, li, hp, hm, e1, e2, e3, k1, k2⟩ := split_at c m inv key a hg
    obtain ⟨c2, n, t1, t2, t3, t4, t5, t6⟩ := touch_spec c l1 l2 a li
    have hne : n.e = some { key := key, value := v } := by
      rw [← entAt_of_get _ _ _ t6, t5]; exact e3
    have hf : m.find? (fun kv => decide (kv.1 = key)) = some (key, v) := by
      rw [hm]; exact find_split m1 m2 key v k1
    have hfl : m.filter (fun kv => decide (kv.1 ≠ key)) = m1 ++ m2 := by
      rw [hm]; exact filter_split m1 m2 key v k1 k2
    refine ⟨(v, true), c2, ?_, ?_, t4, by rw [hf]⟩
    · unfold LRU.Get
      rw [hg]
      simp only
      cases hu : c.unlink a with
      | none => rw [hu] at t1; cases t1
      | some c1 =>
        rw [hu] at t1
        have t1b : c1.addFront a = some c2 := t1
        simp only
        rw [t1b]
        simp only
        rw [t6]
        simp only
        rw [hne]
    · unfold modelGet
      rw [hf, hfl]
      refine ⟨⟨a :: (l1 ++ l2), t2, ?_, ?_⟩, (by rw [t3]; exact inv.keys), ?_,
        (by rw [t4]; exact inv.capLow), (by rw [t3, t4]; exact inv.capHigh)⟩
      · rw [t3]
        exact hp.trans List.perm_middle
      · rw [t5, List.map_cons, List.map_append, e1, e2, e3, List.map_cons, List.map_append]
      · intro k b hkb
        rw [t3] at hkb
        rw [t5]
        exact inv.keyAt k b hkb

theorem get_append (nodes : List (node K V)) (extra : node K V) (x : Nat)
    (h : x < nodes.length) : (nodes ++ [extra]).get? x = nodes.get? x := by
  rw [List.get?_eq_getElem?, List.get?_eq_getElem?, List.getElem?_append_left h]

theorem get_append_new (nodes : List (node K V)) (extra : node K V) :
    (nodes ++ [extra]).get? nodes.length = some extra := by
  rw [List.get?_eq_getElem?]
  simp

theorem valid_of_ent (nodes : List (node K V)) (a : Nat) (e : entry K V)
    (h : entAt nodes a = some e) : a < nodes.length := by
  cases hg : nodes.get? a with
  | none => unfold entAt at h; rw [hg] at h; cases h
  | some n => exact lt_of_get nodes a n hg

theorem listInv_congr (c c1 : LRU K V) (l : List Nat) (inv : ListInv c l)
    (h1 : c1.head = c.head) (h2 : c1.tail = c.tail)
    (h3 : ∀ x, x < c.nodes.length → x < c1.nodes.length)
    (h4 : ∀ x, x < c.nodes.length → nextAt c1.nodes x = nextAt c.nodes x)
    (h5 : ∀ x, x < c.nodes.length → prevAt c1.nodes x = prevAt c.nodes x)
    (h6 : ∀ x ∈ l, ∃ e, entAt c1.nodes x = some e) : ListInv c1 l := by
  constructor
  · intro x hx
    rw [h1, h2] at hx
    exact h3 x (inv.valid x hx)
  · rw [h1, h2]; exact inv.nodup
  · rw [h1, h2]
    refine chain_frame _ _ _ _ l c.head c.tail inv.chain ?_ ?_
    · intro y hy
      exact h4 y (inv.valid y (by
        rcases List.mem_cons.1 hy with e | e
        · rw [e]; exact List.mem_cons_self _ _
        · exact List.mem_cons_of_mem _ (List.mem_append_left _ e)))
    · intro y hy
      exact h5 y (inv.valid y (List.mem_cons_of_mem _ hy))
  · exact h6

theorem insert_spec (c : LRU K V) (m : List (K × V)) (inv : LRUInv c m) (key : K) (value : V)
    (hk : key ∉ c.cache.map Prod.fst) (hlen : (c.cache.length : Int) < c.capacity) :
    ∃ c1, LRU.addFront
        { c with
          nodes := c.nodes ++ [newNode key value],
          cache := mapSet c.cache key c.nodes.length }
        c.nodes.length = some c1 ∧
      LRUInv c1 ((key, value) :: m) ∧ c1.capacity = c.capacity := by
  obtain ⟨l, li, hp, hm⟩ := inv.list
  have hsame : ∀ x, x < c.nodes.length →
      (c.nodes ++ [newNode key value]).get? x = c.nodes.get? x :=
    fun x hx => get_append c.nodes _ x hx
  have hent : ∀ x, x < c.nodes.length →
      entAt (c.nodes ++ [newNode key value]) x = entAt c.nodes x := by
    intro x hx; unfold entAt; rw [hsame x hx]
  have li0 : ListInv ({ c with
      nodes := c.nodes ++ [newNode key value],
      cache := mapSet c.cache key c.nodes.length } : LRU K V) l := by
    refine listInv_congr c _ l li rfl rfl ?_ ?_ ?_ ?_
    · intro x hx
      simp only [List.length_append, List.length_singleton]
      omega
    · intro x hx; simp only; unfold nextAt; rw [hsame x hx]
    · intro x hx; simp only; unfold prevAt; rw [hsame x hx]
    · intro x hx
      simp only
      rw [hent x (li.valid x (List.mem_cons_of_mem _ (List.mem_append_left _ hx)))]
      exact li.ents x hx
  have hnew : entAt (c.nodes ++ [newNode key value]) c.nodes.length
      = some { key := key, value := value } := by
    unfold entAt; rw [get_append_new]; rfl
  obtain ⟨c1, a1, a2, a3, a4, a5, a6, a7, a8⟩ := addFront_spec _ l c.nodes.length li0
    (by
      intro hmem
      exact absurd (li.valid _ hmem) (lt_irrefl _))
    (by simp only [List.length_append, List.length_singleton]; omega)
    ⟨_, hnew⟩
  simp only at a3 a4 a8
  refine ⟨c1, a1, ?_, a4⟩
  have hcache : c1.cache = c.cache ++ [(key, c.nodes.length)] := by
    rw [a3, mapSet_absent _ _ _ hk]
  refine ⟨⟨c.nodes.length :: l, a2, ?_, ?_⟩, ?_, ?_, (by rw [a4]; exact inv.capLow), ?_⟩
  · rw [hcache, List.map_append]
    exact (List.perm_append_comm).trans (List.Perm.cons _ hp)
  · rw [a8, List.map_cons, List.map_cons, hnew, ← hm]
    congr 1
    apply List.map_congr_left
    intro x hx
    exact hent x (li.valid x (List.mem_cons_of_mem _ (List.mem_append_left _ hx)))
  · rw [hcache, List.map_append, List.nodup_append]
    refine ⟨inv.keys, List.nodup_singleton _, ?_⟩
    intro x hx hx2
    simp only [List.map_cons, List.map_nil, List.mem_singleton] at hx2
    exact hk (hx2 ▸ hx)
  · intro k b hkb
    rw [hcache] at hkb
    rw [a8]
    rcases List.mem_append.1 hkb with e | e
    · obtain ⟨e1, he1, hk1⟩ := inv.keyAt k b e
      exact ⟨e1, by rw [hent b (valid_of_ent _ _ _ he1)]; exact he1, hk1⟩
    · simp only [List.mem_singleton, Prod.mk.injEq] at e
      rw [e.1, e.2]
      exact ⟨_, hnew, rfl⟩
  · rw [hcache, a4]
    simp only [List.length_append, List.length_singleton, Nat.cast_add, Nat.cast_one]
    omega

theorem evict_spec (c : LRU K V) (m : List (K × V)) (inv : LRUInv c m)
    (hfull : c.capacity ≤ (c.cache.length : Int)) :
    ∃ c2 m1 kv, m = m1 ++ [kv] ∧ c.evict = some c2 ∧ LRUInv c2 m1 ∧
      c2.capacity = c.capacity ∧ c2.cache = mapDelete c.cache kv.1 ∧
      (c2.cache.length : Int) < c2.capacity := by
  obtain ⟨l, li, hp, hm⟩ := inv.list
  have hl : l.length = c.cache.length := by
    have := hp.length_eq
    simpa using this.symm
  have hcap := inv.capLow
  have hne : l ≠ [] := by
    intro e
    rw [e] at hl
    simp only [List.length_nil] at hl
    rw [← hl] at hfull
    simp only [Nat.cast_zero] at hfull
    omega
  obtain ⟨l1, lru, rfl⟩ : ∃ l1 lru, l = l1 ++ [lru] := by
    rcases List.eq_nil_or_concat l with e | ⟨l1, lru, e⟩
    · exact absurd e hne
    · exact ⟨l1, lru, by rw [e, List.concat_eq_append]⟩
  rw [List.map_append] at hm
  obtain ⟨m1, mr, e1, e2, e3⟩ := List.map_eq_append_iff.1 hm.symm
  obtain ⟨kv, m2, e4, e5, e6⟩ := List.map_eq_cons_iff.1 e3
  have hm2 : m2 = [] := by
    simp only [List.map_nil] at e6
    exact List.map_eq_nil_iff.1 e6
  subst hm2
  subst e4
  subst e1
  have htv : c.tail < c.nodes.length :=
    li.valid c.tail (List.mem_cons_of_mem _ (List.mem_append_right _ (List.mem_singleton_self _)))
  obtain ⟨t, ht⟩ := get_of_lt c.nodes c.tail htv
  have htp : t.previous = some lru := by
    rw [← prevAt_of_get _ _ _ ht]
    exact chain_last _ _ c.tail lru l1 c.head li.chain
  obtain ⟨c1, u1, u2, u3, u4, u5, u6, u7, u8⟩ := unlink_spec c l1 [] lru li
  rw [List.append_nil] at u2
  have hlv : lru < c.nodes.length := li.valid lru (by simp)
  obtain ⟨n, hn⟩ := get_of_lt c1.nodes lru (by rw [u7]; exact hlv)
  have hne2 : n.e = some { key := kv.1, value := kv.2 } := by
    rw [← entAt_of_get _ _ _ hn, u8]
    simpa using e5.symm
  have hmem : (kv.1, lru) ∈ c.cache := by
    have : lru ∈ c.cache.map Prod.snd := hp.mem_iff.2 (by simp)
    obtain ⟨⟨k, b⟩, hkb, hb⟩ := List.mem_map.1 this
    simp only at hb
    subst hb
    obtain ⟨e, he, hk⟩ := inv.keyAt k b hkb
    have h2 : entAt c.nodes b = some { key := kv.1, value := kv.2 } := by
      simpa using e5.symm
    rw [h2] at he
    have := Option.some.inj he
    rw [← this] at hk
    simp only at hk
    rw [hk]
    exact hkb
  have hperm := mapDelete_perm c.cache kv.1 lru inv.keys hmem
  have hlen : (mapDelete c.cache kv.1).length + 1 = c.cache.length := by
    have := hperm.length_eq
    simp only [List.length_cons] at this
    omega
  refine ⟨{ c1 with cache := mapDelete c1.cache kv.1 }, m1, kv, rfl, ?_, ?_, u4,
    by simp only; rw [u3], ?_⟩
  · unfold LRU.evict
    rw [ht]
    simp only
    rw [htp]
    simp only
    rw [u1]
    simp only
    rw [hn]
    simp only
    rw [hne2]
  · refine ⟨⟨l1, ?_, ?_, ?_⟩, ?_, ?_, (by simp only; rw [u4]; exact inv.capLow), ?_⟩
    · exact ⟨u2.valid, u2.nodup, u2.chain, u2.ents⟩
    · simp only
      rw [u3]
      have h1 : List.Perm (lru :: (mapDelete c.cache kv.1).map Prod.snd) (lru :: l1) := by
        have h2 := (hperm.map Prod.snd).symm.trans hp
        rw [List.map_cons] at h2
        exact h2.trans (List.perm_append_comm)
      exact h1.cons_inv
    · simp only
      rw [u8]
      exact e2.symm
    · simp only
      rw [u3]
      exact inv.keys.sublist ((List.filter_sublist _).map Prod.fst)
    · intro k b hkb
      simp only at hkb ⊢
      rw [u3] at hkb
      rw [u8]
      exact inv.keyAt k b (List.mem_filter.1 hkb).1
    · simp only
      rw [u3, u4]
      have := inv.capHigh
      omega
  · simp only
    rw [u3, u4]
    have := inv.capHigh
    omega

theorem put_spec (c : LRU K V) (m : List (K × V)) (inv : LRUInv c m) (key : K) (value : V) :
    ∃ c1, c.Put key value = some c1 ∧ LRUInv c1 (modelPut c.capacity m key value) ∧
      c1.capacity = c.capacity := by
  cases hg : mapGet c.cache key with
  | some a =>
    obtain ⟨l1, l2, m1, m2, v, li, hp, hm, e1, e2, e3, k1, k2⟩ := split_at c m inv key a hg
    obtain ⟨nodes1, s1, len1, nx1, pv1, en1⟩ := setValue_spec c.nodes a value _ e3
    have hn0 : (c.head :: ((l1 ++ a :: l2) ++ [c.tail])).Nodup := li.nodup
    have hnl : (l1 ++ a :: l2).Nodup :=
      (List.nodup_append.1 (List.nodup_cons.1 hn0).2).1
    have hnl2 := List.nodup_append.1 hnl
    have ha1 : a ∉ l1 := fun h => hnl2.2.2 h (List.mem_cons_self _ _)
    have ha2 : a ∉ l2 := (List.nodup_cons.1 hnl2.2.1).1
    have li0 : ListInv ({ c with nodes := nodes1 } : LRU K V) (l1 ++ a :: l2) := by
      refine listInv_congr c _ _ li rfl rfl ?_ ?_ ?_ ?_
      · intro x hx; simp only; rw [len1]; exact hx
      · intro x _; simp only; rw [nx1]
      · intro x _; simp only; rw [pv1]
      · intro x hx
        simp only
        rw [en1, Function.update_apply]
        by_cases hxa : x = a
        · rw [if_pos hxa]; exact ⟨_, rfl⟩
        · rw [if_neg hxa]; exact li.ents x hx
    obtain ⟨c2, n, t1, t2, t3, t4, t5, t6⟩ := touch_spec _ l1 l2 a li0
    simp only at t3 t4 t5
    have hf : m.find? (fun kv => decide (kv.1 = key)) = some (key, v) := by
      rw [hm]; exact find_split m1 m2 key v k1
    have hfl : m.filter (fun kv => decide (kv.1 ≠ key)) = m1 ++ m2 := by
      rw [hm]; exact filter_split m1 m2 key v k1 k2
    refine ⟨c2, ?_, ?_, t4⟩
    · unfold LRU.Put
      rw [hg]
      simp only
      rw [s1]
      simp only
      cases hu : LRU.unlink ({ c with nodes := nodes1 } : LRU K V) a with
      | none => rw [hu] at t1; cases t1
      | some c1 =>
        rw [hu] at t1
        exact t1
    · unfold modelPut
      rw [hf, hfl]
      refine ⟨⟨a :: (l1 ++ l2), t2, ?_, ?_⟩, (by rw [t3]; exact inv.keys), ?_,
        (by rw [t4]; exact inv.capLow), (by rw [t3, t4]; exact inv.capHigh)⟩
      · rw [t3]
        exact hp.trans List.perm_middle
      · rw [t5, en1, List.map_cons, List.map_append, List.map_cons, List.map_append,
          Function.update_same, ← e1, ← e2]
        congr 2
        · apply List.map_congr_left
          intro x hx
          have hxa : x ≠ a := fun e => ha1 (by rw [← e]; exact hx)
          exact Function.update_noteq hxa _ _
        · apply List.map_congr_left
          intro x hx
          have hxa : x ≠ a := fun e => ha2 (by rw [← e]; exact hx)
          exact Function.update_noteq hxa _ _
      · intro k b hkb
        rw [t3] at hkb
        rw [t5, en1, Function.update_apply]
        obtain ⟨e, he, hk⟩ := inv.keyAt k b hkb
        by_cases hba : b = a
        · rw [if_pos hba]
          rw [hba, e3] at he
          have := Option.some.inj he
          rw [← this] at hk
          exact ⟨_, rfl, hk⟩
        · rw [if_neg hba]
          exact ⟨e, he, hk⟩
  | none =>
    have hkc : key ∉ c.cache.map Prod.fst := (mapGet_none_iff _ _).1 hg
    have hkm : key ∉ m.map Prod.fst := by rw [mem_keys_iff c m inv]; exact hkc
    have hf := find_absent m key hkm
    have hml := length_eq c m inv
    by_cases hfull : c.capacity ≤ (c.cache.length : Int)
    · obtain ⟨c2, m1, kv, e1, e2, e3, e4, e5, e6⟩ := evict_spec c m inv hfull
      have hk2 : key ∉ c2.cache.map Prod.fst := by
        rw [e5]
        intro h
        exact hkc ((List.filter_sublist _).map Prod.fst |>.subset h)
      obtain ⟨c3, i1, i2, i3⟩ := insert_spec c2 m1 e3 key value hk2 e6
      refine ⟨c3, ?_, ?_, by rw [i3, e4]⟩
      · unfold LRU.Put
        rw [hg]
        simp only
        rw [if_pos (by exact hfull), e2]
        exact i1
      · unfold modelPut
        rw [hf]
        simp only
        rw [if_pos (by rw [hml]; exact hfull), e1, List.dropLast_concat]
        exact i2
    · obtain ⟨c3, i1, i2, i3⟩ := insert_spec c m inv key value hkc (by omega)
      refine ⟨c3, ?_, ?_, i3⟩
      · unfold LRU.Put
        rw [hg]
        simp only
        rw [if_neg (by exact hfull)]
        exact i1
      · unfold modelPut
        rw [hf]
        simp only
        rw [if_neg (by rw [hml]; exact hfull)]
        exact i2

theorem newLRU_inv (capacity : Int) : LRUInv (NewLRU capacity : LRU K V) [] := by
  refine ⟨⟨[], ?_, by simp [NewLRU], rfl⟩, by simp [NewLRU], ?_, ?_, ?_⟩
  · refine ⟨?_, by simp [NewLRU], ?_, by simp⟩
    · intro a ha
      have h01 : a = 0 ∨ a = 1 := by simpa [NewLRU] using ha
      rcases h01 with e | e <;> simp [NewLRU, e]
    · simp [Chain, NewLRU, nextAt, prevAt]
  · intro k a h
    simp [NewLRU] at h
  · simp only [NewLRU]
    split <;> omega
  · simp only [NewLRU, List.length_nil, Nat.cast_zero]
    split <;> omega

theorem newLRU_capacity (capacity : Int) :
    (NewLRU capacity : LRU K V).capacity = if capacity ≤ 0 then 1 else capacity := rfl

theorem run_spec [Inhabited V] : ∀ (calls : List (Call K V)) (c : LRU K V)
    (m : List (K × V)) (touched : List K), LRUInv c m →
    ∃ c1, c.run calls touched = some (c1, (modelRun m c.capacity calls touched).2) ∧
      LRUInv c1 (modelRun m c.capacity calls touched).1 ∧ c1.capacity = c.capacity := by
  intro calls
  induction calls with
  | nil => intro c m touched inv; exact ⟨c, rfl, inv, rfl⟩
  | cons call rest ih =>
    intro c m touched inv
    cases call with
    | put key value =>
      obtain ⟨c1, p1, p2, p3⟩ := put_spec c m inv key value
      obtain ⟨c2, r1, r2, r3⟩ := ih c1 _ (key :: touched) p2
      rw [p3] at r1 r2
      refine ⟨c2, ?_, r2, by rw [r3, p3]⟩
      simp only [LRU.run, modelRun]
      rw [p1]
      exact r1
    | get key =>
      obtain ⟨r, c1, g1, g2, g3, g4⟩ := get_spec c m inv key
      have hflag : r.2 = (m.find? (fun kv => decide (kv.1 = key))).isSome := by
        rw [g4]
        cases m.find? (fun kv => decide (kv.1 = key)) <;> rfl
      obtain ⟨c2, r1, r2, r3⟩ := ih c1 _
        (if (m.find? (fun kv => decide (kv.1 = key))).isSome then key :: touched else touched)
        g2
      rw [g3] at r1 r2
      refine ⟨c2, ?_, r2, by rw [r3, g3]⟩
      simp only [LRU.run, modelRun]
      rw [g1]
      simp only
      rw [hflag]
      exact r1

theorem values_spec (c : LRU K V) (m : List (K × V)) (inv : LRUInv c m) (fuel : Nat)
    (hf : m.length ≤ fuel) : c.Values fuel = some (m.map Prod.snd) := by
  obtain ⟨l, li, hp, hm⟩ := inv.list
  obtain ⟨first, h1, _, _⟩ := chain_head _ _ l c.head c.tail li.chain
  have hhv : c.head < c.nodes.length := li.valid c.head (List.mem_cons_self _ _)
  obtain ⟨h, hh⟩ := get_of_lt c.nodes c.head hhv
  have hhn : h.next = some first := by rw [← nextAt_of_get _ _ _ hh]; exact h1
  have hlen : l.length = m.length := by
    have := congrArg List.length hm
    simpa using this
  have hnt : ∀ a ∈ l, a ≠ c.tail := by
    intro a ha e
    have hn0 : (c.head :: (l ++ [c.tail])).Nodup := li.nodup
    have := List.nodup_append.1 (List.nodup_cons.1 hn0).2
    exact this.2.2 ha (by rw [e]; exact List.mem_singleton_self _)
  obtain ⟨es, e1, e2⟩ := valuesLoop_spec c l c.head first fuel [] li.chain hnt h1
    (by omega) li.ents
  have hes : es = m.map (fun kv => ({ key := kv.1, value := kv.2 } : entry K V)) := by
    rw [hm] at e1
    have : (m.map (fun kv => ({ key := kv.1, value := kv.2 } : entry K V))).map some
        = es.map some := by
      rw [← e1, List.map_map]; rfl
    exact (List.map_injective_iff.2 (Option.some_injective _) this).symm
  unfold LRU.Values
  rw [hh]
  simp only
  rw [hhn]
  simp only
  rw [e2, hes, List.nil_append, List.map_map]
  rfl

theorem len_spec (c : LRU K V) (m : List (K × V)) (inv : LRUInv c m) :
    c.Len = (m.length : Int) := by
  unfold LRU.Len
  rw [length_eq c m inv]

theorem stored_iff (c : LRU K V) (m : List (K × V)) (inv : LRUInv c m) (k : K) :
    mapGet c.cache k ≠ none ↔ k ∈ m.map Prod.fst := by
  rw [mem_keys_iff c m inv, Ne, mapGet_none_iff, not_not]

theorem lastPut_append (l1 : List (Call K V)) : ∀ (l2 : List (Call K V)) (key : K),
    lastPut (l1 ++ l2) key = match lastPut l2 key with
      | some v => some v
      | none => lastPut l1 key := by
  induction l1 with
  | nil => intro l2 key; simp only [List.nil_append, lastPut]; cases lastPut l2 key <;> rfl
  | cons call rest ih =>
    intro l2 key
    cases call with
    | put k value =>
      rw [List.cons_append]
      simp only [lastPut]
      rw [ih]
      cases lastPut l2 key <;> rfl
    | get k =>
      rw [List.cons_append]
      simp only [lastPut]
      exact ih l2 key

theorem modelInv_front (m m1 : List (K × V)) (touched : List K) (done : List (Call K V))
    (call : Call K V) (key : K) (value : V) (inv : ModelInv m touched done)
    (hs : List.Sublist m1 m) (hk : key ∉ m1.map Prod.fst)
    (hv : lastPut (done ++ [call]) key = some value)
    (hold : ∀ k, k ≠ key → lastPut (done ++ [call]) k = lastPut done k) :
    ModelInv ((key, value) :: m1) (key :: touched) (done ++ [call]) := by
  have hsk : List.Sublist (m1.map Prod.fst) (m.map Prod.fst) := hs.map Prod.fst
  have hne : ∀ k ∈ m1.map Prod.fst, key ≠ k := fun k hk2 e => hk (e ▸ hk2)
  constructor
  · rw [List.map_cons, List.nodup_cons]
    exact ⟨hk, inv.nodup.sublist hsk⟩
  · intro k hk2
    rw [List.map_cons, List.mem_cons] at hk2
    rcases hk2 with e | e
    · rw [e]; exact List.mem_cons_self _ _
    · exact List.mem_cons_of_mem _ (inv.touchedAll k (hsk.subset e))
  · rw [List.map_cons, List.pairwise_cons]
    constructor
    · intro k hk2
      rw [List.indexOf_cons_self, List.indexOf_cons_ne _ (hne k hk2)]
      exact Nat.succ_pos _
    · refine List.Pairwise.imp_of_mem ?_ (inv.order.sublist hsk)
      intro a b ha hb hab
      rw [List.indexOf_cons_ne _ (hne a ha), List.indexOf_cons_ne _ (hne b hb)]
      exact Nat.succ_lt_succ hab
  · intro kv hkv
    rcases List.mem_cons.1 hkv with e | e
    · rw [e]; exact hv
    · have hkk : kv.1 ≠ key := fun e2 => hk (e2 ▸ List.mem_map_of_mem Prod.fst e)
      rw [hold kv.1 hkk]
      exact inv.values kv (hs.subset e)

theorem modelInv_put (capacity : Int) (m : List (K × V)) (touched : List K)
    (done : List (Call K V)) (key : K) (value : V) (inv : ModelInv m touched done) :
    ModelInv (modelPut capacity m key value) (key :: touched)
      (done ++ [Call.put key value]) := by
  have hv : lastPut (done ++ [Call.put key value]) key = some value := by
    rw [lastPut_append]; simp [lastPut]
  have hold : ∀ k, k ≠ key → lastPut (done ++ [Call.put key value]) k = lastPut done k := by
    intro k hk
    rw [lastPut_append]
    have hne : ¬ key = k := fun e => hk e.symm
    simp [lastPut, hne]
  have hfilter : key ∉ (m.filter (fun kv => decide (kv.1 ≠ key))).map Prod.fst := by
    intro h
    obtain ⟨kv, hkv, e⟩ := List.mem_map.1 h
    have := (List.mem_filter.1 hkv).2
    simp [e] at this
  unfold modelPut
  cases hf : m.find? (fun kv => decide (kv.1 = key)) with
  | some kv =>
    exact modelInv_front m _ touched done _ key value inv (List.filter_sublist _) hfilter hv hold
  | none =>
    have hk : key ∉ m.map Prod.fst := by
      intro h
      obtain ⟨kv, hkv, e⟩ := List.mem_map.1 h
      have := List.find?_eq_none.1 hf kv hkv
      simp [e] at this
    simp only
    split
    · exact modelInv_front m _ touched done _ key value inv (List.dropLast_sublist _)
        (fun h => hk (((List.dropLast_sublist m).map Prod.fst).subset h)) hv hold
    · exact modelInv_front m _ touched done _ key value inv (List.Sublist.refl _) hk hv hold

theorem modelInv_get (m : List (K × V)) (touched : List K) (done : List (Call K V)) (key : K)
    (inv : ModelInv m touched done) :
    ModelInv (modelGet m key)
      (if (m.find? (fun kv => decide (kv.1 = key))).isSome then key :: touched else touched)
      (done ++ [Call.get key]) := by
  have hold : ∀ k, lastPut (done ++ [Call.get key]) k = lastPut done k := by
    intro k
    rw [lastPut_append]
    simp [lastPut]
  unfold modelGet
  cases hf : m.find? (fun kv => decide (kv.1 = key)) with
  | none =>
    simp only [Option.isSome_none, Bool.false_eq_true, if_false]
    exact ⟨inv.nodup, inv.touchedAll, inv.order, fun kv hkv => by
      rw [hold]; exact inv.values kv hkv⟩
  | some kv =>
    simp only [Option.isSome_some, if_true]
    have hkey : kv.1 = key := by
      have := List.find?_some hf
      simpa using this
    have hmem : kv ∈ m := List.mem_of_find?_eq_some hf
    have hfilter : key ∉ (m.filter (fun kv => decide (kv.1 ≠ key))).map Prod.fst := by
      intro h
      obtain ⟨kv2, hkv, e⟩ := List.mem_map.1 h
      have := (List.mem_filter.1 hkv).2
      simp [e] at this
    have := modelInv_front m _ touched done (Call.get key) key kv.2 inv
      (List.filter_sublist _) hfilter (by rw [hold, ← hkey]; exact inv.values kv hmem)
      (fun k _ => hold k)
    rw [← hkey] at this ⊢
    exact this

theorem modelRun_inv (capacity : Int) : ∀ (calls done : List (Call K V)) (m : List (K × V))
    (touched : List K), ModelInv m touched done →
    ModelInv (modelRun m capacity calls touched).1 (modelRun m capacity calls touched).2
      (done ++ calls) := by
  intro calls
  induction calls with
  | nil => intro done m touched inv; simpa [modelRun] using inv
  | cons call rest ih =>
    intro done m touched inv
    have happ : done ++ call :: rest = (done ++ [call]) ++ rest := by simp
    rw [happ]
    cases call with
    | put key value =>
      simp only [modelRun]
      exact ih _ _ _ (modelInv_put capacity m touched done key value inv)
    | get key =>
      simp only [modelRun]
      exact ih _ _ _ (modelInv_get m touched done key inv)

theorem modelInv_nil : ModelInv ([] : List (K × V)) ([] : List K) ([] : List (Call K V)) :=
  ⟨List.nodup_nil, by simp, List.Pairwise.nil, by simp⟩

theorem reached [Inhabited V] (capacity : Int) (calls : List (Call K V)) :
    ∃ (c : LRU K V) (touched : List K) (m : List (K × V)),
      (NewLRU capacity).run calls [] = some (c, touched) ∧ LRUInv c m ∧
      ModelInv m touched calls ∧ c.capacity = if capacity ≤ 0 then 1 else capacity := by
  obtain ⟨c, r1, r2, r3⟩ := run_spec calls (NewLRU capacity : LRU K V) [] []
    (newLRU_inv capacity)
  have := modelRun_inv (NewLRU capacity : LRU K V).capacity calls [] [] [] modelInv_nil
  rw [List.nil_append] at this
  exact ⟨c, _, _, r1, r2, this, by rw [r3]; rfl⟩

theorem key_split (m : List (K × V)) (hn : (m.map Prod.fst).Nodup) (key : K)
    (h : key ∈ m.map Prod.fst) :
    ∃ before after v, m = before ++ (key, v) :: after ∧ key ∉ before.map Prod.fst ∧
      key ∉ after.map Prod.fst := by
  obtain ⟨kv, hkv, e⟩ := List.mem_map.1 h
  obtain ⟨s, t, est⟩ := List.append_of_mem hkv
  obtain ⟨k, v⟩ := kv
  have ek : k = key := e
  rw [ek] at est
  refine ⟨s, t, v, est, ?_, ?_⟩
  · intro hs
    rw [est, List.map_append, List.map_cons] at hn
    exact (List.nodup_append.1 hn).2.2 hs (List.mem_cons_self _ _)
  · intro ht
    rw [est, List.map_append, List.map_cons] at hn
    exact (List.nodup_cons.1 (List.nodup_append.1 hn).2.1).1 ht

theorem put_full (c : LRU K V) (m : List (K × V)) (touched : List K) (done : List (Call K V))
    (inv : LRUInv c m) (mi : ModelInv m touched done) (key : K) (value : V)
    (hnew : mapGet c.cache key = none) (hfull : c.capacity ≤ c.Len) :
    ∃ m1 kv c1, m = m1 ++ [kv] ∧ c.Put key value = some c1 ∧
      LRUInv c1 ((key, value) :: m1) ∧ kv.1 ∉ m1.map Prod.fst ∧ kv.1 ≠ key ∧
      ∀ k ∈ m1.map Prod.fst, touched.indexOf k < touched.indexOf kv.1 := by
  have hk : key ∉ m.map Prod.fst := by
    rw [mem_keys_iff c m inv]
    exact (mapGet_none_iff _ _).1 hnew
  have hlen : c.capacity ≤ (m.length : Int) := by
    rw [← len_spec c m inv]; exact hfull
  have hne : m ≠ [] := by
    intro e
    rw [e] at hlen
    have := inv.capLow
    simp only [List.length_nil, Nat.cast_zero] at hlen
    omega
  have hm : m = m.dropLast ++ [m.getLast hne] := (List.dropLast_append_getLast hne).symm
  obtain ⟨c1, p1, p2, _⟩ := put_spec c m inv key value
  have hmp : modelPut c.capacity m key value = (key, value) :: m.dropLast := by
    unfold modelPut
    rw [find_absent m key hk]
    simp only
    rw [if_pos (ge_iff_le.2 hlen)]
  rw [hmp] at p2
  have hnd : ((m.dropLast ++ [m.getLast hne]).map Prod.fst).Nodup := by
    rw [← hm]; exact mi.nodup
  have hord : ((m.dropLast ++ [m.getLast hne]).map Prod.fst).Pairwise
      (fun a b => touched.indexOf a < touched.indexOf b) := by
    rw [← hm]; exact mi.order
  rw [List.map_append, List.map_cons, List.map_nil] at hnd hord
  refine ⟨m.dropLast, m.getLast hne, c1, hm, p1, p2, ?_, ?_, ?_⟩
  · intro h
    exact (List.nodup_append.1 hnd).2.2 h (List.mem_singleton_self _)
  · intro e
    exact hk (e ▸ List.mem_map_of_mem Prod.fst (List.getLast_mem hne))
  · intro k hk1
    exact (List.pairwise_append.1 hord).2.2 k hk1 _ (List.mem_singleton_self _)

theorem get_found [Inhabited V] (c : LRU K V) (m : List (K × V)) (touched : List K)
    (done : List (Call K V)) (inv : LRUInv c m) (mi : ModelInv m touched done) (key : K)
    (h : key ∈ m.map Prod.fst) :
    ∃ before after v c1, m = before ++ (key, v) :: after ∧
      c.Get key = some ((v, true), c1) ∧ LRUInv c1 ((key, v) :: (before ++ after)) ∧
      lastPut done key = some v := by
  obtain ⟨before, after, v, hm, h1, h2⟩ := key_split m mi.nodup key h
  obtain ⟨r, c1, g1, g2, _, g4⟩ := get_spec c m inv key
  have hfind : m.find? (fun kv => decide (kv.1 = key)) = some (key, v) := by
    rw [hm]; exact find_split before after key v h1
  have hmg : modelGet m key = (key, v) :: (before ++ after) := by
    unfold modelGet
    rw [hfind]
    simp only
    rw [hm, filter_split before after key v h1 h2]
  rw [hfind] at g4
  rw [hmg] at g2
  rw [g4] at g1
  refine ⟨before, after, v, c1, hm, g1, g2, ?_⟩
  exact mi.values (key, v) (by rw [hm]; exact List.mem_append_right _ (List.mem_cons_self _ _))

theorem get_missing [Inhabited V] (c : LRU K V) (key : K) (h : mapGet c.cache key = none) :
    c.Get key = some ((default, false), c) := by
  unfold LRU.Get
  rw [h]

/-- With keys compared by identity (the `==` of integers and strings): for every cache made by
`NewLRU(capacity)` and every sequence of `Put` and `Get` calls, the calls return, the capacity
is `capacity`, or 1 when `capacity ≤ 0`, and `Len()` is at most the capacity. When the cache is
then full, a `Put` of a key that is not stored returns and removes exactly one stored key, the
one whose latest touch, by a `Put` or by a `Get` that found it, is older than that of every
other stored key; the new key is stored, all other keys are kept and `Len()` is unchanged. -/
theorem lru_capacity_eviction_identity [Inhabited V] (capacity : Int)
    (calls : List (Call K V)) :
    ∃ (c : LRU K V) (touched : List K),
      (NewLRU capacity).run calls [] = some (c, touched) ∧
      c.capacity = (if capacity ≤ 0 then 1 else capacity) ∧
      c.Len ≤ c.capacity ∧
      ∀ (key : K) (value : V), mapGet c.cache key = none → c.capacity ≤ c.Len →
        ∃ (c1 : LRU K V) (evicted : K),
          c.Put key value = some c1 ∧
          mapGet c.cache evicted ≠ none ∧
          (∀ k, mapGet c.cache k ≠ none → k ≠ evicted →
            touched.indexOf k < touched.indexOf evicted) ∧
          mapGet c1.cache evicted = none ∧
          mapGet c1.cache key ≠ none ∧
          (∀ k, k ≠ key → (mapGet c1.cache k ≠ none ↔ mapGet c.cache k ≠ none ∧ k ≠ evicted)) ∧
          c1.Len = c.Len := by
  obtain ⟨c, touched, m, hrun, inv, mi, hcap⟩ := reached (K := K) (V := V) capacity calls
  refine ⟨c, touched, hrun, hcap, inv.capHigh, ?_⟩
  intro key value hnew hfull
  obtain ⟨m1, kv, c1, hm, hput, inv1, hk1, hk2, hord⟩ :=
    put_full c m touched calls inv mi key value hnew hfull
  have hmk : m.map Prod.fst = m1.map Prod.fst ++ [kv.1] := by rw [hm]; simp
  refine ⟨c1, kv.1, hput, ?_, ?_, ?_, ?_, ?_, ?_⟩
  · rw [stored_iff c m inv, hmk]
    exact List.mem_append_right _ (List.mem_singleton_self _)
  · intro k hk hne
    rw [stored_iff c m inv, hmk, List.mem_append, List.mem_singleton] at hk
    rcases hk with hk | hk
    · exact hord k hk
    · exact absurd hk hne
  · by_contra hc
    have hc := (stored_iff c1 _ inv1 kv.1).1 hc
    rw [List.map_cons, List.mem_cons] at hc
    rcases hc with hc | hc
    · exact hk2 hc
    · exact hk1 hc
  · rw [stored_iff c1 _ inv1, List.map_cons]
    exact List.mem_cons_self _ _
  · intro k hk
    rw [stored_iff c1 _ inv1, stored_iff c m inv, hmk, List.map_cons, List.mem_cons,
      List.mem_append, List.mem_singleton]
    constructor
    · intro h
      rcases h with h | h
      · exact absurd h hk
      · exact ⟨Or.inl h, fun e => hk1 (e ▸ h)⟩
    · intro h
      rcases h.1 with h1 | h1
      · exact Or.inr h1
      · exact absurd h1 h.2
  · rw [len_spec c1 _ inv1, len_spec c m inv, hm]
    simp

/-- With keys compared by identity (the `==` of integers and strings): for every cache made by
`NewLRU(capacity)` and every sequence of `Put` and `Get` calls, the calls return and there is a
list `stored` of the stored keys with their values, each key once and each value that of the
last `Put` under its key, in the order of the latest touch of the keys, the latest first, such
that `Values()` returns the values of `stored` in this order and `Len()` is its length. A
`Get(key)` then returns; it finds the key exactly when the key is stored, returns the value last
`Put` under it, and afterwards `Values()` is this value followed by the other values in their
former order, with the same keys stored; a `Get` that does not find the key returns the zero
value and leaves the cache as it is. -/
theorem lru_recency_order_identity [Inhabited V] (capacity : Int) (calls : List (Call K V)) :
    ∃ (c : LRU K V) (touched : List K) (stored : List (K × V)),
      (NewLRU capacity).run calls [] = some (c, touched) ∧
      (∀ fuel, stored.length ≤ fuel → c.Values fuel = some (stored.map Prod.snd)) ∧
      c.Len = (stored.length : Int) ∧
      (∀ k, mapGet c.cache k ≠ none ↔ k ∈ stored.map Prod.fst) ∧
      (stored.map Prod.fst).Nodup ∧
      (∀ k ∈ stored.map Prod.fst, k ∈ touched) ∧
      (stored.map Prod.fst).Pairwise (fun a b => touched.indexOf a < touched.indexOf b) ∧
      (∀ kv ∈ stored, lastPut calls kv.1 = some kv.2) ∧
      ∀ key, ∃ (r : V × Bool) (c1 : LRU K V),
        c.Get key = some (r, c1) ∧
        (r.2 = true ↔ mapGet c.cache key ≠ none) ∧
        (r.2 = false → r.1 = default ∧ c1 = c) ∧
        (r.2 = true → lastPut calls key = some r.1 ∧
          ∃ before after, stored = before ++ (key, r.1) :: after ∧
            (∀ fuel, stored.length ≤ fuel →
              c1.Values fuel = some (r.1 :: (before ++ after).map Prod.snd)) ∧
            (∀ k, mapGet c1.cache k ≠ none ↔ mapGet c.cache k ≠ none) ∧
            c1.Len = c.Len) := by
  obtain ⟨c, touched, m, hrun, inv, mi, _⟩ := reached (K := K) (V := V) capacity calls
  refine ⟨c, touched, m, hrun, fun fuel hf => values_spec c m inv fuel hf, len_spec c m inv,
    fun k => stored_iff c m inv k, mi.nodup, mi.touchedAll, mi.order, mi.values, ?_⟩
  intro key
  by_cases hk : key ∈ m.map Prod.fst
  · obtain ⟨before, after, v, c1, hm, hget, inv1, hlast⟩ :=
      get_found c m touched calls inv mi key hk
    refine ⟨(v, true), c1, hget, ?_, ?_, ?_⟩
    · exact ⟨fun _ => (stored_iff c m inv key).2 hk, fun _ => rfl⟩
    · intro h; exact absurd h (by simp)
    · intro _
      refine ⟨hlast, before, after, hm, ?_, ?_, ?_⟩
      · intro fuel hf
        have := values_spec c1 _ inv1 fuel (by
          rw [hm] at hf
          simp only [List.length_append, List.length_cons] at hf ⊢
          omega)
        rw [this, List.map_cons]
      · intro k
        rw [stored_iff c1 _ inv1, stored_iff c m inv, hm]
        simp only [List.map_cons, List.map_append, List.mem_cons, List.mem_append]
        tauto
      · rw [len_spec c1 _ inv1, len_spec c m inv, hm]
        simp only [List.length_append, List.length_cons]
        push_cast
        omega
  · have hnone : mapGet c.cache key = none := by
      by_contra h
      exact hk ((stored_iff c m inv key).1 h)
    refine ⟨(default, false), c, get_missing c key hnone, ?_, ?_, ?_⟩
    · exact ⟨fun h => absurd h (by simp), fun h => absurd hnone h⟩
    · intro _; exact ⟨rfl, rfl⟩
    · intro h; exact absurd h (by simp)

theorem cacheGet_agree [Comparable K] [LawfulComparable K] (m : List (K × Nat)) (key : K)
    (h : Comparable.eq key key = true ∨ ∀ kv ∈ m, Comparable.eq kv.1 kv.1 = true) :
    comparable.mapGet m key = mapGet m key := by
  induction m with
  | nil => rfl
  | cons kv rest ih =>
    obtain ⟨k, v⟩ := kv
    have hk : Comparable.eq k key = decide (k = key) := by
      apply comparable_eq_decide
      rcases h with h | h
      · exact Or.inr h
      · exact Or.inl (h (k, v) (List.mem_cons_self _ _))
    have hrest : Comparable.eq key key = true ∨ ∀ kv ∈ rest, Comparable.eq kv.1 kv.1 = true := by
      rcases h with h | h
      · exact Or.inl h
      · exact Or.inr (fun kv hkv => h kv (List.mem_cons_of_mem _ hkv))
    simp only [comparable.mapGet, mapGet, hk, ih hrest, decide_eq_true_eq]

theorem cacheSet_agree [Comparable K] [LawfulComparable K] (m : List (K × Nat)) (key : K)
    (a : Nat)
    (h : Comparable.eq key key = true ∨ ∀ kv ∈ m, Comparable.eq kv.1 kv.1 = true) :
    comparable.mapSet m key a = mapSet m key a := by
  induction m with
  | nil => rfl
  | cons kv rest ih =>
    obtain ⟨k, v⟩ := kv
    have hk : Comparable.eq k key = decide (k = key) := by
      apply comparable_eq_decide
      rcases h with h | h
      · exact Or.inr h
      · exact Or.inl (h (k, v) (List.mem_cons_self _ _))
    have hrest : Comparable.eq key key = true ∨ ∀ kv ∈ rest, Comparable.eq kv.1 kv.1 = true := by
      rcases h with h | h
      · exact Or.inl h
      · exact Or.inr (fun kv hkv => h kv (List.mem_cons_of_mem _ hkv))
    simp only [comparable.mapSet, mapSet, hk, ih hrest, decide_eq_true_eq]

theorem cacheDelete_agree [Comparable K] [LawfulComparable K] (m : List (K × Nat)) (key : K)
    (h : Comparable.eq key key = true ∨ ∀ kv ∈ m, Comparable.eq kv.1 kv.1 = true) :
    comparable.mapDelete m key = mapDelete m key := by
  unfold comparable.mapDelete mapDelete
  apply List.filter_congr
  intro kv hkv
  have hk : Comparable.eq kv.1 key = decide (kv.1 = key) := by
    apply comparable_eq_decide
    rcases h with h | h
    · exact Or.inr h
    · exact Or.inl (h kv hkv)
  rw [hk]
  simp

theorem mem_cacheSet (m : List (K × Nat)) (key : K) (a : Nat) (p : K × Nat)
    (h : p ∈ mapSet m key a) : p.1 = key ∨ p ∈ m := by
  induction m with
  | nil => simp only [mapSet, List.mem_singleton] at h; left; rw [h]
  | cons kv rest ih =>
    obtain ⟨k, v⟩ := kv
    simp only [mapSet] at h
    by_cases hk : k = key
    · rw [if_pos hk] at h
      rcases List.mem_cons.1 h with h1 | h1
      · left; rw [h1]; exact hk
      · exact Or.inr (List.mem_cons_of_mem _ h1)
    · rw [if_neg hk] at h
      rcases List.mem_cons.1 h with h1 | h1
      · right; rw [h1]; exact List.mem_cons_self _ _
      · rcases ih h1 with h2 | h2
        · exact Or.inl h2
        · exact Or.inr (List.mem_cons_of_mem _ h2)

theorem unlink_cache (c c1 : LRU K V) (a : Nat) (h : c.unlink a = some c1) :
    c1.cache = c.cache := by
  unfold LRU.unlink at h
  repeat (split at h <;> try contradiction)
  cases h
  rfl

theorem addFront_cache (c c1 : LRU K V) (a : Nat) (h : c.addFront a = some c1) :
    c1.cache = c.cache := by
  unfold LRU.addFront at h
  repeat (split at h <;> try contradiction)
  cases h
  rfl

theorem get_cache [Inhabited V] (c c1 : LRU K V) (key : K) (r : V × Bool)
    (h : c.Get key = some (r, c1)) : c1.cache = c.cache := by
  unfold LRU.Get at h
  split at h
  · cases h; rfl
  · split at h
    · exact absurd h (by simp)
    · rename_i cu hu
      split at h
      · exact absurd h (by simp)
      · rename_i ca ha
        repeat (split at h <;> try contradiction)
        cases h
        rw [addFront_cache _ _ _ ha, unlink_cache _ _ _ hu]

theorem evict_keys (c c1 : LRU K V) (h : c.evict = some c1) :
    ∀ kv ∈ c1.cache, kv ∈ c.cache := by
  unfold LRU.evict at h
  split at h
  · exact absurd h (by simp)
  · split at h
    · exact absurd h (by simp)
    · split at h
      · exact absurd h (by simp)
      · rename_i cu hu
        repeat (split at h <;> try contradiction)
        cases h
        intro kv hkv
        have := (List.mem_filter.1 hkv).1
        rw [unlink_cache _ _ _ hu] at this
        exact this

theorem put_keys (c c1 : LRU K V) (key : K) (value : V) (h : c.Put key value = some c1) :
    ∀ kv ∈ c1.cache, kv.1 = key ∨ kv ∈ c.cache := by
  unfold LRU.Put at h
  split at h
  · split at h
    · exact absurd h (by simp)
    · split at h
      · exact absurd h (by simp)
      · rename_i cu hu
        intro kv hkv
        rw [addFront_cache _ _ _ h, unlink_cache _ _ _ hu] at hkv
        exact Or.inr hkv
  · split at h
    · exact absurd h (by simp)
    · rename_i ce he
      intro kv hkv
      rw [addFront_cache _ _ _ h] at hkv
      rcases mem_cacheSet _ _ _ _ hkv with h1 | h1
      · exact Or.inl h1
      · right
        split at he
        · exact evict_keys c ce he kv h1
        · cases he; exact h1

section
variable [Comparable K] [LawfulComparable K]

theorem evict_agree (c : LRU K V) (hc : comparable.AllReflexive c) :
    comparable.evict c = c.evict := by
  unfold comparable.evict LRU.evict
  cases c.nodes.get? c.tail with
  | none => rfl
  | some t =>
    simp only
    cases t.previous with
    | none => rfl
    | some lru =>
      simp only
      cases hu : c.unlink lru with
      | none => rfl
      | some c1 =>
        simp only
        cases c1.nodes.get? lru with
        | none => rfl
        | some n =>
          simp only
          cases n.e with
          | none => rfl
          | some e =>
            simp only
            rw [cacheDelete_agree c1.cache e.key
              (Or.inr (by rw [unlink_cache _ _ _ hu]; exact hc))]

theorem lruPut_agree (c : LRU K V) (hc : comparable.AllReflexive c) (key : K) (value : V)
    (hk : Comparable.eq key key = true) :
    comparable.Put c key value = c.Put key value := by
  unfold comparable.Put LRU.Put
  rw [cacheGet_agree c.cache key (Or.inl hk), evict_agree c hc]
  cases mapGet c.cache key with
  | some a => rfl
  | none =>
    simp only
    cases (if (c.cache.length : Int) ≥ c.capacity then c.evict else some c) with
    | none => rfl
    | some c1 =>
      simp only
      rw [cacheSet_agree c1.cache key _ (Or.inl hk)]

theorem lruGet_agree [Inhabited V] (c : LRU K V) (hc : comparable.AllReflexive c) (key : K) :
    comparable.Get c key = c.Get key := by
  unfold comparable.Get LRU.Get
  rw [cacheGet_agree c.cache key (Or.inr hc)]

theorem allReflexive_lruPut (c c1 : LRU K V) (hc : comparable.AllReflexive c) (key : K)
    (value : V) (hk : Comparable.eq key key = true) (h : c.Put key value = some c1) :
    comparable.AllReflexive c1 := by
  intro kv hkv
  rcases put_keys c c1 key value h kv hkv with h1 | h1
  · rw [h1]; exact hk
  · exact hc kv h1

theorem allReflexive_lruGet [Inhabited V] (c c1 : LRU K V) (hc : comparable.AllReflexive c)
    (key : K) (r : V × Bool) (h : c.Get key = some (r, c1)) : comparable.AllReflexive c1 := by
  intro kv hkv
  rw [get_cache c c1 key r h] at hkv
  exact hc kv hkv

theorem lruRun_agree [Inhabited V] : ∀ (calls : List (Call K V)) (c : LRU K V)
    (touched : List K), comparable.AllReflexive c →
    (∀ call ∈ calls, comparable.Reflexive call) →
    comparable.run c calls touched = c.run calls touched ∧
    ∀ c1 t, c.run calls touched = some (c1, t) → comparable.AllReflexive c1 := by
  intro calls
  induction calls with
  | nil =>
    intro c touched hc _
    refine ⟨rfl, ?_⟩
    intro c1 t h
    simp only [LRU.run, Option.some.injEq, Prod.mk.injEq] at h
    rw [← h.1]; exact hc
  | cons call rest ih =>
    intro c touched hc hcalls
    have hcall := hcalls call (List.mem_cons_self _ _)
    have hrest : ∀ call ∈ rest, comparable.Reflexive call :=
      fun x h => hcalls x (List.mem_cons_of_mem _ h)
    cases call with
    | put key value =>
      simp only [comparable.run, LRU.run]
      rw [lruPut_agree c hc key value hcall]
      cases hp : c.Put key value with
      | none => exact ⟨rfl, fun c1 t h => absurd h (by simp)⟩
      | some c1 =>
        exact ih c1 (key :: touched) (allReflexive_lruPut c c1 hc key value hcall hp) hrest
    | get key =>
      simp only [comparable.run, LRU.run]
      rw [lruGet_agree c hc key]
      cases hg : c.Get key with
      | none => exact ⟨rfl, fun c1 t h => absurd h (by simp)⟩
      | some rc =>
        obtain ⟨r, c1⟩ := rc
        exact ih c1 _ (allReflexive_lruGet c c1 hc key r hg) hrest

theorem allReflexive_newLRU (capacity : Int) :
    comparable.AllReflexive (NewLRU capacity : LRU K V) := by
  intro kv hkv
  simp [NewLRU] at hkv

end

/-- C29 as stated fails: in a cache of capacity 1 with keys of type `float64`, after
`Put(NaN, a)`, `Put(NaN, b)` and `Put(NaN, c)` `Len()` is 3. -/
theorem lru_capacity_eviction_counterexample :
    ((comparable.run (NewLRU 1 : LRU float64 String)
      [Call.put float64.NaN "a", Call.put float64.NaN "b", Call.put float64.NaN "c"] []).map
        (fun r => (r.1.capacity, r.1.Len))) = some (1, 3) := by
  decide

/-- C29, amended: for a key type with any `==`, for every cache made by `NewLRU(capacity)` and
every sequence of `Put` and `Get` calls in which every `Put` is of a key equal to itself (no
floating-point NaN is stored), the calls return, the capacity is `capacity`, or 1 when `capacity ≤ 0`,
and `Len()` is at most the capacity. When the cache is then full, a `Put` of a key that is
equal to itself and not stored returns and removes exactly one stored key, the one whose latest
touch, by a `Put` or by a `Get` that found it, is older than that of every other stored key;
the new key is stored, all other keys are kept and `Len()` is unchanged. -/
theorem lru_capacity_eviction [Comparable K] [LawfulComparable K] [Inhabited V]
    (capacity : Int) (calls : List (Call K V))
    (hcalls : ∀ call ∈ calls, comparable.Reflexive call) :
    ∃ (c : LRU K V) (touched : List K),
      comparable.run (NewLRU capacity) calls [] = some (c, touched) ∧
      c.capacity = (if capacity ≤ 0 then 1 else capacity) ∧
      c.Len ≤ c.capacity ∧
      ∀ (key : K) (value : V), Comparable.eq key key = true →
        comparable.mapGet c.cache key = none → c.capacity ≤ c.Len →
        ∃ (c1 : LRU K V) (evicted : K),
          comparable.Put c key value = some c1 ∧
          comparable.mapGet c.cache evicted ≠ none ∧
          (∀ k, comparable.mapGet c.cache k ≠ none → k ≠ evicted →
            touched.indexOf k < touched.indexOf evicted) ∧
          comparable.mapGet c1.cache evicted = none ∧
          comparable.mapGet c1.cache key ≠ none ∧
          (∀ k, k ≠ key → (comparable.mapGet c1.cache k ≠ none ↔
            comparable.mapGet c.cache k ≠ none ∧ k ≠ evicted)) ∧
          c1.Len = c.Len := by
  obtain ⟨hagree, hall⟩ := lruRun_agree calls (NewLRU capacity : LRU K V) []
    (allReflexive_newLRU capacity) hcalls
  obtain ⟨c, touched, hrun, hcap, hlen, hput⟩ :=
    lru_capacity_eviction_identity (K := K) (V := V) capacity calls
  have hc := hall c touched hrun
  refine ⟨c, touched, by rw [hagree]; exact hrun, hcap, hlen, ?_⟩
  intro key value hk hnew hfull
  rw [cacheGet_agree c.cache key (Or.inr hc)] at hnew
  obtain ⟨c1, evicted, p1, p2, p3, p4, p5, p6, p7⟩ := hput key value hnew hfull
  have hc1 := allReflexive_lruPut c c1 hc key value hk p1
  have e0 : ∀ k, comparable.mapGet c.cache k = mapGet c.cache k :=
    fun k => cacheGet_agree c.cache k (Or.inr hc)
  have e1 : ∀ k, comparable.mapGet c1.cache k = mapGet c1.cache k :=
    fun k => cacheGet_agree c1.cache k (Or.inr hc1)
  refine ⟨c1, evicted, by rw [lruPut_agree c hc key value hk]; exact p1, ?_⟩
  simp only [e0, e1]
  exact ⟨p2, p3, p4, p5, p6, p7⟩

/-- C29 on the test: with capacity 2, after `Put(cloud)`, `Put(backend)` and `Put(front-end)`
`Len()` is 2 and `Get(cloud)` returns the zero value and `found = false`. And on a cache of
capacity 1 with keys of type `float64`: after `Put(1)`, `Get(NaN)`, which finds nothing, and
`Put(2)`, `Len()` is at most the capacity. -/
theorem lru_capacity_eviction_witness :
    ((comparable.run (NewLRU 2 : LRU String String) [Call.put "cloud" "GCP",
      Call.put "backend" "Go", Call.put "front-end" "Svelte"] []).map (fun r => r.1.Len))
      = some 2 ∧
    ((comparable.run (NewLRU 2 : LRU String String) [Call.put "cloud" "GCP",
      Call.put "backend" "Go", Call.put "front-end" "Svelte"] []).bind (fun r =>
        (comparable.Get r.1 "cloud").map (fun g => g.1))) = some ("", false) ∧
    (∀ call ∈ [Call.put "cloud" "GCP", Call.put "backend" "Go",
      Call.put "front-end" "Svelte"], comparable.Reflexive call) ∧
    (∃ (c : LRU String String) (touched : List String),
      comparable.run (NewLRU 2) [Call.put "cloud" "GCP", Call.put "backend" "Go",
        Call.put "front-end" "Svelte"] [] = some (c, touched) ∧
      c.capacity = (if (2 : Int) ≤ 0 then 1 else 2) ∧
      c.Len ≤ c.capacity ∧
      ∀ (key : String) (value : String), Comparable.eq key key = true →
        comparable.mapGet c.cache key = none → c.capacity ≤ c.Len →
        ∃ (c1 : LRU String String) (evicted : String),
          comparable.Put c key value = some c1 ∧
          comparable.mapGet c.cache evicted ≠ none ∧
          (∀ k, comparable.mapGet c.cache k ≠ none → k ≠ evicted →
            touched.indexOf k < touched.indexOf evicted) ∧
          comparable.mapGet c1.cache evicted = none ∧
          comparable.mapGet c1.cache key ≠ none ∧
          (∀ k, k ≠ key → (comparable.mapGet c1.cache k ≠ none ↔
            comparable.mapGet c.cache k ≠ none ∧ k ≠ evicted)) ∧
          c1.Len = c.Len) ∧
    ∃ (c : LRU float64 String) (touched : List float64),
      comparable.run (NewLRU 1) [Call.put (float64.num 1) "a", Call.get float64.NaN,
        Call.put (float64.num 2) "b"] [] = some (c, touched) ∧ c.Len ≤ c.capacity :=
  ⟨by decide, by decide, by decide,
    lru_capacity_eviction 2 [Call.put "cloud" "GCP", Call.put "backend" "Go",
      Call.put "front-end" "Svelte"] (by decide),
    let ⟨c, touched, h1, _, h3, _⟩ := lru_capacity_eviction 1
      [Call.put (float64.num 1) "a", Call.get float64.NaN, Call.put (float64.num 2) "b"]
      (by decide)
    ⟨c, touched, h1, h3⟩⟩

/-- C30 as stated fails: in a cache of capacity 1 with keys of type `float64`, after
`Put(NaN, a)`, `Put(NaN, b)` and `Put(NaN, c)` `Len()` is 3 while `Values()` returns the one
value `c`, and `Get(NaN)` does not find the key. -/
theorem lru_recency_order_counterexample :
    ((comparable.run (NewLRU 1 : LRU float64 String)
      [Call.put float64.NaN "a", Call.put float64.NaN "b", Call.put float64.NaN "c"] []).map
        (fun r => (r.1.Len, r.1.Values 3))) = some (3, some ["c"]) ∧
    ((comparable.run (NewLRU 1 : LRU float64 String)
      [Call.put float64.NaN "a", Call.put float64.NaN "b", Call.put float64.NaN "c"] []).bind
        (fun r => (comparable.Get r.1 float64.NaN).map (fun g => g.1))) = some ("", false) := by
  decide

/-- C30, amended: for a key type with any `==`, for every cache made by `NewLRU(capacity)` and
every sequence of `Put` and `Get` calls in which every `Put` is of a key equal to itself (no
floating-point NaN is stored), the calls return and there is a list `stored` of the stored keys with
their values, each key once and each value that of the last `Put` under its key, in the order
of the latest touch of the keys, the latest first, such that `Values()` returns the values of
`stored` in this order and `Len()` is its length. A `Get(key)` then returns; it finds the key
exactly when the key is stored, returns the value last `Put` under it, and afterwards
`Values()` is this value followed by the other values in their former order, with the same keys
stored; a `Get` that does not find the key returns the zero value and leaves the cache as it
is. -/
theorem lru_recency_order [Comparable K] [LawfulComparable K] [Inhabited V] (capacity : Int)
    (calls : List (Call K V)) (hcalls : ∀ call ∈ calls, comparable.Reflexive call) :
    ∃ (c : LRU K V) (touched : List K) (stored : List (K × V)),
      comparable.run (NewLRU capacity) calls [] = some (c, touched) ∧
      (∀ fuel, stored.length ≤ fuel → c.Values fuel = some (stored.map Prod.snd)) ∧
      c.Len = (stored.length : Int) ∧
      (∀ k, comparable.mapGet c.cache k ≠ none ↔ k ∈ stored.map Prod.fst) ∧
      (stored.map Prod.fst).Nodup ∧
      (∀ k ∈ stored.map Prod.fst, k ∈ touched) ∧
      (stored.map Prod.fst).Pairwise (fun a b => touched.indexOf a < touched.indexOf b) ∧
      (∀ kv ∈ stored, lastPut calls kv.1 = some kv.2) ∧
      ∀ key, ∃ (r : V × Bool) (c1 : LRU K V),
        comparable.Get c key = some (r, c1) ∧
        (r.2 = true ↔ comparable.mapGet c.cache key ≠ none) ∧
        (r.2 = false → r.1 = default ∧ c1 = c) ∧
        (r.2 = true → lastPut calls key = some r.1 ∧
          ∃ before after, stored = before ++ (key, r.1) :: after ∧
            (∀ fuel, stored.length ≤ fuel →
              c1.Values fuel = some (r.1 :: (before ++ after).map Prod.snd)) ∧
            (∀ k, comparable.mapGet c1.cache k ≠ none ↔ comparable.mapGet c.cache k ≠ none) ∧
            c1.Len = c.Len) := by
  obtain ⟨hagree, hall⟩ := lruRun_agree calls (NewLRU capacity : LRU K V) []
    (allReflexive_newLRU capacity) hcalls
  obtain ⟨c, touched, stored, hrun, h1, h2, h3, h4, h5, h6, h7, hget⟩ :=
    lru_recency_order_identity (K := K) (V := V) capacity calls
  have hc := hall c touched hrun
  have e0 : ∀ k, comparable.mapGet c.cache k = mapGet c.cache k :=
    fun k => cacheGet_agree c.cache k (Or.inr hc)
  refine ⟨c, touched, stored, by rw [hagree]; exact hrun, h1, h2, ?_, h4, h5, h6, h7, ?_⟩
  · intro k; rw [e0]; exact h3 k
  · intro key
    obtain ⟨r, c1, g1, g2, g3, g4⟩ := hget key
    have hc1 := allReflexive_lruGet c c1 hc key r g1
    have e1 : ∀ k, comparable.mapGet c1.cache k = mapGet c1.cache k :=
      fun k => cacheGet_agree c1.cache k (Or.inr hc1)
    refine ⟨r, c1, by rw [lruGet_agree c hc key]; exact g1, ?_⟩
    simp only [e0, e1]
    exact ⟨g2, g3, g4⟩

/-- C30 on the test: with capacity 2, after `Put(language, Go)` and `Put(front-end, Svelte)`
`Values()` is `[Svelte, Go]`; after `Get(language)`, which returns `Go`, it is
`[Go, Svelte]`. -/
theorem lru_recency_order_witness :
    ((comparable.run (NewLRU 2 : LRU String String) [Call.put "language" "Go",
      Call.put "front-end" "Svelte"] []).bind (fun r => r.1.Values 2))
      = some ["Svelte", "Go"] ∧
    ((comparable.run (NewLRU 2 : LRU String String) [Call.put "language" "Go",
      Call.put "front-end" "Svelte"] []).bind (fun r =>
        (comparable.Get r.1 "language").bind (fun g =>
          (g.2.Values 2).map (fun vs => (g.1, vs)))))
      = some (("Go", true), ["Go", "Svelte"]) ∧
    (∀ call ∈ [(Call.put "language" "Go" : Call String String),
      Call.put "front-end" "Svelte"], comparable.Reflexive call) ∧
    ∃ (c : LRU String String) (touched : List String) (stored : List (String × String)),
      comparable.run (NewLRU 2) [Call.put "language" "Go", Call.put "front-end" "Svelte"] []
        = some (c, touched) ∧
      (∀ fuel, stored.length ≤ fuel → c.Values fuel = some (stored.map Prod.snd)) ∧
      c.Len = (stored.length : Int) ∧
      (∀ k, comparable.mapGet c.cache k ≠ none ↔ k ∈ stored.map Prod.fst) ∧
      (stored.map Prod.fst).Nodup ∧
      (∀ k ∈ stored.map Prod.fst, k ∈ touched) ∧
      (stored.map Prod.fst).Pairwise (fun a b => touched.indexOf a < touched.indexOf b) ∧
      (∀ kv ∈ stored, lastPut [Call.put "language" "Go", Call.put "front-end" "Svelte"] kv.1
        = some kv.2) ∧
      ∀ key, ∃ (r : String × Bool) (c1 : LRU String String),
        comparable.Get c key = some (r, c1) ∧
        (r.2 = true ↔ comparable.mapGet c.cache key ≠ none) ∧
        (r.2 = false → r.1 = default ∧ c1 = c) ∧
        (r.2 = true →
          lastPut [Call.put "language" "Go", Call.put "front-end" "Svelte"] key = some r.1 ∧
          ∃ before after, stored = before ++ (key, r.1) :: after ∧
            (∀ fuel, stored.length ≤ fuel →
              c1.Values fuel = some (r.1 :: (before ++ after).map Prod.snd)) ∧
            (∀ k, comparable.mapGet c1.cache k ≠ none ↔ comparable.mapGet c.cache k ≠ none) ∧
            c1.Len = c.Len) :=
  ⟨by decide, by decide, by decide,
    lru_recency_order 2 [Call.put "language" "Go", Call.put "front-end" "Svelte"]
      (by decide)⟩

end cache

namespace bidimap

variable {K V : Type} [DecidableEq K] [DecidableEq V]

theorem bimap_get_set {A B : Type} [DecidableEq A] (m : List (A × B)) (x : A) (y : B) (z : A) :
    mapGet (mapSet m x y) z = if z = x then some y else mapGet m z := by
  induction m with
  | nil =>
    simp only [mapSet, mapGet]
    by_cases h : x = z
    · rw [if_pos h, if_pos h.symm]
    · rw [if_neg h, if_neg (fun e => h e.symm)]
  | cons kv rest ih =>
    obtain ⟨k, v⟩ := kv
    simp only [mapSet]
    by_cases hk : k = x
    · rw [if_pos hk]
      simp only [mapGet]
      by_cases hz : z = x
      · rw [if_pos hz, if_pos (hk.trans hz.symm)]
      · rw [if_neg hz, if_neg (fun e => hz (e.symm.trans hk)), if_neg (fun e => hz (e.symm.trans hk))]
    · rw [if_neg hk]
      simp only [mapGet]
      by_cases hkz : k = z
      · rw [if_pos hkz, if_pos hkz, if_neg (fun e => hk (hkz.trans e))]
      · rw [if_neg hkz, if_neg hkz, ih]

theorem bimap_get_delete {A B : Type} [DecidableEq A] (m : List (A × B)) (x z : A) :
    mapGet (mapDelete m x) z = if z = x then none else mapGet m z := by
  induction m with
  | nil => simp [mapDelete, mapGet]
  | cons kv rest ih =>
    obtain ⟨k, v⟩ := kv
    unfold mapDelete at ih ⊢
    by_cases hk : k = x
    · rw [List.filter_cons_of_neg (by simp [hk]), ih]
      simp only [mapGet]
      by_cases hz : z = x
      · rw [if_pos hz, if_pos hz]
      · rw [if_neg hz, if_neg hz, if_neg (fun e => hz (e.symm.trans hk))]
    · rw [List.filter_cons_of_pos (by simp [hk])]
      simp only [mapGet]
      by_cases hkz : k = z
      · rw [if_pos hkz, if_pos hkz, if_neg (fun e => hk (hkz.trans e))]
      · rw [if_neg hkz, if_neg hkz, ih]

theorem bimap_keys_set {A B : Type} [DecidableEq A] (m : List (A × B)) (x : A) (y : B)
    (h : (m.map Prod.fst).Nodup) : ((mapSet m x y).map Prod.fst).Nodup := by
  have hkeys : ∀ (l : List (A × B)), ∀ a, a ∈ (mapSet l x y).map Prod.fst →
      a = x ∨ a ∈ l.map Prod.fst := by
    intro l
    induction l with
    | nil => intro a ha; simp [mapSet] at ha; exact Or.inl ha
    | cons kv rest ih =>
      obtain ⟨k, v⟩ := kv
      intro a ha
      simp only [mapSet] at ha
      by_cases hk : k = x
      · rw [if_pos hk] at ha
        right; simpa using ha
      · rw [if_neg hk] at ha
        simp only [List.map_cons, List.mem_cons] at ha ⊢
        rcases ha with ha | ha
        · exact Or.inr (Or.inl ha)
        · rcases ih a ha with h1 | h1
          · exact Or.inl h1
          · exact Or.inr (Or.inr h1)
  induction m with
  | nil => simp [mapSet]
  | cons kv rest ih =>
    obtain ⟨k, v⟩ := kv
    simp only [List.map_cons, List.nodup_cons] at h
    simp only [mapSet]
    by_cases hk : k = x
    · rw [if_pos hk]
      simp only [List.map_cons, List.nodup_cons]
      exact h
    · rw [if_neg hk]
      simp only [List.map_cons, List.nodup_cons]
      refine ⟨?_, ih h.2⟩
      intro hmem
      rcases hkeys rest k hmem with h1 | h1
      · exact hk h1
      · exact h.1 h1

theorem bimap_keys_delete {A B : Type} [DecidableEq A] (m : List (A × B)) (x : A)
    (h : (m.map Prod.fst).Nodup) : ((mapDelete m x).map Prod.fst).Nodup :=
  h.sublist ((List.filter_sublist _).map Prod.fst)

theorem bimap_mem_iff {A B : Type} [DecidableEq A] (m : List (A × B))
    (h : (m.map Prod.fst).Nodup) (k : A) (v : B) : (k, v) ∈ m ↔ mapGet m k = some v := by
  induction m with
  | nil => simp [mapGet]
  | cons kv rest ih =>
    obtain ⟨k1, v1⟩ := kv
    simp only [List.map_cons, List.nodup_cons] at h
    simp only [mapGet, List.mem_cons, Prod.mk.injEq]
    by_cases hk : k1 = k
    · rw [if_pos hk]
      constructor
      · rintro (⟨_, e⟩ | hm)
        · rw [e]
        · exact absurd (List.mem_map_of_mem Prod.fst hm) (by rw [← hk]; exact h.1)
      · intro e
        exact Or.inl ⟨hk.symm, (Option.some.inj e).symm⟩
    · rw [if_neg hk, ← ih h.2]
      constructor
      · rintro (⟨e, _⟩ | hm)
        · exact absurd e.symm hk
        · exact hm
      · exact Or.inr

theorem bimap_length (m : Map K V) (inv : BiInv m) : m.forward.length = m.reverse.length := by
  have hf : m.forward.Nodup := List.Nodup.of_map _ inv.forwardKeys
  have hr : m.reverse.Nodup := List.Nodup.of_map _ inv.reverseKeys
  have hswap : (m.forward.map (fun kv => (kv.2, kv.1))).Nodup := by
    apply hf.map
    intro a b hab
    simp only [Prod.mk.injEq] at hab
    exact Prod.ext hab.2 hab.1
  have hp : List.Perm (m.forward.map (fun kv => (kv.2, kv.1))) m.reverse := by
    rw [List.perm_ext_iff_of_nodup hswap hr]
    rintro ⟨v, k⟩
    rw [bimap_mem_iff m.reverse inv.reverseKeys v k, ← inv.paired k v,
      ← bimap_mem_iff m.forward inv.forwardKeys k v]
    simp only [List.mem_map, Prod.mk.injEq, Prod.exists]
    constructor
    · rintro ⟨a, b, hab, e1, e2⟩
      rw [← e1, ← e2]; exact hab
    · intro h; exact ⟨k, v, h, rfl, rfl⟩
  have := hp.length_eq
  simpa using this

theorem biInv_new : BiInv (New : Map K V) :=
  ⟨List.nodup_nil, List.nodup_nil, fun k v => by simp [New, mapGet]⟩

theorem biInv_clear (m : Map K V) : BiInv m.Clear :=
  ⟨List.nodup_nil, List.nodup_nil, fun k v => by simp [Map.Clear, mapGet]⟩

theorem biInv_remove (m : Map K V) (inv : BiInv m) (key : K) (value : V)
    (h : mapGet m.forward key = some value) :
    BiInv { forward := mapDelete m.forward key, reverse := mapDelete m.reverse value } := by
  refine ⟨bimap_keys_delete _ _ inv.forwardKeys, bimap_keys_delete _ _ inv.reverseKeys, ?_⟩
  intro k v
  simp only [bimap_get_delete]
  have hr : mapGet m.reverse value = some key := (inv.paired key value).1 h
  by_cases hk : k = key
  · rw [if_pos hk]
    by_cases hv : v = value
    · rw [if_pos hv]
      constructor <;> intro e <;> cases e
    · rw [if_neg hv]
      constructor
      · intro e; cases e
      · intro e
        have := (inv.paired k v).2 e
        rw [hk, h] at this
        exact absurd (Option.some.inj this).symm hv
  · rw [if_neg hk]
    by_cases hv : v = value
    · rw [if_pos hv]
      constructor
      · intro e
        have := (inv.paired k v).1 e
        rw [hv, hr] at this
        exact absurd (Option.some.inj this).symm hk
      · intro e; cases e
    · rw [if_neg hv]
      exact inv.paired k v

theorem biInv_delete (m : Map K V) (inv : BiInv m) (key : K) : BiInv (m.Delete key) := by
  unfold Map.Delete
  cases h : mapGet m.forward key with
  | none => exact inv
  | some value => exact biInv_remove m inv key value h

theorem biInv_deleteValue (m : Map K V) (inv : BiInv m) (value : V) :
    BiInv (m.DeleteValue value) := by
  unfold Map.DeleteValue
  cases h : mapGet m.reverse value with
  | none => exact inv
  | some key => exact biInv_remove m inv key value ((inv.paired key value).2 h)

/-- The tables after `Put(key, value)`, read at a key and at a value. -/
theorem put_reads (m : Map K V) (inv : BiInv m) (key : K) (value : V) (k : K) (v : V) :
    mapGet (m.Put key value).forward k =
      (if k = key then some value
        else if mapGet m.forward k = some value then none else mapGet m.forward k) ∧
    mapGet (m.Put key value).reverse v =
      (if v = value then some key
        else if mapGet m.reverse v = some key then none else mapGet m.reverse v) := by
  unfold Map.Put
  simp only [bimap_get_set]
  constructor
  · by_cases hk : k = key
    · rw [if_pos hk, if_pos hk]
    · rw [if_neg hk, if_neg hk]
      cases hf : mapGet m.forward key with
      | none =>
        simp only
        cases hr : mapGet m.reverse value with
        | none =>
          simp only
          have : ¬ mapGet m.forward k = some value := fun e => by
            rw [(inv.paired k value).1 e] at hr; cases hr
          rw [if_neg this]
        | some ek =>
          simp only [bimap_get_delete]
          by_cases hke : k = ek
          · rw [if_pos hke, if_pos (by rw [hke]; exact (inv.paired ek value).2 hr)]
          · rw [if_neg hke]
            have : ¬ mapGet m.forward k = some value := fun e => by
              rw [(inv.paired k value).1 e] at hr
              exact hke (Option.some.inj hr)
            rw [if_neg this]
      | some ev =>
        simp only [bimap_get_delete]
        have hrev : mapGet m.reverse ev = some key := (inv.paired key ev).1 hf
        by_cases hve : value = ev
        · rw [if_pos hve]
          simp only
          have : ¬ mapGet m.forward k = some value := fun e => by
            have := (inv.paired k value).1 e
            rw [hve, hrev] at this
            exact hk (Option.some.inj this).symm
          rw [if_neg this]
        · rw [if_neg hve]
          cases hr : mapGet m.reverse value with
          | none =>
            simp only
            have : ¬ mapGet m.forward k = some value := fun e => by
              rw [(inv.paired k value).1 e] at hr; cases hr
            rw [if_neg this]
          | some ek =>
            simp only [bimap_get_delete]
            by_cases hke : k = ek
            · rw [if_pos hke, if_pos (by rw [hke]; exact (inv.paired ek value).2 hr)]
            · rw [if_neg hke]
              have : ¬ mapGet m.forward k = some value := fun e => by
                rw [(inv.paired k value).1 e] at hr
                exact hke (Option.some.inj hr)
              rw [if_neg this]
  · by_cases hv : v = value
    · rw [if_pos hv, if_pos hv]
    · rw [if_neg hv, if_neg hv]
      cases hf : mapGet m.forward key with
      | none =>
        simp only
        have : ¬ mapGet m.reverse v = some key := fun e => by
          rw [(inv.paired key v).2 e] at hf; cases hf
        rw [if_neg this]
      | some ev =>
        simp only [bimap_get_delete]
        by_cases hve : v = ev
        · rw [if_pos hve, if_pos (by rw [hve]; exact (inv.paired key ev).1 hf)]
        · rw [if_neg hve]
          have : ¬ mapGet m.reverse v = some key := fun e => by
            rw [(inv.paired key v).2 e] at hf
            exact hve (Option.some.inj hf)
          rw [if_neg this]

theorem biInv_put (m : Map K V) (inv : BiInv m) (key : K) (value : V) :
    BiInv (m.Put key value) := by
  refine ⟨?_, ?_, ?_⟩
  · unfold Map.Put
    apply bimap_keys_set
    split
    · exact bimap_keys_delete _ _ inv.forwardKeys
    · exact inv.forwardKeys
  · unfold Map.Put
    apply bimap_keys_set
    split
    · exact bimap_keys_delete _ _ inv.reverseKeys
    · exact inv.reverseKeys
  · intro k v
    rw [(put_reads m inv key value k v).1, (put_reads m inv key value k v).2]
    by_cases hk : k = key
    · rw [if_pos hk]
      by_cases hv : v = value
      · rw [if_pos hv, hk, hv]
        exact ⟨fun _ => rfl, fun _ => rfl⟩
      · rw [if_neg hv]
        constructor
        · intro e; exact absurd (Option.some.inj e).symm hv
        · intro e
          split at e
          · cases e
          · rename_i hne
            rw [hk] at e
            exact absurd e hne
    · rw [if_neg hk]
      by_cases hv : v = value
      · rw [if_pos hv]
        constructor
        · intro e
          split at e
          · cases e
          · rename_i hne
            rw [hv] at e
            exact absurd e hne
        · intro e; exact absurd (Option.some.inj e).symm hk
      · rw [if_neg hv]
        by_cases hfv : mapGet m.forward k = some value
        · rw [if_pos hfv]
          constructor
          · intro e; cases e
          · intro e
            split at e
            · cases e
            · have := (inv.paired k v).2 e
              rw [hfv] at this
              exact absurd (Option.some.inj this).symm hv
        · rw [if_neg hfv]
          by_cases hrk : mapGet m.reverse v = some key
          · rw [if_pos hrk]
            constructor
            · intro e
              have := (inv.paired k v).1 e
              rw [hrk] at this
              exact absurd (Option.some.inj this).symm hk
            · intro e; cases e
          · rw [if_neg hrk]
            exact inv.paired k v

theorem biInv_apply : ∀ (calls : List (Call K V)) (m : Map K V), BiInv m →
    BiInv (m.apply calls) := by
  intro calls
  induction calls with
  | nil => intro m inv; exact inv
  | cons call rest ih =>
    intro m inv
    cases call with
    | put key value => exact ih _ (biInv_put m inv key value)
    | delete key => exact ih _ (biInv_delete m inv key)
    | deleteValue value => exact ih _ (biInv_deleteValue m inv value)
    | clear => exact ih _ (biInv_clear m)

theorem get_eq_iff [Inhabited V] (m : Map K V) (k : K) (v : V) :
    m.Get k = (v, true) ↔ mapGet m.forward k = some v := by
  unfold Map.Get
  cases mapGet m.forward k with
  | none => simp
  | some w => simp

theorem getKey_eq_iff [Inhabited K] (m : Map K V) (v : V) (k : K) :
    m.GetKey v = (k, true) ↔ mapGet m.reverse v = some k := by
  unfold Map.GetKey
  cases mapGet m.reverse v with
  | none => simp
  | some w => simp

theorem get_absent [Inhabited V] (m : Map K V) (k : K) (h : mapGet m.forward k = none) :
    m.Get k = (default, false) := by
  unfold Map.Get
  rw [h]

theorem getKey_absent [Inhabited K] (m : Map K V) (v : V) (h : mapGet m.reverse v = none) :
    m.GetKey v = (default, false) := by
  unfold Map.GetKey
  rw [h]

theorem bimap_put_spec [Inhabited K] [Inhabited V] (m : Map K V) (inv : BiInv m) (key : K)
    (value : V) :
    (m.Put key value).Get key = (value, true) ∧
    (m.Put key value).GetKey value = (key, true) ∧
    (∀ v1, v1 ≠ value → m.Get key = (v1, true) →
      (m.Put key value).GetKey v1 = (default, false)) ∧
    (∀ k2, k2 ≠ key → m.GetKey value = (k2, true) →
      (m.Put key value).Get k2 = (default, false)) ∧
    (∀ k v, k ≠ key → v ≠ value →
      ((m.Put key value).Get k = (v, true) ↔ m.Get k = (v, true))) := by
  refine ⟨?_, ?_, ?_, ?_, ?_⟩
  · rw [get_eq_iff, (put_reads m inv key value key value).1, if_pos rfl]
  · rw [getKey_eq_iff, (put_reads m inv key value key value).2, if_pos rfl]
  · intro v1 hv h
    apply getKey_absent
    rw [(put_reads m inv key value key v1).2, if_neg hv,
      if_pos ((inv.paired key v1).1 ((get_eq_iff m key v1).1 h))]
  · intro k2 hk h
    apply get_absent
    rw [(put_reads m inv key value k2 value).1, if_neg hk,
      if_pos ((inv.paired k2 value).2 ((getKey_eq_iff m value k2).1 h))]
  · intro k v hk hv
    rw [get_eq_iff, get_eq_iff, (put_reads m inv key value k v).1, if_neg hk]
    by_cases hfv : mapGet m.forward k = some value
    · rw [if_pos hfv, hfv]
      constructor
      · intro e; cases e
      · intro e; exact absurd (Option.some.inj e).symm hv
    · rw [if_neg hfv]

/-- With keys and values compared by identity (the `==` of integers and strings): for every map
made from `New()` by calls of `Put`, `Delete`, `DeleteValue` and `Clear`, `Get(k)` returns
`(v, true)` exactly when `GetKey(v)` returns `(k, true)`, and the tables `forward` and
`reverse` have the same number of entries. A further `Put(key, value)` pairs `key` with `value`
in both directions, removes the value formerly paired with `key` from `reverse` and the key
formerly paired with `value` from `forward`, and leaves every pair with another key and
another value as it was. -/
theorem bidimap_bijection_identity [Inhabited K] [Inhabited V] (calls : List (Call K V)) :
    (∀ k v, ((New : Map K V).apply calls).Get k = (v, true) ↔
      ((New : Map K V).apply calls).GetKey v = (k, true)) ∧
    ((New : Map K V).apply calls).forward.length
      = ((New : Map K V).apply calls).reverse.length ∧
    ∀ key value,
      (((New : Map K V).apply calls).Put key value).Get key = (value, true) ∧
      (((New : Map K V).apply calls).Put key value).GetKey value = (key, true) ∧
      (∀ v1, v1 ≠ value → ((New : Map K V).apply calls).Get key = (v1, true) →
        (((New : Map K V).apply calls).Put key value).GetKey v1 = (default, false)) ∧
      (∀ k2, k2 ≠ key → ((New : Map K V).apply calls).GetKey value = (k2, true) →
        (((New : Map K V).apply calls).Put key value).Get k2 = (default, false)) ∧
      (∀ k v, k ≠ key → v ≠ value →
        ((((New : Map K V).apply calls).Put key value).Get k = (v, true) ↔
          ((New : Map K V).apply calls).Get k = (v, true))) := by
  have inv := biInv_apply calls (New : Map K V) biInv_new
  refine ⟨?_, bimap_length _ inv, fun key value => bimap_put_spec _ inv key value⟩
  intro k v
  rw [get_eq_iff, getKey_eq_iff]
  exact inv.paired k v

theorem mapGet_agree {A B : Type} [DecidableEq A] [Comparable A] [LawfulComparable A]
    (m : List (A × B)) (key : A)
    (h : Comparable.eq key key = true ∨ ∀ kv ∈ m, Comparable.eq kv.1 kv.1 = true) :
    comparable.mapGet m key = mapGet m key := by
  induction m with
  | nil => rfl
  | cons kv rest ih =>
    obtain ⟨k, v⟩ := kv
    have hk : Comparable.eq k key = decide (k = key) := by
      apply comparable_eq_decide
      rcases h with h | h
      · exact Or.inr h
      · exact Or.inl (h (k, v) (List.mem_cons_self _ _))
    have hrest : Comparable.eq key key = true ∨ ∀ kv ∈ rest, Comparable.eq kv.1 kv.1 = true := by
      rcases h with h | h
      · exact Or.inl h
      · exact Or.inr (fun kv hkv => h kv (List.mem_cons_of_mem _ hkv))
    simp only [comparable.mapGet, mapGet, hk, ih hrest, decide_eq_true_eq]

theorem mapSet_agree {A B : Type} [DecidableEq A] [Comparable A] [LawfulComparable A]
    (m : List (A × B)) (key : A) (value : B)
    (h : Comparable.eq key key = true ∨ ∀ kv ∈ m, Comparable.eq kv.1 kv.1 = true) :
    comparable.mapSet m key value = mapSet m key value := by
  induction m with
  | nil => rfl
  | cons kv rest ih =>
    obtain ⟨k, v⟩ := kv
    have hk : Comparable.eq k key = decide (k = key) := by
      apply comparable_eq_decide
      rcases h with h | h
      · exact Or.inr h
      · exact Or.inl (h (k, v) (List.mem_cons_self _ _))
    have hrest : Comparable.eq key key = true ∨ ∀ kv ∈ rest, Comparable.eq kv.1 kv.1 = true := by
      rcases h with h | h
      · exact Or.inl h
      · exact Or.inr (fun kv hkv => h kv (List.mem_cons_of_mem _ hkv))
    simp only [comparable.mapSet, mapSet, hk, ih hrest, decide_eq_true_eq]

theorem mapDelete_agree {A B : Type} [DecidableEq A] [Comparable A] [LawfulComparable A]
    (m : List (A × B)) (key : A)
    (h : Comparable.eq key key = true ∨ ∀ kv ∈ m, Comparable.eq kv.1 kv.1 = true) :
    comparable.mapDelete m key = mapDelete m key := by
  unfold comparable.mapDelete mapDelete
  apply List.filter_congr
  intro kv hkv
  have hk : Comparable.eq kv.1 key = decide (kv.1 = key) := by
    apply comparable_eq_decide
    rcases h with h | h
    · exact Or.inr h
    · exact Or.inl (h kv hkv)
  rw [hk]
  simp

theorem mem_mapSet {A B : Type} [DecidableEq A] (m : List (A × B)) (key : A) (value : B)
    (p : A × B) (h : p ∈ mapSet m key value) : p = (key, value) ∨ p ∈ m := by
  induction m with
  | nil => simp only [mapSet, List.mem_singleton] at h; exact Or.inl h
  | cons kv rest ih =>
    obtain ⟨k, v⟩ := kv
    simp only [mapSet] at h
    by_cases hk : k = key
    · rw [if_pos hk] at h
      rcases List.mem_cons.1 h with h1 | h1
      · left; rw [h1, hk]
      · exact Or.inr (List.mem_cons_of_mem _ h1)
    · rw [if_neg hk] at h
      rcases List.mem_cons.1 h with h1 | h1
      · right; rw [h1]; exact List.mem_cons_self _ _
      · rcases ih h1 with h2 | h2
        · exact Or.inl h2
        · exact Or.inr (List.mem_cons_of_mem _ h2)

theorem mem_mapDelete {A B : Type} [DecidableEq A] (m : List (A × B)) (key : A)
    (p : A × B) (h : p ∈ mapDelete m key) : p ∈ m :=
  (List.mem_filter.1 h).1

section
variable [Comparable K] [Comparable V] [LawfulComparable K] [LawfulComparable V]

theorem allReflexive_new : comparable.AllReflexive (New : Map K V) :=
  ⟨fun kv h => by simp [New] at h, fun kv h => by simp [New] at h⟩

theorem allReflexive_clear (m : Map K V) : comparable.AllReflexive m.Clear :=
  ⟨fun kv h => by simp [Map.Clear] at h, fun kv h => by simp [Map.Clear] at h⟩

theorem allReflexive_remove (m : Map K V) (hm : comparable.AllReflexive m) (key : K)
    (value : V) :
    comparable.AllReflexive
      { forward := mapDelete m.forward key, reverse := mapDelete m.reverse value } :=
  ⟨fun kv h => hm.1 kv (mem_mapDelete _ _ _ h), fun vk h => hm.2 vk (mem_mapDelete _ _ _ h)⟩

theorem allReflexive_put (m : Map K V) (hm : comparable.AllReflexive m) (key : K) (value : V)
    (hk : Comparable.eq key key = true) (hv : Comparable.eq value value = true) :
    comparable.AllReflexive (m.Put key value) := by
  unfold Map.Put
  constructor
  · intro kv h
    rcases mem_mapSet _ _ _ _ h with h1 | h1
    · rw [h1]; exact ⟨hk, hv⟩
    · apply hm.1
      revert h1
      split
      · exact mem_mapDelete _ _ _
      · exact id
  · intro vk h
    rcases mem_mapSet _ _ _ _ h with h1 | h1
    · rw [h1]; exact ⟨hv, hk⟩
    · apply hm.2
      revert h1
      split
      · exact mem_mapDelete _ _ _
      · exact id

theorem allReflexive_delete (m : Map K V) (hm : comparable.AllReflexive m) (key : K) :
    comparable.AllReflexive (m.Delete key) := by
  unfold Map.Delete
  split
  · exact allReflexive_remove m hm _ _
  · exact hm

theorem allReflexive_deleteValue (m : Map K V) (hm : comparable.AllReflexive m) (value : V) :
    comparable.AllReflexive (m.DeleteValue value) := by
  unfold Map.DeleteValue
  split
  · exact allReflexive_remove m hm _ _
  · exact hm

theorem put_agree (m : Map K V) (hm : comparable.AllReflexive m) (key : K) (value : V) :
    comparable.Put m key value = m.Put key value := by
  have hf : ∀ kv ∈ m.forward, Comparable.eq kv.1 kv.1 = true := fun kv h => (hm.1 kv h).1
  have hr : ∀ vk ∈ m.reverse, Comparable.eq vk.1 vk.1 = true := fun vk h => (hm.2 vk h).1
  have hfd : ∀ x, ∀ kv ∈ mapDelete m.forward x, Comparable.eq kv.1 kv.1 = true :=
    fun x kv h => hf kv (mem_mapDelete _ _ _ h)
  have hrd : ∀ x, ∀ vk ∈ mapDelete m.reverse x, Comparable.eq vk.1 vk.1 = true :=
    fun x vk h => hr vk (mem_mapDelete _ _ _ h)
  unfold comparable.Put Map.Put
  rw [mapGet_agree m.forward key (Or.inr hf)]
  cases mapGet m.forward key with
  | none =>
    simp only
    rw [mapGet_agree m.reverse value (Or.inr hr)]
    cases mapGet m.reverse value with
    | none =>
      simp only
      rw [mapSet_agree _ key value (Or.inr hf), mapSet_agree _ value key (Or.inr hr)]
    | some ek =>
      simp only
      rw [mapDelete_agree m.forward ek (Or.inr hf),
        mapSet_agree _ key value (Or.inr (hfd ek)), mapSet_agree _ value key (Or.inr hr)]
  | some ev =>
    simp only
    rw [mapDelete_agree m.reverse ev (Or.inr hr),
      mapGet_agree _ value (Or.inr (hrd ev))]
    cases mapGet (mapDelete m.reverse ev) value with
    | none =>
      simp only
      rw [mapSet_agree _ key value (Or.inr hf), mapSet_agree _ value key (Or.inr (hrd ev))]
    | some ek =>
      simp only
      rw [mapDelete_agree m.forward ek (Or.inr hf),
        mapSet_agree _ key value (Or.inr (hfd ek)),
        mapSet_agree _ value key (Or.inr (hrd ev))]

theorem delete_agree (m : Map K V) (hm : comparable.AllReflexive m) (key : K) :
    comparable.Delete m key = m.Delete key := by
  have hf : ∀ kv ∈ m.forward, Comparable.eq kv.1 kv.1 = true := fun kv h => (hm.1 kv h).1
  have hr : ∀ vk ∈ m.reverse, Comparable.eq vk.1 vk.1 = true := fun vk h => (hm.2 vk h).1
  unfold comparable.Delete Map.Delete
  rw [mapGet_agree m.forward key (Or.inr hf)]
  cases mapGet m.forward key with
  | none => rfl
  | some value =>
    simp only
    rw [mapDelete_agree m.forward key (Or.inr hf), mapDelete_agree m.reverse value (Or.inr hr)]

theorem deleteValue_agree (m : Map K V) (hm : comparable.AllReflexive m) (value : V) :
    comparable.DeleteValue m value = m.DeleteValue value := by
  have hf : ∀ kv ∈ m.forward, Comparable.eq kv.1 kv.1 = true := fun kv h => (hm.1 kv h).1
  have hr : ∀ vk ∈ m.reverse, Comparable.eq vk.1 vk.1 = true := fun vk h => (hm.2 vk h).1
  unfold comparable.DeleteValue Map.DeleteValue
  rw [mapGet_agree m.reverse value (Or.inr hr)]
  cases mapGet m.reverse value with
  | none => rfl
  | some key =>
    simp only
    rw [mapDelete_agree m.forward key (Or.inr hf), mapDelete_agree m.reverse value (Or.inr hr)]

theorem apply_agree : ∀ (calls : List (Call K V)) (m : Map K V), comparable.AllReflexive m →
    (∀ c ∈ calls, comparable.Reflexive c) →
    comparable.apply m calls = m.apply calls ∧ comparable.AllReflexive (m.apply calls) := by
  intro calls
  induction calls with
  | nil => intro m hm _; exact ⟨rfl, hm⟩
  | cons call rest ih =>
    intro m hm hc
    have hcall := hc call (List.mem_cons_self _ _)
    have hrest : ∀ c ∈ rest, comparable.Reflexive c :=
      fun c h => hc c (List.mem_cons_of_mem _ h)
    cases call with
    | put key value =>
      simp only [comparable.apply, Map.apply]
      rw [put_agree m hm key value]
      exact ih _ (allReflexive_put m hm key value hcall.1 hcall.2) hrest
    | delete key =>
      simp only [comparable.apply, Map.apply]
      rw [delete_agree m hm key]
      exact ih _ (allReflexive_delete m hm key) hrest
    | deleteValue value =>
      simp only [comparable.apply, Map.apply]
      rw [deleteValue_agree m hm value]
      exact ih _ (allReflexive_deleteValue m hm value) hrest
    | clear =>
      simp only [comparable.apply, Map.apply]
      exact ih _ (allReflexive_clear m) hrest

theorem get_agree [Inhabited V] (m : Map K V) (hm : comparable.AllReflexive m) (key : K) :
    comparable.Get m key = m.Get key := by
  unfold comparable.Get Map.Get
  rw [mapGet_agree m.forward key (Or.inr (fun kv h => (hm.1 kv h).1))]

theorem getKey_agree [Inhabited K] (m : Map K V) (hm : comparable.AllReflexive m) (value : V) :
    comparable.GetKey m value = m.GetKey value := by
  unfold comparable.GetKey Map.GetKey
  rw [mapGet_agree m.reverse value (Or.inr (fun vk h => (hm.2 vk h).1))]

end

/-- C31 as stated fails: in a map from `string` to `float64`, after `Put(A, NaN)` twice
`Get(A)` returns `(NaN, true)` but `GetKey(NaN)` returns `ok = false`, and `forward` has one
entry while `reverse` has two. -/
theorem bidimap_bijection_counterexample :
    comparable.Get (comparable.apply (New : Map String float64)
      [Call.put "A" float64.NaN, Call.put "A" float64.NaN]) "A" = (float64.NaN, true) ∧
    comparable.GetKey (comparable.apply (New : Map String float64)
      [Call.put "A" float64.NaN, Call.put "A" float64.NaN]) float64.NaN = ("", false) ∧
    (comparable.apply (New : Map String float64)
      [Call.put "A" float64.NaN, Call.put "A" float64.NaN]).forward.length = 1 ∧
    (comparable.apply (New : Map String float64)
      [Call.put "A" float64.NaN, Call.put "A" float64.NaN]).reverse.length = 2 := by
  decide

/-- C31, amended (the bidirectional map stays a bijection): for key and value types with any
`==`, for every map made from `New()` by calls of `Put`, `Delete`, `DeleteValue` and `Clear`
in which every `Put` is of a key and a value equal to themselves (no floating-point NaN is
stored), `Get(k)` returns `(v, true)` exactly when `GetKey(v)` returns `(k, true)`, and the
tables `forward` and `reverse` have the same number of entries. A further `Put(key, value)`, of a key and a value equal to
themselves, pairs `key` with `value` in both directions, removes the value formerly paired with
`key` from `reverse` and the key formerly paired with `value` from `forward`, and leaves every
pair with another key and another value as it was. -/
theorem bidimap_bijection [Comparable K] [Comparable V] [LawfulComparable K]
    [LawfulComparable V] [Inhabited K] [Inhabited V] (calls : List (Call K V))
    (hcalls : ∀ c ∈ calls, comparable.Reflexive c) :
    (∀ k v, comparable.Get (comparable.apply (New : Map K V) calls) k = (v, true) ↔
      comparable.GetKey (comparable.apply (New : Map K V) calls) v = (k, true)) ∧
    (comparable.apply (New : Map K V) calls).forward.length
      = (comparable.apply (New : Map K V) calls).reverse.length ∧
    ∀ key value, Comparable.eq key key = true → Comparable.eq value value = true →
      comparable.Get (comparable.Put (comparable.apply (New : Map K V) calls) key value) key
        = (value, true) ∧
      comparable.GetKey (comparable.Put (comparable.apply (New : Map K V) calls) key value)
        value = (key, true) ∧
      (∀ v1, v1 ≠ value → comparable.Get (comparable.apply (New : Map K V) calls) key
          = (v1, true) →
        comparable.GetKey (comparable.Put (comparable.apply (New : Map K V) calls) key value)
          v1 = (default, false)) ∧
      (∀ k2, k2 ≠ key → comparable.GetKey (comparable.apply (New : Map K V) calls) value
          = (k2, true) →
        comparable.Get (comparable.Put (comparable.apply (New : Map K V) calls) key value) k2
          = (default, false)) ∧
      (∀ k v, k ≠ key → v ≠ value →
        (comparable.Get (comparable.Put (comparable.apply (New : Map K V) calls) key value) k
            = (v, true) ↔
          comparable.Get (comparable.apply (New : Map K V) calls) k = (v, true))) := by
  obtain ⟨hagree, hm⟩ := apply_agree calls (New : Map K V) allReflexive_new hcalls
  rw [hagree]
  obtain ⟨h1, h2, h3⟩ := bidimap_bijection_identity calls
  refine ⟨?_, h2, ?_⟩
  · intro k v
    rw [get_agree _ hm, getKey_agree _ hm]
    exact h1 k v
  · intro key value hk hv
    have hm1 := allReflexive_put _ hm key value hk hv
    rw [put_agree _ hm key value]
    obtain ⟨p1, p2, p3, p4, p5⟩ := h3 key value
    refine ⟨?_, ?_, ?_, ?_, ?_⟩
    · rw [get_agree _ hm1]; exact p1
    · rw [getKey_agree _ hm1]; exact p2
    · intro v1 hne hg
      rw [get_agree _ hm] at hg
      rw [getKey_agree _ hm1]
      exact p3 v1 hne hg
    · intro k2 hne hg
      rw [getKey_agree _ hm] at hg
      rw [get_agree _ hm1]
      exact p4 k2 hne hg
    · intro k v hk2 hv2
      rw [get_agree _ hm1, get_agree _ hm]
      exact p5 k v hk2 hv2

/-- C31 on the test: `Put(A, 1)`, `Put(B, 2)`, `Put(A, 2)` leaves the single pair of A and 2
in each table. The same holds of a map from `string` to `float64` when the values put are
numbers, also with a call `DeleteValue(NaN)`, which deletes nothing. -/
theorem bidimap_bijection_witness :
    (comparable.apply (New : Map String Int)
      [Call.put "A" 1, Call.put "B" 2, Call.put "A" 2]).forward = [("A", 2)] ∧
    (comparable.apply (New : Map String Int)
      [Call.put "A" 1, Call.put "B" 2, Call.put "A" 2]).reverse = [(2, "A")] ∧
    (comparable.apply (New : Map String Int)
      [Call.put "A" 1, Call.put "B" 2, Call.put "A" 2]).Len = 1 ∧
    comparable.Get (comparable.apply (New : Map String Int)
      [Call.put "A" 1, Call.put "B" 2, Call.put "A" 2]) "B" = (0, false) ∧
    comparable.GetKey (comparable.apply (New : Map String Int)
      [Call.put "A" 1, Call.put "B" 2, Call.put "A" 2]) 1 = ("", false) ∧
    (comparable.apply (New : Map String Int)
        [Call.put "A" 1, Call.put "B" 2, Call.put "A" 2]).forward.length
      = (comparable.apply (New : Map String Int)
        [Call.put "A" 1, Call.put "B" 2, Call.put "A" 2]).reverse.length ∧
    (comparable.apply (New : Map String float64)
      [Call.put "A" (float64.num 1), Call.put "B" (float64.num 2),
        Call.deleteValue float64.NaN, Call.put "A" (float64.num 2)]).reverse
      = [(float64.num 2, "A")] ∧
    (comparable.apply (New : Map String float64)
        [Call.put "A" (float64.num 1), Call.put "B" (float64.num 2),
          Call.deleteValue float64.NaN, Call.put "A" (float64.num 2)]).forward.length
      = (comparable.apply (New : Map String float64)
        [Call.put "A" (float64.num 1), Call.put "B" (float64.num 2),
          Call.deleteValue float64.NaN, Call.put "A" (float64.num 2)]).reverse.length :=
  ⟨by decide, by decide, by decide, by decide, by decide,
    (bidimap_bijection [Call.put "A" (1 : Int), Call.put "B" 2, Call.put "A" 2]
      (by decide)).2.1,
    by decide,
    (bidimap_bijection [Call.put "A" (float64.num 1), Call.put "B" (float64.num 2),
      Call.deleteValue float64.NaN, Call.put "A" (float64.num 2)] (by decide)).2.1⟩

end bidimap

end Godst
